import Mathlib

/-!
# The file output stream (`src/lib/ostream-file.c`)

A shallow embedding of the ring-buffered, non-blocking output stream and of the
environment it talks to.

* A byte is a natural number; an `iovec` entry is identified with the bytes it
  points to, so `iov_len` is the length of the list.
* `size_t`/`uoff_t` quantities count bytes that exist in memory or in a file and
  are natural numbers; return values of type `ssize_t`/`int`/`off_t` are integers.
* The kernel is an oracle: it answers every system call from the history of the
  calls made so far.  Every call is recorded, in order, in the log of the world.
* `i_assert` aborts the process: a function that can reach one returns `none`
  when the assertion fails.
-/

namespace OStream

/-! ## Environment -/

abbrev Byte := Nat

/-- One `struct const_iovec`: the `iov_len` bytes found at `iov_base`. -/
abbrev const_iovec := List Byte

/-- Total `iov_len` of a vector. -/
def iov_total (iov : List const_iovec) : Nat := (iov.map List.length).sum

def EINTR : Nat := 4
def EAGAIN : Nat := 11
def EINVAL : Nat := 22

/-- The system calls the stream issues (through libc or through the thin
wrappers `net_set_cork`, `safe_sendfile` and `write_full`). -/
inductive Syscall where
  | write (fd : Int) (data : List Byte)
  | writev (fd : Int) (iov : List const_iovec)
  | close (fd : Int)
  | set_cork (fd : Int) (set : Bool)
  | lseek (fd : Int) (offset : Nat)
  | sendfile (out_fd in_fd : Int) (offset count : Nat)
  | write_full (fd : Int) (data : List Byte)
  deriving DecidableEq, Repr

/-- What the kernel answers: for a transfer, the number of bytes it is ready to
take right now; for `lseek`, the resulting position; or a failure with `errno`. -/
inductive SysResult where
  | ok (n : Nat)
  | error (errno : Nat)
  deriving DecidableEq, Repr

/-- A completed system call: the call, its return value and `errno` (meaningful
when the return value is negative). -/
structure Event where
  call : Syscall
  ret : Int
  errno : Nat
  deriving DecidableEq, Repr

/-- The world outside the stream: the kernel oracle, the platform limit
`IOV_MAX` (at least `_XOPEN_IOV_MAX = 16`) and the log of completed calls. -/
structure World where
  kernel : List Event → Syscall → SysResult
  IOV_MAX : Nat
  IOV_MAX_ge : 16 ≤ IOV_MAX
  log : List Event

def World.record (w : World) (c : Syscall) (ret : Int) (errno : Nat) : World :=
  { w with log := w.log ++ [⟨c, ret, errno⟩] }

/-- A transfer of `len` bytes answered by `r`: return value and `errno`.  The
kernel never takes more than it was offered. -/
def transfer_ret (r : SysResult) (len : Nat) : Int × Nat :=
  match r with
  | .ok n => ((min n len : Nat), 0)
  | .error e => (-1, e)

/-- Perform a system call whose payload is `len` bytes long. -/
def World.transfer (w : World) (c : Syscall) (len : Nat) : Int × Nat × World :=
  let r := transfer_ret (w.kernel w.log c) len
  (r.1, r.2, w.record c r.1 r.2)

def write (w : World) (fd : Int) (data : List Byte) : Int × Nat × World :=
  w.transfer (.write fd data) data.length

def writev (w : World) (fd : Int) (iov : List const_iovec) : Int × Nat × World :=
  w.transfer (.writev fd iov) (iov_total iov)

def close (w : World) (fd : Int) : Int × Nat × World :=
  w.transfer (.close fd) 0

/-- `net_set_cork`: sets or clears `TCP_CORK`; negative on failure. -/
def net_set_cork (w : World) (fd : Int) (set : Bool) : Int × Nat × World :=
  w.transfer (.set_cork fd set) 0

/-- Bytes of one completed call that went to descriptor `fd` through `write`
or `writev`. -/
def Event.sent (fd : Int) (e : Event) : List Byte :=
  match e.call with
  | .write fd' data => if fd' = fd then data.take e.ret.toNat else []
  | .writev fd' iov => if fd' = fd then iov.flatten.take e.ret.toNat else []
  | _ => []

/-- Everything the kernel has accepted for `fd` through `write`/`writev`, in
order. -/
def World.sent (w : World) (fd : Int) : List Byte :=
  (w.log.map (Event.sent fd)).flatten

/-- Is the call a `write` or a `writev`? -/
def Syscall.is_write : Syscall → Bool
  | .write _ _ => true
  | .writev _ _ => true
  | _ => false

/-- The `write`/`writev` calls of a log. -/
def writes (log : List Event) : List Event := log.filter (fun e => e.call.is_write)

/-- Modelled from the spec: the memory pool is an opaque allocator; the only
thing the stream asks of it besides (re)allocation is the geometric growth hint
`pool_get_exp_grown_size(pool, old_size, min_size)`, which is never below the
size asked for. -/
structure pool_t where
  exp_grown_size : Nat → Nat → Nat
  exp_grown_ge : ∀ old_size min_size, min_size ≤ exp_grown_size old_size min_size

/-- Modelled from the spec: `p_realloc` keeps the old contents and hands out
`new_size` bytes; the fresh tail is zero-filled. -/
def p_realloc (mem : List Byte) (old_size new_size : Nat) : List Byte :=
  mem.take old_size ++ List.replicate (new_size - old_size) 0

/-- The libc `memcpy(buf + dst, src, n)` on a buffer held as a list. -/
def memcpy (buf : List Byte) (dst : Nat) (src : List Byte) (n : Nat) : List Byte :=
  buf.take dst ++ src.take n ++ buf.drop (dst + n)

/-- The libc `memmove(buf + dst, buf + src, n)`. -/
def memmove (buf : List Byte) (dst src n : Nat) : List Byte :=
  memcpy buf dst (buf.drop src) n

/-! ## The stream -/

/-- The `struct file_ostream`, with the public `struct ostream` fields
(`offset`, `stream_errno`, `overflow`, `closed`) and the pool inlined.  `io` is
`true` when the `struct io *` handle is not `NULL`.  The flush callback is a
function pointer into user code and is passed to the dispatch instead. -/
structure file_ostream where
  offset : Nat
  stream_errno : Nat
  overflow : Bool
  closed : Bool
  pool : pool_t
  fd : Int
  io : Bool
  buffer : List Byte
  buffer_size : Nat
  max_buffer_size : Nat
  optimal_block_size : Nat
  head : Nat
  tail : Nat
  full : Bool
  file : Bool
  corked : Bool
  flush_pending : Bool
  no_socket_cork : Bool
  no_sendfile : Bool
  autoclose_fd : Bool

def DEFAULT_OPTIMAL_BLOCK_SIZE : Nat := 4096
def MAX_OPTIMAL_BLOCK_SIZE : Nat := 128 * 1024

def IS_STREAM_EMPTY (fstream : file_ostream) : Prop :=
  fstream.head = fstream.tail ∧ fstream.full = false

instance (fstream : file_ostream) : Decidable (IS_STREAM_EMPTY fstream) :=
  inferInstanceAs (Decidable (_ ∧ _))

def stream_closed (fstream : file_ostream) (w : World) : file_ostream × World :=
  let r : file_ostream × World :=
    if fstream.autoclose_fd = true ∧ fstream.fd ≠ -1 then
      ({ fstream with fd := -1 }, (close w fstream.fd).2.2)
    else (fstream, w)
  ({ r.1 with io := false, closed := true }, r.2)

def _set_max_buffer_size (fstream : file_ostream) (max_size : Nat) : file_ostream :=
  { fstream with max_buffer_size := max_size }

def update_buffer (fstream : file_ostream) (size : Nat) : Option file_ostream :=
  if IS_STREAM_EMPTY fstream ∨ size = 0 then some fstream
  else
    let moved : Option file_ostream :=
      if fstream.head < fstream.tail then
        if size ≤ fstream.tail - fstream.head then
          some { fstream with head := fstream.head + size }
        else none
      else
        let used := fstream.buffer_size - fstream.head
        if size > used then
          if size - used ≤ fstream.tail then
            some { fstream with head := size - used, full := false }
          else none
        else some { fstream with head := fstream.head + size, full := false }
    moved.map fun fstream =>
      let fstream :=
        if fstream.head = fstream.tail then { fstream with head := 0, tail := 0 }
        else fstream
      if fstream.head = fstream.buffer_size then { fstream with head := 0 } else fstream

/-- The chunked part of `o_stream_writev`: the `while (iov_size > IOV_MAX)` loop
followed by the final `writev`.  Returns `ret`, `errno` and `sent`.  The loop
drops `IOV_MAX > 0` entries per round, so `fuel = iov_size` rounds are enough. -/
def o_stream_writev_chunks (fd : Int) :
    Nat → List const_iovec → Nat → World → (Int × Nat × Nat) × World
  | 0, iov, sent, w =>
    let r := writev w fd iov
    ((r.1, r.2.1, sent), r.2.2)
  | fuel + 1, iov, sent, w =>
    if iov.length > w.IOV_MAX then
      let size := iov_total (iov.take w.IOV_MAX)
      let r := writev w fd (iov.take w.IOV_MAX)
      if r.1 ≠ (size : Int) then ((r.1, r.2.1, sent), r.2.2)
      else o_stream_writev_chunks fd fuel (iov.drop w.IOV_MAX) (sent + size) r.2.2
    else
      let r := writev w fd iov
      ((r.1, r.2.1, sent), r.2.2)

/-- The system-call part of `o_stream_writev`: the value of `ret` and of `errno`
when the function reaches its `if (ret < 0)`, and the world then. -/
def o_stream_writev_ret (fd : Int) (iov : List const_iovec) (w : World) : (Int × Nat) × World :=
  match iov with
  | [e] =>
    let r := write w fd e
    ((r.1, r.2.1), r.2.2)
  | _ =>
    let r := o_stream_writev_chunks fd iov.length iov 0 w
    ((if r.1.1 > 0 then r.1.1 + (r.1.2.2 : Int) else r.1.1, r.1.2.1), r.2)

def o_stream_writev (fstream : file_ostream) (iov : List const_iovec) (w : World) :
    Int × file_ostream × World :=
  let r := o_stream_writev_ret fstream.fd iov w
  if r.1.1 < 0 then
    if r.1.2 = EAGAIN ∨ r.1.2 = EINTR then (0, fstream, r.2)
    else
      let c := stream_closed { fstream with stream_errno := r.1.2 } r.2
      (-1, c.1, c.2)
  else (r.1.1, fstream, r.2)

/-- The slice `buf[off, off + len)`. -/
def slice (buf : List Byte) (off len : Nat) : List Byte := (buf.drop off).take len

/-- Returns the entries filled in (the C function returns their number). -/
def o_stream_fill_iovec (fstream : file_ostream) : List const_iovec :=
  if IS_STREAM_EMPTY fstream then []
  else if fstream.head < fstream.tail then
    [slice fstream.buffer fstream.head (fstream.tail - fstream.head)]
  else if fstream.tail = 0 then
    [slice fstream.buffer fstream.head (fstream.buffer_size - fstream.head)]
  else
    [slice fstream.buffer fstream.head (fstream.buffer_size - fstream.head),
     slice fstream.buffer 0 fstream.tail]

def buffer_flush (fstream : file_ostream) (w : World) : Option (Int × file_ostream × World) :=
  let iov := o_stream_fill_iovec fstream
  if iov.length > 0 then
    let r := o_stream_writev fstream iov w
    if r.1 < 0 then some (-1, r.2.1, r.2.2)
    else
      (update_buffer r.2.1 r.1.toNat).map fun fstream =>
        (if IS_STREAM_EMPTY fstream then 1 else 0, fstream, r.2.2)
  else some (if IS_STREAM_EMPTY fstream then 1 else 0, fstream, w)

def _cork (fstream : file_ostream) (set : Bool) (w : World) : Option (file_ostream × World) :=
  if fstream.corked ≠ set ∧ fstream.closed = false then
    let flushed : Option (file_ostream × World) :=
      if set = true ∧ fstream.io = true then some ({ fstream with io := false }, w)
      else if set = false then
        (buffer_flush fstream w).map fun r =>
          if r.2.1.io = false ∧ (r.1 = 0 ∨ r.2.1.flush_pending = true) then
            ({ r.2.1 with io := true }, r.2.2)
          else (r.2.1, r.2.2)
      else some (fstream, w)
    flushed.map fun r =>
      let r : file_ostream × World :=
        if r.1.no_socket_cork = false then
          let c := net_set_cork r.2 r.1.fd set
          if c.1 < 0 then ({ r.1 with no_socket_cork := true }, c.2.2) else (r.1, c.2.2)
        else r
      ({ r.1 with corked := set }, r.2)
  else some (fstream, w)

def _flush (fstream : file_ostream) (w : World) : Option (Int × file_ostream × World) :=
  buffer_flush fstream w

def _flush_pending (fstream : file_ostream) (set : Bool) : file_ostream :=
  let fstream := { fstream with flush_pending := set }
  if set = true ∧ fstream.corked = false ∧ fstream.io = false then { fstream with io := true }
  else fstream

def get_unused_space (fstream : file_ostream) : Nat :=
  if fstream.head > fstream.tail then fstream.head - fstream.tail
  else if fstream.head < fstream.tail then
    (fstream.buffer_size - fstream.tail) + fstream.head
  else if fstream.full then 0 else fstream.buffer_size

def _get_used_size (fstream : file_ostream) : Nat :=
  fstream.buffer_size - get_unused_space fstream

def lseek (w : World) (fd : Int) (offset : Nat) : Int × Nat × World :=
  match w.kernel w.log (.lseek fd offset) with
  | .ok n => ((n : Int), 0, w.record (.lseek fd offset) n 0)
  | .error e => (-1, e, w.record (.lseek fd offset) (-1) e)

def OFF_T_MAX : Nat := 2 ^ 63 - 1

def _seek (fstream : file_ostream) (offset : Nat) (w : World) :
    Option (Int × file_ostream × World) :=
  if offset > OFF_T_MAX then some (-1, { fstream with stream_errno := EINVAL }, w)
  else
    (buffer_flush fstream w).map fun r =>
      if r.1 < 0 then (-1, r.2.1, r.2.2)
      else
        let l := lseek r.2.2 r.2.1.fd offset
        if l.1 < 0 then (-1, { r.2.1 with stream_errno := l.2.1 }, l.2.2)
        else if l.1 ≠ (offset : Int) then (-1, { r.2.1 with stream_errno := EINVAL }, l.2.2)
        else (1, { r.2.1 with stream_errno := 0, offset := offset }, l.2.2)

def o_stream_grow_buffer (fstream : file_ostream) (bytes : Nat) : file_ostream :=
  let size := fstream.pool.exp_grown_size fstream.buffer_size (fstream.buffer_size + bytes)
  let size :=
    if size > fstream.max_buffer_size then fstream.max_buffer_size
    else if fstream.corked = true then
      let new_size := min fstream.optimal_block_size fstream.max_buffer_size
      if new_size > size then new_size else size
    else size
  if size ≤ fstream.buffer_size then fstream
  else
    let fstream := { fstream with buffer := p_realloc fstream.buffer fstream.buffer_size size }
    let fstream :=
      if fstream.tail ≤ fstream.head ∧ ¬ IS_STREAM_EMPTY fstream then
        let end_size := fstream.buffer_size - fstream.head
        { fstream with
          buffer := memmove fstream.buffer (size - end_size) fstream.head end_size
          head := size - end_size }
      else fstream
    { fstream with full := false, buffer_size := size }

/-- The copy loop of `o_stream_add`, `for (i = 0; i < 2 && sent < size && !full; i++)`;
the first argument is the number of rounds still allowed. -/
def o_stream_add_copy (data : List Byte) : Nat → file_ostream → Nat → file_ostream × Nat
  | 0, fstream, sent => (fstream, sent)
  | n + 1, fstream, sent =>
    if sent < data.length ∧ fstream.full = false then
      let unused :=
        if fstream.tail ≥ fstream.head then fstream.buffer_size - fstream.tail
        else fstream.head - fstream.tail
      let unused := if unused > data.length - sent then data.length - sent else unused
      let tail := fstream.tail + unused
      let tail := if tail = fstream.buffer_size then 0 else tail
      o_stream_add_copy data n
        { fstream with
          buffer := memcpy fstream.buffer fstream.tail (data.drop sent) unused
          tail := tail
          full := if fstream.head = tail then true else fstream.full }
        (sent + unused)
    else (fstream, sent)

/-- `o_stream_add(fstream, data, size)` with `size` the length of `data`. -/
def o_stream_add (fstream : file_ostream) (data : List Byte) : Nat × file_ostream :=
  let unused := get_unused_space fstream
  let fstream :=
    if unused < data.length then o_stream_grow_buffer fstream (data.length - unused)
    else fstream
  let r := o_stream_add_copy data 2 fstream 0
  let fstream :=
    if r.2 ≠ 0 ∧ r.1.io = false ∧ r.1.corked = false ∧ r.1.file = false then
      { r.1 with io := true }
    else r.1
  (r.2, fstream)

/-- The loop `while (size > 0 && size >= iov[0].iov_len)` of `_sendv`, which steps
over the entries the direct write has sent in full.  The C loop does not look at
`iov_count`; it stops here when the vector is used up. -/
def sendv_skip : Nat → List const_iovec → Nat × List const_iovec
  | size, [] => (size, [])
  | size, e :: iov =>
    if size > 0 ∧ size ≥ e.length then sendv_skip (size - e.length) iov else (size, e :: iov)

/-- The final loop of `_sendv`: buffer the entries until one does not fit. -/
def sendv_buffer : List const_iovec → file_ostream → Int → Int × file_ostream
  | [], fstream, ret => (ret, fstream)
  | e :: iov, fstream, ret =>
    let a := o_stream_add fstream e
    if a.1 ≠ e.length then (ret + (a.1 : Int), a.2)
    else sendv_buffer iov a.2 (ret + (a.1 : Int))

/-- The function `_sendv` after its optional flush. -/
def sendv_send (fstream : file_ostream) (iov : List const_iovec) (w : World) :
    Int × file_ostream × World :=
  let size := iov_total iov
  let optimal_size := min fstream.optimal_block_size fstream.max_buffer_size
  if IS_STREAM_EMPTY fstream ∧ (fstream.corked = false ∨ size ≥ optimal_size) then
    let r := o_stream_writev fstream iov w
    if r.1 < 0 then (-1, r.2.1, r.2.2)
    else
      match sendv_skip r.1.toNat iov with
      | (_, []) => (r.1, { r.2.1 with offset := r.2.1.offset + r.1.toNat }, r.2.2)
      | (size, e :: rest) =>
        let a := o_stream_add r.2.1 (e.drop size)
        let ret := r.1 + (a.1 : Int)
        if a.1 ≠ e.length - size then
          (ret, { a.2 with offset := a.2.offset + ret.toNat }, r.2.2)
        else
          let b := sendv_buffer rest a.2 ret
          (b.1, { b.2 with offset := b.2.offset + b.1.toNat }, r.2.2)
  else
    let b := sendv_buffer iov fstream 0
    (b.1, { b.2 with offset := b.2.offset + b.1.toNat }, w)

def _sendv (fstream : file_ostream) (iov : List const_iovec) (w : World) :
    Option (Int × file_ostream × World) :=
  let fstream := { fstream with stream_errno := 0 }
  if iov_total iov > get_unused_space fstream ∧ ¬ IS_STREAM_EMPTY fstream then
    (_flush fstream w).map fun r =>
      if r.1 < 0 then (-1, r.2.1, r.2.2) else sendv_send r.2.1 iov r.2.2
  else some (sendv_send fstream iov w)

/-- The flush callback installed with `o_stream_set_flush_callback`: user code
that may do anything to the stream and to the world, and returns an `int`. -/
abbrev stream_flush_callback_t := file_ostream → World → Option (Int × file_ostream × World)

/-- The write-readiness dispatch.  `callback = none` is `callback == NULL`.  The
reference taken around the callback only keeps the stream alive and is not
modelled. -/
def stream_send_io (callback : Option stream_flush_callback_t) (fstream : file_ostream)
    (w : World) : Option (file_ostream × World) :=
  let fstream := { fstream with flush_pending := false }
  let called :=
    match callback with
    | some cb => cb fstream w
    | none => _flush fstream w
  called.map fun r =>
    let fstream := if r.1 = 0 then { r.2.1 with flush_pending := true } else r.2.1
    if fstream.flush_pending = false ∧ IS_STREAM_EMPTY fstream then
      ({ fstream with io := false }, r.2.2)
    else ({ fstream with io := true }, r.2.2)

/-! ## Specification-level views of the ring buffer -/

/-- The buffered bytes in the order a flush hands them to the kernel. -/
def ring_data (fstream : file_ostream) : List Byte := (o_stream_fill_iovec fstream).flatten

/-- The used region of a ring given by its memory, size, `head`, `tail` and
`full`, read from `head` to `tail`. -/
def ring_bytes (buf : List Byte) (bs h t : Nat) (f : Bool) : List Byte :=
  if h = t ∧ f = false then []
  else if h < t then slice buf h (t - h)
  else slice buf h (bs - h) ++ slice buf 0 t

/-- Well-formedness of a ring on bare numbers: the memory has `bs` bytes, `h`
and `t` are in range (both 0 when `bs = 0`), `f` is only set when they meet, and
an empty ring sits at offset 0. -/
def ring_inv (len bs h t : Nat) (f : Bool) : Prop :=
  len = bs ∧ (h < bs ∨ bs = 0 ∧ h = 0) ∧ (t < bs ∨ bs = 0 ∧ t = 0) ∧ (f = true → h = t) ∧
    (h = t → f = false → h = 0)

instance (len bs h t : Nat) (f : Bool) : Decidable (ring_inv len bs h t f) :=
  inferInstanceAs (Decidable (_ ∧ _))

/-- Well-formed ring of a stream; every state reached from a fresh stream
satisfies it. -/
def ring_ok (fstream : file_ostream) : Prop :=
  ring_inv fstream.buffer.length fstream.buffer_size fstream.head fstream.tail fstream.full

instance (fstream : file_ostream) : Decidable (ring_ok fstream) :=
  inferInstanceAs (Decidable (ring_inv _ _ _ _ _))

/-- The arithmetic of `update_buffer` on the bare ring: new `head`, `tail`, `full`. -/
def advance (bs h t : Nat) (f : Bool) (n : Nat) : Option (Nat × Nat × Bool) :=
  if (h = t ∧ f = false) ∨ n = 0 then some (h, t, f)
  else
    let moved : Option (Nat × Bool) :=
      if h < t then (if n ≤ t - h then some (h + n, f) else none)
      else if n > bs - h then (if n - (bs - h) ≤ t then some (n - (bs - h), false) else none)
      else some (h + n, false)
    moved.map fun m =>
      let ht : Nat × Nat := if m.1 = t then (0, 0) else (m.1, t)
      (if ht.1 = bs then 0 else ht.1, ht.2, m.2)

/-- One round of the copy loop of `o_stream_add` on the bare ring: the new
memory, the new `tail`, the new `full` and the number of bytes copied. -/
def put (buf : List Byte) (bs h t : Nat) (data : List Byte) (sent : Nat) :
    List Byte × Nat × Bool × Nat :=
  let c := min (data.length - sent) (if t ≥ h then bs - t else h - t)
  let t' := if t + c = bs then 0 else t + c
  (memcpy buf t (data.drop sent) c, t', decide (h = t'), c)

/-- The reallocation step of `o_stream_grow_buffer` on the bare ring, for a new
size `size`: the new memory and the new `head`. -/
def regrow (buf : List Byte) (bs h t : Nat) (f : Bool) (size : Nat) : List Byte × Nat :=
  let buf1 := p_realloc buf bs size
  if t ≤ h ∧ ¬ (h = t ∧ f = false) then
    (memmove buf1 (size - (bs - h)) h (bs - h), size - (bs - h))
  else (buf1, h)

/-- The size `o_stream_grow_buffer` settles on before it compares it with the
current `buffer_size`. -/
def grow_size (fstream : file_ostream) (bytes : Nat) : Nat :=
  let size := fstream.pool.exp_grown_size fstream.buffer_size (fstream.buffer_size + bytes)
  if size > fstream.max_buffer_size then fstream.max_buffer_size
  else if fstream.corked = true then
    let new_size := min fstream.optimal_block_size fstream.max_buffer_size
    if new_size > size then new_size else size
  else size

/-- Only the ring (memory, size, `head`, `tail`, `full`) may differ. -/
def ring_frame (s s' : file_ostream) : Prop :=
  s' = { s with buffer := s'.buffer, buffer_size := s'.buffer_size, head := s'.head,
                tail := s'.tail, full := s'.full }

/-- A full ring has a buffer, unless the maximum is 0 (then nothing can ever be
buffered and `o_stream_add` marks the zero-sized ring as full). -/
def full_ok (fstream : file_ostream) : Prop :=
  fstream.full = true → 0 < fstream.buffer_size ∨ fstream.max_buffer_size = 0

instance (fstream : file_ostream) : Decidable (full_ok fstream) :=
  inferInstanceAs (Decidable (_ → _))

/-- Only the ring and the write-readiness handle may differ. -/
def data_frame (s s' : file_ostream) : Prop :=
  s' = { s with buffer := s'.buffer, buffer_size := s'.buffer_size, head := s'.head,
                tail := s'.tail, full := s'.full, io := s'.io }

/-- The single system call `o_stream_writev` issues for a vector of at most
`IOV_MAX` entries: `write` for one entry, `writev` otherwise. -/
def write_call (fd : Int) (iov : List const_iovec) : Syscall :=
  match iov with
  | [e] => .write fd e
  | _ => .writev fd iov

/-- The kernel refuses no `write`/`writev` with an error other than
`EAGAIN`/`EINTR`: no transport error occurs. -/
def no_transport_error (w : World) : Prop :=
  ∀ log c e, c.is_write = true → w.kernel log c = .error e → e = EAGAIN ∨ e = EINTR

/-- Same kernel and platform, the log has grown. -/
def World.grows (w w' : World) : Prop :=
  w'.kernel = w.kernel ∧ w'.IOV_MAX = w.IOV_MAX ∧ ∃ l, w'.log = w.log ++ l

/-- The well-formed streams of the specification: a well-formed ring in which
`full` implies a buffer of positive size. -/
def well_formed (fstream : file_ostream) : Prop :=
  ring_ok fstream ∧ (fstream.full = true → 0 < fstream.buffer_size)

instance (fstream : file_ostream) : Decidable (well_formed fstream) :=
  inferInstanceAs (Decidable (_ ∧ _))

/-- A pool whose growth hint is exactly the size asked for. -/
def exact_pool : pool_t := ⟨fun _ min_size => min_size, fun _ _ => le_refl _⟩

/-- A stream as `o_stream_create_file` leaves it for a socket: nothing buffered,
no buffer allocated yet. -/
def socket_stream (fd : Int) (max_buffer_size : Nat) : file_ostream :=
  { offset := 0, stream_errno := 0, overflow := false, closed := false, pool := exact_pool,
    fd := fd, io := false, buffer := [], buffer_size := 0,
    max_buffer_size := max_buffer_size, optimal_block_size := DEFAULT_OPTIMAL_BLOCK_SIZE,
    head := 0, tail := 0, full := false, file := false, corked := false,
    flush_pending := false, no_socket_cork := false, no_sendfile := false,
    autoclose_fd := true }

/-- A world whose kernel answers the system calls in order from a script, and
takes nothing once the script is used up. -/
def scripted (answers : List SysResult) : World :=
  { kernel := fun log _ => answers.getD log.length (.ok 0), IOV_MAX := 16,
    IOV_MAX_ge := le_refl _, log := [] }

/-- Three bytes buffered in a ring of eight, wrapped around the end:
the bytes `[1, 2]` at offsets 6 and 7, then `[3]` at offset 0. -/
def wrapped_stream : file_ostream :=
  { socket_stream 5 1024 with
    buffer := [3, 0, 0, 0, 0, 0, 1, 2], buffer_size := 8, head := 6, tail := 1, io := true }

/-- The number of bytes of a transfer of `len` bytes the kernel takes with the
answer `r`: nothing when it answers with an error. -/
def accepted (r : SysResult) (len : Nat) : Nat :=
  match r with
  | .ok k => min k len
  | .error _ => 0

/-- The test of `_sendv` for writing directly: nothing is buffered, and the
stream is not corked or the vector is at least the optimal block. -/
def direct_write (fstream : file_ostream) (iov : List const_iovec) : Prop :=
  IS_STREAM_EMPTY fstream ∧
    (fstream.corked = false ∨
      iov_total iov ≥ min fstream.optimal_block_size fstream.max_buffer_size)

instance (fstream : file_ostream) (iov : List const_iovec) :
    Decidable (direct_write fstream iov) :=
  inferInstanceAs (Decidable (_ ∧ _))

/-- The calls of a trace: `sendv`, `flush`, `cork(set)` and the write-readiness
dispatch with the default flush (no callback installed). -/
inductive Op where
  | sendv (iov : List const_iovec)
  | flush
  | cork (set : Bool)
  | dispatch

/-- One call; the `void` functions are given the return value 0. -/
def Op.step (op : Op) (fstream : file_ostream) (w : World) :
    Option (Int × file_ostream × World) :=
  match op with
  | .sendv iov => _sendv fstream iov w
  | .flush => _flush fstream w
  | .cork set => (_cork fstream set w).map fun r => (0, r)
  | .dispatch => (stream_send_io none fstream w).map fun r => (0, r)

/-- Run the calls in order, collecting the return values. -/
def run : List Op → file_ostream → World → Option (List Int × file_ostream × World)
  | [], fstream, w => some ([], fstream, w)
  | op :: ops, fstream, w =>
    match op.step fstream w with
    | none => none
    | some r =>
      match run ops r.2.1 r.2.2 with
      | none => none
      | some t => some (r.1 :: t.1, t.2)

/-- The bytes the calls of a trace have accepted: for each `sendv`, the first
`r` bytes of its concatenated vector, `r` being what the call returned. -/
def accepted_bytes : List Op → List Int → List Byte
  | .sendv iov :: ops, r :: rets => iov.flatten.take r.toNat ++ accepted_bytes ops rets
  | _ :: ops, _ :: rets => accepted_bytes ops rets
  | _, _ => []
/-- A trace with a partial write, a refused write, a corked send and a
dispatch. -/
def sample_trace : List Op :=
  [.sendv [[1, 2, 3], [4, 5, 6, 7, 8], [9, 10, 11, 12, 13, 14, 15]], .flush, .cork true,
    .sendv [[16]], .cork false, .dispatch]

/-- Seventeen entries of one byte each: one more than `IOV_MAX = 16`. -/
def long_vector : List const_iovec :=
  [[1], [2], [3], [4], [5], [6], [7], [8], [9], [10], [11], [12], [13], [14], [15], [16], [17]]

/-- The kernel of the would-block scenario: it takes 16 bytes of the first
write, 32 of the second and everything from then on. -/
def would_block : World := scripted [.ok 16, .ok 32, .ok 1024]

/-- A corked socket stream holding the five bytes of "hello", no handler
registered. -/
def corked_hello : file_ostream :=
  { socket_stream 5 1024 with
    corked := true, buffer := [104, 101, 108, 108, 111, 0, 0, 0], buffer_size := 8, tail := 5 }

/-- A freshly created stream (nothing buffered, no buffer allocated yet) that
has been corked. -/
def corked_fresh (fstream : file_ostream) : Prop :=
  ring_ok fstream ∧ IS_STREAM_EMPTY fstream ∧ fstream.buffer_size = 0 ∧
    fstream.corked = true ∧ fstream.closed = false

instance (fstream : file_ostream) : Decidable (corked_fresh fstream) :=
  inferInstanceAs (Decidable (_ ∧ _))

/-- While corked, a ring is either still unallocated and empty or at least
`min optimal_block_size max_buffer_size` large. -/
def corked_size_ok (fstream : file_ostream) : Prop :=
  (IS_STREAM_EMPTY fstream ∧ fstream.buffer_size = 0) ∨
    min fstream.optimal_block_size fstream.max_buffer_size ≤ fstream.buffer_size

/-- The fresh socket stream of the cork scenario after `cork(true)`. -/
def corked_socket : file_ostream := { socket_stream 5 1024 with corked := true }

/-- The bytes of "hello " and of "world". -/
def hello_world : List (List const_iovec) :=
  [[[104, 101, 108, 108, 111, 32]], [[119, 111, 114, 108, 100]]]

/-! ## Sending from an input stream -/

def SSIZE_T_MAX : Nat := 2 ^ 63 - 1

/-- The value `(uoff_t)-1`. -/
def UOFF_T_MAX : Nat := 2 ^ 64 - 1

/-- Subtraction of `size_t`/`uoff_t` values, which wraps around. -/
def size_sub (a b : Nat) : Nat := (a + 2 ^ 64 - b % 2 ^ 64) % 2 ^ 64

/-- Modelled from the spec: the input stream is an opaque interface that the
output stream only consumes (§4.4); its code is not part of the sources.  The
fields are the ones `ostream-file.c` reads: the virtual offset, `stream_errno`,
`mmaped`, the absolute start offset and the buffer size of the real stream, the
descriptor `i_stream_get_fd` returns, the size `i_stream_stat` reports (`none`
when it returns `NULL`), and the bytes `i_stream_read_data` makes available at a
virtual offset for a threshold, given the system calls made so far. -/
structure istream where
  v_offset : Nat
  stream_errno : Nat
  mmaped : Bool
  abs_start_offset : Nat
  buffer_size : Nat
  fd : Int
  st_size : Option Nat
  avail : List Event → Nat → Nat → List Byte

/-- Modelled from the spec: `i_stream_stat(instream, TRUE)`, reduced to the
`st_size` it reports; `none` is `NULL`. -/
def i_stream_stat (instream : istream) : Option Nat := instream.st_size

/-- Modelled from the spec: `i_stream_get_fd`. -/
def i_stream_get_fd (instream : istream) : Int := instream.fd

/-- Modelled from the spec: `i_stream_seek` moves the virtual offset. -/
def i_stream_seek (instream : istream) (v_offset : Nat) : istream :=
  { instream with v_offset := v_offset }

/-- Modelled from the spec: `i_stream_skip` advances the virtual offset. -/
def i_stream_skip (instream : istream) (count : Nat) : istream :=
  { instream with v_offset := instream.v_offset + count }

/-- Modelled from the spec: `i_stream_read_data(instream, &data, &size, threshold)`
yields the bytes available at the virtual offset; `size` is their number. -/
def i_stream_read_data (instream : istream) (w : World) (threshold : Nat) : List Byte :=
  instream.avail w.log instream.v_offset threshold

/-- Modelled from the spec: `safe_sendfile(out_fd, in_fd, &offset, count)` is the
`sendfile` system call; it returns the number of bytes sent or -1. -/
def safe_sendfile (w : World) (out_fd in_fd : Int) (offset count : Nat) : Int × Nat × World :=
  w.transfer (.sendfile out_fd in_fd offset count) count

/-- Modelled from the spec: `write_full(fd, data, size)` writes all the bytes,
blocking; it returns 0, or -1 on error. -/
def write_full (w : World) (fd : Int) (data : List Byte) : Int × Nat × World :=
  match w.kernel w.log (.write_full fd data) with
  | .ok _ => (0, 0, w.record (.write_full fd data) 0 0)
  | .error e => (-1, e, w.record (.write_full fd data) (-1) e)

/-- Modelled from the spec: the public `o_stream_seek` of `ostream.c` rejects a
closed stream with -1 and otherwise calls the stream's `seek`. -/
def o_stream_seek (fstream : file_ostream) (offset : Nat) (w : World) :
    Option (Int × file_ostream × World) :=
  if fstream.closed = true then some (-1, fstream, w) else _seek fstream offset w

/-- The macro `MAX_SSIZE_T(size)`. -/
def MAX_SSIZE_T (size : Nat) : Nat := if size < SSIZE_T_MAX then size else SSIZE_T_MAX

/-- The `do … while` loop of `io_stream_sendfile`: returns `ret` and `v_offset`.
The first argument bounds the number of rounds; `none` when it is used up. -/
def io_stream_sendfile_loop (in_fd : Int) (in_size abs_start_offset : Nat) :
    Nat → Nat → file_ostream → World → Option (Int × Nat × file_ostream × World)
  | 0, _, _, _ => none
  | fuel + 1, v_offset, fstream, w =>
    let offset := abs_start_offset + v_offset
    let send_size := size_sub in_size v_offset
    let r := safe_sendfile w fstream.fd in_fd offset (MAX_SSIZE_T send_size)
    if r.1 ≤ 0 then
      if r.1 = 0 ∨ r.2.1 = EINTR ∨ r.2.1 = EAGAIN then some (0, v_offset, fstream, r.2.2)
      else
        let fstream := { fstream with stream_errno := r.2.1 }
        if r.2.1 ≠ EINVAL then
          let c := stream_closed fstream r.2.2
          some (r.1, v_offset, c.1, c.2)
        else some (r.1, v_offset, fstream, r.2.2)
    else
      let v_offset := v_offset + r.1.toNat
      let fstream := { fstream with offset := fstream.offset + r.1.toNat }
      if r.1.toNat ≠ send_size then
        io_stream_sendfile_loop in_fd in_size abs_start_offset fuel v_offset fstream r.2.2
      else some (r.1, v_offset, fstream, r.2.2)

def io_stream_sendfile (fstream : file_ostream) (instream : istream) (in_fd : Int)
    (in_size : Nat) (fuel : Nat) (w : World) :
    Option (Int × file_ostream × istream × World) :=
  (buffer_flush fstream w).bind fun f =>
    if f.1 ≤ 0 then some (f.1, f.2.1, instream, f.2.2)
    else
      let start_offset := instream.v_offset
      (io_stream_sendfile_loop in_fd in_size instream.abs_start_offset fuel
          instream.v_offset f.2.1 f.2.2).map fun r =>
        let instream := i_stream_seek instream r.2.1
        (if r.1 < 0 then -1 else ((size_sub instream.v_offset start_offset : Nat) : Int),
          r.2.2.1, instream, r.2.2.2)

/-- The `while (in_size > 0)` loop of `io_stream_copy`; the result says whether
the function returns -1.  `iov` holds the entries filled so far, `skip_size` the
buffered bytes among them. -/
def io_stream_copy_loop :
    Nat → Nat → List const_iovec → Nat → file_ostream → istream → World →
      Option (Bool × file_ostream × istream × World)
  | 0, _, _, _, _, _, _ => none
  | fuel + 1, in_size, iov, skip_size, fstream, instream, w =>
    if in_size > 0 then
      let block_size := min fstream.optimal_block_size in_size
      let data := i_stream_read_data instream w (size_sub block_size 1)
      let in_size := size_sub in_size data.length
      if data.length = 0 then some (false, fstream, instream, w)
      else
        let iov := iov ++ [data]
        let r := o_stream_writev fstream iov w
        if r.1 < 0 then some (true, r.2.1, instream, r.2.2)
        else
          let skipped : Option (file_ostream × Nat × Nat) :=
            if skip_size > 0 then
              if r.1.toNat < skip_size then
                (update_buffer r.2.1 r.1.toNat).map fun f => (f, skip_size - r.1.toNat, 0)
              else
                (update_buffer r.2.1 skip_size).map fun f => (f, 0, r.1.toNat - skip_size)
            else some (r.2.1, skip_size, r.1.toNat)
          skipped.bind fun k =>
            let fstream := { k.1 with offset := k.1.offset + k.2.2 }
            let instream := i_stream_skip instream k.2.2
            if k.2.2 ≠ data.length then some (false, fstream, instream, r.2.2)
            else if k.2.1 ≠ 0 then none
            else io_stream_copy_loop fuel in_size [] 0 fstream instream r.2.2
    else some (false, fstream, instream, w)

def io_stream_copy (fstream : file_ostream) (instream : istream) (in_size : Nat)
    (fuel : Nat) (w : World) : Option (Int × file_ostream × istream × World) :=
  let iov := o_stream_fill_iovec fstream
  let skip_size := iov_total iov
  let start_offset := instream.v_offset
  let in_size := size_sub in_size instream.v_offset
  (io_stream_copy_loop fuel in_size iov skip_size fstream instream w).map fun r =>
    (if r.1 = true then -1 else ((size_sub r.2.2.1.v_offset start_offset : Nat) : Int),
      r.2.1, r.2.2.1, r.2.2.2)

/-- The inner `for (;;)` of `io_stream_copy_backwards`: returns `in_offset`,
`out_offset`, `buffer_size`, the data to write and the streams. -/
def copy_backwards_read (in_limit : Nat) (w : World) :
    Nat → Nat → Nat → Nat → file_ostream → istream →
      Option (Nat × Nat × Nat × List Byte × file_ostream × istream)
  | 0, _, _, _, _, _ => none
  | fuel + 1, in_offset, out_offset, buffer_size, fstream, instream =>
    if ¬ in_offset ≤ in_limit then none
    else
      let instream := i_stream_seek instream in_offset
      let read_size := in_limit - in_offset
      let data := i_stream_read_data instream w (size_sub read_size 1)
      if data.length ≥ read_size then
        let data := data.take read_size
        if instream.mmaped = true then
          if ¬ data.length ≤ fstream.buffer_size then none
          else
            let fstream :=
              { fstream with buffer := memcpy fstream.buffer 0 data data.length }
            some (in_offset, out_offset, buffer_size, fstream.buffer.take data.length,
              fstream, instream)
        else some (in_offset, out_offset, buffer_size, data, fstream, instream)
      else
        let read_size := read_size - data.length
        copy_backwards_read in_limit w fuel (in_offset + read_size)
          ((out_offset + read_size) % 2 ^ 64) (size_sub buffer_size read_size) fstream instream

/-- The `while (in_offset > in_start_offset)` loop of `io_stream_copy_backwards`;
the result says whether the function returns -1. -/
def copy_backwards_loop (in_start_offset : Nat) :
    Nat → Nat → Nat → Nat → Nat → file_ostream → istream → World →
      Option (Bool × file_ostream × istream × World)
  | 0, _, _, _, _, _, _, _ => none
  | fuel + 1, in_offset, in_limit, out_offset, buffer_size, fstream, instream, w =>
    if in_offset > in_start_offset then
      let read_size :=
        if in_offset - in_start_offset ≤ buffer_size then in_offset - in_start_offset
        else buffer_size
      let in_offset := in_offset - read_size
      let out_offset := size_sub out_offset read_size
      (copy_backwards_read in_limit w (in_limit + 1) in_offset out_offset buffer_size
          fstream instream).bind fun k =>
        let in_limit := in_limit - k.2.2.2.1.length
        (o_stream_seek k.2.2.2.2.1 k.2.1 w).bind fun s =>
          if s.1 < 0 then some (true, s.2.1, k.2.2.2.2.2, s.2.2)
          else
            let r := write_full s.2.2 s.2.1.fd k.2.2.2.1
            if r.1 < 0 then
              some (true, { s.2.1 with stream_errno := r.2.1 }, k.2.2.2.2.2, r.2.2)
            else
              copy_backwards_loop in_start_offset fuel k.1 in_limit k.2.1 k.2.2.1 s.2.1
                k.2.2.2.2.2 r.2.2
    else some (false, fstream, instream, w)

def io_stream_copy_backwards (fstream : file_ostream) (instream : istream) (in_size : Nat)
    (fuel : Nat) (w : World) : Option (Int × file_ostream × istream × World) :=
  if ¬ IS_STREAM_EMPTY fstream then none
  else
    let sized : file_ostream × Nat :=
      if instream.buffer_size = 0 ∨ instream.buffer_size > fstream.buffer_size then
        let fstream :=
          if fstream.optimal_block_size > fstream.buffer_size then
            o_stream_grow_buffer fstream (fstream.optimal_block_size - fstream.buffer_size)
          else fstream
        (fstream, fstream.buffer_size)
      else (fstream, instream.buffer_size)
    let in_start_offset := instream.v_offset
    let out_offset := (fstream.offset + size_sub in_size in_start_offset) % 2 ^ 64
    (copy_backwards_loop in_start_offset fuel in_size in_size out_offset sized.2 sized.1
        instream w).map fun r =>
      (if r.1 = true then -1 else ((size_sub in_size in_start_offset : Nat) : Int),
        r.2.1, r.2.2.1, r.2.2.2)

/-- The function `_send_istream`.  `fuel` bounds the rounds of each copy loop;
the result is `none` when an `i_assert` fails or a loop uses up its rounds. -/
def _send_istream (fstream : file_ostream) (instream : istream) (fuel : Nat) (w : World) :
    Option (Int × file_ostream × istream × World) :=
  match i_stream_stat instream with
  | none => some (-1, { fstream with stream_errno := instream.stream_errno }, instream, w)
  | some in_size =>
    let in_fd := i_stream_get_fd instream
    if ¬ instream.v_offset ≤ in_size then none
    else
      let fstream := { fstream with stream_errno := 0 }
      let overlap : Except (Int × file_ostream) Int :=
        if in_fd ≠ fstream.fd then .ok 0
        else if in_size = UOFF_T_MAX then .error (-1, { fstream with stream_errno := EINVAL })
        else
          let ret : Int :=
            (fstream.offset : Int) - ((instream.abs_start_offset + instream.v_offset : Nat) : Int)
          if ret = 0 then .error (((in_size - instream.v_offset : Nat) : Int), fstream)
          else .ok (if ret < 0 then -1 else 1)
      match overlap with
      | .error e => some (e.1, e.2, instream, w)
      | .ok overlapping =>
        let copy (fstream : file_ostream) (instream : istream) (w : World) :=
          if overlapping ≤ 0 then io_stream_copy fstream instream in_size fuel w
          else io_stream_copy_backwards fstream instream in_size fuel w
        if fstream.no_sendfile = false ∧ in_fd ≠ -1 ∧ overlapping ≤ 0 then
          (io_stream_sendfile fstream instream in_fd in_size fuel w).bind fun r =>
            if r.1 ≥ 0 ∨ r.2.1.stream_errno ≠ EINVAL then some r
            else copy { r.2.1 with stream_errno := 0, no_sendfile := true } r.2.2.1 r.2.2.2
        else copy fstream instream w

/-- A regular file open on descriptor 7, written up to offset 100. -/
def file_stream : file_ostream :=
  { socket_stream 7 4096 with
    offset := 100, file := true, no_socket_cork := true, no_sendfile := true }

/-- An input stream on the same descriptor 7: a file of 1000 bytes read up to
virtual offset 100, starting at absolute offset 0. -/
def same_file_input : istream :=
  { v_offset := 100, stream_errno := 0, mmaped := false, abs_start_offset := 0,
    buffer_size := 0, fd := 7, st_size := some 1000,
    avail := fun _ v _ => List.replicate (1000 - v) 0 }

/-- The handler invariant: a stream that has something to drain (buffered bytes
or `flush_pending`) on a descriptor that is neither a regular file nor corked has
a write-readiness handler registered. -/
def drain_ok (fstream : file_ostream) : Prop :=
  (¬ IS_STREAM_EMPTY fstream ∨ fstream.flush_pending = true) →
    fstream.file = false → fstream.corked = false → fstream.io = true

instance (fstream : file_ostream) : Decidable (drain_ok fstream) :=
  inferInstanceAs (Decidable (_ → _))

/-- A step that either closes the stream or leaves the handler, `corked`, `file`,
`flush_pending` and `closed` alone and buffers nothing new. -/
def quiet (s s' : file_ostream) : Prop :=
  s'.closed = true ∨
    (s'.io = s.io ∧ s'.corked = s.corked ∧ s'.file = s.file ∧
      s'.flush_pending = s.flush_pending ∧ s'.closed = s.closed ∧
      (IS_STREAM_EMPTY s → IS_STREAM_EMPTY s'))

/-- The public operations of the stream and the write-readiness dispatch (with
the flush callback installed, if any). -/
inductive PublicOp where
  | sendv (iov : List const_iovec)
  | flush
  | cork (set : Bool)
  | flush_pending (set : Bool)
  | seek (offset : Nat)
  | send_istream (instream : istream) (fuel : Nat)
  | dispatch (callback : Option stream_flush_callback_t)

/-- The stream and the world after an operation that returns. -/
def PublicOp.apply (op : PublicOp) (fstream : file_ostream) (w : World) :
    Option (file_ostream × World) :=
  match op with
  | .sendv iov => (_sendv fstream iov w).map fun r => r.2
  | .flush => (_flush fstream w).map fun r => r.2
  | .cork set => _cork fstream set w
  | .flush_pending set => some (_flush_pending fstream set, w)
  | .seek offset => (_seek fstream offset w).map fun r => r.2
  | .send_istream instream fuel =>
    (_send_istream fstream instream fuel w).map fun r => (r.2.1, r.2.2.2)
  | .dispatch callback => stream_send_io callback fstream w

/-- The flags the handler invariant looks at, besides the handler and the
ring. -/
def same_flags (s s' : file_ostream) : Prop :=
  s'.corked = s.corked ∧ s'.file = s.file ∧ s'.flush_pending = s.flush_pending ∧
    s'.closed = s.closed ∧ s'.max_buffer_size = s.max_buffer_size

/-- What `fstat` reports about the descriptor, as far as `o_stream_create_file`
looks at it: the preferred block size and whether it is a regular file. -/
structure stat where
  st_blksize : Nat
  is_reg : Bool

/-- The function `o_stream_create_file`.  The answers of the three calls it makes
are parameters: `lseek(fd, 0, SEEK_CUR)` (negative when the descriptor cannot
seek), `fstat` (`none` when it fails) and `net_getsockname` (negative when the
descriptor is not a socket).  `p_new` zero-fills the structure. -/
def o_stream_create_file (fd : Int) (pool : pool_t) (max_buffer_size : Nat)
    (autoclose_fd : Bool) (lseek_ret : Int) (fstat_ret : Option stat) (getsockname_ret : Int) :
    file_ostream :=
  let fstream : file_ostream :=
    { offset := 0, stream_errno := 0, overflow := false, closed := false, pool := pool,
      fd := fd, io := false, buffer := [], buffer_size := 0,
      max_buffer_size := max_buffer_size, optimal_block_size := DEFAULT_OPTIMAL_BLOCK_SIZE,
      head := 0, tail := 0, full := false, file := false, corked := false,
      flush_pending := false, no_socket_cork := false, no_sendfile := false,
      autoclose_fd := autoclose_fd }
  let fstream :=
    if lseek_ret ≥ 0 then
      let fstream := { fstream with offset := lseek_ret.toNat }
      let fstream :=
        match fstat_ret with
        | some st =>
          let fstream :=
            if st.st_blksize > fstream.optimal_block_size then
              { fstream with optimal_block_size := min st.st_blksize MAX_OPTIMAL_BLOCK_SIZE }
            else fstream
          if st.is_reg = true then { fstream with no_socket_cork := true, file := true }
          else fstream
        | none => fstream
      { fstream with no_sendfile := true }
    else if getsockname_ret < 0 then { fstream with no_sendfile := true, no_socket_cork := true }
    else fstream
  if max_buffer_size = 0 then { fstream with max_buffer_size := fstream.optimal_block_size }
  else fstream

/-- A regular file open on descriptor 7, written up to offset 2. -/
def overlap_stream : file_ostream :=
  { socket_stream 7 4096 with
    offset := 2, file := true, no_socket_cork := true, no_sendfile := true }

/-- An input stream on the same descriptor 7: six bytes starting at absolute
offset 0, none consumed yet. -/
def overlap_input : istream :=
  { v_offset := 0, stream_errno := 0, mmaped := false, abs_start_offset := 0,
    buffer_size := 0, fd := 7, st_size := some 6,
    avail := fun _ v _ => ([65, 66, 67, 68, 69, 70] : List Byte).drop v }

/-- The errno `ENOSPC`. -/
def ENOSPC : Nat := 28

/-- The errno `EPIPE`. -/
def EPIPE : Nat := 32

/-- The overlap measure in the spec's words:
`Δ = output.offset − source.absolute_start + source.virtual_offset`. -/
def spec_delta (fstream : file_ostream) (instream : istream) : Int :=
  (fstream.offset : Int) - (instream.abs_start_offset : Int) + (instream.v_offset : Int)

/-- The overlap measure `_send_istream` computes:
`offset - (abs_start_offset + v_offset)`. -/
def code_delta (fstream : file_ostream) (instream : istream) : Int :=
  (fstream.offset : Int) - ((instream.abs_start_offset + instream.v_offset : Nat) : Int)

/-- Modelled from the spec: the public `o_stream_sendv` of `ostream.c`, which is
not among the sources.  It rejects a closed stream with -1, otherwise calls the
stream's `sendv`; "any shortfall sets `overflow`": the flag is set when the count
returned is not the total asked for. -/
def o_stream_sendv (fstream : file_ostream) (iov : List const_iovec) (w : World) :
    Option (Int × file_ostream × World) :=
  if fstream.closed = true then some (-1, fstream, w)
  else
    (_sendv fstream iov w).map fun r =>
      (r.1, if r.1 ≠ (iov_total iov : Int) then { r.2.1 with overflow := true } else r.2.1,
        r.2.2)

/-- Modelled from the spec: the public `o_stream_send`, "equivalent to `sendv`
with a single-entry vector". -/
def o_stream_send (fstream : file_ostream) (data : List Byte) (w : World) :
    Option (Int × file_ostream × World) :=
  o_stream_sendv fstream [data] w

/-- The step does not touch `overflow`. -/
def same_overflow (s s' : file_ostream) : Prop := s'.overflow = s.overflow

/-- The input stream serves the bytes `B`: it reports their number as its size
and, at every virtual offset, makes a prefix of the bytes from there on
available, at least one byte while the end has not been reached. -/
def yields (instream : istream) (B : List Byte) : Prop :=
  instream.st_size = some B.length ∧
    ∀ log v t, ∃ n, instream.avail log v t = (B.drop v).take n ∧ (v < B.length → 0 < n)

/-- The kernel takes every `write` on `fd` in full. -/
def accepts_writes (w : World) (fd : Int) : Prop :=
  ∀ log data, ∃ n, w.kernel log (.write fd data) = .ok n ∧ data.length ≤ n

/-- A kernel without `sendfile` support that takes every write in full. -/
def no_sendfile_kernel : World :=
  { kernel := fun _ c =>
      match c with
      | .sendfile _ _ _ _ => .error EINVAL
      | .write _ data => .ok data.length
      | _ => .ok 0
    IOV_MAX := 16, IOV_MAX_ge := le_refl _, log := [] }

/-- An input stream on descriptor 9 serving the ten bytes of "0123456789". -/
def digits_input : istream :=
  { v_offset := 0, stream_errno := 0, mmaped := false, abs_start_offset := 0,
    buffer_size := 0, fd := 9, st_size := some 10,
    avail := fun _ v _ => ([48, 49, 50, 51, 52, 53, 54, 55, 56, 57] : List Byte).drop v }

/-! ## The file behind a descriptor -/

/-- The bytes of a file after `data` is written at position `pos`. -/
def overwrite (content : List Byte) (pos : Nat) (data : List Byte) : List Byte :=
  content.take pos ++ data ++ content.drop (pos + data.length)

/-- One completed system call applied to the content and the position of the file
open on `fd`: a successful `lseek` moves the position; a successful `write`,
`writev` or `write_full` puts the bytes taken at the position and advances it.
Calls on other descriptors and failed calls leave both alone. -/
def file_step (fd : Int) (st : List Byte × Nat) (ev : Event) : List Byte × Nat :=
  if ev.ret < 0 then st
  else
    match ev.call with
    | .lseek fd1 _ => if fd1 = fd then (st.1, ev.ret.toNat) else st
    | .write_full fd1 data =>
      if fd1 = fd then (overwrite st.1 st.2 data, st.2 + data.length) else st
    | .write fd1 data =>
      if fd1 = fd then
        (overwrite st.1 st.2 (data.take ev.ret.toNat), st.2 + (data.take ev.ret.toNat).length)
      else st
    | .writev fd1 iov =>
      if fd1 = fd then
        (overwrite st.1 st.2 (iov.flatten.take ev.ret.toNat),
          st.2 + (iov.flatten.take ev.ret.toNat).length)
      else st
    | _ => st

/-- The content and the position of the file open on `fd` after the calls of
`log`, when it held `init` at position 0 before them. -/
def file_at (init : List Byte) (fd : Int) (log : List Event) : List Byte × Nat :=
  log.foldl (file_step fd) (init, 0)

/-- The source reads the file: what it makes available at a virtual offset is a
non-empty run of the bytes the file holds at that moment from the absolute
offset on (cut at the end of the file). -/
def reads_file (instream : istream) (init : List Byte) : Prop :=
  ∀ (log : List Event) (v t : Nat), ∃ n,
    instream.avail log v t =
      ((file_at init instream.fd log).1.drop (instream.abs_start_offset + v)).take n ∧ 0 < n

/-- No I/O error on the file: `lseek` reaches the position asked for and
`write_full` succeeds. -/
def file_kernel (w : World) (fd : Int) : Prop :=
  (∀ (log : List Event) (offset : Nat), w.kernel log (.lseek fd offset) = .ok offset) ∧
    ∀ (log : List Event) (data : List Byte), ∃ n, w.kernel log (.write_full fd data) = .ok n

/-- The eight bytes of the text `ABCDEFGH`. -/
def alphabet : List Byte := [65, 66, 67, 68, 69, 70, 71, 72]

/-- A regular file open on descriptor 7, written up to offset 2, whose buffer may
grow to four bytes. -/
def small_overlap_stream : file_ostream :=
  { socket_stream 7 4 with
    offset := 2, file := true, no_socket_cork := true, no_sendfile := true }

/-- An input stream on descriptor 7 that reads the file holding `alphabet` at
first: six bytes from absolute offset 0, none consumed yet; a read yields one
byte more than the threshold asks for, as far as the file goes. -/
def alphabet_input : istream :=
  { v_offset := 0, stream_errno := 0, mmaped := false, abs_start_offset := 0,
    buffer_size := 0, fd := 7, st_size := some 6,
    avail := fun log v t => ((file_at alphabet 7 log).1.drop (0 + v)).take (t + 1) }

/-- A world without I/O errors on files: `lseek` reaches the position asked for,
every other call takes all it is offered. -/
def file_world : World :=
  { kernel := fun _ c =>
      match c with
      | .lseek _ offset => .ok offset
      | .write _ data => .ok data.length
      | .writev _ iov => .ok (iov_total iov)
      | _ => .ok 0,
    IOV_MAX := 16, IOV_MAX_ge := le_refl _, log := [] }

/-! ## The queue a ring encodes, in the words of the specification -/

/-- The number of bytes in use as the specification describes the ring: none
when empty (`head == tail && !full`), `buffer_size` when full
(`head == tail && full`), `tail - head` for a contiguous region (`head < tail`),
and the two segments `[head, buffer_size)` and `[0, tail)` for a wrapped one. -/
def spec_used_size (fstream : file_ostream) : Nat :=
  if fstream.head = fstream.tail then (if fstream.full = true then fstream.buffer_size else 0)
  else if fstream.head < fstream.tail then fstream.tail - fstream.head
  else (fstream.buffer_size - fstream.head) + fstream.tail

/-- The buffered bytes read from `head` to `tail` around the circle: byte `i` of
the queue is the byte of memory at `(head + i) mod buffer_size`. -/
def spec_queue (fstream : file_ostream) : List Byte :=
  (List.range (spec_used_size fstream)).map fun i =>
    fstream.buffer.getD ((fstream.head + i) % fstream.buffer_size) 0

/-- A step keeps the maximum, keeps `buffer_size` within it, and keeps the ring
well-formed (with `full` only on a ring that has a buffer, unless the maximum is
0). -/
def preserves (s s' : file_ostream) : Prop :=
  s'.max_buffer_size = s.max_buffer_size ∧
    (s.buffer_size ≤ s.max_buffer_size → s'.buffer_size ≤ s'.max_buffer_size) ∧
    (ring_ok s → full_ok s → ring_ok s' ∧ full_ok s')

/-- A sequence of public operations and dispatches run one after the other; `none`
when one of them does not return. -/
def run_ops : List PublicOp → file_ostream → World → Option (file_ostream × World)
  | [], fstream, w => some (fstream, w)
  | op :: ops, fstream, w => (op.apply fstream w).bind fun r => run_ops ops r.1 r.2

/-- The operations whose code is all in `ostream-file.c`: no input stream and no
user callback is involved. -/
def PublicOp.is_core : PublicOp → Bool
  | .send_istream _ _ => false
  | .dispatch (some _) => false
  | _ => true

/-- Four bytes buffered in the middle of a ring of eight that cannot grow: the
free space is `[6, 8)` followed by `[0, 2)`. -/
def middle_stream : file_ostream :=
  { socket_stream 5 8 with
    buffer := [0, 0, 1, 2, 3, 4, 0, 0], buffer_size := 8, head := 2, tail := 6, io := true }

/-- The ten bytes of the text `0123456789`. -/
def digits : List Byte := [48, 49, 50, 51, 52, 53, 54, 55, 56, 57]

/-! ## Lists and memory -/


theorem slice_getElem? (buf : List Byte) (off len i : Nat) :
    (slice buf off len)[i]? = if i < len then buf[off + i]? else none := by
  simp only [slice, List.getElem?_take, List.getElem?_drop]

theorem slice_length (buf : List Byte) (off len : Nat) :
    (slice buf off len).length = min len (buf.length - off) := by
  simp [slice]

theorem memcpy_getElem? (buf src : List Byte) (dst n i : Nat) (hd : dst ≤ buf.length)
    (hn : n ≤ src.length) :
    (memcpy buf dst src n)[i]? =
      if i < dst then buf[i]? else if i < dst + n then src[i - dst]? else buf[i]? := by
  simp only [memcpy, List.append_assoc]
  by_cases h1 : i < dst
  · rw [List.getElem?_append_left (by simp; omega)]
    simp [h1, List.getElem?_take]
  · rw [List.getElem?_append_right (by simp; omega)]
    simp only [List.length_take, Nat.min_eq_left hd, if_neg h1]
    by_cases h2 : i < dst + n
    · rw [List.getElem?_append_left (by simp; omega)]
      simp [h2, List.getElem?_take]; omega
    · rw [List.getElem?_append_right (by simp; omega)]
      simp only [List.length_take, Nat.min_eq_left hn, if_neg h2, List.getElem?_drop]
      congr 1; omega

theorem memcpy_length (buf src : List Byte) (dst n : Nat) (h1 : dst + n ≤ buf.length)
    (h2 : n ≤ src.length) : (memcpy buf dst src n).length = buf.length := by
  simp [memcpy]; omega

theorem ring_bytes_empty (buf : List Byte) (bs h t : Nat) (f : Bool) (h1 : h = t)
    (h2 : f = false) : ring_bytes buf bs h t f = [] := by
  simp [ring_bytes, h1, h2]

theorem ring_bytes_contig (buf : List Byte) (bs h t : Nat) (f : Bool) (h1 : h < t) :
    ring_bytes buf bs h t f = slice buf h (t - h) := by
  have : h ≠ t := by omega
  simp [ring_bytes, h1, this]

theorem ring_bytes_wrap (buf : List Byte) (bs h t : Nat) (f : Bool) (h1 : t ≤ h)
    (h2 : h = t → f = true) :
    ring_bytes buf bs h t f = slice buf h (bs - h) ++ slice buf 0 t := by
  have h3 : ¬ h < t := by omega
  have h4 : ¬ (h = t ∧ f = false) := by
    rintro ⟨a, b⟩; rw [h2 a] at b; cases b
  simp [ring_bytes, h3, h4]

theorem put_spec (buf : List Byte) (bs h t : Nat) (data : List Byte) (sent : Nat)
    (hi : ring_inv buf.length bs h t false) (hs : sent < data.length) :
    ring_inv (put buf bs h t data sent).1.length bs h (put buf bs h t data sent).2.1
        (put buf bs h t data sent).2.2.1 ∧
      ring_bytes (put buf bs h t data sent).1 bs h (put buf bs h t data sent).2.1
        (put buf bs h t data sent).2.2.1 =
        ring_bytes buf bs h t false ++ slice data sent (put buf bs h t data sent).2.2.2 := by
  obtain ⟨hl, hh, ht, hf, hz⟩ := hi
  have hz' := fun e => hz e rfl
  simp only [put]
  have hc1 : min (data.length - sent) (if t ≥ h then bs - t else h - t) ≤ (data.drop sent).length := by
    simp
  have hc2 : t + min (data.length - sent) (if t ≥ h then bs - t else h - t) ≤ buf.length := by
    split_ifs <;> omega
  have hc3 : min (data.length - sent) (if t ≥ h then bs - t else h - t) ≤
      (if t ≥ h then bs - t else h - t) := Nat.min_le_right _ _
  have hc4 : min (data.length - sent) (if t ≥ h then bs - t else h - t) = 0 → bs = 0 := by
    split_ifs <;> omega
  have hml := memcpy_length buf (data.drop sent) t _ hc2 hc1
  have hme := fun i => memcpy_getElem? buf (data.drop sent) t _ i (by omega) hc1
  generalize min (data.length - sent) (if t ≥ h then bs - t else h - t) = c at *
  generalize memcpy buf t (data.drop sent) c = buf' at *
  by_cases hth : t ≥ h
  · rw [if_pos hth] at hc3
    by_cases hw : t + c = bs
    · simp only [hw, if_true]
      by_cases h0 : h = 0
      · subst h0
        refine ⟨⟨by omega, hh, by omega, by simp, by simp⟩, ?_⟩
        simp only [decide_True]
        rw [ring_bytes_wrap _ _ _ _ _ (le_refl _) (fun _ => rfl)]
        by_cases ht0 : t = 0
        · rw [ring_bytes_empty _ _ _ _ _ ht0.symm rfl]
          apply List.ext_getElem?; intro i
          simp only [slice_getElem?, List.getElem?_append, slice_length, hl, hml, hme,
            List.getElem?_drop, List.getElem?_nil, List.length_nil, List.length_append]
          split_ifs <;> first | rfl | omega | (congr 1; omega)
        · rw [ring_bytes_contig _ _ _ _ _ (by omega)]
          apply List.ext_getElem?; intro i
          simp only [slice_getElem?, List.getElem?_append, slice_length, hl, hml, hme,
            List.getElem?_drop, List.getElem?_nil, List.length_nil, List.length_append]
          split_ifs <;> first | rfl | omega | (congr 1; omega)
      · have hd : decide (h = 0) = false := by simp [h0]
        rw [hd]
        refine ⟨⟨by omega, hh, by omega, by simp, by intro a; exact absurd a h0⟩, ?_⟩
        rw [ring_bytes_wrap _ _ _ _ _ (Nat.zero_le _) (fun a => absurd a h0)]
        rw [ring_bytes_contig _ _ _ _ _ (by omega)]
        apply List.ext_getElem?; intro i
        simp only [slice_getElem?, List.getElem?_append, slice_length, hl, hml, hme,
          List.getElem?_drop, List.getElem?_nil, List.length_nil, List.length_append]
        split_ifs <;> first | rfl | omega | (congr 1; omega)
    · simp only [hw, if_false]
      have hne : h ≠ t + c := by omega
      have hd : decide (h = t + c) = false := by simp [hne]
      rw [hd]
      refine ⟨⟨by omega, hh, by omega, by simp, by intro a; exact absurd a hne⟩, ?_⟩
      rw [ring_bytes_contig _ _ _ _ _ (by omega)]
      by_cases hht : h = t
      · rw [ring_bytes_empty _ _ _ _ _ hht rfl]
        apply List.ext_getElem?; intro i
        simp only [slice_getElem?, List.getElem?_append, slice_length, hl, hml, hme,
          List.getElem?_drop, List.getElem?_nil, List.length_nil, List.length_append]
        split_ifs <;> first | rfl | omega | (congr 1; omega)
      · rw [ring_bytes_contig _ _ _ _ _ (by omega)]
        apply List.ext_getElem?; intro i
        simp only [slice_getElem?, List.getElem?_append, slice_length, hl, hml, hme,
          List.getElem?_drop, List.getElem?_nil, List.length_nil, List.length_append]
        split_ifs <;> first | rfl | omega | (congr 1; omega)
  · rw [if_neg hth] at hc3
    have hw : t + c ≠ bs := by omega
    simp only [hw, if_false]
    refine ⟨⟨by omega, hh, by omega, by simp, by intro a b; simp [a] at b⟩, ?_⟩
    rw [ring_bytes_wrap _ _ _ _ _ (by omega) (fun a => by simp [a])]
    rw [ring_bytes_wrap _ _ _ _ _ (by omega) (fun a => by omega)]
    apply List.ext_getElem?; intro i
    simp only [slice_getElem?, List.getElem?_append, slice_length, hl, hml, hme,
      List.getElem?_drop, List.getElem?_nil, List.length_nil, List.length_append]
    split_ifs <;> first | rfl | omega | (congr 1; omega)

theorem ring_bytes_length (buf : List Byte) (bs h t : Nat) (f : Bool)
    (hi : ring_inv buf.length bs h t f) :
    (ring_bytes buf bs h t f).length =
      if h = t then (if f then bs else 0) else if h < t then t - h else bs - h + t := by
  obtain ⟨hl, hh, ht, hf, _⟩ := hi
  unfold ring_bytes
  cases f <;> simp at hf ⊢ <;> split_ifs <;> simp [slice_length, hl] <;> omega

theorem advance_spec (buf : List Byte) (bs h t : Nat) (f : Bool) (n : Nat)
    (hi : ring_inv buf.length bs h t f) (hn : n ≤ (ring_bytes buf bs h t f).length) :
    ∃ h' t' f', advance bs h t f n = some (h', t', f') ∧ ring_inv buf.length bs h' t' f' ∧
      ring_bytes buf bs h' t' f' = (ring_bytes buf bs h t f).drop n ∧
      (0 < n → f' = false) := by
  rw [ring_bytes_length buf bs h t f hi] at hn
  obtain ⟨hl, hh, ht, hf, hz⟩ := hi
  unfold advance
  by_cases he : (h = t ∧ f = false) ∨ n = 0
  · rw [if_pos he]
    refine ⟨h, t, f, rfl, ⟨hl, hh, ht, hf, hz⟩, ?_, ?_⟩
    · rcases he with he | he
      · simp [ring_bytes, he]
      · simp [he]
    · rcases he with he | he
      · intro _; exact he.2
      · omega
  · rw [if_neg he]
    have hn0 : 0 < n := by omega
    by_cases hlt : h < t
    · have hff : f = false := by
        cases f
        · rfl
        · have := hf rfl; omega
      subst hff
      have hne : h ≠ t := by omega
      simp only [hne, if_false, hlt, if_true] at hn
      simp only [hlt, if_true, hn, Option.map_some']
      rw [ring_bytes_contig _ _ _ _ _ hlt]
      by_cases h1 : h + n = t
      · have h2 : (0 : Nat) ≠ bs := by omega
        simp only [h1, if_true, h2, if_false]
        refine ⟨_, _, _, rfl, ⟨hl, by omega, by omega, by simp, by simp⟩, ?_, fun _ => rfl⟩
        rw [ring_bytes_empty _ _ _ _ _ rfl rfl]
        apply List.ext_getElem?; intro i
        simp only [slice_getElem?, List.getElem?_append, slice_length, hl, List.getElem?_drop,
          List.getElem?_nil, List.length_nil, List.length_append]
        split_ifs <;> first | rfl | omega | (congr 1; omega)
      · have h2 : h + n ≠ bs := by omega
        simp only [h1, if_false, h2]
        refine ⟨_, _, _, rfl, ⟨hl, by omega, by omega, by simp, by intro a; omega⟩, ?_, fun _ => rfl⟩
        rw [ring_bytes_contig _ _ _ _ _ (by omega)]
        apply List.ext_getElem?; intro i
        simp only [slice_getElem?, List.getElem?_append, slice_length, hl, List.getElem?_drop,
          List.getElem?_nil, List.length_nil, List.length_append]
        split_ifs <;> first | rfl | omega | (congr 1; omega)
    · have hne : h = t → f = true := by
        intro a
        cases f
        · exact absurd (Or.inl ⟨a, rfl⟩) he
        · rfl
      have hn' : n ≤ bs - h + t := by
        by_cases hht : h = t
        · simp only [hht, if_true, hne hht] at hn; omega
        · simp only [hht, if_false, hlt] at hn; exact hn
      have hbs : 0 < bs := by
        rcases hh with a | a
        · omega
        · rcases ht with b | b
          · omega
          · omega
      simp only [hlt, if_false]
      rw [ring_bytes_wrap _ _ _ _ _ (by omega) hne]
      by_cases hw : n > bs - h
      · have hw' : n - (bs - h) ≤ t := by omega
        simp only [hw, if_true, hw', Option.map_some']
        by_cases h1 : n - (bs - h) = t
        · have h2 : (0 : Nat) ≠ bs := by omega
          simp only [h1, if_true, h2, if_false]
          refine ⟨_, _, _, rfl, ⟨hl, by omega, by omega, by simp, by simp⟩, ?_, fun _ => rfl⟩
          rw [ring_bytes_empty _ _ _ _ _ rfl rfl]
          apply List.ext_getElem?; intro i
          simp only [slice_getElem?, List.getElem?_append, slice_length, hl, List.getElem?_drop,
            List.getElem?_nil, List.length_nil, List.length_append]
          split_ifs <;> first | rfl | omega | (congr 1; omega)
        · have h2 : n - (bs - h) ≠ bs := by omega
          simp only [h1, if_false, h2]
          refine ⟨_, _, _, rfl, ⟨hl, by omega, by omega, by simp, by intro a; omega⟩, ?_,
            fun _ => rfl⟩
          rw [ring_bytes_contig _ _ _ _ _ (by omega)]
          apply List.ext_getElem?; intro i
          simp only [slice_getElem?, List.getElem?_append, slice_length, hl, List.getElem?_drop,
            List.getElem?_nil, List.length_nil, List.length_append]
          split_ifs <;> first | rfl | omega | (congr 1; omega)
      · have h1 : h + n ≠ t := by omega
        simp only [hw, if_false, Option.map_some', h1]
        by_cases h2 : h + n = bs
        · simp only [h2, if_true]
          refine ⟨_, _, _, rfl, ⟨hl, by omega, by omega, by simp, by intro a; omega⟩, ?_,
            fun _ => rfl⟩
          by_cases h3 : t = 0
          · rw [ring_bytes_empty _ _ _ _ _ h3.symm rfl]
            apply List.ext_getElem?; intro i
            simp only [slice_getElem?, List.getElem?_append, slice_length, hl, List.getElem?_drop,
              List.getElem?_nil, List.length_nil, List.length_append]
            split_ifs <;> first | rfl | omega | (congr 1; omega)
          · rw [ring_bytes_contig _ _ _ _ _ (by omega)]
            apply List.ext_getElem?; intro i
            simp only [slice_getElem?, List.getElem?_append, slice_length, hl, List.getElem?_drop,
              List.getElem?_nil, List.length_nil, List.length_append]
            split_ifs <;> first | rfl | omega | (congr 1; omega)
        · simp only [h2, if_false]
          refine ⟨_, _, _, rfl, ⟨hl, by omega, by omega, by simp, by intro a; omega⟩, ?_,
            fun _ => rfl⟩
          rw [ring_bytes_wrap _ _ _ _ _ (by omega) (by intro a; omega)]
          apply List.ext_getElem?; intro i
          simp only [slice_getElem?, List.getElem?_append, slice_length, hl, List.getElem?_drop,
            List.getElem?_nil, List.length_nil, List.length_append]
          split_ifs <;> first | rfl | omega | (congr 1; omega)

theorem p_realloc_getElem? (mem : List Byte) (old new i : Nat) (h : mem.length = old) :
    (p_realloc mem old new)[i]? =
      if i < old then mem[i]? else if i < new then some 0 else none := by
  subst h
  simp only [p_realloc, List.take_length]
  by_cases h1 : i < mem.length
  · rw [List.getElem?_append_left h1]; simp [h1]
  · rw [List.getElem?_append_right (by omega)]
    simp only [if_neg h1]
    by_cases h2 : i < new
    · simp [h2, List.getElem?_replicate]; omega
    · simp [h2, List.getElem?_replicate]; omega

theorem p_realloc_length (mem : List Byte) (old new : Nat) (h : mem.length = old)
    (h2 : old ≤ new) : (p_realloc mem old new).length = new := by
  subst h
  simp [p_realloc]; omega

theorem regrow_spec (buf : List Byte) (bs h t : Nat) (f : Bool) (size : Nat)
    (hi : ring_inv buf.length bs h t f) (hfull : f = true → 0 < bs) (hs : bs < size) :
    ring_inv (regrow buf bs h t f size).1.length size (regrow buf bs h t f size).2 t false ∧
      ring_bytes (regrow buf bs h t f size).1 size (regrow buf bs h t f size).2 t false =
        ring_bytes buf bs h t f := by
  obtain ⟨hl, hh, ht, hf, hz⟩ := hi
  have hpl := p_realloc_length buf bs size hl (by omega)
  have hpe := fun i => p_realloc_getElem? buf bs size i hl
  unfold regrow
  simp only
  generalize p_realloc buf bs size = buf1 at *
  by_cases hm : t ≤ h ∧ ¬ (h = t ∧ f = false)
  · rw [if_pos hm]
    obtain ⟨hm1, hm2⟩ := hm
    have hne : h = t → f = true := by
      intro a
      cases f
      · exact absurd ⟨a, rfl⟩ hm2
      · rfl
    have hbs : 0 < bs := by
      by_cases a : h = t
      · exact hfull (hne a)
      · omega
    have hd : (bs - h) ≤ (buf1.drop h).length := by simp; omega
    have hml := memcpy_length buf1 (buf1.drop h) (size - (bs - h)) (bs - h) (by omega) hd
    have hme := fun i => memcpy_getElem? buf1 (buf1.drop h) (size - (bs - h)) (bs - h) i
      (by omega) hd
    unfold memmove
    generalize memcpy buf1 (size - (bs - h)) (buf1.drop h) (bs - h) = buf2 at *
    dsimp only
    refine ⟨⟨by omega, by omega, by omega, by simp, by intro a; omega⟩, ?_⟩
    rw [ring_bytes_wrap _ _ _ _ _ (by omega) (by intro a; omega)]
    rw [ring_bytes_wrap _ _ _ _ _ hm1 hne]
    apply List.ext_getElem?; intro i
    simp only [slice_getElem?, List.getElem?_append, slice_length, hl, hml, hme, hpl, hpe,
      List.getElem?_drop, List.getElem?_nil, List.length_nil, List.length_append]
    split_ifs <;> first | rfl | omega | (congr 1; omega)
  · rw [if_neg hm]
    dsimp only
    have hm' : h < t ∨ (h = t ∧ f = false) := by
      by_cases a : t ≤ h
      · right
        by_contra b
        exact hm ⟨a, b⟩
      · left; omega
    rcases hm' with a | ⟨a, b⟩
    · refine ⟨⟨by omega, by omega, by omega, by simp, by intro c; omega⟩, ?_⟩
      rw [ring_bytes_contig _ _ _ _ _ a, ring_bytes_contig _ _ _ _ _ a]
      apply List.ext_getElem?; intro i
      simp only [slice_getElem?, List.getElem?_append, slice_length, hl, hpl, hpe,
        List.getElem?_drop, List.getElem?_nil, List.length_nil, List.length_append]
      split_ifs <;> first | rfl | omega | (congr 1; omega)
    · subst b
      have h0 := hz a rfl
      refine ⟨⟨by omega, by omega, by omega, by simp, by intro c; omega⟩, ?_⟩
      rw [ring_bytes_empty _ _ _ _ _ a rfl, ring_bytes_empty _ _ _ _ _ a rfl]

/-! ## The ring buffer of a stream -/

theorem ring_data_eq (s : file_ostream) :
    ring_data s = ring_bytes s.buffer s.buffer_size s.head s.tail s.full := by
  unfold ring_data o_stream_fill_iovec ring_bytes IS_STREAM_EMPTY
  split_ifs with h1 h2 h3
  · rfl
  · simp
  · simp [h3, slice]
  · simp

theorem update_buffer_eq (s : file_ostream) (n : Nat) :
    update_buffer s n = (advance s.buffer_size s.head s.tail s.full n).map fun r =>
      { s with head := r.1, tail := r.2.1, full := r.2.2 } := by
  cases s
  simp only [update_buffer, advance, IS_STREAM_EMPTY]
  split_ifs <;> first | rfl | (simp only [Option.map_some', Option.map_none']; split_ifs <;> first | rfl | (exfalso; simp_all; done) | (simp_all; done))

theorem o_stream_grow_buffer_eq (s : file_ostream) (bytes : Nat) :
    o_stream_grow_buffer s bytes =
      if grow_size s bytes ≤ s.buffer_size then s
      else
        { s with
          buffer := (regrow s.buffer s.buffer_size s.head s.tail s.full (grow_size s bytes)).1
          head := (regrow s.buffer s.buffer_size s.head s.tail s.full (grow_size s bytes)).2
          full := false
          buffer_size := grow_size s bytes } := by
  cases s
  simp only [o_stream_grow_buffer, grow_size, regrow, IS_STREAM_EMPTY]
  split_ifs <;> first | rfl | (exfalso; simp_all; done) | (simp_all; done)

theorem ring_frame_refl (s : file_ostream) : ring_frame s s := rfl

theorem ring_frame_trans {a b c : file_ostream} (h1 : ring_frame a b) (h2 : ring_frame b c) :
    ring_frame a c := by
  unfold ring_frame at *
  rw [h2, h1]

theorem ring_data_length (s : file_ostream) (h : ring_ok s) :
    (ring_data s).length = s.buffer_size - get_unused_space s := by
  rw [ring_data_eq, ring_bytes_length _ _ _ _ _ h]
  obtain ⟨hl, hh, ht, hf, hz⟩ := h
  unfold get_unused_space
  cases hfull : s.full <;> simp only [hfull] at hf ⊢ <;> split_ifs <;> simp at * <;> omega

theorem get_unused_space_le (s : file_ostream) (h : ring_ok s) :
    get_unused_space s ≤ s.buffer_size := by
  obtain ⟨hl, hh, ht, hf, hz⟩ := h
  unfold get_unused_space
  split_ifs <;> omega

theorem update_buffer_spec (s : file_ostream) (n : Nat) (h : ring_ok s)
    (hn : n ≤ (ring_data s).length) :
    ∃ s', update_buffer s n = some s' ∧ ring_ok s' ∧ ring_data s' = (ring_data s).drop n ∧
      ring_frame s s' ∧ s'.buffer = s.buffer ∧ s'.buffer_size = s.buffer_size ∧
      (0 < n → s'.full = false) := by
  rw [ring_data_eq] at hn
  obtain ⟨h', t', f', e1, e2, e3, e4⟩ := advance_spec s.buffer s.buffer_size s.head s.tail s.full n h hn
  refine ⟨{ s with head := h', tail := t', full := f' }, ?_, e2, ?_, rfl, rfl, rfl, e4⟩
  · rw [update_buffer_eq, e1]; rfl
  · rw [ring_data_eq, ring_data_eq]; exact e3

theorem grow_size_le (s : file_ostream) (bytes : Nat) : grow_size s bytes ≤ s.max_buffer_size := by
  unfold grow_size
  simp only
  split_ifs <;> omega

theorem grow_size_ge (s : file_ostream) (bytes : Nat) :
    min (s.buffer_size + bytes) s.max_buffer_size ≤ grow_size s bytes := by
  have := s.pool.exp_grown_ge s.buffer_size (s.buffer_size + bytes)
  unfold grow_size
  simp only
  split_ifs <;> omega

theorem o_stream_grow_buffer_spec (s : file_ostream) (bytes : Nat) (h : ring_ok s)
    (hf : full_ok s) :
    ring_ok (o_stream_grow_buffer s bytes) ∧ full_ok (o_stream_grow_buffer s bytes) ∧
      ring_data (o_stream_grow_buffer s bytes) = ring_data s ∧
      ring_frame s (o_stream_grow_buffer s bytes) ∧
      (o_stream_grow_buffer s bytes).buffer_size = max s.buffer_size (grow_size s bytes) := by
  rw [o_stream_grow_buffer_eq]
  have hle := grow_size_le s bytes
  by_cases hg : grow_size s bytes ≤ s.buffer_size
  · rw [if_pos hg]
    exact ⟨h, hf, rfl, rfl, by omega⟩
  · rw [if_neg hg]
    have hf' : s.full = true → 0 < s.buffer_size := by
      intro a
      rcases hf a with b | b
      · exact b
      · omega
    obtain ⟨r1, r2⟩ := regrow_spec s.buffer s.buffer_size s.head s.tail s.full (grow_size s bytes)
      h hf' (by omega)
    refine ⟨r1, ?_, ?_, rfl, ?_⟩
    · intro a; cases a
    · rw [ring_data_eq, ring_data_eq]; exact r2
    · simp only; omega

theorem o_stream_add_copy_succ (data : List Byte) (n : Nat) (s : file_ostream) (sent : Nat) :
    o_stream_add_copy data (n + 1) s sent =
      if sent < data.length ∧ s.full = false then
        o_stream_add_copy data n
          { s with
            buffer := (put s.buffer s.buffer_size s.head s.tail data sent).1
            tail := (put s.buffer s.buffer_size s.head s.tail data sent).2.1
            full := (put s.buffer s.buffer_size s.head s.tail data sent).2.2.1 }
          (sent + (put s.buffer s.buffer_size s.head s.tail data sent).2.2.2)
      else (s, sent) := by
  cases s with
  | mk offset stream_errno overflow closed pool fd io buffer buffer_size max_buffer_size
      optimal_block_size head tail full file corked flush_pending no_socket_cork no_sendfile
      autoclose_fd =>
  simp only [o_stream_add_copy, put]
  by_cases hc : sent < data.length ∧ full = false
  · rw [if_pos hc, if_pos hc]
    obtain ⟨hc1, hc2⟩ := hc
    subst hc2
    have e : (if (if tail ≥ head then buffer_size - tail else head - tail) > data.length - sent
        then data.length - sent else (if tail ≥ head then buffer_size - tail else head - tail)) =
        min (data.length - sent) (if tail ≥ head then buffer_size - tail else head - tail) := by
      split_ifs <;> omega
    rw [e]
    congr 2
  · rw [if_neg hc, if_neg hc]


theorem slice_append (buf : List Byte) (off a b : Nat) :
    slice buf off a ++ slice buf (off + a) b = slice buf off (a + b) := by
  simp only [slice]
  rw [← List.drop_drop, List.take_add]

theorem slice_zero_eq_take (buf : List Byte) (n : Nat) : slice buf 0 n = buf.take n := by
  simp [slice]

/-- The numbers computed by one round of the copy loop. -/
theorem put_facts (buf : List Byte) (bs h t : Nat) (data : List Byte) (sent : Nat) :
    (put buf bs h t data sent).2.2.2 ≤ data.length - sent ∧
      (put buf bs h t data sent).2.2.2 ≤ (if t ≥ h then bs - t else h - t) ∧
      ((put buf bs h t data sent).2.2.2 = data.length - sent ∨
        (put buf bs h t data sent).2.2.2 = (if t ≥ h then bs - t else h - t)) ∧
      (put buf bs h t data sent).2.1 =
        (if t + (put buf bs h t data sent).2.2.2 = bs then 0
         else t + (put buf bs h t data sent).2.2.2) ∧
      ((put buf bs h t data sent).2.2.1 = true ↔ h = (put buf bs h t data sent).2.1) := by
  simp only [put, decide_eq_true_eq, and_true]
  refine ⟨Nat.min_le_left _ _, Nat.min_le_right _ _, ?_⟩
  omega

theorem add_copy_arith2 (bs h t len c1 t1 c2 : Nat)
    (hh : h < bs ∨ bs = 0 ∧ h = 0) (ht : t < bs ∨ bs = 0 ∧ t = 0) (hz : h = t → h = 0)
    (a1 : c1 ≤ len) (a2 : c1 ≤ if t ≥ h then bs - t else h - t)
    (a3 : c1 = len ∨ c1 = if t ≥ h then bs - t else h - t)
    (a4 : t1 = if t + c1 = bs then 0 else t + c1) (hd : h ≠ t1) (hc3 : c1 < len)
    (b1 : c2 ≤ len - c1) (b2 : c2 ≤ if t1 ≥ h then bs - t1 else h - t1)
    (b3 : c2 = len - c1 ∨ c2 = if t1 ≥ h then bs - t1 else h - t1) :
    c1 + c2 = min len (if h > t then h - t else if h < t then bs - t + h else bs) ∧
      0 < c1 + c2 := by
  split_ifs at a2 a3 a4 b2 b3 ⊢ <;> omega

theorem add_copy_arith1 (bs h t len c1 t1 : Nat)
    (hh : h < bs ∨ bs = 0 ∧ h = 0) (ht : t < bs ∨ bs = 0 ∧ t = 0) (hz : h = t → h = 0)
    (a1 : c1 ≤ len) (a2 : c1 ≤ if t ≥ h then bs - t else h - t)
    (a3 : c1 = len ∨ c1 = if t ≥ h then bs - t else h - t)
    (a4 : t1 = if t + c1 = bs then 0 else t + c1) (hd : c1 < len → h = t1) (hl : 0 < len) :
    c1 = min len (if h > t then h - t else if h < t then bs - t + h else bs) ∧
      (c1 = 0 → bs = 0) := by
  split_ifs at a2 a3 a4 ⊢ <;> omega

/-- Two rounds of the copy loop on a well-formed ring: the first bytes of `data`
are appended, as many as fit. -/
theorem o_stream_add_copy_spec (data : List Byte) (s : file_ostream) (h : ring_ok s) :
    ∃ s' sent, o_stream_add_copy data 2 s 0 = (s', sent) ∧ ring_ok s' ∧
      ring_data s' = ring_data s ++ data.take sent ∧
      sent = min data.length (get_unused_space s) ∧
      ring_frame s s' ∧ s'.buffer_size = s.buffer_size ∧
      (s'.full = true → s.full = true ∨ 0 < sent ∨ s.buffer_size = 0 ∧ 0 < data.length) := by
  rw [o_stream_add_copy_succ]
  by_cases hc : 0 < data.length ∧ s.full = false
  · rw [if_pos hc]
    obtain ⟨hc1, hc2⟩ := hc
    have h' : ring_inv s.buffer.length s.buffer_size s.head s.tail false := hc2 ▸ h
    obtain ⟨p1, p2⟩ := put_spec s.buffer s.buffer_size s.head s.tail data 0 h' hc1
    obtain ⟨a1, a2, a3, a4, a5⟩ := put_facts s.buffer s.buffer_size s.head s.tail data 0
    generalize put s.buffer s.buffer_size s.head s.tail data 0 = p at p1 p2 a1 a2 a3 a4 a5 ⊢
    obtain ⟨buf1, t1, f1, c1⟩ := p
    simp only [Nat.sub_zero] at p1 p2 a1 a2 a3 a4 a5 ⊢
    rw [o_stream_add_copy_succ]
    simp only [Nat.zero_add]
    have hu : get_unused_space s =
        if s.head > s.tail then s.head - s.tail
        else if s.head < s.tail then s.buffer_size - s.tail + s.head else s.buffer_size := by
      simp [get_unused_space, hc2]
    obtain ⟨hl, hh, ht, -, hz⟩ := h'
    have hz' := fun e => hz e rfl
    by_cases hc' : c1 < data.length ∧ f1 = false
    · rw [if_pos hc']
      obtain ⟨hc3, hc4⟩ := hc'
      have hd : s.head ≠ t1 := by
        intro a
        rw [a5.mpr a] at hc4
        cases hc4
      rw [hc4] at p1 p2
      obtain ⟨q1, q2⟩ := put_spec buf1 s.buffer_size s.head t1 data c1 p1 hc3
      obtain ⟨b1, b2, b3, b4, b5⟩ := put_facts buf1 s.buffer_size s.head t1 data c1
      generalize put buf1 s.buffer_size s.head t1 data c1 = q at q1 q2 b1 b2 b3 b4 b5 ⊢
      obtain ⟨buf2, t2, f2, c2⟩ := q
      simp only at q1 q2 b1 b2 b3 b4 b5
      simp only [o_stream_add_copy]
      refine ⟨_, _, rfl, q1, ?_, ?_, rfl, rfl, ?_⟩
      · rw [ring_data_eq, ring_data_eq]
        simp only
        rw [q2, p2, hc2, List.append_assoc]
        have := slice_append data 0 c1 c2
        rw [Nat.zero_add] at this
        rw [this, slice_zero_eq_take]
      · rw [hu]
        exact (add_copy_arith2 _ _ _ _ _ _ _ hh ht hz' a1 a2 a3 a4 hd hc3 b1 b2 b3).1
      · intro _
        right; left
        exact (add_copy_arith2 _ _ _ _ _ _ _ hh ht hz' a1 a2 a3 a4 hd hc3 b1 b2 b3).2
    · rw [if_neg hc']
      have hd : c1 < data.length → s.head = t1 := by
        intro a
        apply a5.mp
        cases f1
        · exact absurd ⟨a, rfl⟩ hc'
        · rfl
      refine ⟨_, _, rfl, p1, ?_, ?_, rfl, rfl, ?_⟩
      · rw [ring_data_eq, ring_data_eq]
        simp only
        rw [p2, hc2, slice_zero_eq_take]
      · rw [hu]
        exact (add_copy_arith1 _ _ _ _ _ _ hh ht hz' a1 a2 a3 a4 hd hc1).1
      · intro _
        have := (add_copy_arith1 _ _ _ _ _ _ hh ht hz' a1 a2 a3 a4 hd hc1).2
        by_cases a : c1 = 0
        · right; right; exact ⟨this a, hc1⟩
        · right; left; omega
  · rw [if_neg hc]
    have hu : min data.length (get_unused_space s) = 0 := by
      by_cases a : 0 < data.length
      · have b : s.full = true := by
          cases hb : s.full
          · exact absurd ⟨a, hb⟩ hc
          · rfl
        have := h.2.2.2.1 b
        simp [get_unused_space, b, this]
      · have : data.length = 0 := by omega
        simp [this]
    refine ⟨_, _, rfl, h, ?_, ?_, rfl, rfl, fun a => Or.inl a⟩
    · simp
    · exact hu.symm

theorem data_frame_refl (s : file_ostream) : data_frame s s := rfl

theorem data_frame_trans {a b c : file_ostream} (h1 : data_frame a b) (h2 : data_frame b c) :
    data_frame a c := by
  unfold data_frame at *
  rw [h2, h1]

theorem ring_frame_to_data {a b : file_ostream} (h : ring_frame a b) : data_frame a b := by
  unfold ring_frame at h
  unfold data_frame
  rw [h]

theorem data_frame_offset {s s' : file_ostream} (h : data_frame s s') : s'.offset = s.offset := by
  unfold data_frame at h; rw [h]

theorem data_frame_stream_errno {s s' : file_ostream} (h : data_frame s s') : s'.stream_errno = s.stream_errno := by
  unfold data_frame at h; rw [h]

theorem data_frame_overflow {s s' : file_ostream} (h : data_frame s s') : s'.overflow = s.overflow := by
  unfold data_frame at h; rw [h]

theorem data_frame_closed {s s' : file_ostream} (h : data_frame s s') : s'.closed = s.closed := by
  unfold data_frame at h; rw [h]

theorem data_frame_pool {s s' : file_ostream} (h : data_frame s s') : s'.pool = s.pool := by
  unfold data_frame at h; rw [h]

theorem data_frame_fd {s s' : file_ostream} (h : data_frame s s') : s'.fd = s.fd := by
  unfold data_frame at h; rw [h]

theorem data_frame_max_buffer_size {s s' : file_ostream} (h : data_frame s s') : s'.max_buffer_size = s.max_buffer_size := by
  unfold data_frame at h; rw [h]

theorem data_frame_optimal_block_size {s s' : file_ostream} (h : data_frame s s') : s'.optimal_block_size = s.optimal_block_size := by
  unfold data_frame at h; rw [h]

theorem data_frame_file {s s' : file_ostream} (h : data_frame s s') : s'.file = s.file := by
  unfold data_frame at h; rw [h]

theorem data_frame_corked {s s' : file_ostream} (h : data_frame s s') : s'.corked = s.corked := by
  unfold data_frame at h; rw [h]

theorem data_frame_flush_pending {s s' : file_ostream} (h : data_frame s s') : s'.flush_pending = s.flush_pending := by
  unfold data_frame at h; rw [h]

theorem data_frame_no_socket_cork {s s' : file_ostream} (h : data_frame s s') : s'.no_socket_cork = s.no_socket_cork := by
  unfold data_frame at h; rw [h]

theorem data_frame_no_sendfile {s s' : file_ostream} (h : data_frame s s') : s'.no_sendfile = s.no_sendfile := by
  unfold data_frame at h; rw [h]

theorem data_frame_autoclose_fd {s s' : file_ostream} (h : data_frame s s') : s'.autoclose_fd = s.autoclose_fd := by
  unfold data_frame at h; rw [h]

theorem ring_frame_io {s s' : file_ostream} (h : ring_frame s s') : s'.io = s.io := by
  unfold ring_frame at h; rw [h]

theorem grow_size_corked (s : file_ostream) (bytes : Nat) (hc : s.corked = true) :
    min s.optimal_block_size s.max_buffer_size ≤ grow_size s bytes := by
  unfold grow_size
  simp only [hc, if_true]
  split_ifs <;> omega

theorem add_amount_arith (bs mx used unused len g bs1 : Nat) (hu : used = bs - unused)
    (hule : unused ≤ bs) (hbm : bs ≤ mx) (hg1 : g ≤ mx) (hg2 : min (bs + (len - unused)) mx ≤ g)
    (hb : bs1 = if unused < len then max bs g else bs) :
    bs1 ≤ mx ∧ min len (bs1 - used) = min len (mx - used) := by
  split_ifs at hb <;> omega

/-- The optional growth at the start of `o_stream_add`. -/
theorem add_grow_spec (s : file_ostream) (n : Nat) (h : ring_ok s) (hf : full_ok s) :
    ∃ s1, (if get_unused_space s < n then o_stream_grow_buffer s (n - get_unused_space s)
        else s) = s1 ∧
      ring_ok s1 ∧ full_ok s1 ∧ ring_data s1 = ring_data s ∧ ring_frame s s1 ∧
      s.buffer_size ≤ s1.buffer_size ∧
      (s.buffer_size ≤ s.max_buffer_size →
        s1.buffer_size ≤ s.max_buffer_size ∧
        min n (s1.buffer_size - (ring_data s).length) =
          min n (s.max_buffer_size - (ring_data s).length)) ∧
      (s1.buffer_size = 0 → 0 < n → s.max_buffer_size = 0) ∧
      (s1.full = true → s.full = true) ∧
      (s.corked = true → s.buffer_size = 0 → 0 < n →
        min s.optimal_block_size s.max_buffer_size ≤ s1.buffer_size) := by
  have hule := get_unused_space_le s h
  have hlen := ring_data_length s h
  have hg1 := grow_size_le s (n - get_unused_space s)
  have hg2 := grow_size_ge s (n - get_unused_space s)
  by_cases hc : get_unused_space s < n
  · rw [if_pos hc]
    obtain ⟨g1, g2, g3, g4, g5⟩ := o_stream_grow_buffer_spec s (n - get_unused_space s) h hf
    refine ⟨_, rfl, g1, g2, g3, g4, by omega, ?_, ?_, ?_, ?_⟩
    · intro hbm
      rw [hlen]
      exact add_amount_arith _ _ _ _ n _ _ rfl hule hbm hg1 hg2 (by rw [g5, if_pos hc])
    · intro a b
      omega
    · intro a
      rw [o_stream_grow_buffer_eq] at a
      by_cases hg : grow_size s (n - get_unused_space s) ≤ s.buffer_size
      · rw [if_pos hg] at a; exact a
      · rw [if_neg hg] at a; cases a
    · intro a b c
      have := grow_size_corked s (n - get_unused_space s) a
      omega
  · rw [if_neg hc]
    refine ⟨_, rfl, h, hf, rfl, rfl, le_refl _, ?_, ?_, fun a => a, ?_⟩
    · intro hbm
      rw [hlen]
      exact add_amount_arith _ _ _ _ n _ _ rfl hule hbm hg1 hg2 (by rw [if_neg hc])
    · intro a b
      omega
    · intro a b c
      omega

/-- What `o_stream_add` does to a well-formed ring. -/
theorem o_stream_add_spec (s : file_ostream) (data : List Byte) (h : ring_ok s)
    (hf : full_ok s) :
    ∃ sent s', o_stream_add s data = (sent, s') ∧ ring_ok s' ∧ full_ok s' ∧
      ring_data s' = ring_data s ++ data.take sent ∧ sent ≤ data.length ∧
      data_frame s s' ∧
      s'.io = (s.io || (decide (sent ≠ 0) && !s.corked && !s.file)) ∧
      s.buffer_size ≤ s'.buffer_size ∧
      (s.buffer_size ≤ s.max_buffer_size →
        s'.buffer_size ≤ s.max_buffer_size ∧
        sent = min data.length (s.max_buffer_size - (ring_data s).length)) ∧
      (s'.full = true → s.full = true ∨ 0 < sent ∨ s.max_buffer_size = 0) ∧
      (s.corked = true → s.buffer_size = 0 → 0 < data.length →
        min s.optimal_block_size s.max_buffer_size ≤ s'.buffer_size) := by
  obtain ⟨s1, e1, g1, g2, g3, g4, g5, g6, g7, g8, g9⟩ := add_grow_spec s data.length h hf
  obtain ⟨s2, sent, e2, c1, c2, c3, c4, c5, c6⟩ := o_stream_add_copy_spec data s1 g1
  have hmax : s1.max_buffer_size = s.max_buffer_size := data_frame_max_buffer_size (ring_frame_to_data g4)
  have hmax2 : s2.max_buffer_size = s1.max_buffer_size := data_frame_max_buffer_size (ring_frame_to_data c4)
  have hule := get_unused_space_le s1 g1
  have hlen := ring_data_length s1 g1
  have hfull2 : full_ok s2 := by
    intro a
    rw [hmax2, hmax]
    rcases c6 a with b | b | ⟨b, b'⟩
    · rcases g2 b with d | d
      · left; omega
      · right; omega
    · left; omega
    · right; exact g7 b b'
  have hsent : sent ≤ data.length := by omega
  have hio1 : s1.io = s.io := ring_frame_io g4
  have hio2 : s2.io = s1.io := ring_frame_io c4
  have hck : s2.corked = s.corked := by
    rw [data_frame_corked (ring_frame_to_data c4), data_frame_corked (ring_frame_to_data g4)]
  have hfl : s2.file = s.file := by
    rw [data_frame_file (ring_frame_to_data c4), data_frame_file (ring_frame_to_data g4)]
  have hdf : data_frame s s2 :=
    data_frame_trans (ring_frame_to_data g4) (ring_frame_to_data c4)
  have hamt : s.buffer_size ≤ s.max_buffer_size →
      s2.buffer_size ≤ s.max_buffer_size ∧
        sent = min data.length (s.max_buffer_size - (ring_data s).length) := by
    intro a
    obtain ⟨b1, b2⟩ := g6 a
    refine ⟨by omega, ?_⟩
    rw [← b2, c3]
    rw [g3] at hlen
    omega
  have hfull3 : s2.full = true → s.full = true ∨ 0 < sent ∨ s.max_buffer_size = 0 := by
    intro a
    rcases c6 a with b | b | ⟨b, b'⟩
    · left; exact g8 b
    · right; left; exact b
    · right; right; exact g7 b b'
  have hres : o_stream_add s data =
      (sent, if sent ≠ 0 ∧ s2.io = false ∧ s2.corked = false ∧ s2.file = false then
        { s2 with io := true } else s2) := by
    simp only [o_stream_add]
    rw [e1, e2]
  rw [hres]
  by_cases hc : sent ≠ 0 ∧ s2.io = false ∧ s2.corked = false ∧ s2.file = false
  · rw [if_pos hc]
    obtain ⟨k1, k2, k3, k4⟩ := hc
    refine ⟨_, _, rfl, c1, hfull2, ?_, hsent, ?_, ?_, by simp only; omega, ?_, hfull3, ?_⟩
    · rw [ring_data_eq] at c2 ⊢
      rw [← g3]; exact c2
    · unfold data_frame at hdf ⊢
      rw [hdf]
    · rw [hck] at k3
      rw [hfl] at k4
      simp [k1, k3, k4]
    · intro a
      exact ⟨(hamt a).1, (hamt a).2⟩
    · intro a b c
      have := g9 a b c
      simp only; omega
  · rw [if_neg hc]
    refine ⟨_, _, rfl, c1, hfull2, ?_, hsent, hdf, ?_, by omega, hamt, hfull3, ?_⟩
    · rw [← g3]; exact c2
    · rw [hio2, hio1]
      rw [hck, hfl, hio2, hio1] at hc
      cases hs : s.io <;> cases hk : s.corked <;> cases hl : s.file <;>
        simp [hs, hk, hl] at hc ⊢ <;> omega
    · intro a b c
      have := g9 a b c
      omega

theorem World.grows_refl (w : World) : w.grows w := ⟨rfl, rfl, [], by simp⟩

theorem World.grows_trans {a b c : World} (h1 : a.grows b) (h2 : b.grows c) :
    a.grows c := by
  obtain ⟨k1, i1, l1, e1⟩ := h1
  obtain ⟨k2, i2, l2, e2⟩ := h2
  exact ⟨k2.trans k1, i2.trans i1, l1 ++ l2, by rw [e2, e1, List.append_assoc]⟩

theorem World.grows_record (w : World) (c : Syscall) (r : Int) (e : Nat) :
    w.grows (w.record c r e) := ⟨rfl, rfl, _, rfl⟩

theorem no_transport_error_extends {w w' : World} (h : no_transport_error w)
    (he : w.grows w') : no_transport_error w' := by
  intro log c e hc hk
  rw [he.1] at hk
  exact h log c e hc hk

theorem World.sent_record (w : World) (c : Syscall) (r : Int) (e : Nat) (fd : Int) :
    (w.record c r e).sent fd = w.sent fd ++ Event.sent fd ⟨c, r, e⟩ := by
  simp [World.sent, World.record]

theorem iov_total_flatten (iov : List const_iovec) : iov.flatten.length = iov_total iov := by
  simp [iov_total, List.length_flatten]

theorem Event.sent_write_call (fd : Int) (iov : List const_iovec) (k : Nat) (e : Nat) :
    Event.sent fd ⟨write_call fd iov, (k : Int), e⟩ = iov.flatten.take k := by
  unfold write_call
  split <;> simp [Event.sent]

theorem Event.sent_write_call_neg (fd : Int) (iov : List const_iovec) (e : Nat) :
    Event.sent fd ⟨write_call fd iov, -1, e⟩ = [] := by
  unfold write_call
  split <;> simp [Event.sent]

theorem write_call_is_write (fd : Int) (iov : List const_iovec) :
    (write_call fd iov).is_write = true := by
  unfold write_call
  split <;> rfl

theorem o_stream_writev_chunks_short (fd : Int) (fuel : Nat) (iov : List const_iovec)
    (sent : Nat) (w : World) (h : iov.length ≤ w.IOV_MAX) :
    o_stream_writev_chunks fd fuel iov sent w =
      (((writev w fd iov).1, (writev w fd iov).2.1, sent), (writev w fd iov).2.2) := by
  cases fuel with
  | zero => rfl
  | succ n =>
    unfold o_stream_writev_chunks
    rw [if_neg (by omega)]

/-- The scatter write of a vector of at most `IOV_MAX` entries is one system
call; its outcome follows the kernel's answer. -/
theorem o_stream_writev_short (s : file_ostream) (iov : List const_iovec) (w : World)
    (h : iov.length ≤ w.IOV_MAX) :
    o_stream_writev s iov w =
      match w.kernel w.log (write_call s.fd iov) with
      | .ok n =>
        ((min n (iov_total iov) : Nat), s,
          w.record (write_call s.fd iov) (min n (iov_total iov) : Nat) 0)
      | .error e =>
        if e = EAGAIN ∨ e = EINTR then (0, s, w.record (write_call s.fd iov) (-1) e)
        else
          (-1, (stream_closed { s with stream_errno := e }
                  (w.record (write_call s.fd iov) (-1) e)).1,
               (stream_closed { s with stream_errno := e }
                  (w.record (write_call s.fd iov) (-1) e)).2) := by
  unfold o_stream_writev o_stream_writev_ret
  split
  · rename_i e
    simp only [write, World.transfer, write_call, iov_total, List.map_cons, List.map_nil,
      List.sum_cons, List.sum_nil, Nat.add_zero]
    cases hk : w.kernel w.log (Syscall.write s.fd e) with
    | ok n =>
      simp only [transfer_ret]
      rw [if_neg (by omega)]
    | error e' =>
      simp only [transfer_ret]
      rw [if_pos (by omega)]
  · rename_i hne
    have hwc : write_call s.fd iov = Syscall.writev s.fd iov := by
      unfold write_call
      split
      · rename_i e
        exact absurd rfl (hne e)
      · rfl
    rw [o_stream_writev_chunks_short _ _ _ _ _ h, hwc]
    simp only [writev, World.transfer]
    cases hk : w.kernel w.log (Syscall.writev s.fd iov) with
    | ok n =>
      simp only [transfer_ret]
      have e1 : (if ((min n (iov_total iov) : Nat) : Int) > 0 then
          ((min n (iov_total iov) : Nat) : Int) + ((0 : Nat) : Int)
          else ((min n (iov_total iov) : Nat) : Int)) = ((min n (iov_total iov) : Nat) : Int) := by
        split_ifs <;> simp
      rw [e1, if_neg (by omega)]
    | error e' =>
      simp only [transfer_ret]
      have e1 : (if (-1 : Int) > 0 then (-1 : Int) + ((0 : Nat) : Int) else -1) = -1 := by
        rw [if_neg (by omega)]
      rw [e1, if_pos (by omega)]

theorem update_buffer_zero (s : file_ostream) : update_buffer s 0 = some s := by
  simp [update_buffer]

theorem fill_iovec_length_le (s : file_ostream) : (o_stream_fill_iovec s).length ≤ 2 := by
  unfold o_stream_fill_iovec
  split_ifs <;> simp

theorem fill_iovec_length_pos (s : file_ostream) :
    (o_stream_fill_iovec s).length > 0 ↔ ¬ IS_STREAM_EMPTY s := by
  unfold o_stream_fill_iovec
  split_ifs <;> simp [*]

theorem fill_iovec_total (s : file_ostream) :
    iov_total (o_stream_fill_iovec s) = (ring_data s).length := by
  rw [← iov_total_flatten]; rfl

theorem buffer_flush_empty (s : file_ostream) (w : World) (he : IS_STREAM_EMPTY s) :
    buffer_flush s w = some (1, s, w) := by
  unfold buffer_flush
  have : ¬ (o_stream_fill_iovec s).length > 0 := by
    rw [fill_iovec_length_pos]; exact not_not.mpr he
  simp only [this, if_false, he, if_true]

/-- The flush of a non-empty ring is one scatter write of the buffered bytes,
followed by `update_buffer` with the count the kernel took. -/
theorem buffer_flush_nonempty (s : file_ostream) (w : World) (hne : ¬ IS_STREAM_EMPTY s) :
    buffer_flush s w =
      match w.kernel w.log (write_call s.fd (o_stream_fill_iovec s)) with
      | .ok n =>
        (update_buffer s (min n (ring_data s).length)).map fun s' =>
          (if IS_STREAM_EMPTY s' then 1 else 0, s',
            w.record (write_call s.fd (o_stream_fill_iovec s))
              (min n (ring_data s).length : Nat) 0)
      | .error e =>
        if e = EAGAIN ∨ e = EINTR then
          some (0, s, w.record (write_call s.fd (o_stream_fill_iovec s)) (-1) e)
        else
          some (-1, (stream_closed { s with stream_errno := e }
                  (w.record (write_call s.fd (o_stream_fill_iovec s)) (-1) e)).1,
               (stream_closed { s with stream_errno := e }
                  (w.record (write_call s.fd (o_stream_fill_iovec s)) (-1) e)).2) := by
  unfold buffer_flush
  have hpos : (o_stream_fill_iovec s).length > 0 := (fill_iovec_length_pos s).mpr hne
  have hshort : (o_stream_fill_iovec s).length ≤ w.IOV_MAX := by
    have := fill_iovec_length_le s
    have := w.IOV_MAX_ge
    omega
  simp only [hpos, if_true]
  rw [o_stream_writev_short s _ w hshort, fill_iovec_total]
  cases hk : w.kernel w.log (write_call s.fd (o_stream_fill_iovec s)) with
  | ok n =>
    simp only
    rw [if_neg (by omega)]
    simp only [Int.toNat_ofNat]
  | error e =>
    simp only
    by_cases he : e = EAGAIN ∨ e = EINTR
    · simp only [he, if_true]
      rw [if_neg (by omega)]
      simp [update_buffer_zero, hne]
    · simp only [he, if_false]
      rw [if_pos (by omega)]

theorem well_formed_full_ok {s : file_ostream} (h : well_formed s) : full_ok s :=
  fun a => Or.inl (h.2 a)

theorem empty_norm (s : file_ostream) (h : ring_ok s) (he : IS_STREAM_EMPTY s) :
    s.head = 0 ∧ s.tail = 0 ∧ s.full = false := by
  obtain ⟨-, -, -, -, hz⟩ := h
  have := hz he.1 he.2
  exact ⟨this, by rw [← he.1]; exact this, he.2⟩

theorem ring_data_empty (s : file_ostream) (he : IS_STREAM_EMPTY s) : ring_data s = [] := by
  rw [ring_data_eq]; exact ring_bytes_empty _ _ _ _ _ he.1 he.2

theorem empty_iff_ring_data (s : file_ostream) (h : well_formed s) :
    IS_STREAM_EMPTY s ↔ ring_data s = [] := by
  constructor
  · exact ring_data_empty s
  · intro e
    have hl := ring_bytes_length s.buffer s.buffer_size s.head s.tail s.full h.1
    rw [← ring_data_eq, e] at hl
    obtain ⟨⟨hl', hh, ht, hf, hz⟩, h3⟩ := h
    unfold IS_STREAM_EMPTY
    cases hfull : s.full
    · simp only [hfull, Bool.false_eq_true, if_false, List.length_nil] at hl
      refine ⟨?_, rfl⟩
      split_ifs at hl <;> omega
    · have := h3 hfull
      have := hf hfull
      simp only [hfull, this, if_true, List.length_nil] at hl
      omega

/-- What a flush does to a well-formed stream when the kernel takes `k` bytes. -/
theorem buffer_flush_ok (s : file_ostream) (w : World) (h : well_formed s)
    (hne : ¬ IS_STREAM_EMPTY s) (n : Nat)
    (hk : w.kernel w.log (write_call s.fd (o_stream_fill_iovec s)) = .ok n) :
    ∃ s', buffer_flush s w =
        some (if min n (ring_data s).length = (ring_data s).length then 1 else 0, s',
          w.record (write_call s.fd (o_stream_fill_iovec s))
            (min n (ring_data s).length : Nat) 0) ∧
      well_formed s' ∧ ring_data s' = (ring_data s).drop (min n (ring_data s).length) ∧
      ring_frame s s' ∧ s'.buffer_size = s.buffer_size ∧
      (IS_STREAM_EMPTY s' ↔ min n (ring_data s).length = (ring_data s).length) := by
  rw [buffer_flush_nonempty s w hne, hk]
  obtain ⟨s', e1, e2, e3, e4, e5, e6, e7⟩ :=
    update_buffer_spec s (min n (ring_data s).length) h.1 (Nat.min_le_right _ _)
  have hwf : well_formed s' := by
    refine ⟨e2, ?_⟩
    intro a
    rw [e6]
    by_cases hz : 0 < min n (ring_data s).length
    · rw [e7 hz] at a; cases a
    · have h0 : min n (ring_data s).length = 0 := by omega
      rw [h0, update_buffer_zero] at e1
      cases e1
      exact h.2 a
  have hiff : IS_STREAM_EMPTY s' ↔ min n (ring_data s).length = (ring_data s).length := by
    rw [empty_iff_ring_data s' hwf, e3]
    constructor
    · intro a
      have := congrArg List.length a
      simp only [List.length_drop, List.length_nil] at this
      omega
    · intro a
      rw [a]; simp
  refine ⟨s', ?_, hwf, e3, e4, e6, hiff⟩
  simp only [e1, Option.map_some']
  by_cases hc : min n (ring_data s).length = (ring_data s).length
  · rw [if_pos (hiff.mpr hc), if_pos hc]
  · rw [if_neg (fun a => hc (hiff.mp a)), if_neg hc]

/-- C5: on a well-formed stream, `flush` issues no write when the buffer is
empty and returns 1; otherwise it issues a single scatter write of the buffered
bytes and, when the kernel takes `k` of the `u` buffered bytes, leaves exactly
the last `u - k` bytes in order, returning 1 when `k = u` (the ring is then empty
with `head = tail = 0` and `full` clear) and 0 when bytes remain; `EAGAIN`/`EINTR`
leave the stream as it was and return 0; any other error returns -1. -/
theorem flush_drains_buffer (s : file_ostream) (w : World) (h : well_formed s) :
    (IS_STREAM_EMPTY s → _flush s w = some (1, s, w)) ∧
    (¬ IS_STREAM_EMPTY s →
      (o_stream_fill_iovec s).flatten = ring_data s ∧
      (∀ n, w.kernel w.log (write_call s.fd (o_stream_fill_iovec s)) = .ok n →
        ∃ s', _flush s w =
            some (if min n (ring_data s).length = (ring_data s).length then 1 else 0, s',
              w.record (write_call s.fd (o_stream_fill_iovec s))
                (min n (ring_data s).length : Nat) 0) ∧
          well_formed s' ∧
          ring_data s' = (ring_data s).drop (min n (ring_data s).length) ∧
          (min n (ring_data s).length = (ring_data s).length →
            IS_STREAM_EMPTY s' ∧ s'.head = 0 ∧ s'.tail = 0 ∧ s'.full = false) ∧
          (min n (ring_data s).length < (ring_data s).length → ¬ IS_STREAM_EMPTY s')) ∧
      (∀ e, w.kernel w.log (write_call s.fd (o_stream_fill_iovec s)) = .error e →
        (e = EAGAIN ∨ e = EINTR) →
        _flush s w = some (0, s, w.record (write_call s.fd (o_stream_fill_iovec s)) (-1) e)) ∧
      (∀ e, w.kernel w.log (write_call s.fd (o_stream_fill_iovec s)) = .error e →
        ¬ (e = EAGAIN ∨ e = EINTR) →
        ∃ s' w', _flush s w = some (-1, s', w') ∧ s'.stream_errno = e ∧
          s'.closed = true)) := by
  refine ⟨fun he => buffer_flush_empty s w he, fun hne => ⟨rfl, ?_, ?_, ?_⟩⟩
  · intro n hk
    obtain ⟨s', e1, e2, e3, -, -, e6⟩ := buffer_flush_ok s w h hne n hk
    refine ⟨s', e1, e2, e3, ?_, ?_⟩
    · intro a
      have he := e6.mpr a
      exact ⟨he, empty_norm s' e2.1 he⟩
    · intro a b
      have := e6.mp b
      omega
  · intro e hk he
    unfold _flush
    rw [buffer_flush_nonempty s w hne, hk]
    simp only [he, if_true]
  · intro e hk he
    unfold _flush
    rw [buffer_flush_nonempty s w hne, hk]
    simp only [he, if_false]
    refine ⟨_, _, rfl, ?_, ?_⟩
    · unfold stream_closed
      simp only
      split_ifs <;> rfl
    · rfl

/-- Witness for `flush_drains_buffer`: three bytes wrapped around the end of the
ring, the kernel takes two; the third stays buffered and the flush returns 0. -/
theorem flush_drains_buffer_witness :
    well_formed wrapped_stream ∧ ring_data wrapped_stream = [1, 2, 3] ∧
      ∃ s', _flush wrapped_stream (scripted [.ok 2]) =
          some (0, s', (scripted [.ok 2]).record (.writev 5 [[1, 2], [3]]) 2 0) ∧
        ring_data s' = [3] := by
  have hw : well_formed wrapped_stream := by decide
  have hne : ¬ IS_STREAM_EMPTY wrapped_stream := by decide
  obtain ⟨s', e1, -, e3, -, -⟩ :=
    ((flush_drains_buffer wrapped_stream (scripted [.ok 2]) hw).2 hne).2.1 2 rfl
  exact ⟨hw, rfl, s', e1, e3⟩

/-! ## Fields the data path leaves alone -/

theorem o_stream_grow_buffer_frame (s : file_ostream) (bytes : Nat) :
    ring_frame s (o_stream_grow_buffer s bytes) := by
  rw [o_stream_grow_buffer_eq]
  split_ifs <;> rfl

theorem o_stream_add_copy_frame (data : List Byte) (n : Nat) :
    ∀ (s : file_ostream) (sent : Nat), ring_frame s (o_stream_add_copy data n s sent).1 := by
  induction n with
  | zero => intro s sent; rfl
  | succ n ih =>
    intro s sent
    rw [o_stream_add_copy_succ]
    split_ifs
    · refine ring_frame_trans ?_ (ih _ _)
      unfold ring_frame; rfl
    · rfl

theorem o_stream_add_frame (s : file_ostream) (data : List Byte) :
    data_frame s (o_stream_add s data).2 := by
  have h1 : ring_frame s (if get_unused_space s < data.length then
      o_stream_grow_buffer s (data.length - get_unused_space s) else s) := by
    split_ifs
    · exact o_stream_grow_buffer_frame _ _
    · rfl
  have h2 := o_stream_add_copy_frame data 2 (if get_unused_space s < data.length then
      o_stream_grow_buffer s (data.length - get_unused_space s) else s) 0
  have h3 := data_frame_trans (ring_frame_to_data h1) (ring_frame_to_data h2)
  simp only [o_stream_add]
  generalize o_stream_add_copy data 2 (if get_unused_space s < data.length then
      o_stream_grow_buffer s (data.length - get_unused_space s) else s) 0 = r at h3 ⊢
  obtain ⟨s2, sent⟩ := r
  simp only at h3 ⊢
  split_ifs
  · unfold data_frame at h3 ⊢
    conv_lhs => rw [h3]
  · exact h3

theorem sendv_buffer_frame (iov : List const_iovec) :
    ∀ (s : file_ostream) (ret : Int),
      data_frame s (sendv_buffer iov s ret).2 ∧ ret ≤ (sendv_buffer iov s ret).1 := by
  induction iov with
  | nil => intro s ret; exact ⟨rfl, le_refl _⟩
  | cons e iov ih =>
    intro s ret
    simp only [sendv_buffer]
    have hf := o_stream_add_frame s e
    split_ifs
    · exact ⟨hf, by omega⟩
    · obtain ⟨i1, i2⟩ := ih (o_stream_add s e).2 (ret + ((o_stream_add s e).1 : Int))
      exact ⟨data_frame_trans hf i1, by omega⟩

/-- The scatter write either succeeds and leaves the stream alone, or fails
with -1 and closes it; it never touches `offset`. -/
theorem o_stream_writev_shape (s : file_ostream) (iov : List const_iovec) (w : World) :
    (0 ≤ (o_stream_writev s iov w).1 ∧ (o_stream_writev s iov w).2.1 = s) ∨
      ((o_stream_writev s iov w).1 = -1 ∧ (o_stream_writev s iov w).2.1.closed = true ∧
        (o_stream_writev s iov w).2.1.io = false ∧
        (o_stream_writev s iov w).2.1.offset = s.offset) := by
  unfold o_stream_writev
  generalize o_stream_writev_ret s.fd iov w = r
  simp only
  split_ifs with h1 h2
  · left; exact ⟨le_refl _, rfl⟩
  · right
    refine ⟨rfl, rfl, rfl, ?_⟩
    unfold stream_closed
    simp only
    split_ifs <;> rfl
  · left; exact ⟨by omega, rfl⟩

theorem update_buffer_frame (s s' : file_ostream) (n : Nat) (h : update_buffer s n = some s') :
    ring_frame s s' := by
  rw [update_buffer_eq] at h
  cases ha : advance s.buffer_size s.head s.tail s.full n with
  | none => rw [ha] at h; cases h
  | some r =>
    rw [ha] at h
    simp only [Option.map_some', Option.some.injEq] at h
    rw [← h]
    rfl

/-- A flush that returns either leaves everything but the ring alone, or has
failed with -1 and closed the stream; it never touches `offset`. -/
theorem buffer_flush_shape (s : file_ostream) (w : World) (r : Int) (s' : file_ostream)
    (w' : World) (h : buffer_flush s w = some (r, s', w')) :
    (0 ≤ r ∧ ring_frame s s') ∨
      (r = -1 ∧ s'.closed = true ∧ s'.io = false ∧ s'.offset = s.offset) := by
  unfold buffer_flush at h
  simp only at h
  split_ifs at h with h1 h2 h3
  · simp only [Option.some.injEq, Prod.mk.injEq] at h
    obtain ⟨e1, e2, -⟩ := h
    rcases o_stream_writev_shape s (o_stream_fill_iovec s) w with ⟨a, -⟩ | ⟨a, b, c, d⟩
    · omega
    · right; rw [← e1, ← e2]; exact ⟨rfl, b, c, d⟩
  · rcases o_stream_writev_shape s (o_stream_fill_iovec s) w with ⟨a, b⟩ | ⟨a, -⟩
    · rw [b] at h
      cases hu : update_buffer s (o_stream_writev s (o_stream_fill_iovec s) w).1.toNat with
      | none => rw [hu] at h; cases h
      | some s1 =>
        rw [hu] at h
        simp only [Option.map_some', Option.some.injEq, Prod.mk.injEq] at h
        obtain ⟨e1, e2, -⟩ := h
        left
        rw [← e2, ← e1]
        refine ⟨?_, update_buffer_frame _ _ _ hu⟩
        split_ifs <;> omega
    · omega
  · simp only [Option.some.injEq, Prod.mk.injEq] at h
    obtain ⟨e1, e2, -⟩ := h
    left; rw [← e1, ← e2]; exact ⟨by omega, rfl⟩
  · simp only [Option.some.injEq, Prod.mk.injEq] at h
    obtain ⟨e1, e2, -⟩ := h
    left; rw [← e1, ← e2]; exact ⟨by omega, rfl⟩

theorem sendv_send_offset (s : file_ostream) (iov : List const_iovec) (w : World) :
    (0 ≤ (sendv_send s iov w).1 ∧
        (sendv_send s iov w).2.1.offset = s.offset + (sendv_send s iov w).1.toNat) ∨
      ((sendv_send s iov w).1 = -1 ∧ (sendv_send s iov w).2.1.offset = s.offset) := by
  unfold sendv_send
  simp only
  split_ifs with h1 h2
  · right
    rcases o_stream_writev_shape s iov w with ⟨a, -⟩ | ⟨-, -, -, d⟩
    · omega
    · exact ⟨rfl, d⟩
  · left
    rcases o_stream_writev_shape s iov w with ⟨a, b⟩ | ⟨a, -⟩
    · split
      · simp only [b]
        exact ⟨a, trivial⟩
      · rename_i size e rest hsk
        have hf := o_stream_add_frame (o_stream_writev s iov w).2.1 (List.drop size e)
        rw [b] at hf
        split_ifs
        · simp only [b]
          refine ⟨by omega, ?_⟩
          rw [data_frame_offset hf]
        · obtain ⟨g1, g2⟩ := sendv_buffer_frame rest
            (o_stream_add (o_stream_writev s iov w).2.1 (List.drop size e)).2
            ((o_stream_writev s iov w).1 +
              ((o_stream_add (o_stream_writev s iov w).2.1 (List.drop size e)).1 : Int))
          simp only
          refine ⟨by omega, ?_⟩
          rw [data_frame_offset g1]
          rw [b]
          rw [data_frame_offset hf]
    · omega
  · left
    obtain ⟨g1, g2⟩ := sendv_buffer_frame iov s 0
    simp only
    refine ⟨g2, ?_⟩
    rw [data_frame_offset g1]

theorem buffer_flush_total (s : file_ostream) (w : World) (h : ring_ok s) :
    ∃ x, buffer_flush s w = some x := by
  by_cases he : IS_STREAM_EMPTY s
  · exact ⟨_, buffer_flush_empty s w he⟩
  · rw [buffer_flush_nonempty s w he]
    cases w.kernel w.log (write_call s.fd (o_stream_fill_iovec s)) with
    | ok n =>
      obtain ⟨s', e1, -⟩ :=
        update_buffer_spec s (min n (ring_data s).length) h (Nat.min_le_right _ _)
      simp only [e1, Option.map_some']
      exact ⟨_, rfl⟩
    | error e =>
      simp only
      split_ifs <;> exact ⟨_, rfl⟩

/-- C3: whenever `_sendv` returns, a non-negative result `r` has been added to
the stream's `offset` and a result of -1 has left `offset` unchanged (no other
result exists); and on a stream with a well-formed ring `_sendv` does return. -/
theorem sendv_advances_offset (s : file_ostream) (iov : List const_iovec) (w : World) :
    (∀ r s' w', _sendv s iov w = some (r, s', w') →
      (0 ≤ r ∧ (s'.offset : Int) = (s.offset : Int) + r) ∨
        (r = -1 ∧ s'.offset = s.offset)) ∧
    (ring_ok s → ∃ r s' w', _sendv s iov w = some (r, s', w')) := by
  constructor
  · intro r s' w' h
    unfold _sendv at h
    simp only at h
    have key : ∀ (s1 : file_ostream) (w1 : World), s1.offset = s.offset →
        (r, s', w') = sendv_send s1 iov w1 →
        (0 ≤ r ∧ (s'.offset : Int) = (s.offset : Int) + r) ∨
          (r = -1 ∧ s'.offset = s.offset) := by
      intro s1 w1 ho e
      have e1 : r = (sendv_send s1 iov w1).1 := congrArg Prod.fst e
      have e2 : s' = (sendv_send s1 iov w1).2.1 := congrArg (fun x => x.2.1) e
      rcases sendv_send_offset s1 iov w1 with ⟨a, b⟩ | ⟨a, b⟩
      · left
        rw [e1, e2, b, ho]
        refine ⟨a, ?_⟩
        push_cast
        rw [Int.toNat_of_nonneg a]
      · right
        rw [e1, e2, b, ho]
        exact ⟨a, rfl⟩
    split_ifs at h with hc
    · unfold _flush at h
      cases hfl : buffer_flush { s with stream_errno := 0 } w with
      | none => rw [hfl] at h; cases h
      | some x =>
        obtain ⟨rf, sf, wf⟩ := x
        rw [hfl] at h
        simp only [Option.map_some', Option.some.injEq] at h
        rcases buffer_flush_shape _ _ _ _ _ hfl with ⟨a, b⟩ | ⟨a, -, -, d⟩
        · rw [if_neg (by omega)] at h
          exact key sf wf (by rw [data_frame_offset (ring_frame_to_data b)]) h.symm
        · rw [if_pos (by omega)] at h
          simp only [Prod.mk.injEq] at h
          right
          rw [← h.1, ← h.2.1]
          exact ⟨rfl, d⟩
    · simp only [Option.some.injEq] at h
      exact key { s with stream_errno := 0 } w rfl h.symm
  · intro hr
    unfold _sendv
    simp only
    split_ifs
    · obtain ⟨x, hx⟩ := buffer_flush_total { s with stream_errno := 0 } w hr
      unfold _flush
      rw [hx]
      exact ⟨_, _, _, rfl⟩
    · exact ⟨_, _, _, rfl⟩

/-- Witness for `sendv_advances_offset`: 64 bytes sent on a fresh socket stream
of which the kernel takes 16; `_sendv` returns 64 and `offset` becomes 64. -/
theorem sendv_advances_offset_witness :
    ∃ s' w', _sendv (socket_stream 5 1024) [List.replicate 64 65] (scripted [.ok 16]) =
        some (64, s', w') ∧ s'.offset = 64 := by
  obtain ⟨r, s', w', h⟩ :=
    (sendv_advances_offset (socket_stream 5 1024) [List.replicate 64 65]
      (scripted [.ok 16])).2 (by decide)
  have hr : r = 64 := by
    have := congrArg (Option.map Prod.fst) h
    exact (Option.some.inj this).symm
  subst hr
  refine ⟨s', w', h, ?_⟩
  rcases (sendv_advances_offset (socket_stream 5 1024) [List.replicate 64 65]
      (scripted [.ok 16])).1 _ _ _ h with ⟨-, b⟩ | ⟨a, -⟩
  · have : ((socket_stream 5 1024).offset : Int) = 0 := rfl
    rw [this] at b
    omega
  · omega

theorem iov_total_cons (e : const_iovec) (iov : List const_iovec) :
    iov_total (e :: iov) = e.length + iov_total iov := by
  simp [iov_total]

theorem iov_total_nil : iov_total [] = 0 := rfl

/-- The loop stepping over the entries sent in full stops inside, or at the
start of, the first entry with unsent bytes. -/
theorem sendv_skip_spec (iov : List const_iovec) :
    ∀ k, k ≤ iov_total iov →
      ∃ sz rest, sendv_skip k iov = (sz, rest) ∧ iov.flatten.drop k = rest.flatten.drop sz ∧
        iov_total rest - sz = iov_total iov - k ∧
        (rest = [] → sz = 0) ∧ (∀ e tl, rest = e :: tl → sz ≤ e.length) := by
  induction iov with
  | nil =>
    intro k hk
    rw [iov_total_nil] at hk
    have : k = 0 := by omega
    subst this
    exact ⟨0, [], rfl, rfl, rfl, fun _ => rfl, fun e tl h => by cases h⟩
  | cons e iov ih =>
    intro k hk
    rw [iov_total_cons] at hk
    unfold sendv_skip
    by_cases hc : k > 0 ∧ k ≥ e.length
    · rw [if_pos hc]
      obtain ⟨sz, rest, e1, e2, e3, e4, e5⟩ := ih (k - e.length) (by omega)
      refine ⟨sz, rest, e1, ?_, ?_, e4, e5⟩
      · rw [← e2, List.flatten_cons, List.drop_append_eq_append_drop,
          List.drop_of_length_le hc.2, List.nil_append]
      · rw [e3, iov_total_cons]; omega
    · rw [if_neg hc]
      refine ⟨k, e :: iov, rfl, rfl, rfl, (fun h => by cases h), ?_⟩
      intro e' tl h
      cases h
      omega

/-- The final loop of `_sendv` appends the first `a` bytes of the vector. -/
theorem sendv_buffer_spec (iov : List const_iovec) :
    ∀ (s : file_ostream) (ret : Int), ring_ok s → full_ok s →
      ∃ (a : Nat) (s' : file_ostream), sendv_buffer iov s ret = (ret + (a : Int), s') ∧ a ≤ iov_total iov ∧
        ring_ok s' ∧ full_ok s' ∧ ring_data s' = ring_data s ++ iov.flatten.take a ∧
        data_frame s s' ∧
        s'.io = (s.io || (decide (a ≠ 0) && !s.corked && !s.file)) ∧
        (s'.full = true → s.full = true ∨ 0 < a ∨ s.max_buffer_size = 0) ∧
        s.buffer_size ≤ s'.buffer_size ∧
        (s.buffer_size ≤ s.max_buffer_size →
          s'.buffer_size ≤ s.max_buffer_size ∧
          a = min (iov_total iov) (s.max_buffer_size - (ring_data s).length)) := by
  induction iov with
  | nil =>
    intro s ret h hf
    refine ⟨0, s, by simp [sendv_buffer], le_refl _, h, hf, by simp, rfl, by simp,
      fun a => Or.inl a, le_refl _, fun a => ⟨a, by simp [iov_total_nil]⟩⟩
  | cons e iov ih =>
    intro s ret h hf
    obtain ⟨sent, s1, e1, a1, a2, a3, a4, a5, a6, a7, a8, a9, -⟩ := o_stream_add_spec s e h hf
    simp only [sendv_buffer, e1]
    by_cases hc : sent ≠ e.length
    · rw [if_pos hc]
      refine ⟨sent, s1, rfl, by rw [iov_total_cons]; omega, a1, a2, ?_, a5, a6, a9, a7, ?_⟩
      · rw [a3, List.flatten_cons, List.take_append_of_le_length (by omega)]
      · intro hb
        obtain ⟨b1, b2⟩ := a8 hb
        refine ⟨b1, ?_⟩
        rw [iov_total_cons]; omega
    · rw [if_neg hc]
      have hc' : sent = e.length := by omega
      subst hc'
      obtain ⟨a, s2, f1, f2, f3, f4, f5, f6, f7, f8, f9, f10⟩ :=
        ih s1 (ret + (e.length : Int)) a1 a2
      have hmax : s1.max_buffer_size = s.max_buffer_size := data_frame_max_buffer_size a5
      have hck : s1.corked = s.corked := data_frame_corked a5
      have hfl : s1.file = s.file := data_frame_file a5
      refine ⟨e.length + a, s2, ?_, by rw [iov_total_cons]; omega, f3, f4, ?_,
        data_frame_trans a5 f6, ?_, ?_, by omega, ?_⟩
      · rw [f1]; push_cast; rw [Int.add_assoc]
      · rw [f5, a3, List.take_of_length_le (le_refl _), List.flatten_cons, List.append_assoc,
          List.take_append]
      · rw [f7, a6, hck, hfl]
        cases s.io <;> cases s.corked <;> cases s.file <;>
          by_cases h1 : e.length = 0 <;> by_cases h2 : a = 0 <;> simp [h1, h2]
      · intro hb
        rcases f8 hb with c | c | c
        · rcases a9 c with d | d | d
          · left; exact d
          · right; left; omega
          · right; right; exact d
        · right; left; omega
        · right; right; rw [← hmax]; exact c
      · intro hb
        obtain ⟨b1, b2⟩ := a8 hb
        obtain ⟨c1, c2⟩ := f10 (by rw [hmax]; exact b1)
        rw [hmax] at c1 c2
        refine ⟨c1, ?_⟩
        rw [iov_total_cons, c2, a3]
        simp only [List.length_append, List.length_take]
        omega

theorem World.sent_record_write (w : World) (fd : Int) (iov : List const_iovec) (k : Nat)
    (e : Nat) :
    (w.record (write_call fd iov) (k : Int) e).sent fd = w.sent fd ++ iov.flatten.take k := by
  rw [World.sent_record, Event.sent_write_call]

theorem World.sent_record_neg (w : World) (fd : Int) (iov : List const_iovec) (e : Nat) :
    (w.record (write_call fd iov) (-1) e).sent fd = w.sent fd := by
  rw [World.sent_record, Event.sent_write_call_neg, List.append_nil]

/-- When its one system call meets no transport error, the scatter write of a
vector of at most `IOV_MAX` entries that returns the count the kernel took and leaves the
stream alone. -/
theorem o_stream_writev_content (s : file_ostream) (iov : List const_iovec) (w : World)
    (h : iov.length ≤ w.IOV_MAX)
    (hn : ∀ e, w.kernel w.log (write_call s.fd iov) = .error e → e = EAGAIN ∨ e = EINTR) :
    ∃ (ret : Int) (e : Nat),
      o_stream_writev s iov w =
        (((accepted (w.kernel w.log (write_call s.fd iov)) (iov_total iov) : Nat) : Int), s,
          w.record (write_call s.fd iov) ret e) ∧
      (w.record (write_call s.fd iov) ret e).sent s.fd =
        w.sent s.fd ++
          iov.flatten.take (accepted (w.kernel w.log (write_call s.fd iov)) (iov_total iov)) := by
  rw [o_stream_writev_short s iov w h]
  cases hk : w.kernel w.log (write_call s.fd iov) with
  | ok n =>
    exact ⟨(min n (iov_total iov) : Nat), 0, rfl, World.sent_record_write _ _ _ _ _⟩
  | error e =>
    have he := hn e hk
    refine ⟨-1, e, ?_, ?_⟩
    · simp only [he, if_true, accepted]; rfl
    · rw [World.sent_record_neg]; simp [accepted]

theorem accepted_le (r : SysResult) (len : Nat) : accepted r len ≤ len := by
  unfold accepted
  split
  · exact Nat.min_le_right _ _
  · exact Nat.zero_le _

/-- Without a transport error a flush of a well-formed ring returns 0 or 1, hands
the kernel a prefix of the buffered bytes and keeps the rest, in order. -/
theorem buffer_flush_content (s : file_ostream) (w : World) (h : ring_ok s)
    (hn : no_transport_error w) :
    ∃ (r : Int) (s' : file_ostream) (w' : World), buffer_flush s w = some (r, s', w') ∧
      (r = 0 ∨ r = 1) ∧ (r = 1 ↔ IS_STREAM_EMPTY s') ∧ ring_ok s' ∧
      (s'.full = true → s.full = true) ∧ ring_frame s s' ∧ s'.buffer_size = s.buffer_size ∧
      w.grows w' ∧ w'.sent s.fd ++ ring_data s' = w.sent s.fd ++ ring_data s ∧
      (ring_data s').length ≤ (ring_data s).length := by
  by_cases he : IS_STREAM_EMPTY s
  · rw [buffer_flush_empty s w he]
    exact ⟨1, s, w, rfl, Or.inr rfl, ⟨fun _ => he, fun _ => rfl⟩, h, fun a => a,
      ring_frame_refl s, rfl, World.grows_refl w, rfl, le_refl _⟩
  · rw [buffer_flush_nonempty s w he]
    cases hk : w.kernel w.log (write_call s.fd (o_stream_fill_iovec s)) with
    | ok n =>
      obtain ⟨s', e1, e2, e3, e4, e5, e6, e7⟩ :=
        update_buffer_spec s (min n (ring_data s).length) h (Nat.min_le_right _ _)
      simp only [e1, Option.map_some']
      refine ⟨_, s', _, rfl, ?_, ?_, e2, ?_, e4, e6, World.grows_record _ _ _ _, ?_, ?_⟩
      · split_ifs
        · right; rfl
        · left; rfl
      · split_ifs with hc
        · exact ⟨fun _ => hc, fun _ => rfl⟩
        · exact ⟨fun a => by omega, fun a => absurd a hc⟩
      · intro a
        by_cases hz : 0 < min n (ring_data s).length
        · rw [e7 hz] at a; cases a
        · have h0 : min n (ring_data s).length = 0 := by omega
          rw [h0, update_buffer_zero] at e1
          cases e1
          exact a
      · rw [World.sent_record_write, e3, List.append_assoc]
        congr 1
        show List.take _ (ring_data s) ++ _ = _
        exact List.take_append_drop _ _
      · rw [e3, List.length_drop]; omega
    | error e =>
      have hee := hn w.log _ e (write_call_is_write _ _) hk
      simp only [hee, if_true]
      refine ⟨0, s, _, rfl, Or.inl rfl, ⟨fun a => by omega, fun a => absurd a he⟩, h,
        fun a => a, ring_frame_refl s, rfl, World.grows_record _ _ _ _, ?_, le_refl _⟩
      rw [World.sent_record_neg]

/-- What `_sendv` does after its optional flush, when the vector has at most
`IOV_MAX` entries and no transport error occurs: the kernel takes the first `k`
bytes of the direct write (if one is made), the ring the next ones, and the
count of both is returned. -/
theorem sendv_send_content (s : file_ostream) (iov : List const_iovec) (w : World)
    (h : ring_ok s) (hf : full_ok s) (hl : iov.length ≤ w.IOV_MAX)
    (hn : ∀ e, w.kernel w.log (write_call s.fd iov) = .error e → e = EAGAIN ∨ e = EINTR) :
    ∃ (k a : Nat) (s' : file_ostream) (w' : World),
      sendv_send s iov w =
        (((k + a : Nat) : Int), { s' with offset := s.offset + (k + a) }, w') ∧
      k + a ≤ iov_total iov ∧ ring_ok s' ∧ full_ok s' ∧ w.grows w' ∧
      w'.sent s.fd = w.sent s.fd ++ iov.flatten.take k ∧
      ring_data s' = ring_data s ++ (iov.flatten.drop k).take a ∧
      data_frame s s' ∧
      s'.io = (s.io || (decide (a ≠ 0) && !s.corked && !s.file)) ∧
      (s'.full = true → s.full = true ∨ 0 < a ∨ s.max_buffer_size = 0) ∧
      s.buffer_size ≤ s'.buffer_size ∧
      (direct_write s iov →
        k = accepted (w.kernel w.log (write_call s.fd iov)) (iov_total iov) ∧
        w'.log = w.log ++ [⟨write_call s.fd iov, (w'.log.getLast?.map Event.ret).getD 0,
          (w'.log.getLast?.map Event.errno).getD 0⟩]) ∧
      (¬ direct_write s iov → k = 0 ∧ w' = w) ∧
      (s.buffer_size ≤ s.max_buffer_size →
        s'.buffer_size ≤ s.max_buffer_size ∧
        a = min (iov_total iov - k) (s.max_buffer_size - (ring_data s).length)) := by
  have hdw : direct_write s iov ↔ IS_STREAM_EMPTY s ∧ (s.corked = false ∨ iov_total iov ≥
      min s.optimal_block_size s.max_buffer_size) := Iff.rfl
  by_cases hc : IS_STREAM_EMPTY s ∧ (s.corked = false ∨ iov_total iov ≥
      min s.optimal_block_size s.max_buffer_size)
  · obtain ⟨ret, e, w1, w2⟩ := o_stream_writev_content s iov w hl hn
    have hk := accepted_le (w.kernel w.log (write_call s.fd iov)) (iov_total iov)
    generalize accepted (w.kernel w.log (write_call s.fd iov)) (iov_total iov) = k at w1 w2 hk
    obtain ⟨sz, rest, k1, k2, k3, k4, k5⟩ := sendv_skip_spec iov k hk
    have hempty : ring_data s = [] := ring_data_empty s hc.1
    have hlog : (w.record (write_call s.fd iov) ret e).log =
        w.log ++ [⟨write_call s.fd iov,
          ((w.record (write_call s.fd iov) ret e).log.getLast?.map Event.ret).getD 0,
          ((w.record (write_call s.fd iov) ret e).log.getLast?.map Event.errno).getD 0⟩] := by
      simp [World.record]
    unfold sendv_send
    simp only [hc, and_self, if_true, w1]
    rw [if_neg (by omega)]
    simp only [Int.toNat_ofNat, k1]
    cases rest with
    | nil =>
      have hz := k4 rfl
      subst hz
      have hkt : k = iov_total iov := by
        have := congrArg List.length k2
        simp only [List.length_drop, iov_total_flatten, List.flatten_nil, List.length_nil] at this
        omega
      refine ⟨k, 0, s, _, rfl, by omega, h, hf, World.grows_record _ _ _ _, w2, by simp,
        rfl, by simp, fun a => Or.inl a, le_refl _, fun _ => ⟨rfl, hlog⟩,
        fun a => absurd (hdw.mpr hc) a, fun a => ⟨a, by omega⟩⟩
    | cons el tl =>
      have hsz := k5 el tl rfl
      rw [iov_total_cons] at k3
      rw [List.flatten_cons] at k2
      obtain ⟨a, s1, e1, a1, a2, a3, a4, a5, a6, a7, a8, a9, -⟩ :=
        o_stream_add_spec s (el.drop sz) h hf
      rw [List.length_drop] at a4 a8
      simp only [e1]
      by_cases hne : a ≠ el.length - sz
      · rw [if_pos hne]
        simp only [Int.toNat_ofNat, ← Nat.cast_add]
        refine ⟨k, a, s1, _, by rw [data_frame_offset a5], by omega, a1, a2,
          World.grows_record _ _ _ _, w2, ?_,
          a5, a6, a9, a7, fun _ => ⟨rfl, hlog⟩, fun x => absurd (hdw.mpr hc) x, ?_⟩
        · rw [a3, k2, List.drop_append_of_le_length hsz,
            List.take_append_of_le_length (by rw [List.length_drop]; exact a4)]
        · intro hb
          obtain ⟨b1, b2⟩ := a8 hb
          refine ⟨b1, ?_⟩
          rw [hempty] at b2 ⊢
          simp only [List.length_nil, Nat.sub_zero] at b2 ⊢
          omega
      · rw [if_neg hne]
        have hae : a = el.length - sz := by omega
        obtain ⟨b, s2, f1, f2, f3, f4, f5, f6, f7, f8, f9, f10⟩ :=
          sendv_buffer_spec tl s1 ((k : Int) + (a : Int)) a1 a2
        have hmax : s1.max_buffer_size = s.max_buffer_size := data_frame_max_buffer_size a5
        have hck : s1.corked = s.corked := data_frame_corked a5
        have hfl : s1.file = s.file := data_frame_file a5
        simp only [f1]
        simp only [← Nat.cast_add, Int.toNat_ofNat]
        refine ⟨k, a + b, s2, _,
          by rw [data_frame_offset (data_frame_trans a5 f6), Nat.add_assoc], by omega, f3, f4,
          World.grows_record _ _ _ _, w2, ?_, data_frame_trans a5 f6, ?_, ?_, by omega,
          fun _ => ⟨rfl, hlog⟩, fun x => absurd (hdw.mpr hc) x, ?_⟩
        · have t1 : List.take (a + b) (List.drop sz el) = List.drop sz el :=
            List.take_of_length_le (by rw [List.length_drop]; omega)
          have t2 : List.take a (List.drop sz el) = List.drop sz el :=
            List.take_of_length_le (by rw [List.length_drop]; omega)
          have t3 : a + b - (el.length - sz) = b := by omega
          rw [f5, a3, k2, List.drop_append_of_le_length hsz, List.append_assoc,
            List.take_append_eq_append_take, t1, t2, List.length_drop, t3]
        · rw [f7, a6, hck, hfl]
          cases s.io <;> cases s.corked <;> cases s.file <;>
            by_cases h1 : a = 0 <;> by_cases h2 : b = 0 <;> simp [h1, h2]
        · intro hb
          rcases f8 hb with c | c | c
          · rcases a9 c with d | d | d
            · left; exact d
            · right; left; omega
            · right; right; exact d
          · right; left; omega
          · right; right; rw [← hmax]; exact c
        · intro hb
          obtain ⟨b1, b2⟩ := a8 hb
          obtain ⟨c1, c2⟩ := f10 (by rw [hmax]; exact b1)
          rw [hmax] at c1 c2
          refine ⟨c1, ?_⟩
          rw [a3, hempty] at c2
          rw [hempty] at b2 ⊢
          simp only [List.length_nil, Nat.sub_zero, List.nil_append, List.length_take,
            List.length_drop] at b2 c2 ⊢
          omega
  · obtain ⟨b, s2, f1, f2, f3, f4, f5, f6, f7, f8, f9, f10⟩ := sendv_buffer_spec iov s 0 h hf
    unfold sendv_send
    simp only [hc, if_false, f1, Int.zero_add, Int.toNat_ofNat]
    refine ⟨0, b, s2, w, by rw [data_frame_offset f6, Nat.zero_add], by omega, f3, f4,
      World.grows_refl w, by simp, by simpa using f5, f6, f7, f8, f9,
      fun x => absurd (hdw.mp x) hc, fun _ => ⟨rfl, rfl⟩, ?_⟩
    · intro hb
      obtain ⟨c1, c2⟩ := f10 hb
      exact ⟨c1, by omega⟩

theorem net_set_cork_grows (w : World) (fd : Int) (set : Bool) :
    w.grows (net_set_cork w fd set).2.2 := World.grows_record _ _ _ _

theorem net_set_cork_sent (w : World) (fd fd' : Int) (set : Bool) :
    (net_set_cork w fd set).2.2.sent fd' = w.sent fd' := by
  unfold net_set_cork World.transfer
  simp only
  rw [World.sent_record]
  simp [Event.sent]

theorem World.grows_IOV_MAX {w w' : World} (h : w.grows w') : w'.IOV_MAX = w.IOV_MAX := h.2.1

/-- Content of `_sendv` when the vector has at most `IOV_MAX` entries and no
transport error occurs: it returns a count `r` of at most the total, and the
bytes the kernel has taken followed by the buffered ones grow by the first `r`
bytes of the vector. -/
theorem sendv_content (s : file_ostream) (iov : List const_iovec) (w : World)
    (h : ring_ok s) (hf : full_ok s) (hl : iov.length ≤ w.IOV_MAX)
    (hn : no_transport_error w) :
    ∃ (r : Nat) (s' : file_ostream) (w' : World),
      _sendv s iov w = some ((r : Int), s', w') ∧ r ≤ iov_total iov ∧
      ring_ok s' ∧ full_ok s' ∧ w.grows w' ∧ s'.fd = s.fd ∧
      w'.sent s.fd ++ ring_data s' = w.sent s.fd ++ ring_data s ++ iov.flatten.take r := by
  have key : ∀ (s1 : file_ostream) (w1 : World), ring_ok s1 → full_ok s1 → w.grows w1 →
      s1.fd = s.fd → w1.sent s.fd ++ ring_data s1 = w.sent s.fd ++ ring_data s →
      ∃ (r : Nat) (s' : file_ostream) (w' : World),
        sendv_send s1 iov w1 = ((r : Int), s', w') ∧ r ≤ iov_total iov ∧
        ring_ok s' ∧ full_ok s' ∧ w.grows w' ∧ s'.fd = s.fd ∧
        w'.sent s.fd ++ ring_data s' = w.sent s.fd ++ ring_data s ++ iov.flatten.take r := by
    intro s1 w1 h1 hf1 hg hfd hc
    obtain ⟨k, a, s2, w2, e1, e2, e3, e4, e5, e6, e7, e8, -, -, -, e12, e13, -⟩ :=
      sendv_send_content s1 iov w1 h1 hf1 (by rw [World.grows_IOV_MAX hg]; exact hl)
        (fun e he => no_transport_error_extends hn hg _ _ e (write_call_is_write _ _) he)
    refine ⟨k + a, _, w2, e1, e2, e3, e4, World.grows_trans hg e5,
      (data_frame_fd e8).trans hfd, ?_⟩
    show w2.sent s.fd ++ ring_data s2 = _
    rw [hfd] at e6
    rw [e6, e7, List.take_add, ← hc]
    by_cases hd : direct_write s1 iov
    · rw [ring_data_empty s1 hd.1]
      simp
    · obtain ⟨k0, -⟩ := e13 hd
      subst k0
      simp
  unfold _sendv
  simp only
  split_ifs with hc
  · obtain ⟨r, s1, w1, b1, b2, b3, b4, b5, b6, b7, b8, b9, -⟩ :=
      buffer_flush_content { s with stream_errno := 0 } w h hn
    unfold _flush
    simp only [b1, Option.map_some']
    rw [if_neg (by omega)]
    have hfd : s1.fd = s.fd := by rw [data_frame_fd (ring_frame_to_data b6)]
    have hmx : s1.max_buffer_size = s.max_buffer_size := by
      rw [data_frame_max_buffer_size (ring_frame_to_data b6)]
    have hf1 : full_ok s1 := by
      intro a
      rcases hf (b5 a) with c | c
      · left; rw [b7]; exact c
      · right; rw [hmx]; exact c
    obtain ⟨r2, s2, w2, c1, c2⟩ := key s1 w1 b4 hf1 b8 hfd b9
    exact ⟨r2, s2, w2, by rw [c1], c2⟩
  · obtain ⟨r2, s2, w2, c1, c2⟩ := key { s with stream_errno := 0 } w h hf
      (World.grows_refl w) rfl rfl
    exact ⟨r2, s2, w2, by rw [c1], c2⟩

theorem scripted_no_transport_error (answers : List SysResult)
    (h : ∀ r ∈ answers, ∀ e, r = .error e → e = EAGAIN ∨ e = EINTR) :
    no_transport_error (scripted answers) := by
  intro log c e _ hk
  simp only [scripted, List.getD_eq_getElem?_getD] at hk
  by_cases hlt : log.length < answers.length
  · rw [List.getElem?_eq_getElem hlt] at hk
    exact h _ (List.getElem_mem hlt) e hk
  · rw [List.getElem?_eq_none (by omega)] at hk
    cases hk

/-- Corking and uncorking neither lose nor reorder bytes. -/
theorem cork_content (s : file_ostream) (set : Bool) (w : World) (h : ring_ok s)
    (hf : full_ok s) (hn : no_transport_error w) :
    ∃ (s' : file_ostream) (w' : World), _cork s set w = some (s', w') ∧ ring_ok s' ∧
      full_ok s' ∧ w.grows w' ∧ s'.fd = s.fd ∧
      w'.sent s.fd ++ ring_data s' = w.sent s.fd ++ ring_data s := by
  unfold _cork
  by_cases hc : s.corked ≠ set ∧ s.closed = false
  · rw [if_pos hc]
    cases set with
    | true =>
      simp only [Bool.true_eq_false, if_false, true_and]
      split_ifs <;> simp only [Option.map_some'] <;> (try split_ifs) <;>
        exact ⟨_, _, rfl, h, hf,
          (by first | exact World.grows_refl _ | exact net_set_cork_grows _ _ _),
          rfl, (by first | rfl | (rw [net_set_cork_sent]; rfl))⟩
    | false =>
      obtain ⟨r, s1, w1, b1, b2, b3, b4, b5, b6, b7, b8, b9, -⟩ := buffer_flush_content s w h hn
      have hfd : s1.fd = s.fd := data_frame_fd (ring_frame_to_data b6)
      have hmx : s1.max_buffer_size = s.max_buffer_size :=
        data_frame_max_buffer_size (ring_frame_to_data b6)
      have hf1 : full_ok s1 := by
        intro a
        rcases hf (b5 a) with c | c
        · left; rw [b7]; exact c
        · right; rw [hmx]; exact c
      simp only [Bool.false_eq_true, false_and, if_false, if_true, b1, Option.map_some']
      split_ifs <;>
        exact ⟨_, _, rfl, b4, hf1,
          (by first | exact b8 | exact World.grows_trans b8 (net_set_cork_grows _ _ _)),
          hfd, (by first | exact b9 | (rw [net_set_cork_sent]; exact b9))⟩
  · rw [if_neg hc]
    exact ⟨s, w, rfl, h, hf, World.grows_refl w, rfl, rfl⟩

/-- The write-readiness dispatch with the default flush neither loses nor
reorders bytes. -/
theorem send_io_content (s : file_ostream) (w : World) (h : ring_ok s)
    (hf : full_ok s) (hn : no_transport_error w) :
    ∃ (s' : file_ostream) (w' : World), stream_send_io none s w = some (s', w') ∧
      ring_ok s' ∧ full_ok s' ∧ w.grows w' ∧ s'.fd = s.fd ∧
      w'.sent s.fd ++ ring_data s' = w.sent s.fd ++ ring_data s := by
  obtain ⟨r, s1, w1, b1, b2, b3, b4, b5, b6, b7, b8, b9, -⟩ :=
    buffer_flush_content { s with flush_pending := false } w h hn
  have hfd : s1.fd = s.fd := by rw [data_frame_fd (ring_frame_to_data b6)]
  have hmx : s1.max_buffer_size = s.max_buffer_size := by
    rw [data_frame_max_buffer_size (ring_frame_to_data b6)]
  have hf1 : full_ok s1 := by
    intro a
    rcases hf (b5 a) with c | c
    · left; rw [b7]; exact c
    · right; rw [hmx]; exact c
  unfold stream_send_io _flush
  simp only [b1, Option.map_some']
  split_ifs <;> exact ⟨_, _, rfl, b4, hf1, b8, hfd, b9⟩

theorem flush_content (s : file_ostream) (w : World) (h : ring_ok s)
    (hf : full_ok s) (hn : no_transport_error w) :
    ∃ (r : Int) (s' : file_ostream) (w' : World), _flush s w = some (r, s', w') ∧
      ring_ok s' ∧ full_ok s' ∧ w.grows w' ∧ s'.fd = s.fd ∧
      w'.sent s.fd ++ ring_data s' = w.sent s.fd ++ ring_data s ∧
      (r = 1 → ring_data s' = []) := by
  obtain ⟨r, s1, w1, b1, b2, b3, b4, b5, b6, b7, b8, b9, -⟩ := buffer_flush_content s w h hn
  have hfd : s1.fd = s.fd := data_frame_fd (ring_frame_to_data b6)
  have hmx : s1.max_buffer_size = s.max_buffer_size :=
    data_frame_max_buffer_size (ring_frame_to_data b6)
  have hf1 : full_ok s1 := by
    intro a
    rcases hf (b5 a) with c | c
    · left; rw [b7]; exact c
    · right; rw [hmx]; exact c
  exact ⟨r, s1, w1, b1, b4, hf1, b8, hfd, b9, fun a => ring_data_empty s1 (b3.mp a)⟩

/-- The trace invariant, for a ring that need not be empty at the start. -/
theorem run_content (ops : List Op) :
    ∀ (s : file_ostream) (w : World), ring_ok s → full_ok s →
      (∀ iov, Op.sendv iov ∈ ops → iov.length ≤ w.IOV_MAX) → no_transport_error w →
      ∃ (rets : List Int) (s' : file_ostream) (w' : World),
        run ops s w = some (rets, s', w') ∧ ring_ok s' ∧ full_ok s' ∧ w.grows w' ∧
        s'.fd = s.fd ∧
        w'.sent s.fd ++ ring_data s' = w.sent s.fd ++ ring_data s ++ accepted_bytes ops rets := by
  induction ops with
  | nil =>
    intro s w h hf _ _
    exact ⟨[], s, w, rfl, h, hf, World.grows_refl w, rfl, by simp [accepted_bytes]⟩
  | cons op ops ih =>
    intro s w h hf hl hn
    have step : ∃ (r : Int) (s1 : file_ostream) (w1 : World),
        op.step s w = some (r, s1, w1) ∧ ring_ok s1 ∧ full_ok s1 ∧ w.grows w1 ∧
        s1.fd = s.fd ∧
        w1.sent s.fd ++ ring_data s1 =
          w.sent s.fd ++ ring_data s ++ accepted_bytes [op] [r] := by
      cases op with
      | sendv iov =>
        obtain ⟨r, s1, w1, c1, -, c3, c4, c5, c6, c7⟩ :=
          sendv_content s iov w h hf (hl iov (List.mem_cons_self _ _)) hn
        exact ⟨r, s1, w1, c1, c3, c4, c5, c6, by simpa [accepted_bytes] using c7⟩
      | flush =>
        obtain ⟨r, s1, w1, c1, c3, c4, c5, c6, c7, -⟩ := flush_content s w h hf hn
        exact ⟨r, s1, w1, c1, c3, c4, c5, c6, by simpa [accepted_bytes] using c7⟩
      | cork set =>
        obtain ⟨s1, w1, c1, c3, c4, c5, c6, c7⟩ := cork_content s set w h hf hn
        exact ⟨0, s1, w1, by simp [Op.step, c1], c3, c4, c5, c6,
          by simpa [accepted_bytes] using c7⟩
      | dispatch =>
        obtain ⟨s1, w1, c1, c3, c4, c5, c6, c7⟩ := send_io_content s w h hf hn
        exact ⟨0, s1, w1, by simp [Op.step, c1], c3, c4, c5, c6,
          by simpa [accepted_bytes] using c7⟩
    obtain ⟨r, s1, w1, c1, c3, c4, c5, c6, c7⟩ := step
    obtain ⟨rets, s2, w2, d1, d3, d4, d5, d6, d7⟩ := ih s1 w1 c3 c4
      (fun iov hm => by
        rw [World.grows_IOV_MAX c5]; exact hl iov (List.mem_cons_of_mem _ hm))
      (no_transport_error_extends hn c5)
    refine ⟨r :: rets, s2, w2, by simp [run, c1, d1], d3, d4, World.grows_trans c5 d5,
      d6.trans c6, ?_⟩
    rw [c6] at d7
    rw [d7, c7, List.append_assoc, List.append_assoc, List.append_assoc]
    congr 2
    cases op <;> simp [accepted_bytes]

/-- C1: for every sequence of `sendv`, `flush`, `cork`/`uncork` and dispatch calls
(default flush) on a stream with a well-formed, empty ring, in which each `sendv`
has at most `IOV_MAX` entries, with the kernel taking any prefix of every write
and raising no transport error: every call returns, and the bytes the kernel has
taken followed by the bytes held in the ring equal the concatenation, in call
order, of the first `r` bytes of each `sendv` vector, `r` being that call's
return value; hence, when a following flush returns 1, the kernel has received
exactly those bytes. -/
theorem sent_bytes_in_call_order (ops : List Op) (s : file_ostream) (w : World)
    (h : ring_ok s) (he : IS_STREAM_EMPTY s)
    (hl : ∀ iov, Op.sendv iov ∈ ops → iov.length ≤ w.IOV_MAX)
    (hn : no_transport_error w) :
    ∃ (rets : List Int) (s' : file_ostream) (w' : World),
      run ops s w = some (rets, s', w') ∧
      w'.sent s.fd ++ ring_data s' = w.sent s.fd ++ accepted_bytes ops rets ∧
      (∀ s2 w2, _flush s' w' = some (1, s2, w2) →
        w2.sent s.fd = w.sent s.fd ++ accepted_bytes ops rets) := by
  have hf : full_ok s := fun a => by rw [he.2] at a; cases a
  obtain ⟨rets, s1, w1, c1, c3, c4, c5, c6, c7⟩ := run_content ops s w h hf hl hn
  rw [ring_data_empty s he, List.append_nil] at c7
  refine ⟨rets, s1, w1, c1, c7, ?_⟩
  intro s2 w2 hfl
  obtain ⟨r, s3, w3, f1, -, -, -, -, f6, f7⟩ :=
    flush_content s1 w1 c3 c4 (no_transport_error_extends hn c5)
  rw [hfl] at f1
  simp only [Option.some.injEq, Prod.mk.injEq] at f1
  obtain ⟨g1, g2, g3⟩ := f1
  subst g1 g2 g3
  rw [c6, f7 rfl, List.append_nil] at f6
  rw [f6, c7]

/-- Witness for `sent_bytes_in_call_order`: the sample trace on a fresh socket
stream, the kernel taking 4 bytes of the first write and refusing the next. -/
theorem sent_bytes_in_call_order_witness :
    ring_ok (socket_stream 5 20) ∧ IS_STREAM_EMPTY (socket_stream 5 20) ∧
      no_transport_error (scripted [.ok 4, .error EAGAIN]) ∧
      ∃ (rets : List Int) (s' : file_ostream) (w' : World),
        run sample_trace (socket_stream 5 20) (scripted [.ok 4, .error EAGAIN]) =
          some (rets, s', w') ∧
        w'.sent (socket_stream 5 20).fd ++ ring_data s' =
          (scripted [.ok 4, .error EAGAIN]).sent (socket_stream 5 20).fd ++
            accepted_bytes sample_trace rets ∧
        (∀ s2 w2, _flush s' w' = some (1, s2, w2) →
          w2.sent (socket_stream 5 20).fd =
            (scripted [.ok 4, .error EAGAIN]).sent (socket_stream 5 20).fd ++
              accepted_bytes sample_trace rets) := by
  have hn : no_transport_error (scripted [.ok 4, .error EAGAIN]) := by
    apply scripted_no_transport_error
    intro r hr e he
    subst he
    simp at hr
    left; exact hr
  refine ⟨by decide, by decide, hn, ?_⟩
  refine sent_bytes_in_call_order sample_trace (socket_stream 5 20)
    (scripted [.ok 4, .error EAGAIN]) (by decide) (by decide) ?_ hn
  intro iov hm
  simp only [sample_trace, List.mem_cons, Op.sendv.injEq, List.mem_singleton, reduceCtorEq,
    or_false, false_or, List.not_mem_nil] at hm
  rcases hm with rfl | rfl <;> decide

set_option maxRecDepth 100000

/-- On an empty, uncorked stream with `buffer_size ≤ max_buffer_size`, a vector
of at most `IOV_MAX` entries of which the kernel takes `k` bytes is accepted up
to `k + min (total - k) max_buffer_size` bytes, and the ring then holds the bytes
from position `k` on. -/
theorem sendv_direct_short (s : file_ostream) (iov : List const_iovec) (w : World)
    (h : ring_ok s) (he : IS_STREAM_EMPTY s) (hc : s.corked = false)
    (hb : s.buffer_size ≤ s.max_buffer_size) (hl : iov.length ≤ w.IOV_MAX)
    (hn : ∀ e, w.kernel w.log (write_call s.fd iov) = .error e → e = EAGAIN ∨ e = EINTR) :
    ∃ (s' : file_ostream) (w' : World),
      _sendv s iov w =
        some (((accepted (w.kernel w.log (write_call s.fd iov)) (iov_total iov) +
          min (iov_total iov - accepted (w.kernel w.log (write_call s.fd iov)) (iov_total iov))
            s.max_buffer_size : Nat) : Int), s', w') ∧
      ring_data s' =
        (iov.flatten.drop (accepted (w.kernel w.log (write_call s.fd iov)) (iov_total iov))).take
          (min (iov_total iov - accepted (w.kernel w.log (write_call s.fd iov)) (iov_total iov))
            s.max_buffer_size) ∧
      w'.sent s.fd = w.sent s.fd ++
        iov.flatten.take (accepted (w.kernel w.log (write_call s.fd iov)) (iov_total iov)) := by
  have hf : full_ok s := fun a => by rw [he.2] at a; cases a
  have hd : direct_write { s with stream_errno := 0 } iov := ⟨he, Or.inl hc⟩
  obtain ⟨k, a, s2, w2, e1, -, -, -, -, e6, e7, -, -, -, -, e12, -, e14⟩ :=
    sendv_send_content { s with stream_errno := 0 } iov w h hf hl hn
  obtain ⟨k1, -⟩ := e12 hd
  obtain ⟨-, a1⟩ := e14 hb
  have hr : ring_data { s with stream_errno := 0 } = [] := ring_data_empty _ he
  rw [hr] at e7 a1
  simp only [List.length_nil, Nat.sub_zero, List.nil_append] at e7 a1
  have k1' : k = accepted (w.kernel w.log (write_call s.fd iov)) (iov_total iov) := k1
  subst k1'
  subst a1
  unfold _sendv
  simp only
  rw [if_neg (fun x => x.2 he), e1]
  exact ⟨_, w2, rfl, e7, e6⟩

/-- C2: evaluation of `_sendv` on an empty, uncorked socket stream with
`max_buffer_size = 1024` for a vector of seventeen one-byte entries, when
`IOV_MAX = 16`, the kernel takes the first `writev` of sixteen entries in full and
answers the second one with `EAGAIN`.  The kernel has accepted `k = 16` of the
17 bytes, yet `_sendv` buffers all seventeen bytes instead of the single byte
from position 16 on. -/
theorem sendv_long_vector_rebuffers :
    ∃ s' w', _sendv (socket_stream 5 1024) long_vector (scripted [.ok 16, .error EAGAIN]) =
        some (17, s', w') ∧
      w'.sent 5 = [1, 2, 3, 4, 5, 6, 7, 8, 9, 10, 11, 12, 13, 14, 15, 16] ∧
      ring_data s' = [1, 2, 3, 4, 5, 6, 7, 8, 9, 10, 11, 12, 13, 14, 15, 16, 17] ∧
      iov_total long_vector = 17 ∧ long_vector.length = 17 ∧
      (scripted [.ok 16, .error EAGAIN]).IOV_MAX = 16 :=
  ⟨_, _, rfl, rfl, rfl, rfl, rfl, rfl⟩

/-- A flush of a well-formed ring returns: either -1 with the stream closed and
the handler removed, or 0 or 1 with only the ring changed, 1 exactly when the
ring has been emptied. -/
theorem buffer_flush_general (s : file_ostream) (w : World) (h : ring_ok s) :
    ∃ (r : Int) (s' : file_ostream) (w' : World), buffer_flush s w = some (r, s', w') ∧
      ((r = -1 ∧ s'.closed = true ∧ s'.io = false) ∨
        ((r = 0 ∨ r = 1) ∧ (r = 1 ↔ IS_STREAM_EMPTY s') ∧ ring_ok s' ∧
          (s'.full = true → s.full = true) ∧ ring_frame s s' ∧
          s'.buffer_size = s.buffer_size ∧
          (ring_data s').length ≤ (ring_data s).length)) := by
  by_cases he : IS_STREAM_EMPTY s
  · rw [buffer_flush_empty s w he]
    exact ⟨1, s, w, rfl, Or.inr ⟨Or.inr rfl, ⟨fun _ => he, fun _ => rfl⟩, h, fun a => a,
      ring_frame_refl s, rfl, le_refl _⟩⟩
  · rw [buffer_flush_nonempty s w he]
    cases hk : w.kernel w.log (write_call s.fd (o_stream_fill_iovec s)) with
    | ok n =>
      obtain ⟨s', e1, e2, e3, e4, e5, e6, e7⟩ :=
        update_buffer_spec s (min n (ring_data s).length) h (Nat.min_le_right _ _)
      simp only [e1, Option.map_some']
      refine ⟨_, s', _, rfl, Or.inr ⟨?_, ?_, e2, ?_, e4, e6, ?_⟩⟩
      · split_ifs
        · right; rfl
        · left; rfl
      · split_ifs with hc
        · exact ⟨fun _ => hc, fun _ => rfl⟩
        · exact ⟨fun a => by omega, fun a => absurd a hc⟩
      · intro a
        by_cases hz : 0 < min n (ring_data s).length
        · rw [e7 hz] at a; cases a
        · have h0 : min n (ring_data s).length = 0 := by omega
          rw [h0, update_buffer_zero] at e1
          cases e1
          exact a
      · rw [e3, List.length_drop]; omega
    | error e =>
      by_cases hee : e = EAGAIN ∨ e = EINTR
      · simp only [hee, if_true]
        exact ⟨0, s, _, rfl, Or.inr ⟨Or.inl rfl, ⟨fun a => by omega, fun a => absurd a he⟩, h,
          fun a => a, ring_frame_refl s, rfl, le_refl _⟩⟩
      · simp only [hee, if_false]
        exact ⟨-1, _, _, rfl, Or.inl ⟨rfl, rfl, rfl⟩⟩

theorem full_ok_of_flush {s s' : file_ostream} (hf : full_ok s)
    (h5 : s'.full = true → s.full = true) (h6 : ring_frame s s')
    (h7 : s'.buffer_size = s.buffer_size) : full_ok s' := by
  intro a
  rcases hf (h5 a) with c | c
  · left; rw [h7]; exact c
  · right; rw [data_frame_max_buffer_size (ring_frame_to_data h6)]; exact c

/-- After bytes have been appended to a drained-or-watched ring of an uncorked
non-file stream, the ring is again empty or watched. -/
theorem drain_kept (s s' : file_ostream) (a : Nat) (l : List Byte)
    (hs : IS_STREAM_EMPTY s ∨ s.io = true) (hr : ring_ok s') (hf : full_ok s')
    (hmax : 0 < s'.max_buffer_size) (hd : ring_data s' = ring_data s ++ l.take a)
    (hio : s'.io = (s.io || (decide (a ≠ 0) && !s.corked && !s.file)))
    (hc : s.corked = false) (hfile : s.file = false) :
    IS_STREAM_EMPTY s' ∨ s'.io = true := by
  by_cases ha : a = 0
  · subst ha
    rcases hs with hs | hs
    · left
      have hw : well_formed s' := by
        refine ⟨hr, fun x => ?_⟩
        rcases hf x with c | c
        · exact c
        · omega
      rw [empty_iff_ring_data s' hw, hd, ring_data_empty s hs]
      rfl
    · right; rw [hio, hs]; rfl
  · right
    rw [hio, hc, hfile]
    simp [ha]

/-- The part of `_sendv` after the optional flush keeps an uncorked non-file
stream drained or watched, whatever the kernel does. -/
theorem sendv_send_drain (s : file_ostream) (iov : List const_iovec) (w : World)
    (h : ring_ok s) (hf : full_ok s) (hmax : 0 < s.max_buffer_size)
    (hc : s.corked = false) (hfile : s.file = false)
    (hs : IS_STREAM_EMPTY s ∨ s.io = true) (hr : 0 ≤ (sendv_send s iov w).1) :
    IS_STREAM_EMPTY (sendv_send s iov w).2.1 ∨ (sendv_send s iov w).2.1.io = true := by
  unfold sendv_send at hr ⊢
  simp only at hr ⊢
  by_cases hd : IS_STREAM_EMPTY s ∧ (s.corked = false ∨ iov_total iov ≥
      min s.optimal_block_size s.max_buffer_size)
  · rw [if_pos hd] at hr ⊢
    rcases o_stream_writev_shape s iov w with ⟨p1, p2⟩ | ⟨p1, -⟩
    · rw [if_neg (by omega)] at hr ⊢
      generalize sendv_skip (o_stream_writev s iov w).1.toNat iov = sk at hr ⊢
      obtain ⟨sz, rest⟩ := sk
      cases rest with
      | nil =>
        simp only [p2]
        exact hs
      | cons el tl =>
        simp only [p2]
        obtain ⟨a, s1, e1, a1, a2, a3, a4, a5, a6, -, -, -, -⟩ :=
          o_stream_add_spec s (el.drop sz) h hf
        have hmax1 : 0 < s1.max_buffer_size := by
          rw [data_frame_max_buffer_size a5]; exact hmax
        have d1 := drain_kept s s1 a _ hs a1 a2 hmax1 a3 a6 hc hfile
        simp only [e1]
        split_ifs
        · exact d1
        · obtain ⟨b, s2, f1, -, f3, f4, f5, f6, f7, -⟩ :=
            sendv_buffer_spec tl s1 ((o_stream_writev s iov w).1 + (a : Int)) a1 a2
          rw [f1]
          exact drain_kept s1 s2 b _ d1 f3 f4
            (by rw [data_frame_max_buffer_size f6]; exact hmax1) f5 f7
            (by rw [data_frame_corked a5]; exact hc) (by rw [data_frame_file a5]; exact hfile)
    · rw [if_pos (by omega)] at hr
      simp only at hr
      omega
  · rw [if_neg hd]
    obtain ⟨b, s2, f1, -, f3, f4, f5, f6, f7, -⟩ := sendv_buffer_spec iov s 0 h hf
    rw [f1]
    exact drain_kept s s2 b _ hs f3 f4
      (by rw [data_frame_max_buffer_size f6]; exact hmax) f5 f7 hc hfile

/-- C7: on an open, uncorked stream on a non-regular-file descriptor with a
well-formed ring and `max_buffer_size > 0`, in which a handler is registered
whenever the buffer is non-empty, `_sendv` returns, and when it returns a
non-negative count the ring is empty or a write-readiness handler is
registered. -/
theorem sendv_keeps_drain (s : file_ostream) (iov : List const_iovec) (w : World)
    (hw : well_formed s) (hcl : s.closed = false) (hfile : s.file = false)
    (hck : s.corked = false) (hmax : 0 < s.max_buffer_size)
    (hio : ¬ IS_STREAM_EMPTY s → s.io = true) :
    ∃ r s' w', _sendv s iov w = some (r, s', w') ∧
      (0 ≤ r → IS_STREAM_EMPTY s' ∨ s'.io = true) := by
  unfold _sendv
  simp only
  split_ifs with hc
  · obtain ⟨r, s1, w1, b1, b2⟩ := buffer_flush_general { s with stream_errno := 0 } w hw.1
    unfold _flush
    simp only [b1, Option.map_some']
    rcases b2 with ⟨c1, -, -⟩ | ⟨c1, c2, c3, c4, c5, c6, -⟩
    · rw [if_pos (by omega)]
      exact ⟨_, _, _, rfl, fun x => by omega⟩
    · rw [if_neg (by omega)]
      refine ⟨_, _, _, rfl, fun x => ?_⟩
      have hf0 : full_ok { s with stream_errno := 0 } := well_formed_full_ok hw
      have hf1 : full_ok s1 := full_ok_of_flush hf0 c4 c5 c6
      refine sendv_send_drain s1 iov w1 c3 hf1
        (by rw [data_frame_max_buffer_size (ring_frame_to_data c5)]; exact hmax)
        (by rw [data_frame_corked (ring_frame_to_data c5)]; exact hck)
        (by rw [data_frame_file (ring_frame_to_data c5)]; exact hfile)
        (Or.inr (by rw [ring_frame_io c5]; exact hio hc.2)) x
  · refine ⟨_, _, _, rfl, fun x => ?_⟩
    refine sendv_send_drain { s with stream_errno := 0 } iov w hw.1 (well_formed_full_ok hw)
      hmax hck hfile ?_ x
    by_cases he : IS_STREAM_EMPTY s
    · left; exact he
    · right; exact hio he

/-- Witness for `sendv_keeps_drain`: 64 bytes sent on a fresh socket stream of
which the kernel takes 16; 48 bytes stay buffered and the handler is
registered. -/
theorem sendv_keeps_drain_witness :
    well_formed (socket_stream 5 1024) ∧
      ∃ s' w', _sendv (socket_stream 5 1024) [List.replicate 64 65] (scripted [.ok 16]) =
          some (64, s', w') ∧ (ring_data s').length = 48 ∧
        (IS_STREAM_EMPTY s' ∨ s'.io = true) := by
  refine ⟨by decide, ?_⟩
  obtain ⟨r, s', w', e, hd⟩ :=
    sendv_keeps_drain (socket_stream 5 1024) [List.replicate 64 65] (scripted [.ok 16])
      (by decide) rfl rfl rfl (by decide) (fun x => absurd (by decide) x)
  have e2 : _sendv (socket_stream 5 1024) [List.replicate 64 65] (scripted [.ok 16]) =
      some (64, (sendv_send (socket_stream 5 1024) [List.replicate 64 65]
        (scripted [.ok 16])).2.1, (sendv_send (socket_stream 5 1024) [List.replicate 64 65]
        (scripted [.ok 16])).2.2) := rfl
  rw [e2] at e
  simp only [Option.some.injEq, Prod.mk.injEq] at e
  obtain ⟨g1, g2, g3⟩ := e
  subst g1 g2 g3
  exact ⟨_, _, e2, rfl, hd (by decide)⟩

/-- C8: for every stream, every world and every flush callback (the default
flush when none is set) that returns `r` and leaves the stream `s1`, having been
called with `flush_pending` cleared: after `stream_send_io`, `flush_pending` is set
exactly when `r = 0` or the callback set it, a handler is registered exactly when
`flush_pending` is set or the buffer is non-empty, and nothing else of what the
callback left has changed.  With the default flush on the would-block scenario
(64 bytes sent, 16 taken, 48 buffered) the dispatch that drains 32 bytes leaves
16 buffered with the handler registered, and the dispatch that drains the rest
unregisters it. -/
theorem send_io_rearms :
    (∀ (callback : Option stream_flush_callback_t) (s : file_ostream) (w : World) (r : Int)
        (s1 : file_ostream) (w1 : World),
      (match callback with
        | some cb => cb { s with flush_pending := false } w
        | none => _flush { s with flush_pending := false } w) = some (r, s1, w1) →
      ∃ s', stream_send_io callback s w = some (s', w1) ∧
        (s'.flush_pending = true ↔ r = 0 ∨ s1.flush_pending = true) ∧
        (s'.io = true ↔ s'.flush_pending = true ∨ ¬ IS_STREAM_EMPTY s') ∧
        s' = { s1 with flush_pending := s'.flush_pending, io := s'.io }) ∧
    (∃ s1 w1 s2 w2 s3 w3,
      _sendv (socket_stream 5 1024) [List.replicate 64 65] would_block = some (64, s1, w1) ∧
      (ring_data s1).length = 48 ∧ s1.io = true ∧
      stream_send_io none s1 w1 = some (s2, w2) ∧
      (ring_data s2).length = 16 ∧ s2.io = true ∧
      stream_send_io none s2 w2 = some (s3, w3) ∧
      IS_STREAM_EMPTY s3 ∧ s3.io = false ∧
      w3.sent 5 = List.replicate 64 65) := by
  constructor
  · intro callback s w r s1 w1 hcall
    have key : stream_send_io callback s w =
        some (if (if r = 0 then { s1 with flush_pending := true } else s1).flush_pending = false ∧
            IS_STREAM_EMPTY (if r = 0 then { s1 with flush_pending := true } else s1) then
          ({ (if r = 0 then { s1 with flush_pending := true } else s1) with io := false }, w1)
        else ({ (if r = 0 then { s1 with flush_pending := true } else s1) with io := true },
          w1)) := by
      cases callback with
      | none =>
        simp only at hcall
        unfold stream_send_io
        simp only [hcall, Option.map_some']
      | some cb =>
        simp only at hcall
        unfold stream_send_io
        simp only [hcall, Option.map_some']
    rw [key]
    by_cases hr : r = 0
    · simp only [hr, if_true, Bool.true_eq_false, false_and, if_false]
      exact ⟨_, rfl, by simp, by simp, rfl⟩
    · simp only [hr, if_false]
      by_cases hc : s1.flush_pending = false ∧ IS_STREAM_EMPTY s1
      · rw [if_pos hc]
        refine ⟨_, rfl, ?_, ?_, rfl⟩
        · simp [hr, hc.1]
        · simp only [hc.1, Bool.false_eq_true, false_or, false_iff, not_not]
          exact hc.2
      · rw [if_neg hc]
        refine ⟨_, rfl, ?_, ?_, rfl⟩
        · simp [hr]
        · simp only [true_iff]
          by_cases hp : s1.flush_pending = true
          · left; exact hp
          · right
            intro he
            exact hc ⟨by simpa using hp, he⟩
  · exact ⟨_, _, _, _, _, _, rfl, rfl, rfl, rfl, rfl, rfl, rfl, by decide, rfl, rfl⟩

/-- Witness for `send_io_rearms`: a callback that re-arms `flush_pending` and
returns 1 on an empty stream; the dispatch keeps `flush_pending` and the
handler. -/
theorem send_io_rearms_witness :
    ∃ s', stream_send_io (some fun s w => some (1, _flush_pending s true, w))
        (socket_stream 5 1024) (scripted []) = some (s', scripted []) ∧
      s'.flush_pending = true ∧ s'.io = true ∧ IS_STREAM_EMPTY s' := by
  obtain ⟨s', e, h1, h2, h3⟩ :=
    send_io_rearms.1 (some fun s w => some (1, _flush_pending s true, w))
      (socket_stream 5 1024) (scripted []) 1
      (_flush_pending { socket_stream 5 1024 with flush_pending := false } true) (scripted [])
      rfl
  have hp : s'.flush_pending = true := h1.mpr (Or.inr rfl)
  refine ⟨s', e, hp, h2.mpr (Or.inl hp), ?_⟩
  rw [h3]
  exact ⟨rfl, rfl⟩

/-- C10: on a corked open stream with a well-formed ring and no handler
registered, `cork(false)` flushes and returns with `corked` cleared; when the
flush has not failed, a write-readiness handler is registered exactly when the
flush left bytes in the buffer or `flush_pending` is set, the ring is as the
flush left it and `flush_pending` is unchanged.  And on every stream, `cork(set)`
with `set` equal to the current `corked` changes no field and performs no I/O. -/
theorem uncork_registers (s : file_ostream) (w : World) (hr : ring_ok s)
    (hck : s.corked = true) (hcl : s.closed = false) (hio : s.io = false) :
    (∃ r s1 w1, buffer_flush s w = some (r, s1, w1) ∧
      ∃ s' w', _cork s false w = some (s', w') ∧ s'.corked = false ∧
        (r ≠ -1 →
          (s'.io = true ↔ ¬ IS_STREAM_EMPTY s1 ∨ s.flush_pending = true) ∧
          ring_data s' = ring_data s1 ∧ (IS_STREAM_EMPTY s' ↔ IS_STREAM_EMPTY s1) ∧
          s'.flush_pending = s.flush_pending ∧ s'.closed = false)) ∧
    (∀ (t : file_ostream) (v : World), _cork t t.corked v = some (t, v)) := by
  constructor
  · obtain ⟨r, s1, w1, b1, b2⟩ := buffer_flush_general s w hr
    refine ⟨r, s1, w1, b1, ?_⟩
    have hc : s.corked ≠ false ∧ s.closed = false := ⟨by simp [hck], hcl⟩
    unfold _cork
    rw [if_pos hc]
    simp only [Bool.false_eq_true, false_and, if_false, if_true, b1, Option.map_some']
    rcases b2 with ⟨c1, -, -⟩ | ⟨c1, c2, c3, c4, c5, c6, -⟩
    · split_ifs <;> exact ⟨_, _, rfl, rfl, fun x => absurd c1 x⟩
    · have hio1 : s1.io = false := by rw [ring_frame_io c5]; exact hio
      have hfp : s1.flush_pending = s.flush_pending :=
        data_frame_flush_pending (ring_frame_to_data c5)
      have hcl1 : s1.closed = false := by
        rw [data_frame_closed (ring_frame_to_data c5)]; exact hcl
      have hne : r = 0 ↔ ¬ IS_STREAM_EMPTY s1 := by
        rw [← c2]
        omega
      by_cases hadd : s1.io = false ∧ (r = 0 ∨ s1.flush_pending = true)
      · rw [if_pos hadd]
        have hrhs : ¬ IS_STREAM_EMPTY s1 ∨ s.flush_pending = true := by
          rcases hadd.2 with x | x
          · left; exact hne.mp x
          · right; rw [← hfp]; exact x
        split_ifs <;>
          exact ⟨_, _, rfl, rfl, fun _ => ⟨⟨fun _ => hrhs, fun _ => rfl⟩, rfl, Iff.rfl, hfp, hcl1⟩⟩
      · rw [if_neg hadd]
        have hrhs : ¬ (¬ IS_STREAM_EMPTY s1 ∨ s.flush_pending = true) := by
          intro x
          apply hadd
          refine ⟨hio1, ?_⟩
          rcases x with x | x
          · left; exact hne.mpr x
          · right; rw [hfp]; exact x
        split_ifs <;>
          exact ⟨_, _, rfl, rfl, fun _ =>
            ⟨⟨fun x => (by rw [show _ = s1.io from rfl, hio1] at x; cases x),
              fun x => absurd x hrhs⟩, rfl, Iff.rfl, hfp, hcl1⟩⟩
  · intro t v
    unfold _cork
    rw [if_neg (fun x => x.1 rfl)]

/-- Witness for `uncork_registers`: uncorking the stream that holds "hello" while
the kernel takes two bytes leaves three bytes buffered and registers the
handler. -/
theorem uncork_registers_witness :
    ring_ok corked_hello ∧ corked_hello.corked = true ∧ corked_hello.io = false ∧
      ∃ s' w', _cork corked_hello false (scripted [.ok 2]) = some (s', w') ∧
        s'.corked = false ∧ s'.io = true ∧ ring_data s' = [108, 108, 111] := by
  obtain ⟨⟨r, s1, w1, e1, s', w', e2, e3, e4⟩, -⟩ :=
    uncork_registers corked_hello (scripted [.ok 2]) (by decide) rfl rfl rfl
  have e1' : buffer_flush corked_hello (scripted [.ok 2]) =
      some (0, { corked_hello with head := 2 },
        (scripted [.ok 2]).record (.write 5 [104, 101, 108, 108, 111]) 2 0) := rfl
  rw [e1'] at e1
  simp only [Option.some.injEq, Prod.mk.injEq] at e1
  obtain ⟨g1, g2, g3⟩ := e1
  subst g1 g2 g3
  obtain ⟨f1, f2, -, -, -⟩ := e4 (by decide)
  refine ⟨by decide, rfl, rfl, s', w', e2, e3, f1.mpr (Or.inl (by decide)), ?_⟩
  rw [f2]
  rfl

theorem o_stream_add_nil (s : file_ostream) : o_stream_add s [] = (0, s) := by
  simp [o_stream_add, o_stream_add_copy]

theorem sendv_buffer_corked (iov : List const_iovec) :
    ∀ (s : file_ostream) (ret : Int), ring_ok s → full_ok s → s.corked = true →
      corked_size_ok s → corked_size_ok (sendv_buffer iov s ret).2 := by
  induction iov with
  | nil => intro s ret _ _ _ hj; exact hj
  | cons e iov ih =>
    intro s ret h hf hck hj
    cases e with
    | nil =>
      simp only [sendv_buffer, o_stream_add_nil, List.length_nil, ne_eq, not_true_eq_false,
        if_false]
      exact ih s _ h hf hck hj
    | cons x xs =>
      obtain ⟨sent, s1, e1, a1, a2, a3, a4, a5, a6, a7, a8, a9, a10⟩ :=
        o_stream_add_spec s (x :: xs) h hf
      have hj1 : corked_size_ok s1 := by
        right
        rw [data_frame_optimal_block_size a5, data_frame_max_buffer_size a5]
        rcases hj with ⟨-, hz⟩ | hz
        · exact a10 hck hz (by simp)
        · omega
      have hck1 : s1.corked = true := by rw [data_frame_corked a5]; exact hck
      simp only [sendv_buffer, e1]
      split_ifs
      · exact hj1
      · exact ih s1 _ a1 a2 hck1 hj1

/-- A corked send that fits below the optimal block is buffered in full without
any system call. -/
theorem sendv_corked (s : file_ostream) (iov : List const_iovec) (w : World)
    (h : ring_ok s) (hf : full_ok s) (hck : s.corked = true) (hj : corked_size_ok s)
    (hb : s.buffer_size ≤ s.max_buffer_size)
    (hlen : (ring_data s).length + iov_total iov <
      min s.optimal_block_size s.max_buffer_size) :
    ∃ s', _sendv s iov w = some ((iov_total iov : Int), s', w) ∧ ring_ok s' ∧ full_ok s' ∧
      s'.corked = true ∧ corked_size_ok s' ∧ s'.buffer_size ≤ s'.max_buffer_size ∧
      ring_data s' = ring_data s ++ iov.flatten ∧
      s'.optimal_block_size = s.optimal_block_size ∧
      s'.max_buffer_size = s.max_buffer_size ∧ s'.closed = s.closed ∧ s'.fd = s.fd := by
  have hflush : ¬ (iov_total iov > get_unused_space { s with stream_errno := 0 } ∧
      ¬ IS_STREAM_EMPTY { s with stream_errno := 0 }) := by
    rintro ⟨x1, x2⟩
    rcases hj with ⟨y, -⟩ | y
    · exact x2 y
    · have l1 := ring_data_length s h
      have l2 := get_unused_space_le s h
      have l3 : get_unused_space { s with stream_errno := 0 } = get_unused_space s := rfl
      omega
  have hdirect : ¬ (IS_STREAM_EMPTY { s with stream_errno := 0 } ∧
      (s.corked = false ∨ iov_total iov ≥ min s.optimal_block_size s.max_buffer_size)) := by
    rintro ⟨-, x | x⟩
    · rw [hck] at x; cases x
    · omega
  obtain ⟨a, s2, f1, f2, f3, f4, f5, f6, f7, f8, f9, f10⟩ :=
    sendv_buffer_spec iov { s with stream_errno := 0 } 0 h hf
  obtain ⟨g1, g2⟩ := f10 hb
  have hj2 := sendv_buffer_corked iov { s with stream_errno := 0 } 0 h hf hck hj
  rw [f1] at hj2
  have hr : ring_data { s with stream_errno := 0 } = ring_data s := rfl
  rw [hr] at f5 g2
  have ha : a = iov_total iov := by
    have : s.max_buffer_size = ({ s with stream_errno := 0 } : file_ostream).max_buffer_size :=
      rfl
    omega
  subst ha
  unfold _sendv
  simp only
  rw [if_neg hflush]
  unfold sendv_send
  simp only
  rw [if_neg hdirect, f1]
  simp only [Int.zero_add, Int.toNat_ofNat]
  refine ⟨_, rfl, f3, f4, ?_, hj2, ?_, ?_, ?_, ?_, ?_, ?_⟩
  · show s2.corked = true
    rw [data_frame_corked f6]; exact hck
  · show s2.buffer_size ≤ s2.max_buffer_size
    rw [data_frame_max_buffer_size f6]; exact g1
  · show ring_data s2 = _
    rw [f5, List.take_of_length_le (by rw [iov_total_flatten])]
  · show s2.optimal_block_size = _
    rw [data_frame_optimal_block_size f6]
  · show s2.max_buffer_size = _
    rw [data_frame_max_buffer_size f6]
  · show s2.closed = _
    rw [data_frame_closed f6]
  · show s2.fd = _
    rw [data_frame_fd f6]

/-- A run of corked sends whose cumulative length stays below the optimal block:
each is accepted in full, nothing reaches the kernel. -/
theorem run_corked (vs : List (List const_iovec)) :
    ∀ (s : file_ostream) (w : World), ring_ok s → full_ok s → s.corked = true →
      corked_size_ok s → s.buffer_size ≤ s.max_buffer_size →
      (ring_data s).length + (vs.map iov_total).sum <
        min s.optimal_block_size s.max_buffer_size →
      ∃ s', run (vs.map Op.sendv) s w = some (vs.map (fun v => (iov_total v : Int)), s', w) ∧
        ring_ok s' ∧ full_ok s' ∧ s'.corked = true ∧
        ring_data s' = ring_data s ++ (vs.map List.flatten).flatten ∧
        s'.max_buffer_size = s.max_buffer_size ∧ s'.closed = s.closed ∧ s'.fd = s.fd := by
  induction vs with
  | nil =>
    intro s w h hf hck _ _ _
    exact ⟨s, rfl, h, hf, hck, by simp, rfl, rfl, rfl⟩
  | cons v vs ih =>
    intro s w h hf hck hj hb hlen
    simp only [List.map_cons, List.sum_cons] at hlen
    obtain ⟨s1, e1, a1, a2, a3, a4, a5, a6, a7, a8, a9, a10⟩ :=
      sendv_corked s v w h hf hck hj hb (by omega)
    obtain ⟨s2, e2, b1, b2, b3, b4, b5, b6, b7⟩ := ih s1 w a1 a2 a3 a4 a5 (by
      rw [a6, a7, a8, List.length_append, iov_total_flatten]; omega)
    refine ⟨s2, ?_, b1, b2, b3, ?_, b5.trans a8, b6.trans a9, b7.trans a10⟩
    · simp only [List.map_cons, run, Op.step, e1, e2]
    · rw [b4, a6]; simp

theorem writes_record (w : World) (c : Syscall) (r : Int) (e : Nat) :
    writes (w.record c r e).log =
      writes w.log ++ (if c.is_write = true then [⟨c, r, e⟩] else []) := by
  simp only [writes, World.record, List.filter_append, List.filter_cons, List.filter_nil]

theorem writes_net_set_cork (w : World) (fd : Int) (set : Bool) :
    writes (net_set_cork w fd set).2.2.log = writes w.log := by
  unfold net_set_cork World.transfer
  simp only
  rw [writes_record]
  simp [Syscall.is_write]

theorem writes_stream_closed (s : file_ostream) (w : World) :
    writes (stream_closed s w).2.log = writes w.log := by
  unfold stream_closed
  simp only
  split_ifs
  · show writes (close w s.fd).2.2.log = _
    unfold close World.transfer
    simp only
    rw [writes_record]
    simp [Syscall.is_write]
  · rfl

theorem writes_record_write (w : World) (fd : Int) (iov : List const_iovec) (r : Int)
    (e : Nat) :
    writes (w.record (write_call fd iov) r e).log =
      writes w.log ++ [⟨write_call fd iov, r, e⟩] := by
  rw [writes_record, write_call_is_write]
  rfl

theorem sum_iov_total (vs : List (List const_iovec)) :
    ((vs.map List.flatten).flatten).length = (vs.map iov_total).sum := by
  induction vs with
  | nil => rfl
  | cons v vs ih =>
    simp only [List.map_cons, List.flatten_cons, List.length_append, List.sum_cons, ih,
      iov_total_flatten]

/-- Uncorking issues no write when nothing is buffered, and exactly one write of
the buffered bytes otherwise; when the kernel takes them all a following flush
has nothing to do. -/
theorem uncork_writes (s : file_ostream) (w : World) (h : well_formed s)
    (hck : s.corked = true) (hcl : s.closed = false) :
    ∃ s2 w2, _cork s false w = some (s2, w2) ∧
      (IS_STREAM_EMPTY s → writes w2.log = writes w.log) ∧
      (¬ IS_STREAM_EMPTY s →
        ∃ ret errno, writes w2.log =
            writes w.log ++ [⟨write_call s.fd (o_stream_fill_iovec s), ret, errno⟩] ∧
          (ret = ((ring_data s).length : Int) → _flush s2 w2 = some (1, s2, w2))) := by
  have hc : s.corked ≠ false ∧ s.closed = false := ⟨by simp [hck], hcl⟩
  unfold _cork
  rw [if_pos hc]
  simp only [Bool.false_eq_true, false_and, if_false, if_true]
  by_cases he : IS_STREAM_EMPTY s
  · rw [buffer_flush_empty s w he]
    simp only [Option.map_some']
    split_ifs <;>
      exact ⟨_, _, rfl, fun _ => (by first | rfl | exact writes_net_set_cork _ _ _),
        fun x => absurd he x⟩
  · cases hk : w.kernel w.log (write_call s.fd (o_stream_fill_iovec s)) with
    | ok n =>
      obtain ⟨s', e1, e2, e3, e4, e5, e6⟩ := buffer_flush_ok s w h he n hk
      rw [e1]
      simp only [Option.map_some']
      have hfl : ∀ (t : file_ostream) (v : World), IS_STREAM_EMPTY t →
          _flush t v = some (1, t, v) := fun t v x => buffer_flush_empty t v x
      split_ifs <;>
        refine ⟨_, _, rfl, fun x => absurd x he, fun _ =>
          ⟨(min n (ring_data s).length : Nat), 0, ?_, fun hret => hfl _ _ ?_⟩⟩ <;>
        first
        | exact writes_record_write _ _ _ _ _
        | (rw [writes_net_set_cork]; exact writes_record_write _ _ _ _ _)
        | exact e6.mpr (by omega)
    | error e =>
      rw [buffer_flush_nonempty s w he, hk]
      by_cases hee : e = EAGAIN ∨ e = EINTR
      · simp only [hee, if_true, Option.map_some']
        split_ifs <;>
          refine ⟨_, _, rfl, fun x => absurd x he, fun _ =>
            ⟨-1, e, ?_, fun hret => (by omega)⟩⟩ <;>
          first
          | exact writes_record_write _ _ _ _ _
          | (rw [writes_net_set_cork]; exact writes_record_write _ _ _ _ _)
      · simp only [hee, if_false, Option.map_some']
        split_ifs <;>
          refine ⟨_, _, rfl, fun x => absurd x he, fun _ =>
            ⟨-1, e, ?_, fun hret => (by omega)⟩⟩ <;>
          first
          | (rw [writes_stream_closed]; exact writes_record_write _ _ _ _ _)
          | (rw [writes_net_set_cork, writes_stream_closed];
             exact writes_record_write _ _ _ _ _)

/-- C9, counterexample to "the following uncork issues exactly one scatter
write": a fresh socket stream is corked, a send of zero bytes returns its full
length 0, and the uncork issues no `write` or `writev` at all (the only system
calls are the two `set_cork`). -/
theorem uncork_without_write :
    ∃ s' w', run [.cork true, .sendv [[]], .cork false] (socket_stream 5 1024) (scripted []) =
        some ([0, 0, 0], s', w') ∧
      writes w'.log = [] ∧ w'.log.length = 2 ∧
      iov_total [[]] < min (socket_stream 5 1024).optimal_block_size
        (socket_stream 5 1024).max_buffer_size :=
  ⟨_, _, rfl, rfl, rfl, by decide⟩

/-- C9, amended: on a freshly created stream (empty buffer, `buffer_size` 0) that
has been corked, every sequence of `sendv` calls whose cumulative length is below
`min optimal_block_size max_buffer_size` returns each call's full length and makes
no system call; the following uncork issues no write when no byte was sent and
exactly one write otherwise, whose payload is the concatenation of the sent bytes
in call order; and when that write is accepted in full a later flush returns 1
without any system call. -/
theorem cork_coalesces (s : file_ostream) (w : World) (vs : List (List const_iovec))
    (hs : corked_fresh s)
    (hlen : (vs.map iov_total).sum < min s.optimal_block_size s.max_buffer_size) :
    ∃ s1, run (vs.map Op.sendv) s w = some (vs.map (fun v => (iov_total v : Int)), s1, w) ∧
      ring_data s1 = (vs.map List.flatten).flatten ∧
      ∃ s2 w2, _cork s1 false w = some (s2, w2) ∧
        ((vs.map iov_total).sum = 0 → writes w2.log = writes w.log) ∧
        (0 < (vs.map iov_total).sum →
          ∃ iov ret errno,
            writes w2.log = writes w.log ++ [⟨write_call s.fd iov, ret, errno⟩] ∧
            iov.flatten = (vs.map List.flatten).flatten ∧
            (ret = ((vs.map iov_total).sum : Int) → _flush s2 w2 = some (1, s2, w2))) := by
  obtain ⟨h, he, hz, hck, hcl⟩ := hs
  have hf : full_ok s := fun a => by rw [he.2] at a; cases a
  obtain ⟨s1, e1, a1, a2, a3, a4, a5, a6, a7⟩ :=
    run_corked vs s w h hf hck (Or.inl ⟨he, hz⟩) (by omega)
      (by rw [ring_data_empty s he]; simpa using hlen)
  rw [ring_data_empty s he, List.nil_append] at a4
  have hw1 : well_formed s1 := by
    refine ⟨a1, fun x => ?_⟩
    rcases a2 x with c | c
    · exact c
    · omega
  obtain ⟨s2, w2, e2, b1, b2⟩ := uncork_writes s1 w hw1 a3 (a6.trans hcl)
  have hlen1 : (ring_data s1).length = (vs.map iov_total).sum := by
    rw [a4, sum_iov_total]
  refine ⟨s1, e1, a4, s2, w2, e2, ?_, ?_⟩
  · intro hz0
    apply b1
    rw [empty_iff_ring_data s1 hw1]
    apply List.eq_nil_of_length_eq_zero
    omega
  · intro hpos
    have hne : ¬ IS_STREAM_EMPTY s1 := by
      rw [empty_iff_ring_data s1 hw1]
      intro x
      rw [x] at hlen1
      simp at hlen1
      omega
    obtain ⟨ret, errno, c1, c2⟩ := b2 hne
    rw [a7] at c1
    refine ⟨o_stream_fill_iovec s1, ret, errno, c1, a4, fun hret => c2 ?_⟩
    rw [hret, hlen1]

/-- Witness for `cork_coalesces`: "hello " then "world" on the corked socket
stream with `max_buffer_size` 1024; the uncork issues the single write of the
11 bytes "hello world", and the flush after it none. -/
theorem cork_coalesces_witness :
    corked_fresh corked_socket ∧
      ∃ s1 s2 w2, run (hello_world.map Op.sendv) corked_socket (scripted [.ok 11]) =
          some ([6, 5], s1, scripted [.ok 11]) ∧
        _cork s1 false (scripted [.ok 11]) = some (s2, w2) ∧
        writes w2.log =
          [⟨.write 5 [104, 101, 108, 108, 111, 32, 119, 111, 114, 108, 100], 11, 0⟩] ∧
        _flush s2 w2 = some (1, s2, w2) := by
  have hf : corked_fresh corked_socket := by decide
  obtain ⟨s1, e1, -, s2, w2, e2, -, e4⟩ :=
    cork_coalesces corked_socket (scripted [.ok 11]) hello_world hf (by decide)
  obtain ⟨iov, ret, errno, f1, -, f3⟩ := e4 (by decide)
  have e1' : run (hello_world.map Op.sendv) corked_socket (scripted [.ok 11]) =
      some ([6, 5],
        (match run (hello_world.map Op.sendv) corked_socket (scripted [.ok 11]) with
          | some r => r.2.1
          | none => corked_socket), scripted [.ok 11]) := rfl
  rw [e1'] at e1
  simp only [Option.some.injEq, Prod.mk.injEq] at e1
  obtain ⟨-, g1, -⟩ := e1
  subst g1
  have e2' : _cork (match run (hello_world.map Op.sendv) corked_socket (scripted [.ok 11]) with
          | some r => r.2.1
          | none => corked_socket) false (scripted [.ok 11]) =
      some ((match _cork (match run (hello_world.map Op.sendv) corked_socket
              (scripted [.ok 11]) with
            | some r => r.2.1
            | none => corked_socket) false (scripted [.ok 11]) with
          | some r => r
          | none => (corked_socket, scripted []))) := rfl
  rw [e2'] at e2
  simp only [Option.some.injEq] at e2
  have g2 := congrArg Prod.fst e2
  have g3 := congrArg Prod.snd e2
  simp only at g2 g3
  subst g2 g3
  have hw : writes (match _cork (match run (hello_world.map Op.sendv) corked_socket
              (scripted [.ok 11]) with
            | some r => r.2.1
            | none => corked_socket) false (scripted [.ok 11]) with
          | some r => r
          | none => (corked_socket, scripted [])).2.log =
      [⟨.write 5 [104, 101, 108, 108, 111, 32, 119, 111, 114, 108, 100], 11, 0⟩] := rfl
  rw [hw] at f1
  simp only [scripted, writes, List.filter_nil, List.nil_append, List.cons.injEq,
    Event.mk.injEq, and_true] at f1
  exact ⟨hf, _, _, _, e1', e2', hw, f3 (by rw [← f1.2.1]; rfl)⟩

/-- C4: evaluation of `_send_istream` on the self-copy shortcut: output and input
share descriptor 7, the output `offset` is 100 and equals the input's absolute
position, the input has 1000 bytes of which 100 are consumed.  The call returns
900, makes no system call and leaves `offset` at 100 instead of 1000. -/
theorem send_istream_self_copy_offset :
    ∃ s', _send_istream file_stream same_file_input 8 (scripted []) =
        some (900, s', same_file_input, scripted []) ∧
      s'.offset = 100 ∧ file_stream.offset = 100 ∧ file_stream.closed = false ∧
      well_formed file_stream :=
  ⟨_, rfl, rfl, rfl, rfl, by decide⟩

theorem quiet_refl (s : file_ostream) : quiet s s :=
  Or.inr ⟨rfl, rfl, rfl, rfl, rfl, fun a => a⟩

theorem quiet_trans {a b c : file_ostream} (h1 : quiet a b) (h2 : quiet b c) : quiet a c := by
  rcases h2 with h2 | ⟨c1, c2, c3, c4, c5, c6⟩
  · left; exact h2
  · rcases h1 with h1 | ⟨b1, b2, b3, b4, b5, b6⟩
    · left; rw [c5]; exact h1
    · right
      exact ⟨c1.trans b1, c2.trans b2, c3.trans b3, c4.trans b4, c5.trans b5,
        fun x => c6 (b6 x)⟩

theorem drain_ok_of_quiet {s s' : file_ostream} (hq : quiet s s') (hc : s'.closed = false)
    (h : drain_ok s) : drain_ok s' := by
  rcases hq with hq | ⟨c1, c2, c3, c4, -, c6⟩
  · rw [hc] at hq; cases hq
  · intro x hfile hck
    rw [c1]
    refine h ?_ (by rw [← c3]; exact hfile) (by rw [← c2]; exact hck)
    rcases x with x | x
    · left; exact fun y => x (c6 y)
    · right; rw [← c4]; exact x

theorem quiet_of_ring_frame {s s' : file_ostream} (h : ring_frame s s')
    (he : IS_STREAM_EMPTY s → IS_STREAM_EMPTY s') : quiet s s' :=
  Or.inr ⟨ring_frame_io h, data_frame_corked (ring_frame_to_data h),
    data_frame_file (ring_frame_to_data h), data_frame_flush_pending (ring_frame_to_data h),
    data_frame_closed (ring_frame_to_data h), he⟩

theorem update_buffer_quiet (s s' : file_ostream) (n : Nat)
    (h : update_buffer s n = some s') : quiet s s' := by
  refine quiet_of_ring_frame (update_buffer_frame s s' n h) ?_
  intro he
  unfold update_buffer at h
  rw [if_pos (Or.inl he)] at h
  cases h
  exact he

theorem o_stream_writev_quiet (s : file_ostream) (iov : List const_iovec) (w : World) :
    quiet s (o_stream_writev s iov w).2.1 := by
  rcases o_stream_writev_shape s iov w with ⟨-, b⟩ | ⟨-, b, -⟩
  · rw [b]; exact quiet_refl s
  · left; exact b

/-- A flush that returns has returned -1 and closed the stream, or 1 with the
ring empty, or 0 with bytes left; it is quiet. -/
theorem buffer_flush_ret (s : file_ostream) (w : World) (r : Int) (s' : file_ostream)
    (w' : World) (h : buffer_flush s w = some (r, s', w')) :
    quiet s s' ∧
      ((r = -1 ∧ s'.closed = true) ∨ (r = 1 ∧ IS_STREAM_EMPTY s') ∨
        (r = 0 ∧ ¬ IS_STREAM_EMPTY s')) := by
  unfold buffer_flush at h
  simp only at h
  split_ifs at h with h1 h2 h3
  · simp only [Option.some.injEq, Prod.mk.injEq] at h
    obtain ⟨e1, e2, -⟩ := h
    rcases o_stream_writev_shape s (o_stream_fill_iovec s) w with ⟨a, -⟩ | ⟨-, b, -⟩
    · omega
    · rw [← e1, ← e2]
      exact ⟨Or.inl b, Or.inl ⟨rfl, b⟩⟩
  · cases hu : update_buffer (o_stream_writev s (o_stream_fill_iovec s) w).2.1
        (o_stream_writev s (o_stream_fill_iovec s) w).1.toNat with
    | none => rw [hu] at h; cases h
    | some u =>
      rw [hu] at h
      simp only [Option.map_some', Option.some.injEq, Prod.mk.injEq] at h
      obtain ⟨e1, e2, -⟩ := h
      subst e2
      refine ⟨quiet_trans (o_stream_writev_quiet s _ w) (update_buffer_quiet _ _ _ hu), ?_⟩
      right
      rw [← e1]
      split_ifs with hc
      · left; exact ⟨rfl, hc⟩
      · right; exact ⟨rfl, hc⟩
  · simp only [Option.some.injEq, Prod.mk.injEq] at h
    obtain ⟨e1, e2, -⟩ := h
    subst e2
    refine ⟨quiet_refl s, Or.inr (Or.inl ⟨e1.symm, h3⟩)⟩
  · simp only [Option.some.injEq, Prod.mk.injEq] at h
    obtain ⟨e1, e2, -⟩ := h
    subst e2
    refine ⟨quiet_refl s, Or.inr (Or.inr ⟨e1.symm, h3⟩)⟩

theorem seek_quiet (s : file_ostream) (offset : Nat) (w : World) (r : Int)
    (s' : file_ostream) (w' : World) (h : _seek s offset w = some (r, s', w')) :
    quiet s s' := by
  unfold _seek at h
  split_ifs at h with h1
  · simp only [Option.some.injEq, Prod.mk.injEq] at h
    rw [← h.2.1]
    exact quiet_refl s
  · cases hfl : buffer_flush s w with
    | none => rw [hfl] at h; cases h
    | some x =>
      obtain ⟨rf, sf, wf⟩ := x
      rw [hfl] at h
      have hq := (buffer_flush_ret s w rf sf wf hfl).1
      simp only [Option.map_some', Option.some.injEq] at h
      split_ifs at h <;>
        (simp only [Prod.mk.injEq] at h
         rw [← h.2.1]
         exact quiet_trans hq (quiet_refl sf))

theorem o_stream_seek_quiet (s : file_ostream) (offset : Nat) (w : World) (r : Int)
    (s' : file_ostream) (w' : World) (h : o_stream_seek s offset w = some (r, s', w')) :
    quiet s s' := by
  unfold o_stream_seek at h
  split_ifs at h
  · simp only [Option.some.injEq, Prod.mk.injEq] at h
    rw [← h.2.1]
    exact quiet_refl s
  · exact seek_quiet s offset w r s' w' h

theorem o_stream_grow_buffer_quiet (s : file_ostream) (bytes : Nat) :
    quiet s (o_stream_grow_buffer s bytes) := by
  refine quiet_of_ring_frame (o_stream_grow_buffer_frame s bytes) ?_
  intro he
  rw [o_stream_grow_buffer_eq]
  split_ifs
  · exact he
  · have hr : (regrow s.buffer s.buffer_size s.head s.tail s.full (grow_size s bytes)).2 =
        s.head := by
      unfold regrow
      simp only
      rw [if_neg (fun x => x.2 he)]
    exact ⟨hr.trans he.1, rfl⟩

theorem stream_closed_closed (s : file_ostream) (w : World) :
    (stream_closed s w).1.closed = true := rfl

theorem quiet_offset (s : file_ostream) (n : Nat) : quiet s { s with offset := n } :=
  Or.inr ⟨rfl, rfl, rfl, rfl, rfl, fun a => a⟩

theorem quiet_stream_errno (s : file_ostream) (n : Nat) :
    quiet s { s with stream_errno := n } :=
  Or.inr ⟨rfl, rfl, rfl, rfl, rfl, fun a => a⟩

theorem io_stream_sendfile_loop_quiet (in_fd : Int) (in_size abs : Nat) :
    ∀ (fuel v : Nat) (s : file_ostream) (w : World)
      (x : Int × Nat × file_ostream × World),
      io_stream_sendfile_loop in_fd in_size abs fuel v s w = some x → quiet s x.2.2.1 := by
  intro fuel
  induction fuel with
  | zero => intro v s w x h; cases h
  | succ n ih =>
    intro v s w x h
    unfold io_stream_sendfile_loop at h
    simp only at h
    split_ifs at h with h1 h2 h3 h4
    · cases h; exact quiet_refl s
    · cases h; exact Or.inl rfl
    · cases h; exact quiet_refl s
    · exact quiet_trans (quiet_offset s _) (ih _ _ _ _ h)
    · cases h; exact quiet_refl s

theorem io_stream_sendfile_quiet (s : file_ostream) (ins : istream) (in_fd : Int)
    (in_size fuel : Nat) (w : World) (x : Int × file_ostream × istream × World)
    (h : io_stream_sendfile s ins in_fd in_size fuel w = some x) : quiet s x.2.1 := by
  unfold io_stream_sendfile at h
  cases hfl : buffer_flush s w with
  | none => rw [hfl] at h; cases h
  | some f =>
    obtain ⟨rf, sf, wf⟩ := f
    have hq := (buffer_flush_ret s w rf sf wf hfl).1
    rw [hfl] at h
    simp only [Option.some_bind] at h
    split_ifs at h
    · cases h; exact hq
    · cases hl : io_stream_sendfile_loop in_fd in_size ins.abs_start_offset fuel
          ins.v_offset sf wf with
      | none => rw [hl] at h; cases h
      | some y =>
        rw [hl] at h
        simp only [Option.map_some', Option.some.injEq] at h
        rw [← h]
        exact quiet_trans hq (io_stream_sendfile_loop_quiet _ _ _ _ _ _ _ _ hl)

theorem io_stream_copy_loop_quiet :
    ∀ (fuel in_size : Nat) (iov : List const_iovec) (skip : Nat) (s : file_ostream)
      (ins : istream) (w : World) (x : Bool × file_ostream × istream × World),
      io_stream_copy_loop fuel in_size iov skip s ins w = some x → quiet s x.2.1 := by
  intro fuel
  induction fuel with
  | zero => intro in_size iov skip s ins w x h; cases h
  | succ n ih =>
    intro in_size iov skip s ins w x h
    unfold io_stream_copy_loop at h
    simp only at h
    split_ifs at h with h1 h2 h3 h4 h5
    · cases h; exact quiet_refl s
    · cases h; exact o_stream_writev_quiet s _ w
    · -- part of the buffer has been written
      cases hu : update_buffer (o_stream_writev s (iov ++
          [i_stream_read_data ins w (size_sub (min s.optimal_block_size in_size) 1)]) w).2.1
          (o_stream_writev s (iov ++
          [i_stream_read_data ins w (size_sub (min s.optimal_block_size in_size) 1)]) w).1.toNat with
      | none => rw [hu] at h; cases h
      | some u =>
        rw [hu] at h
        have hq := quiet_trans (o_stream_writev_quiet s _ w) (update_buffer_quiet _ _ _ hu)
        simp only [Option.map_some', Option.some_bind] at h
        split_ifs at h
        · cases h; exact quiet_trans hq (quiet_offset u _)
        · exact quiet_trans hq (quiet_trans (quiet_offset u _) (ih _ _ _ _ _ _ _ h))
    · cases hu : update_buffer (o_stream_writev s (iov ++
          [i_stream_read_data ins w (size_sub (min s.optimal_block_size in_size) 1)]) w).2.1
          skip with
      | none => rw [hu] at h; cases h
      | some u =>
        rw [hu] at h
        have hq := quiet_trans (o_stream_writev_quiet s _ w) (update_buffer_quiet _ _ _ hu)
        simp only [Option.map_some', Option.some_bind] at h
        split_ifs at h
        · cases h; exact quiet_trans hq (quiet_offset u _)
        · exact quiet_trans hq (quiet_trans (quiet_offset u _) (ih _ _ _ _ _ _ _ h))
    · have hq := o_stream_writev_quiet s (iov ++
          [i_stream_read_data ins w (size_sub (min s.optimal_block_size in_size) 1)]) w
      simp only [Option.some_bind] at h
      split_ifs at h
      · cases h; exact quiet_trans hq (quiet_offset _ _)
      · exact quiet_trans hq (quiet_trans (quiet_offset _ _) (ih _ _ _ _ _ _ _ h))
    · cases h; exact quiet_refl s

theorem io_stream_copy_quiet (s : file_ostream) (ins : istream) (in_size fuel : Nat)
    (w : World) (x : Int × file_ostream × istream × World)
    (h : io_stream_copy s ins in_size fuel w = some x) : quiet s x.2.1 := by
  unfold io_stream_copy at h
  simp only at h
  cases hl : io_stream_copy_loop fuel (size_sub in_size ins.v_offset) (o_stream_fill_iovec s)
      (iov_total (o_stream_fill_iovec s)) s ins w with
  | none => rw [hl] at h; cases h
  | some y =>
    rw [hl] at h
    simp only [Option.map_some', Option.some.injEq] at h
    rw [← h]
    exact io_stream_copy_loop_quiet _ _ _ _ _ _ _ _ hl

theorem copy_backwards_read_quiet (in_limit : Nat) (w : World) :
    ∀ (fuel in_offset out_offset buffer_size : Nat) (s : file_ostream) (ins : istream)
      (x : Nat × Nat × Nat × List Byte × file_ostream × istream),
      copy_backwards_read in_limit w fuel in_offset out_offset buffer_size s ins = some x →
        quiet s x.2.2.2.2.1 := by
  intro fuel
  induction fuel with
  | zero => intro a b c s ins x h; cases h
  | succ n ih =>
    intro a b c s ins x h
    unfold copy_backwards_read at h
    simp only at h
    split_ifs at h
    · cases h; exact quiet_refl s
    · cases h; exact quiet_refl s
    · exact ih _ _ _ _ _ _ h

theorem copy_backwards_loop_quiet (start : Nat) :
    ∀ (fuel in_offset in_limit out_offset buffer_size : Nat) (s : file_ostream)
      (ins : istream) (w : World) (x : Bool × file_ostream × istream × World),
      copy_backwards_loop start fuel in_offset in_limit out_offset buffer_size s ins w =
        some x → quiet s x.2.1 := by
  intro fuel
  induction fuel with
  | zero => intro a b c d s ins w x h; cases h
  | succ n ih =>
    intro a b c d s ins w x h
    unfold copy_backwards_loop at h
    by_cases h1 : a > start
    · rw [if_pos h1] at h
      simp only at h
      generalize hrd : copy_backwards_read b w (b + 1) _ _ d s ins = rd at h
      cases rd with
      | none => simp at h
      | some k =>
        have hq1 := copy_backwards_read_quiet _ _ _ _ _ _ _ _ _ hrd
        simp only [Option.some_bind] at h
        generalize hsk : o_stream_seek k.2.2.2.2.1 k.2.1 w = sk at h
        cases sk with
        | none => simp at h
        | some sr =>
          have hq2 := o_stream_seek_quiet _ _ _ _ _ _ hsk
          simp only [Option.some_bind] at h
          split_ifs at h
          · cases h; exact quiet_trans hq1 hq2
          · cases h; exact quiet_trans hq1 (quiet_trans hq2 (quiet_stream_errno _ _))
          · exact quiet_trans hq1 (quiet_trans hq2 (ih _ _ _ _ _ _ _ _ h))
    · rw [if_neg h1] at h
      cases h; exact quiet_refl s

theorem io_stream_copy_backwards_quiet (s : file_ostream) (ins : istream)
    (in_size fuel : Nat) (w : World) (x : Int × file_ostream × istream × World)
    (h : io_stream_copy_backwards s ins in_size fuel w = some x) : quiet s x.2.1 := by
  unfold io_stream_copy_backwards at h
  by_cases h1 : IS_STREAM_EMPTY s
  · rw [if_neg (not_not.mpr h1)] at h
    simp only at h
    generalize hsz : (if ins.buffer_size = 0 ∨ ins.buffer_size > s.buffer_size then
        ((if s.optimal_block_size > s.buffer_size then
            o_stream_grow_buffer s (s.optimal_block_size - s.buffer_size)
          else s),
          (if s.optimal_block_size > s.buffer_size then
            o_stream_grow_buffer s (s.optimal_block_size - s.buffer_size)
          else s).buffer_size)
      else (s, ins.buffer_size)) = sized at h
    have hs : quiet s sized.1 := by
      rw [← hsz]
      split_ifs
      · exact o_stream_grow_buffer_quiet _ _
      · exact quiet_refl s
      · exact quiet_refl s
    generalize hl : copy_backwards_loop ins.v_offset fuel in_size in_size _ sized.2 sized.1
      ins w = l at h
    cases l with
    | none => simp at h
    | some y =>
      have hq := copy_backwards_loop_quiet _ _ _ _ _ _ _ _ _ _ hl
      simp only [Option.map_some', Option.some.injEq] at h
      rw [← h]
      exact quiet_trans hs hq
  · rw [if_pos h1] at h
    cases h

/-- Sending from an input stream closes the output stream or leaves its handler,
`corked`, `file`, `flush_pending` and `closed` alone and buffers nothing new. -/
theorem send_istream_quiet (s : file_ostream) (ins : istream) (fuel : Nat) (w : World)
    (x : Int × file_ostream × istream × World)
    (h : _send_istream s ins fuel w = some x) : quiet s x.2.1 := by
  unfold _send_istream at h
  cases hst : i_stream_stat ins with
  | none =>
    rw [hst] at h
    simp only [Option.some.injEq] at h
    rw [← h]
    exact quiet_stream_errno s _
  | some in_size =>
    rw [hst] at h
    simp only at h
    by_cases hv : ins.v_offset ≤ in_size
    · rw [if_neg (not_not.mpr hv)] at h
      have q0 : quiet s { s with stream_errno := 0 } := quiet_stream_errno s 0
      have q1 : ∀ (t : file_ostream), quiet t { t with stream_errno := 0, no_sendfile := true } :=
        fun t => Or.inr ⟨rfl, rfl, rfl, rfl, rfl, fun a => a⟩
      generalize hov : (if i_stream_get_fd ins ≠ s.fd then (Except.ok 0 : Except (Int × file_ostream) Int)
        else if in_size = UOFF_T_MAX then
          Except.error (-1, { s with stream_errno := EINVAL })
        else if (s.offset : Int) - ((ins.abs_start_offset + ins.v_offset : Nat) : Int) = 0 then
          Except.error (((in_size - ins.v_offset : Nat) : Int), { s with stream_errno := 0 })
        else Except.ok (if (s.offset : Int) -
          ((ins.abs_start_offset + ins.v_offset : Nat) : Int) < 0 then -1 else 1)) = ov at h
      cases ov with
      | error e =>
        simp only [Option.some.injEq] at h
        rw [← h]
        split_ifs at hov
        · cases hov; exact quiet_stream_errno s _
        · cases hov; exact q0
      | ok overlapping =>
        simp only at h
        by_cases hsf : s.no_sendfile = false ∧ i_stream_get_fd ins ≠ -1 ∧ overlapping ≤ 0
        · rw [if_pos hsf] at h
          generalize hr : io_stream_sendfile { s with stream_errno := 0 } ins
            (i_stream_get_fd ins) in_size fuel w = sf at h
          cases sf with
          | none => simp at h
          | some r =>
            have hq := io_stream_sendfile_quiet _ _ _ _ _ _ _ hr
            simp only [Option.some_bind] at h
            split_ifs at h
            · cases h; exact quiet_trans q0 hq
            · exact quiet_trans q0 (quiet_trans hq (quiet_trans (q1 _)
                (io_stream_copy_quiet _ _ _ _ _ _ h)))
            · exact quiet_trans q0 (quiet_trans hq (quiet_trans (q1 _)
                (io_stream_copy_backwards_quiet _ _ _ _ _ _ h)))
        · rw [if_neg hsf] at h
          split_ifs at h
          · exact quiet_trans q0 (io_stream_copy_quiet _ _ _ _ _ _ h)
          · exact quiet_trans q0 (io_stream_copy_backwards_quiet _ _ _ _ _ _ h)
    · rw [if_pos hv] at h
      cases h

theorem same_flags_of_data_frame {s s' : file_ostream} (h : data_frame s s') :
    same_flags s s' :=
  ⟨data_frame_corked h, data_frame_file h, data_frame_flush_pending h, data_frame_closed h,
    data_frame_max_buffer_size h⟩

theorem same_flags_trans {a b c : file_ostream} (h1 : same_flags a b) (h2 : same_flags b c) :
    same_flags a c :=
  ⟨h2.1.trans h1.1, h2.2.1.trans h1.2.1, h2.2.2.1.trans h1.2.2.1,
    h2.2.2.2.1.trans h1.2.2.2.1, h2.2.2.2.2.trans h1.2.2.2.2⟩

/-- The part of `_sendv` after the optional flush either fails with -1 and closes
the stream, or keeps the flags and never removes the handler. -/
theorem sendv_send_keeps (s : file_ostream) (iov : List const_iovec) (w : World)
    (h : ring_ok s) (hf : full_ok s) :
    (0 ≤ (sendv_send s iov w).1 ∧ same_flags s (sendv_send s iov w).2.1 ∧
        (s.io = true → (sendv_send s iov w).2.1.io = true)) ∨
      ((sendv_send s iov w).1 = -1 ∧ (sendv_send s iov w).2.1.closed = true) := by
  have mono : ∀ (a b : file_ostream) (c : Bool), b.io = (a.io || c) → a.io = true →
      b.io = true := by
    intro a b c e x
    rw [e, x]; rfl
  unfold sendv_send
  simp only
  by_cases hd : IS_STREAM_EMPTY s ∧ (s.corked = false ∨ iov_total iov ≥
      min s.optimal_block_size s.max_buffer_size)
  · rw [if_pos hd]
    rcases o_stream_writev_shape s iov w with ⟨p1, p2⟩ | ⟨p1, p3, -⟩
    · rw [if_neg (by omega)]
      left
      generalize sendv_skip (o_stream_writev s iov w).1.toNat iov = sk
      obtain ⟨sz, rest⟩ := sk
      cases rest with
      | nil =>
        simp only [p2]
        exact ⟨p1, ⟨rfl, rfl, rfl, rfl, rfl⟩, fun x => x⟩
      | cons el tl =>
        simp only [p2]
        obtain ⟨a, s1, e1, a1, a2, a3, a4, a5, a6, -, -, -, -⟩ :=
          o_stream_add_spec s (el.drop sz) h hf
        have sf1 : same_flags s s1 := same_flags_of_data_frame a5
        simp only [e1]
        split_ifs
        · exact ⟨by omega, sf1, mono s s1 _ a6⟩
        · obtain ⟨b, s2, f1, -, f3, f4, f5, f6, f7, -⟩ :=
            sendv_buffer_spec tl s1 ((o_stream_writev s iov w).1 + (a : Int)) a1 a2
          have sf2 : same_flags s s2 := same_flags_of_data_frame (data_frame_trans a5 f6)
          rw [f1]
          exact ⟨by omega, sf2, fun x => mono s1 s2 _ f7 (mono s s1 _ a6 x)⟩
    · right
      rw [if_pos (by omega)]
      exact ⟨rfl, p3⟩
  · rw [if_neg hd]
    left
    obtain ⟨b, s2, f1, -, f3, f4, f5, f6, f7, -⟩ := sendv_buffer_spec iov s 0 h hf
    have sf2 : same_flags s s2 := same_flags_of_data_frame f6
    rw [f1]
    exact ⟨by omega, sf2, mono s s2 _ f7⟩

/-- `_sendv` keeps the handler invariant of a stream it leaves open. -/
theorem sendv_drain_ok (s : file_ostream) (iov : List const_iovec) (w : World) (r : Int)
    (s' : file_ostream) (w' : World) (hw : well_formed s) (hmax : 0 < s.max_buffer_size)
    (hd : drain_ok s) (h : _sendv s iov w = some (r, s', w')) (hc : s'.closed = false) :
    drain_ok s' := by
  have key : ∀ (s1 : file_ostream) (w1 : World), ring_ok s1 → full_ok s1 →
      same_flags s s1 →
      (s.file = false → s.corked = false → ¬ IS_STREAM_EMPTY s1 → s1.io = true) →
      (s.file = false → s.corked = false → s.flush_pending = true → s1.io = true) →
      sendv_send s1 iov w1 = (r, s', w') → drain_ok s' := by
    intro s1 w1 h1 hf1 hfl hne hfp e
    have e1 : (sendv_send s1 iov w1).1 = r := by rw [e]
    have e2 : (sendv_send s1 iov w1).2.1 = s' := by rw [e]
    rcases sendv_send_keeps s1 iov w1 h1 hf1 with ⟨k1, k2, k3⟩ | ⟨-, k2⟩
    · rw [e2] at k2 k3
      rw [e1] at k1
      have hfl2 := same_flags_trans hfl k2
      intro x hfile hck
      rw [hfl2.2.1] at hfile
      rw [hfl2.1] at hck
      rcases x with x | x
      · have hs1 : IS_STREAM_EMPTY s1 ∨ s1.io = true := by
          by_cases he : IS_STREAM_EMPTY s1
          · left; exact he
          · right; exact hne hfile hck he
        have := sendv_send_drain s1 iov w1 h1 hf1 (by rw [hfl.2.2.2.2]; exact hmax)
          (by rw [hfl.1]; exact hck) (by rw [hfl.2.1]; exact hfile) hs1 (by rw [e1]; exact k1)
        rw [e2] at this
        rcases this with y | y
        · exact absurd y x
        · exact y
      · rw [hfl2.2.2.1] at x
        exact k3 (hfp hfile hck x)
    · rw [e2, hc] at k2; cases k2
  unfold _sendv at h
  simp only at h
  split_ifs at h with hcnd
  · obtain ⟨r1, s1, w1, b1, b2⟩ := buffer_flush_general { s with stream_errno := 0 } w hw.1
    unfold _flush at h
    rw [b1] at h
    simp only [Option.map_some', Option.some.injEq] at h
    rcases b2 with ⟨c1, c2, -⟩ | ⟨c1, c2, c3, c4, c5, c6, -⟩
    · rw [if_pos (by omega)] at h
      simp only [Prod.mk.injEq] at h
      rw [← h.2.1, c2] at hc; cases hc
    · rw [if_neg (by omega)] at h
      have hf0 : full_ok { s with stream_errno := 0 } := well_formed_full_ok hw
      have hio : s1.io = s.io := by rw [ring_frame_io c5]
      have hfl : same_flags s s1 := by
        have := same_flags_of_data_frame (ring_frame_to_data c5)
        exact this
      refine key s1 w1 c3 (full_ok_of_flush hf0 c4 c5 c6) hfl ?_ ?_ h
      · intro hfile hck _
        rw [hio]
        exact hd (Or.inl hcnd.2) hfile hck
      · intro hfile hck hfp
        rw [hio]
        exact hd (Or.inr hfp) hfile hck
  · simp only [Option.some.injEq] at h
    refine key { s with stream_errno := 0 } w hw.1 (well_formed_full_ok hw)
      ⟨rfl, rfl, rfl, rfl, rfl⟩ ?_ ?_ h
    · intro hfile hck hne
      exact hd (Or.inl hne) hfile hck
    · intro hfile hck hfp
      exact hd (Or.inr hfp) hfile hck

/-- `cork(set)` keeps the handler invariant of a stream it leaves open. -/
theorem cork_drain_ok (s : file_ostream) (set : Bool) (w : World) (s' : file_ostream)
    (w' : World) (hd : drain_ok s) (h : _cork s set w = some (s', w'))
    (hc : s'.closed = false) : drain_ok s' := by
  unfold _cork at h
  by_cases hcnd : s.corked ≠ set ∧ s.closed = false
  · rw [if_pos hcnd] at h
    cases set with
    | true =>
      simp only [Bool.true_eq_false, if_false, true_and] at h
      split_ifs at h <;> simp only [Option.map_some', Option.some.injEq] at h <;>
        (try split_ifs at h) <;>
        (simp only [Prod.mk.injEq] at h
         rw [← h.1]
         intro _ _ hck
         cases hck)
    | false =>
      simp only [Bool.false_eq_true, false_and, if_false, if_true] at h
      cases hfl : buffer_flush s w with
      | none => rw [hfl] at h; cases h
      | some x =>
        obtain ⟨r, s1, w1⟩ := x
        rw [hfl] at h
        obtain ⟨-, hret⟩ := buffer_flush_ret s w r s1 w1 hfl
        have key : s1.closed = false →
            ¬ (s1.io = false ∧ (r = 0 ∨ s1.flush_pending = true)) →
            (¬ IS_STREAM_EMPTY s1 ∨ s1.flush_pending = true) → s1.io = true := by
          intro hcl hadd x
          by_cases hio : s1.io = true
          · exact hio
          · exfalso
            apply hadd
            refine ⟨by simpa using hio, ?_⟩
            rcases x with x | x
            · left
              rcases hret with ⟨-, y⟩ | ⟨-, y⟩ | ⟨y, -⟩
              · rw [hcl] at y; cases y
              · exact absurd y x
              · exact y
            · right; exact x
        simp only [Option.map_some', Option.some.injEq] at h
        by_cases hadd : s1.io = false ∧ (r = 0 ∨ s1.flush_pending = true)
        · rw [if_pos hadd] at h
          split_ifs at h <;>
            (simp only [Prod.mk.injEq] at h
             rw [← h.1]
             exact fun _ _ _ => rfl)
        · rw [if_neg hadd] at h
          split_ifs at h <;>
            (simp only [Prod.mk.injEq] at h
             rw [← h.1] at hc ⊢
             exact fun x _ _ => key hc hadd x)
  · rw [if_neg hcnd] at h
    simp only [Option.some.injEq, Prod.mk.injEq] at h
    rw [← h.1]
    exact hd

/-- `set_flush_pending` keeps the handler invariant. -/
theorem flush_pending_drain_ok (s : file_ostream) (set : Bool) (hd : drain_ok s) :
    drain_ok (_flush_pending s set) := by
  unfold _flush_pending
  simp only
  split_ifs with h1
  · exact fun _ _ _ => rfl
  · intro x hfile hck
    cases set with
    | true =>
      have hio : s.io = true := by
        by_cases hio : s.io = true
        · exact hio
        · exact absurd ⟨rfl, hck, by simpa using hio⟩ h1
      exact hio
    | false =>
      rcases x with x | x
      · exact hd (Or.inl x) hfile hck
      · cases x

/-- The write-readiness dispatch establishes the handler invariant, whatever the
flush callback does. -/
theorem send_io_drain_ok (callback : Option stream_flush_callback_t) (s : file_ostream)
    (w : World) (s' : file_ostream) (w' : World)
    (h : stream_send_io callback s w = some (s', w')) : drain_ok s' := by
  have key : ∀ (called : Option (Int × file_ostream × World)),
      (called.map fun r =>
        if (if r.1 = 0 then { r.2.1 with flush_pending := true } else r.2.1).flush_pending = false ∧
            IS_STREAM_EMPTY (if r.1 = 0 then { r.2.1 with flush_pending := true } else r.2.1) then
          ({ (if r.1 = 0 then { r.2.1 with flush_pending := true } else r.2.1) with io := false },
            r.2.2)
        else
          ({ (if r.1 = 0 then { r.2.1 with flush_pending := true } else r.2.1) with io := true },
            r.2.2)) = some (s', w') → drain_ok s' := by
    intro called h
    cases called with
    | none => cases h
    | some x =>
      simp only [Option.map_some', Option.some.injEq] at h
      split_ifs at h with h1 h2 h3 <;>
        (simp only [Prod.mk.injEq] at h
         rw [← h.1])
      · exact absurd h2.1 (fun f => f)
      · exact fun _ _ _ => rfl
      · intro y _ _
        rcases y with y | y
        · exact absurd h3.2 y
        · have := h3.1
          rw [this] at y; cases y
      · exact fun _ _ _ => rfl
  cases callback with
  | none => exact key _ h
  | some cb => exact key _ h

/-- C6, counterexample to "a handler is registered if and only if …": 3 bytes
are sent on a fresh socket stream while the kernel answers `EAGAIN`, so they are
buffered and a handler is registered; a flush that the kernel accepts in full
then empties the buffer.  The stream is open, not corked, not a regular file,
its buffer is empty and `flush_pending` is clear, yet the handler is still
registered. -/
theorem handler_outlives_flush :
    ∃ s' w', run [.sendv [[1, 2, 3]], .flush] (socket_stream 5 1024)
        (scripted [.error EAGAIN, .ok 3]) = some ([3, 1], s', w') ∧
      s'.closed = false ∧
      ¬ (s'.io = true ↔
        ((¬ IS_STREAM_EMPTY s' ∨ s'.flush_pending = true) ∧ s'.file = false ∧
          s'.corked = false)) :=
  ⟨_, _, rfl, rfl, by decide⟩

/-- C6, amended: for every public operation (`sendv`, `flush`, `cork`, `uncork`,
`set_flush_pending`, `seek`, sending from an input stream) and every
write-readiness dispatch that returns and leaves the stream open, on a
well-formed stream with `max_buffer_size > 0` for which this held before: if the
buffer is non-empty or `flush_pending` is set, and the descriptor is neither a
regular file nor corked, then a write-readiness handler is registered. -/
theorem handler_kept (op : PublicOp) (s : file_ostream) (w : World) (s' : file_ostream)
    (w' : World) (hw : well_formed s) (hmax : 0 < s.max_buffer_size) (hd : drain_ok s)
    (h : op.apply s w = some (s', w')) (hc : s'.closed = false) :
    (¬ IS_STREAM_EMPTY s' ∨ s'.flush_pending = true) → s'.file = false →
      s'.corked = false → s'.io = true := by
  show drain_ok s'
  cases op with
  | sendv iov =>
    simp only [PublicOp.apply] at h
    cases hx : _sendv s iov w with
    | none => rw [hx] at h; cases h
    | some x =>
      obtain ⟨r, s1, w1⟩ := x
      rw [hx] at h
      simp only [Option.map_some', Option.some.injEq, Prod.mk.injEq] at h
      rw [← h.1] at hc ⊢
      exact sendv_drain_ok s iov w r s1 w1 hw hmax hd hx hc
  | flush =>
    simp only [PublicOp.apply, _flush] at h
    cases hx : buffer_flush s w with
    | none => rw [hx] at h; cases h
    | some x =>
      obtain ⟨r, s1, w1⟩ := x
      rw [hx] at h
      simp only [Option.map_some', Option.some.injEq, Prod.mk.injEq] at h
      rw [← h.1] at hc ⊢
      exact drain_ok_of_quiet (buffer_flush_ret s w r s1 w1 hx).1 hc hd
  | cork set =>
    exact cork_drain_ok s set w s' w' hd h hc
  | flush_pending set =>
    simp only [PublicOp.apply, Option.some.injEq, Prod.mk.injEq] at h
    rw [← h.1]
    exact flush_pending_drain_ok s set hd
  | seek offset =>
    simp only [PublicOp.apply] at h
    cases hx : _seek s offset w with
    | none => rw [hx] at h; cases h
    | some x =>
      obtain ⟨r, s1, w1⟩ := x
      rw [hx] at h
      simp only [Option.map_some', Option.some.injEq, Prod.mk.injEq] at h
      rw [← h.1] at hc ⊢
      exact drain_ok_of_quiet (seek_quiet s offset w r s1 w1 hx) hc hd
  | send_istream ins fuel =>
    simp only [PublicOp.apply] at h
    cases hx : _send_istream s ins fuel w with
    | none => rw [hx] at h; cases h
    | some x =>
      rw [hx] at h
      simp only [Option.map_some', Option.some.injEq, Prod.mk.injEq] at h
      rw [← h.1] at hc ⊢
      exact drain_ok_of_quiet (send_istream_quiet s ins fuel w x hx) hc hd
  | dispatch callback =>
    exact send_io_drain_ok callback s w s' w' h

/-- Witness for `handler_kept`: 3 bytes sent on a fresh socket stream while the
kernel answers `EAGAIN` are buffered, and the handler is registered. -/
theorem handler_kept_witness :
    well_formed (socket_stream 5 1024) ∧ drain_ok (socket_stream 5 1024) ∧
      ∃ s' w', (PublicOp.sendv [[1, 2, 3]]).apply (socket_stream 5 1024)
          (scripted [.error EAGAIN]) = some (s', w') ∧
        ring_data s' = [1, 2, 3] ∧ s'.io = true :=
  ⟨by decide, by decide, _, _, rfl, rfl,
    handler_kept (.sendv [[1, 2, 3]]) (socket_stream 5 1024) (scripted [.error EAGAIN]) _ _
      (by decide) (by decide) (by decide) rfl rfl (Or.inl (by decide)) rfl rfl⟩

/-- C11: evaluation of `_send_istream` on a backward-overlap copy whose blocking
write fails: output and input share the regular file on descriptor 7, the output
offset is 2, the source covers six bytes from absolute offset 0, the seek
succeeds and `write_full` fails with `ENOSPC`.  The call returns -1 with
`stream_errno = ENOSPC`, but the stream is left open (`closed` unset) and the
descriptor is not closed although `autoclose_fd` is set. -/
theorem backward_copy_error_leaves_open :
    ∃ s' i' w', _send_istream overlap_stream overlap_input 8
        (scripted [.ok 2, .error ENOSPC]) = some (-1, s', i', w') ∧
      s'.stream_errno = ENOSPC ∧ s'.closed = false ∧ s'.fd = 7 ∧
      overlap_stream.autoclose_fd = true ∧
      w'.log = [⟨.lseek 7 2, 2, 0⟩, ⟨.write_full 7 [65, 66, 67, 68, 69, 70], -1, ENOSPC⟩] :=
  ⟨_, _, _, rfl, rfl, rfl, rfl, rfl, rfl⟩

/-- C13: evaluation of the write-readiness dispatch (default flush) on a socket
stream that holds three buffered bytes, when the kernel fails the write with
`EPIPE`: the flush closes the stream (`closed` set, descriptor closed), and the
remainder of the dispatch then registers a write-readiness handler on the closed
stream. -/
theorem dispatch_registers_on_closed :
    ∃ s1 w1 s2 w2,
      _sendv (socket_stream 5 1024) [[1, 2, 3]] (scripted [.error EAGAIN, .error EPIPE]) =
        some (3, s1, w1) ∧
      s1.closed = false ∧ ring_data s1 = [1, 2, 3] ∧
      (_flush { s1 with flush_pending := false } w1).map
        (fun r => (r.1, r.2.1.closed, r.2.1.io)) = some (-1, true, false) ∧
      stream_send_io none s1 w1 = some (s2, w2) ∧
      s2.closed = true ∧ s2.stream_errno = EPIPE ∧ s2.fd = -1 ∧ s2.io = true :=
  ⟨_, _, _, _, rfl, rfl, rfl, rfl, rfl, rfl, rfl, rfl, rfl⟩

/-- C14: each of the three invalid-argument cases returns -1 with
`stream_errno = EINVAL` and changes neither `closed` nor `offset`: a seek above
`OFF_T_MAX` (nothing else happens at all); a seek whose flush has not failed and
whose `lseek` answers a position other than the one asked for; and sending from
an input stream on the output's own descriptor whose size is unknown. -/
theorem invalid_argument_cases :
    (∀ (s : file_ostream) (offset : Nat) (w : World), offset > OFF_T_MAX →
      _seek s offset w = some (-1, { s with stream_errno := EINVAL }, w)) ∧
    (∀ (s : file_ostream) (offset : Nat) (w : World) (r : Int) (s1 : file_ostream)
        (w1 : World) (n : Nat),
      offset ≤ OFF_T_MAX → buffer_flush s w = some (r, s1, w1) → 0 ≤ r →
      w1.kernel w1.log (.lseek s1.fd offset) = .ok n → n ≠ offset →
      _seek s offset w =
          some (-1, { s1 with stream_errno := EINVAL }, w1.record (.lseek s1.fd offset) n 0) ∧
        s1.offset = s.offset ∧ s1.closed = s.closed) ∧
    (∀ (s : file_ostream) (ins : istream) (fuel : Nat) (w : World),
      ins.st_size = some UOFF_T_MAX → ins.fd = s.fd → ins.v_offset ≤ UOFF_T_MAX →
      _send_istream s ins fuel w = some (-1, { s with stream_errno := EINVAL }, ins, w)) := by
  refine ⟨?_, ?_, ?_⟩
  · intro s offset w h
    unfold _seek
    rw [if_pos h]
  · intro s offset w r s1 w1 n h1 hfl hr hk hn
    have hfr : ring_frame s s1 := by
      rcases buffer_flush_shape s w r s1 w1 hfl with ⟨-, b⟩ | ⟨a, -⟩
      · exact b
      · omega
    refine ⟨?_, data_frame_offset (ring_frame_to_data hfr),
      data_frame_closed (ring_frame_to_data hfr)⟩
    unfold _seek
    rw [if_neg (by omega), hfl]
    simp only [Option.map_some', lseek, hk]
    rw [if_neg (by omega), if_neg (by omega), if_pos (by
      intro x
      exact hn (by exact_mod_cast x))]
  · intro s ins fuel w hst hfd hv
    unfold _send_istream
    simp only [i_stream_stat, hst, i_stream_get_fd, hfd, hv, not_true_eq_false, if_false,
      ne_eq, if_true]

/-- C15: when the input stream is on the output's own descriptor, has the known
size `S`, is read up to `v ≤ S` and the output `offset` equals the input's
absolute position, `_send_istream` returns `S - v` and does nothing else: the
world (hence the log of system calls), the ring and the input stream are
unchanged; only `stream_errno` is cleared. -/
theorem self_copy_no_io (s : file_ostream) (ins : istream) (fuel : Nat) (w : World)
    (S : Nat) (hst : ins.st_size = some S) (hfd : ins.fd = s.fd) (hS : S ≠ UOFF_T_MAX)
    (hv : ins.v_offset ≤ S) (ho : s.offset = ins.abs_start_offset + ins.v_offset) :
    _send_istream s ins fuel w =
      some (((S - ins.v_offset : Nat) : Int), { s with stream_errno := 0 }, ins, w) := by
  unfold _send_istream
  simp only [i_stream_stat, hst, i_stream_get_fd, hfd, hv, not_true_eq_false, if_false,
    ne_eq, hS, ho, sub_self, if_true]

/-- Witness for `self_copy_no_io`: size 1000, virtual offset 100, returns 900. -/
theorem self_copy_no_io_witness :
    _send_istream file_stream same_file_input 8 (scripted []) =
      some (900, { file_stream with stream_errno := 0 }, same_file_input, scripted []) :=
  self_copy_no_io file_stream same_file_input 8 (scripted []) 1000 rfl rfl (by decide)
    (by decide) rfl

/-- C19: whatever the descriptor is and whatever block size `fstat` reports,
the stream `o_stream_create_file` returns has
`4096 ≤ optimal_block_size ≤ 131072`, and its `max_buffer_size` is the requested
value when that is not 0 and `optimal_block_size` when it is 0. -/
theorem create_file_sizes (fd : Int) (pool : pool_t) (max_buffer_size : Nat)
    (autoclose_fd : Bool) (lseek_ret : Int) (fstat_ret : Option stat) (getsockname_ret : Int) :
    4096 ≤ (o_stream_create_file fd pool max_buffer_size autoclose_fd lseek_ret fstat_ret
        getsockname_ret).optimal_block_size ∧
    (o_stream_create_file fd pool max_buffer_size autoclose_fd lseek_ret fstat_ret
        getsockname_ret).optimal_block_size ≤ 131072 ∧
    (max_buffer_size ≠ 0 →
      (o_stream_create_file fd pool max_buffer_size autoclose_fd lseek_ret fstat_ret
        getsockname_ret).max_buffer_size = max_buffer_size) ∧
    (max_buffer_size = 0 →
      (o_stream_create_file fd pool max_buffer_size autoclose_fd lseek_ret fstat_ret
        getsockname_ret).max_buffer_size =
      (o_stream_create_file fd pool max_buffer_size autoclose_fd lseek_ret fstat_ret
        getsockname_ret).optimal_block_size) := by
  unfold o_stream_create_file
  simp only [DEFAULT_OPTIMAL_BLOCK_SIZE, MAX_OPTIMAL_BLOCK_SIZE]
  cases fstat_ret with
  | none => split_ifs <;> simp_all
  | some st =>
    simp only
    split_ifs <;> simp_all <;> omega

set_option maxRecDepth 100000

/-- C12: whenever the system-call part of `o_stream_writev` ends with a negative
return value and `errno` `EAGAIN` or `EINTR`, `o_stream_writev` returns 0 and the
stream it returns is the one it was given, field for field.  For a vector of at
most `IOV_MAX` entries that is the case when the kernel answers the one call
with `EAGAIN`/`EINTR`; `_sendv` on a well-formed, empty, uncorked stream with
`buffer_size ≤ max_buffer_size` then returns `min total max_buffer_size ≥ 0`,
holds exactly that many leading bytes of the vector in its ring, and has not
closed the stream. -/
theorem eagain_leaves_stream (s : file_ostream) (iov : List const_iovec) (w : World) :
    ((o_stream_writev_ret s.fd iov w).1.1 < 0 →
      ((o_stream_writev_ret s.fd iov w).1.2 = EAGAIN ∨
        (o_stream_writev_ret s.fd iov w).1.2 = EINTR) →
      o_stream_writev s iov w = (0, s, (o_stream_writev_ret s.fd iov w).2)) ∧
    (∀ e, iov.length ≤ w.IOV_MAX → w.kernel w.log (write_call s.fd iov) = .error e →
      (e = EAGAIN ∨ e = EINTR) →
      o_stream_writev s iov w = (0, s, w.record (write_call s.fd iov) (-1) e) ∧
      (ring_ok s → IS_STREAM_EMPTY s → s.corked = false →
        s.buffer_size ≤ s.max_buffer_size →
        ∃ s' w', _sendv s iov w =
            some (((min (iov_total iov) s.max_buffer_size : Nat) : Int), s', w') ∧
          ring_data s' = iov.flatten.take (min (iov_total iov) s.max_buffer_size) ∧
          s'.closed = s.closed ∧ w'.sent s.fd = w.sent s.fd)) := by
  constructor
  · intro h1 h2
    unfold o_stream_writev
    simp only
    rw [if_pos h1, if_pos h2]
  · intro e hl hk he
    refine ⟨?_, ?_⟩
    · rw [o_stream_writev_short s iov w hl, hk]
      simp only [he, if_true]
    · intro hr hem hck hb
      obtain ⟨s', w', e1, e2, e3⟩ := sendv_direct_short s iov w hr hem hck hb hl (by
        intro e' hk'
        rw [hk] at hk'
        cases hk'
        exact he)
      rw [hk] at e1 e2 e3
      simp only [accepted, Nat.zero_add, Nat.sub_zero, List.drop_zero, List.take_zero,
        List.append_nil] at e1 e2 e3
      refine ⟨s', w', e1, e2, ?_, e3⟩
      have hfl : ring_ok s ∧ full_ok s := ⟨hr, fun a => by rw [hem.2] at a; cases a⟩
      unfold _sendv at e1
      simp only at e1
      rw [if_neg (fun x => x.2 hem)] at e1
      simp only [Option.some.injEq] at e1
      rcases sendv_send_keeps { s with stream_errno := 0 } iov w hfl.1 hfl.2 with
        ⟨-, k2, -⟩ | ⟨k1, -⟩
      · rw [e1] at k2
        exact k2.2.2.2.1
      · rw [e1] at k1
        simp only at k1
        omega

/-- Witness for `eagain_leaves_stream`: three bytes on a fresh socket stream, the
kernel answers `EAGAIN`; `_sendv` returns 3 with the three bytes buffered. -/
theorem eagain_leaves_stream_witness :
    ∃ s' w', _sendv (socket_stream 5 1024) [[1, 2, 3]] (scripted [.error EAGAIN]) =
        some (3, s', w') ∧ ring_data s' = [1, 2, 3] ∧ s'.closed = false := by
  obtain ⟨-, h2⟩ := (eagain_leaves_stream (socket_stream 5 1024) [[1, 2, 3]]
    (scripted [.error EAGAIN])).2 EAGAIN (by decide) rfl (Or.inl rfl)
  obtain ⟨s', w', e1, e2, e3, -⟩ := h2 (by decide) (by decide) rfl (by decide)
  exact ⟨s', w', e1, e2, e3⟩

/-- C16, counterexample to the overlap measure as the claim writes it,
`D = output.offset - source.absolute_start + source.virtual_offset`: output and
input share descriptor 7, the output offset is 100, the source starts at
absolute offset 0 and is read up to virtual offset 100.  That `D` is 200 > 0,
which the claim calls a backward overlap, but `_send_istream` treats the call as
a self-copy: it returns 900 without any system call, which is not what the
backward copy does there. -/
theorem spec_delta_misjudges :
    spec_delta file_stream same_file_input = 200 ∧
      _send_istream file_stream same_file_input 8 (scripted []) =
        some (900, { file_stream with stream_errno := 0 }, same_file_input, scripted []) ∧
      (io_stream_copy_backwards { file_stream with stream_errno := 0 } same_file_input 1000 8
        (scripted [])).map (fun r => r.1) = some (-1) :=
  ⟨rfl, rfl, rfl⟩

/-- C16, amended: for every copy within one descriptor with a known source size
`S` and virtual offset `v ≤ S`, the direction is decided by
`D = output.offset - (source.absolute_start + source.virtual_offset)`: `D = 0` is
a self-copy (returns `S - v`, no I/O); `D > 0` is served by the backward
(tail-to-head) copy; `D < 0` is served head-to-tail, by `io_stream_copy`, after
`sendfile` has been tried when it is permitted. -/
theorem overlap_direction (s : file_ostream) (ins : istream) (fuel : Nat) (w : World)
    (S : Nat) (hst : ins.st_size = some S) (hfd : ins.fd = s.fd) (hS : S ≠ UOFF_T_MAX)
    (hv : ins.v_offset ≤ S) :
    (code_delta s ins = 0 →
      _send_istream s ins fuel w =
        some (((S - ins.v_offset : Nat) : Int), { s with stream_errno := 0 }, ins, w)) ∧
    (code_delta s ins > 0 →
      _send_istream s ins fuel w =
        io_stream_copy_backwards { s with stream_errno := 0 } ins S fuel w) ∧
    (code_delta s ins < 0 → (s.no_sendfile = true ∨ ins.fd = -1) →
      _send_istream s ins fuel w = io_stream_copy { s with stream_errno := 0 } ins S fuel w) ∧
    (code_delta s ins < 0 → s.no_sendfile = false → ins.fd ≠ -1 →
      _send_istream s ins fuel w =
        (io_stream_sendfile { s with stream_errno := 0 } ins ins.fd S fuel w).bind fun r =>
          if r.1 ≥ 0 ∨ r.2.1.stream_errno ≠ EINVAL then some r
          else io_stream_copy { r.2.1 with stream_errno := 0, no_sendfile := true } r.2.2.1 S
            fuel r.2.2.2) := by
  unfold code_delta
  refine ⟨?_, ?_, ?_, ?_⟩
  · intro hd
    unfold _send_istream
    simp only [i_stream_stat, hst, i_stream_get_fd, hfd, hv, not_true_eq_false, if_false,
      ne_eq, hS, hd, if_true]
  · intro hd
    unfold _send_istream
    simp only [i_stream_stat, hst, i_stream_get_fd, hfd, hv, not_true_eq_false, if_false,
      ne_eq, hS]
    rw [if_neg (by omega), if_neg (by omega)]
    simp only [show ¬ ((1 : Int) ≤ 0) by omega, and_false, if_false]
  · intro hd hns
    unfold _send_istream
    simp only [i_stream_stat, hst, i_stream_get_fd, hfd, hv, not_true_eq_false, if_false,
      ne_eq, hS]
    rw [if_neg (by omega), if_pos hd]
    simp only [show ((-1 : Int) ≤ 0) by omega, and_true, if_true]
    rw [if_neg]
    rintro ⟨a, b⟩
    rcases hns with c | c
    · rw [c] at a; cases a
    · rw [hfd] at c; exact b c
  · intro hd hns hfdv
    unfold _send_istream
    simp only [i_stream_stat, hst, i_stream_get_fd, hfd, hv, not_true_eq_false, if_false,
      ne_eq, hS]
    rw [if_neg (by omega), if_pos hd]
    simp only [show ((-1 : Int) ≤ 0) by omega, and_true, if_true]
    rw [if_pos ⟨hns, by rw [← hfd]; exact hfdv⟩]

/-- Witness for `overlap_direction`: output offset 2, source at absolute offset
0 and virtual offset 0 on the same descriptor: `D = 2 > 0`, the backward copy
serves the call. -/
theorem overlap_direction_witness :
    code_delta overlap_stream overlap_input = 2 ∧
      _send_istream overlap_stream overlap_input 8 (scripted [.ok 2, .ok 6]) =
        io_stream_copy_backwards { overlap_stream with stream_errno := 0 } overlap_input 6 8
          (scripted [.ok 2, .ok 6]) :=
  ⟨rfl, (overlap_direction overlap_stream overlap_input 8 (scripted [.ok 2, .ok 6]) 6 rfl rfl
    (by decide) (by decide)).2.1 (by decide)⟩

theorem same_overflow_refl (s : file_ostream) : same_overflow s s := rfl

theorem same_overflow_trans {a b c : file_ostream} (h1 : same_overflow a b)
    (h2 : same_overflow b c) : same_overflow a c := h2.trans h1

theorem same_overflow_of_data_frame {s s' : file_ostream} (h : data_frame s s') :
    same_overflow s s' := data_frame_overflow h

theorem stream_closed_overflow (s : file_ostream) (w : World) :
    same_overflow s (stream_closed s w).1 := by
  unfold stream_closed same_overflow
  simp only
  split_ifs <;> rfl

theorem o_stream_writev_overflow (s : file_ostream) (iov : List const_iovec) (w : World) :
    same_overflow s (o_stream_writev s iov w).2.1 := by
  unfold o_stream_writev
  simp only
  split_ifs
  · rfl
  · exact stream_closed_overflow { s with stream_errno := _ } _
  · rfl

theorem update_buffer_overflow (s s' : file_ostream) (n : Nat)
    (h : update_buffer s n = some s') : same_overflow s s' :=
  same_overflow_of_data_frame (ring_frame_to_data (update_buffer_frame s s' n h))

theorem buffer_flush_overflow (s : file_ostream) (w : World)
    (x : Int × file_ostream × World) (h : buffer_flush s w = some x) :
    same_overflow s x.2.1 := by
  unfold buffer_flush at h
  simp only at h
  split_ifs at h with h1 h2 h3
  · cases h
    exact o_stream_writev_overflow s _ w
  · cases hu : update_buffer (o_stream_writev s (o_stream_fill_iovec s) w).2.1
        (o_stream_writev s (o_stream_fill_iovec s) w).1.toNat with
    | none => rw [hu] at h; cases h
    | some u =>
      rw [hu] at h
      simp only [Option.map_some', Option.some.injEq] at h
      rw [← h]
      exact same_overflow_trans (o_stream_writev_overflow s _ w)
        (update_buffer_overflow _ _ _ hu)
  · cases h; rfl
  · cases h; rfl

theorem sendv_send_overflow (s : file_ostream) (iov : List const_iovec) (w : World) :
    same_overflow s (sendv_send s iov w).2.1 := by
  unfold sendv_send
  simp only
  split_ifs with h1 h2
  · exact o_stream_writev_overflow s iov w
  · have hw := o_stream_writev_overflow s iov w
    split
    · exact hw
    · rename_i size e rest hsk
      have hf := same_overflow_of_data_frame
        (o_stream_add_frame (o_stream_writev s iov w).2.1 (List.drop size e))
      split_ifs
      · exact same_overflow_trans hw hf
      · obtain ⟨g1, -⟩ := sendv_buffer_frame rest
          (o_stream_add (o_stream_writev s iov w).2.1 (List.drop size e)).2
          ((o_stream_writev s iov w).1 +
            ((o_stream_add (o_stream_writev s iov w).2.1 (List.drop size e)).1 : Int))
        have q := same_overflow_trans hw
          (same_overflow_trans hf (same_overflow_of_data_frame g1))
        exact q
  · obtain ⟨g1, -⟩ := sendv_buffer_frame iov s 0
    have q := same_overflow_of_data_frame g1
    exact q

theorem sendv_overflow (s : file_ostream) (iov : List const_iovec) (w : World)
    (x : Int × file_ostream × World) (h : _sendv s iov w = some x) :
    same_overflow s x.2.1 := by
  unfold _sendv at h
  simp only at h
  split_ifs at h
  · unfold _flush at h
    cases hfl : buffer_flush { s with stream_errno := 0 } w with
    | none => rw [hfl] at h; cases h
    | some f =>
      have hq0 := buffer_flush_overflow _ w f hfl
      have hq : same_overflow s f.2.1 := hq0
      rw [hfl] at h
      simp only [Option.map_some', Option.some.injEq] at h
      split_ifs at h
      · rw [← h]; exact hq
      · rw [← h]; exact same_overflow_trans hq (sendv_send_overflow _ _ _)
  · simp only [Option.some.injEq] at h
    rw [← h]
    exact sendv_send_overflow { s with stream_errno := 0 } iov w

theorem cork_overflow (s : file_ostream) (set : Bool) (w : World)
    (x : file_ostream × World) (h : _cork s set w = some x) : same_overflow s x.1 := by
  unfold _cork at h
  by_cases hcnd : s.corked ≠ set ∧ s.closed = false
  · rw [if_pos hcnd] at h
    cases set with
    | true =>
      simp only [Bool.true_eq_false, if_false, true_and] at h
      split_ifs at h <;> simp only [Option.map_some', Option.some.injEq] at h <;>
        (try split_ifs at h) <;> (rw [← h]; rfl)
    | false =>
      simp only [Bool.false_eq_true, false_and, if_false, if_true] at h
      cases hfl : buffer_flush s w with
      | none => rw [hfl] at h; cases h
      | some f =>
        have hq := buffer_flush_overflow s w f hfl
        rw [hfl] at h
        simp only [Option.map_some', Option.some.injEq] at h
        split_ifs at h <;> (rw [← h]; exact hq)
  · rw [if_neg hcnd] at h
    cases h; rfl

theorem flush_pending_overflow (s : file_ostream) (set : Bool) :
    same_overflow s (_flush_pending s set) := by
  unfold _flush_pending
  simp only
  split_ifs <;> rfl

theorem seek_overflow (s : file_ostream) (offset : Nat) (w : World)
    (x : Int × file_ostream × World) (h : _seek s offset w = some x) :
    same_overflow s x.2.1 := by
  unfold _seek at h
  split_ifs at h with h1
  · cases h; rfl
  · cases hfl : buffer_flush s w with
    | none => rw [hfl] at h; cases h
    | some f =>
      have hq := buffer_flush_overflow s w f hfl
      rw [hfl] at h
      simp only [Option.map_some', Option.some.injEq] at h
      split_ifs at h <;> (rw [← h]; exact hq)

theorem o_stream_seek_overflow (s : file_ostream) (offset : Nat) (w : World)
    (x : Int × file_ostream × World) (h : o_stream_seek s offset w = some x) :
    same_overflow s x.2.1 := by
  unfold o_stream_seek at h
  split_ifs at h
  · cases h; rfl
  · exact seek_overflow s offset w x h

theorem send_io_overflow (callback : Option stream_flush_callback_t) (s : file_ostream)
    (w : World) (x : file_ostream × World)
    (hcb : ∀ cb, callback = some cb →
      ∀ t v y, cb t v = some y → same_overflow t y.2.1)
    (h : stream_send_io callback s w = some x) : same_overflow s x.1 := by
  have key : ∀ (called : Option (Int × file_ostream × World)),
      (∀ y, called = some y → same_overflow s y.2.1) →
      (called.map fun r =>
        if (if r.1 = 0 then { r.2.1 with flush_pending := true } else r.2.1).flush_pending = false ∧
            IS_STREAM_EMPTY (if r.1 = 0 then { r.2.1 with flush_pending := true } else r.2.1) then
          ({ (if r.1 = 0 then { r.2.1 with flush_pending := true } else r.2.1) with io := false },
            r.2.2)
        else
          ({ (if r.1 = 0 then { r.2.1 with flush_pending := true } else r.2.1) with io := true },
            r.2.2)) = some x → same_overflow s x.1 := by
    intro called hc h
    cases called with
    | none => cases h
    | some y =>
      have hy := hc y rfl
      simp only [Option.map_some', Option.some.injEq] at h
      split_ifs at h <;> (rw [← h]; exact hy)
  cases callback with
  | none =>
    refine key _ ?_ h
    intro y hy
    have q := buffer_flush_overflow { s with flush_pending := false } w y hy
    exact q
  | some cb =>
    refine key _ ?_ h
    intro y hy
    have q := hcb cb rfl { s with flush_pending := false } w y hy
    exact q

theorem same_overflow_offset (s : file_ostream) (n : Nat) :
    same_overflow s { s with offset := n } := rfl

theorem same_overflow_stream_errno (s : file_ostream) (n : Nat) :
    same_overflow s { s with stream_errno := n } := rfl

theorem o_stream_grow_buffer_overflow (s : file_ostream) (bytes : Nat) :
    same_overflow s (o_stream_grow_buffer s bytes) :=
  same_overflow_of_data_frame (ring_frame_to_data (o_stream_grow_buffer_frame s bytes))

theorem io_stream_sendfile_loop_overflow (in_fd : Int) (in_size abs : Nat) :
    ∀ (fuel v : Nat) (s : file_ostream) (w : World)
      (x : Int × Nat × file_ostream × World),
      io_stream_sendfile_loop in_fd in_size abs fuel v s w = some x → same_overflow s x.2.2.1 := by
  intro fuel
  induction fuel with
  | zero => intro v s w x h; cases h
  | succ n ih =>
    intro v s w x h
    unfold io_stream_sendfile_loop at h
    simp only at h
    split_ifs at h with h1 h2 h3 h4
    · cases h; exact same_overflow_refl s
    · cases h; exact stream_closed_overflow { s with stream_errno := _ } _
    · cases h; exact same_overflow_refl s
    · exact same_overflow_trans (same_overflow_offset s _) (ih _ _ _ _ h)
    · cases h; exact same_overflow_refl s

theorem io_stream_sendfile_overflow (s : file_ostream) (ins : istream) (in_fd : Int)
    (in_size fuel : Nat) (w : World) (x : Int × file_ostream × istream × World)
    (h : io_stream_sendfile s ins in_fd in_size fuel w = some x) : same_overflow s x.2.1 := by
  unfold io_stream_sendfile at h
  cases hfl : buffer_flush s w with
  | none => rw [hfl] at h; cases h
  | some f =>
    obtain ⟨rf, sf, wf⟩ := f
    have hq0 := buffer_flush_overflow s w _ hfl
    have hq : same_overflow s sf := hq0
    rw [hfl] at h
    simp only [Option.some_bind] at h
    split_ifs at h
    · cases h; exact hq
    · cases hl : io_stream_sendfile_loop in_fd in_size ins.abs_start_offset fuel
          ins.v_offset sf wf with
      | none => rw [hl] at h; cases h
      | some y =>
        rw [hl] at h
        simp only [Option.map_some', Option.some.injEq] at h
        rw [← h]
        exact same_overflow_trans hq (io_stream_sendfile_loop_overflow _ _ _ _ _ _ _ _ hl)

theorem io_stream_copy_loop_overflow :
    ∀ (fuel in_size : Nat) (iov : List const_iovec) (skip : Nat) (s : file_ostream)
      (ins : istream) (w : World) (x : Bool × file_ostream × istream × World),
      io_stream_copy_loop fuel in_size iov skip s ins w = some x → same_overflow s x.2.1 := by
  intro fuel
  induction fuel with
  | zero => intro in_size iov skip s ins w x h; cases h
  | succ n ih =>
    intro in_size iov skip s ins w x h
    unfold io_stream_copy_loop at h
    simp only at h
    split_ifs at h with h1 h2 h3 h4 h5
    · cases h; exact same_overflow_refl s
    · cases h; exact o_stream_writev_overflow s _ w
    · -- part of the buffer has been written
      cases hu : update_buffer (o_stream_writev s (iov ++
          [i_stream_read_data ins w (size_sub (min s.optimal_block_size in_size) 1)]) w).2.1
          (o_stream_writev s (iov ++
          [i_stream_read_data ins w (size_sub (min s.optimal_block_size in_size) 1)]) w).1.toNat with
      | none => rw [hu] at h; cases h
      | some u =>
        rw [hu] at h
        have hq := same_overflow_trans (o_stream_writev_overflow s _ w) (update_buffer_overflow _ _ _ hu)
        simp only [Option.map_some', Option.some_bind] at h
        split_ifs at h
        · cases h; exact same_overflow_trans hq (same_overflow_offset u _)
        · exact same_overflow_trans hq (same_overflow_trans (same_overflow_offset u _) (ih _ _ _ _ _ _ _ h))
    · cases hu : update_buffer (o_stream_writev s (iov ++
          [i_stream_read_data ins w (size_sub (min s.optimal_block_size in_size) 1)]) w).2.1
          skip with
      | none => rw [hu] at h; cases h
      | some u =>
        rw [hu] at h
        have hq := same_overflow_trans (o_stream_writev_overflow s _ w) (update_buffer_overflow _ _ _ hu)
        simp only [Option.map_some', Option.some_bind] at h
        split_ifs at h
        · cases h; exact same_overflow_trans hq (same_overflow_offset u _)
        · exact same_overflow_trans hq (same_overflow_trans (same_overflow_offset u _) (ih _ _ _ _ _ _ _ h))
    · have hq := o_stream_writev_overflow s (iov ++
          [i_stream_read_data ins w (size_sub (min s.optimal_block_size in_size) 1)]) w
      simp only [Option.some_bind] at h
      split_ifs at h
      · cases h; exact same_overflow_trans hq (same_overflow_offset _ _)
      · exact same_overflow_trans hq (same_overflow_trans (same_overflow_offset _ _) (ih _ _ _ _ _ _ _ h))
    · cases h; exact same_overflow_refl s

theorem io_stream_copy_overflow (s : file_ostream) (ins : istream) (in_size fuel : Nat)
    (w : World) (x : Int × file_ostream × istream × World)
    (h : io_stream_copy s ins in_size fuel w = some x) : same_overflow s x.2.1 := by
  unfold io_stream_copy at h
  simp only at h
  cases hl : io_stream_copy_loop fuel (size_sub in_size ins.v_offset) (o_stream_fill_iovec s)
      (iov_total (o_stream_fill_iovec s)) s ins w with
  | none => rw [hl] at h; cases h
  | some y =>
    rw [hl] at h
    simp only [Option.map_some', Option.some.injEq] at h
    rw [← h]
    exact io_stream_copy_loop_overflow _ _ _ _ _ _ _ _ hl

theorem copy_backwards_read_overflow (in_limit : Nat) (w : World) :
    ∀ (fuel in_offset out_offset buffer_size : Nat) (s : file_ostream) (ins : istream)
      (x : Nat × Nat × Nat × List Byte × file_ostream × istream),
      copy_backwards_read in_limit w fuel in_offset out_offset buffer_size s ins = some x →
        same_overflow s x.2.2.2.2.1 := by
  intro fuel
  induction fuel with
  | zero => intro a b c s ins x h; cases h
  | succ n ih =>
    intro a b c s ins x h
    unfold copy_backwards_read at h
    simp only at h
    split_ifs at h
    · cases h; exact same_overflow_refl s
    · cases h; exact same_overflow_refl s
    · exact ih _ _ _ _ _ _ h

theorem copy_backwards_loop_overflow (start : Nat) :
    ∀ (fuel in_offset in_limit out_offset buffer_size : Nat) (s : file_ostream)
      (ins : istream) (w : World) (x : Bool × file_ostream × istream × World),
      copy_backwards_loop start fuel in_offset in_limit out_offset buffer_size s ins w =
        some x → same_overflow s x.2.1 := by
  intro fuel
  induction fuel with
  | zero => intro a b c d s ins w x h; cases h
  | succ n ih =>
    intro a b c d s ins w x h
    unfold copy_backwards_loop at h
    by_cases h1 : a > start
    · rw [if_pos h1] at h
      simp only at h
      generalize hrd : copy_backwards_read b w (b + 1) _ _ d s ins = rd at h
      cases rd with
      | none => simp at h
      | some k =>
        have hq1 := copy_backwards_read_overflow _ _ _ _ _ _ _ _ _ hrd
        simp only [Option.some_bind] at h
        generalize hsk : o_stream_seek k.2.2.2.2.1 k.2.1 w = sk at h
        cases sk with
        | none => simp at h
        | some sr =>
          have hq2 := o_stream_seek_overflow _ _ _ _ hsk
          simp only [Option.some_bind] at h
          split_ifs at h
          · cases h; exact same_overflow_trans hq1 hq2
          · cases h; exact same_overflow_trans hq1 (same_overflow_trans hq2 (same_overflow_stream_errno _ _))
          · exact same_overflow_trans hq1 (same_overflow_trans hq2 (ih _ _ _ _ _ _ _ _ h))
    · rw [if_neg h1] at h
      cases h; exact same_overflow_refl s

theorem io_stream_copy_backwards_overflow (s : file_ostream) (ins : istream)
    (in_size fuel : Nat) (w : World) (x : Int × file_ostream × istream × World)
    (h : io_stream_copy_backwards s ins in_size fuel w = some x) : same_overflow s x.2.1 := by
  unfold io_stream_copy_backwards at h
  by_cases h1 : IS_STREAM_EMPTY s
  · rw [if_neg (not_not.mpr h1)] at h
    simp only at h
    generalize hsz : (if ins.buffer_size = 0 ∨ ins.buffer_size > s.buffer_size then
        ((if s.optimal_block_size > s.buffer_size then
            o_stream_grow_buffer s (s.optimal_block_size - s.buffer_size)
          else s),
          (if s.optimal_block_size > s.buffer_size then
            o_stream_grow_buffer s (s.optimal_block_size - s.buffer_size)
          else s).buffer_size)
      else (s, ins.buffer_size)) = sized at h
    have hs : same_overflow s sized.1 := by
      rw [← hsz]
      split_ifs
      · exact o_stream_grow_buffer_overflow _ _
      · exact same_overflow_refl s
      · exact same_overflow_refl s
    generalize hl : copy_backwards_loop ins.v_offset fuel in_size in_size _ sized.2 sized.1
      ins w = l at h
    cases l with
    | none => simp at h
    | some y =>
      have hq := copy_backwards_loop_overflow _ _ _ _ _ _ _ _ _ _ hl
      simp only [Option.map_some', Option.some.injEq] at h
      rw [← h]
      exact same_overflow_trans hs hq
  · rw [if_pos h1] at h
    cases h

/-- Sending from an input stream never touches `overflow`. -/
theorem send_istream_overflow (s : file_ostream) (ins : istream) (fuel : Nat) (w : World)
    (x : Int × file_ostream × istream × World)
    (h : _send_istream s ins fuel w = some x) : same_overflow s x.2.1 := by
  unfold _send_istream at h
  cases hst : i_stream_stat ins with
  | none =>
    rw [hst] at h
    simp only [Option.some.injEq] at h
    rw [← h]
    exact same_overflow_stream_errno s _
  | some in_size =>
    rw [hst] at h
    simp only at h
    by_cases hv : ins.v_offset ≤ in_size
    · rw [if_neg (not_not.mpr hv)] at h
      have q0 : same_overflow s { s with stream_errno := 0 } := same_overflow_stream_errno s 0
      have q1 : ∀ (t : file_ostream), same_overflow t { t with stream_errno := 0, no_sendfile := true } :=
        fun _ => rfl
      generalize hov : (if i_stream_get_fd ins ≠ s.fd then (Except.ok 0 : Except (Int × file_ostream) Int)
        else if in_size = UOFF_T_MAX then
          Except.error (-1, { s with stream_errno := EINVAL })
        else if (s.offset : Int) - ((ins.abs_start_offset + ins.v_offset : Nat) : Int) = 0 then
          Except.error (((in_size - ins.v_offset : Nat) : Int), { s with stream_errno := 0 })
        else Except.ok (if (s.offset : Int) -
          ((ins.abs_start_offset + ins.v_offset : Nat) : Int) < 0 then -1 else 1)) = ov at h
      cases ov with
      | error e =>
        simp only [Option.some.injEq] at h
        rw [← h]
        split_ifs at hov
        · cases hov; exact same_overflow_stream_errno s _
        · cases hov; exact q0
      | ok overlapping =>
        simp only at h
        by_cases hsf : s.no_sendfile = false ∧ i_stream_get_fd ins ≠ -1 ∧ overlapping ≤ 0
        · rw [if_pos hsf] at h
          generalize hr : io_stream_sendfile { s with stream_errno := 0 } ins
            (i_stream_get_fd ins) in_size fuel w = sf at h
          cases sf with
          | none => simp at h
          | some r =>
            have hq := io_stream_sendfile_overflow _ _ _ _ _ _ _ hr
            simp only [Option.some_bind] at h
            split_ifs at h
            · cases h; exact same_overflow_trans q0 hq
            · exact same_overflow_trans q0 (same_overflow_trans hq (same_overflow_trans (q1 _)
                (io_stream_copy_overflow _ _ _ _ _ _ h)))
            · exact same_overflow_trans q0 (same_overflow_trans hq (same_overflow_trans (q1 _)
                (io_stream_copy_backwards_overflow _ _ _ _ _ _ h)))
        · rw [if_neg hsf] at h
          split_ifs at h
          · exact same_overflow_trans q0 (io_stream_copy_overflow _ _ _ _ _ _ h)
          · exact same_overflow_trans q0 (io_stream_copy_backwards_overflow _ _ _ _ _ _ h)
    · rw [if_pos hv] at h
      cases h

/-- C20: every `o_stream_sendv`/`o_stream_send` call on an open stream that
returns `0 ≤ r < total` sets `overflow`, on the fast path and on the slow path
alike; and no operation clears the flag: the send wrappers keep a set flag set,
and `sendv`, `flush`, `cork`, `set_flush_pending`, `seek`, sending from an input
stream and the dispatch (with the default flush, or with a callback that itself
leaves `overflow` alone) return the stream with `overflow` as it was. -/
theorem shortfall_sets_overflow :
    (∀ (s : file_ostream) (iov : List const_iovec) (w : World) (r : Int)
        (s' : file_ostream) (w' : World),
      s.closed = false → o_stream_sendv s iov w = some (r, s', w') → 0 ≤ r →
      r < (iov_total iov : Int) → s'.overflow = true) ∧
    (∀ (s : file_ostream) (data : List Byte) (w : World) (r : Int)
        (s' : file_ostream) (w' : World),
      s.closed = false → o_stream_send s data w = some (r, s', w') → 0 ≤ r →
      r < (data.length : Int) → s'.overflow = true) ∧
    (∀ (s : file_ostream) (iov : List const_iovec) (w : World)
        (x : Int × file_ostream × World),
      o_stream_sendv s iov w = some x → s.overflow = true → x.2.1.overflow = true) ∧
    (∀ (op : PublicOp) (s : file_ostream) (w : World) (s' : file_ostream) (w' : World),
      (∀ cb, op = .dispatch (some cb) →
        ∀ t v y, cb t v = some y → y.2.1.overflow = t.overflow) →
      op.apply s w = some (s', w') → s'.overflow = s.overflow) := by
  have short : ∀ (s : file_ostream) (iov : List const_iovec) (w : World) (r : Int)
      (s' : file_ostream) (w' : World),
      s.closed = false → o_stream_sendv s iov w = some (r, s', w') → 0 ≤ r →
      r < (iov_total iov : Int) → s'.overflow = true := by
    intro s iov w r s' w' hc h h0 hr
    unfold o_stream_sendv at h
    rw [if_neg (by rw [hc]; simp)] at h
    cases hx : _sendv s iov w with
    | none => rw [hx] at h; cases h
    | some x =>
      rw [hx] at h
      simp only [Option.map_some', Option.some.injEq, Prod.mk.injEq] at h
      obtain ⟨e1, e2, -⟩ := h
      rw [if_pos (by rw [e1]; omega)] at e2
      rw [← e2]
  refine ⟨short, ?_, ?_, ?_⟩
  · intro s data w r s' w' hc h h0 hr
    refine short s [data] w r s' w' hc h h0 ?_
    simpa [iov_total] using hr
  · intro s iov w x h ho
    unfold o_stream_sendv at h
    split_ifs at h
    · cases h; exact ho
    · cases hx : _sendv s iov w with
      | none => rw [hx] at h; cases h
      | some y =>
        have hq := sendv_overflow s iov w y hx
        rw [hx] at h
        simp only [Option.map_some', Option.some.injEq] at h
        rw [← h]
        simp only
        split_ifs
        · rfl
        · exact hq.trans ho
  · intro op s w s' w' hcb h
    cases op with
    | sendv iov =>
      simp only [PublicOp.apply] at h
      cases hx : _sendv s iov w with
      | none => rw [hx] at h; cases h
      | some x =>
        rw [hx] at h
        simp only [Option.map_some', Option.some.injEq] at h
        have := sendv_overflow s iov w x hx
        rw [h] at this
        exact this
    | flush =>
      simp only [PublicOp.apply, _flush] at h
      cases hx : buffer_flush s w with
      | none => rw [hx] at h; cases h
      | some x =>
        rw [hx] at h
        simp only [Option.map_some', Option.some.injEq] at h
        have := buffer_flush_overflow s w x hx
        rw [h] at this
        exact this
    | cork set => exact cork_overflow s set w (s', w') h
    | flush_pending set =>
      simp only [PublicOp.apply, Option.some.injEq, Prod.mk.injEq] at h
      rw [← h.1]
      exact flush_pending_overflow s set
    | seek offset =>
      simp only [PublicOp.apply] at h
      cases hx : _seek s offset w with
      | none => rw [hx] at h; cases h
      | some x =>
        rw [hx] at h
        simp only [Option.map_some', Option.some.injEq] at h
        have := seek_overflow s offset w x hx
        rw [h] at this
        exact this
    | send_istream ins fuel =>
      simp only [PublicOp.apply] at h
      cases hx : _send_istream s ins fuel w with
      | none => rw [hx] at h; cases h
      | some x =>
        rw [hx] at h
        simp only [Option.map_some', Option.some.injEq, Prod.mk.injEq] at h
        have := send_istream_overflow s ins fuel w x hx
        rw [h.1] at this
        exact this
    | dispatch callback =>
      refine send_io_overflow callback s w (s', w') ?_ h
      intro cb hcb' t v y hy
      exact hcb cb (by rw [hcb']) t v y hy

/-- Witness for `shortfall_sets_overflow`: ten bytes sent through
`o_stream_sendv` on a fresh socket stream with `max_buffer_size` 4, of which the
kernel takes two: four more are buffered, 6 is returned and `overflow` is set. -/
theorem shortfall_sets_overflow_witness :
    ∃ s' w', o_stream_sendv (socket_stream 5 4) [[1, 2, 3, 4, 5, 6, 7, 8, 9, 10]]
        (scripted [.ok 2]) = some (6, s', w') ∧
      ring_data s' = [3, 4, 5, 6] ∧ s'.overflow = true :=
  ⟨_, _, rfl, rfl,
    shortfall_sets_overflow.1 (socket_stream 5 4) [[1, 2, 3, 4, 5, 6, 7, 8, 9, 10]]
      (scripted [.ok 2]) 6 _ _ rfl rfl (by decide) (by decide)⟩

theorem size_sub_le (a b : Nat) (h : b ≤ a) (ha : a < 2 ^ 64) : size_sub a b = a - b := by
  unfold size_sub
  have hb : b % 2 ^ 64 = b := Nat.mod_eq_of_lt (by omega)
  rw [hb]
  have : a + 2 ^ 64 - b = (a - b) + 2 ^ 64 := by omega
  rw [this, Nat.add_mod_right]
  exact Nat.mod_eq_of_lt (by omega)

theorem take_drop_chunk (B : List Byte) (v k : Nat) :
    (B.drop v).take k ++ B.drop (v + ((B.drop v).take k).length) = B.drop v := by
  rw [← List.drop_drop, List.length_take]
  by_cases hk : k ≤ (B.drop v).length
  · rw [Nat.min_eq_left hk]
    exact List.take_append_drop k (B.drop v)
  · rw [Nat.min_eq_right (by omega), List.take_of_length_le (by omega),
      List.drop_of_length_le (le_refl _), List.append_nil]

theorem fill_iovec_empty (s : file_ostream) (he : IS_STREAM_EMPTY s) :
    o_stream_fill_iovec s = [] := by
  have h := (fill_iovec_length_pos s).not.mpr (not_not.mpr he)
  exact List.eq_nil_of_length_eq_zero (by omega)

theorem accepts_writes_record {w : World} {fd : Int} (h : accepts_writes w fd) (c : Syscall)
    (r : Int) (e : Nat) : accepts_writes (w.record c r e) fd := h

/-- With nothing buffered, a source that serves `B` and a kernel that takes every
write, the copy loop sends all the bytes still to come, in order. -/
theorem io_stream_copy_loop_all (B : List Byte) (hB : B.length < 2 ^ 64) :
    ∀ (fuel rem : Nat) (s : file_ostream) (ins : istream) (w : World),
      yields ins B → accepts_writes w s.fd → ins.v_offset + rem = B.length → rem < fuel →
      ∃ w', io_stream_copy_loop fuel rem [] 0 s ins w =
          some (false, { s with offset := s.offset + rem },
            { ins with v_offset := B.length }, w') ∧
        w'.sent s.fd = w.sent s.fd ++ B.drop ins.v_offset := by
  intro fuel
  induction fuel with
  | zero => intro rem s ins w _ _ _ h; omega
  | succ n ih =>
    intro rem s ins w hy ha hrem hfuel
    unfold io_stream_copy_loop
    by_cases hpos : rem > 0
    · rw [if_pos hpos]
      obtain ⟨k, hk1, hk2⟩ := hy.2 w.log ins.v_offset
        (size_sub (min s.optimal_block_size rem) 1)
      have hk3 := hk2 (by omega)
      have hlen : (i_stream_read_data ins w (size_sub (min s.optimal_block_size rem) 1)).length =
          min k rem := by
        unfold i_stream_read_data
        rw [hk1, List.length_take, List.length_drop]
        omega
      simp only
      generalize hd : i_stream_read_data ins w (size_sub (min s.optimal_block_size rem) 1) =
        data at hlen ⊢
      have hdata : data = (B.drop ins.v_offset).take k := by
        rw [← hd]; exact hk1
      obtain ⟨m, hm1, hm2⟩ := ha w.log data
      have hw : o_stream_writev s ([] ++ [data]) w =
          (((min m (iov_total [data]) : Nat) : Int), s,
            w.record (write_call s.fd [data]) (min m (iov_total [data]) : Nat) 0) := by
        rw [List.nil_append, o_stream_writev_short s [data] w (by
          have := w.IOV_MAX_ge
          simp only [List.length_singleton]
          omega)]
        have : write_call s.fd [data] = .write s.fd data := rfl
        rw [this, hm1]
      have htot : iov_total [data] = data.length := by simp [iov_total]
      have hmin : min m (iov_total [data]) = data.length := by rw [htot]; omega
      rw [hmin] at hw
      have hne : ¬ data.length = 0 := by omega
      rw [if_neg hne, hw]
      simp only [Int.toNat_ofNat, Nat.lt_irrefl, if_false, Option.some_bind, ne_eq,
        not_true_eq_false]
      obtain ⟨w', e1, e2⟩ := ih (size_sub rem data.length)
        { s with offset := s.offset + data.length } (i_stream_skip ins data.length)
        (w.record (write_call s.fd [data]) (data.length : Nat) 0) hy
        (accepts_writes_record ha _ _ _)
        (by
          rw [size_sub_le rem data.length (by omega) (by omega)]
          show ins.v_offset + data.length + (rem - data.length) = B.length
          omega)
        (by
          rw [size_sub_le rem data.length (by omega) (by omega)]
          omega)
      refine ⟨w', ?_, ?_⟩
      · rw [e1, size_sub_le rem data.length (by omega) (by omega)]
        have : s.offset + data.length + (rem - data.length) = s.offset + rem := by omega
        simp only [this]
        rfl
      · rw [e2]
        show _ ++ B.drop (ins.v_offset + data.length) = _
        rw [World.sent_record_write, List.append_assoc]
        congr 1
        have hfl : [data].flatten = data := by simp
        rw [hfl, List.take_of_length_le (le_refl _), hdata]
        exact take_drop_chunk B ins.v_offset k
    · rw [if_neg hpos]
      have hr0 : rem = 0 := by omega
      subst hr0
      refine ⟨w, ?_, ?_⟩
      · have hv : ins.v_offset = B.length := by omega
        rw [← hv]
        simp only [Nat.add_zero]
      · rw [List.drop_of_length_le (by omega), List.append_nil]

/-- When the first `sendfile` call fails with `EINVAL`, `io_stream_sendfile`
returns -1 with `stream_errno = EINVAL` and nothing else changed. -/
theorem io_stream_sendfile_einval (s : file_ostream) (ins : istream) (S fuel : Nat)
    (w : World) (he : IS_STREAM_EMPTY s) (hfuel : 0 < fuel)
    (hk : w.kernel w.log (.sendfile s.fd ins.fd (ins.abs_start_offset + ins.v_offset)
      (MAX_SSIZE_T (size_sub S ins.v_offset))) = .error EINVAL) :
    io_stream_sendfile s ins ins.fd S fuel w =
      some (-1, { s with stream_errno := EINVAL }, ins,
        w.record (.sendfile s.fd ins.fd (ins.abs_start_offset + ins.v_offset)
          (MAX_SSIZE_T (size_sub S ins.v_offset))) (-1) EINVAL) := by
  unfold io_stream_sendfile
  rw [buffer_flush_empty s w he]
  simp only [Option.some_bind]
  rw [if_neg (by omega)]
  obtain ⟨n, rfl⟩ : ∃ n, fuel = n + 1 := ⟨fuel - 1, by omega⟩
  unfold io_stream_sendfile_loop
  simp only [safe_sendfile, World.transfer, hk, transfer_ret]
  rw [if_pos (by omega), if_neg (by simp [EINVAL, EINTR, EAGAIN])]
  simp only [ne_eq, not_true_eq_false, if_false, Option.map_some', i_stream_seek]
  rfl

/-- C17: on an open stream with `sendfile` still permitted and nothing buffered,
for a source with a valid descriptor other than the output's, when the first
`sendfile` call fails with `EINVAL`: `_send_istream` is the scatter-write copy
`io_stream_copy` run on the stream with `no_sendfile` set and `stream_errno`
cleared (the stream is not closed); and when the source serves the bytes `B` and
the kernel takes every write in full, it returns the full remaining length, the
stream is open with `no_sendfile` set and `stream_errno = 0`, `offset` has
advanced by that length and the peer has received exactly the remaining source
bytes in order. -/
theorem sendfile_fallback (s : file_ostream) (ins : istream) (fuel : Nat) (w : World)
    (S : Nat) (hcl : s.closed = false) (hns : s.no_sendfile = false)
    (he : IS_STREAM_EMPTY s) (hfd1 : ins.fd ≠ -1) (hfd2 : ins.fd ≠ s.fd)
    (hst : ins.st_size = some S) (hv : ins.v_offset ≤ S) (hfuel : 0 < fuel)
    (hk : w.kernel w.log (.sendfile s.fd ins.fd (ins.abs_start_offset + ins.v_offset)
      (MAX_SSIZE_T (size_sub S ins.v_offset))) = .error EINVAL) :
    _send_istream s ins fuel w =
        io_stream_copy { s with stream_errno := 0, no_sendfile := true } ins S fuel
          (w.record (.sendfile s.fd ins.fd (ins.abs_start_offset + ins.v_offset)
            (MAX_SSIZE_T (size_sub S ins.v_offset))) (-1) EINVAL) ∧
    (∀ B, yields ins B → B.length < 2 ^ 64 → accepts_writes w s.fd →
      B.length - ins.v_offset < fuel →
      ∃ s' w', _send_istream s ins fuel w =
          some (((B.length - ins.v_offset : Nat) : Int), s',
            { ins with v_offset := B.length }, w') ∧
        s'.closed = false ∧ s'.no_sendfile = true ∧ s'.stream_errno = 0 ∧
        s'.offset = s.offset + (B.length - ins.v_offset) ∧
        w'.sent s.fd = w.sent s.fd ++ B.drop ins.v_offset) := by
  have hA : _send_istream s ins fuel w =
      io_stream_copy { s with stream_errno := 0, no_sendfile := true } ins S fuel
        (w.record (.sendfile s.fd ins.fd (ins.abs_start_offset + ins.v_offset)
          (MAX_SSIZE_T (size_sub S ins.v_offset))) (-1) EINVAL) := by
    have hsf := io_stream_sendfile_einval { s with stream_errno := 0 } ins S fuel w he hfuel hk
    unfold _send_istream
    simp only [i_stream_stat, hst, i_stream_get_fd, hv, not_true_eq_false, if_false, ne_eq,
      hfd2, not_false_eq_true, if_true]
    rw [if_pos ⟨hns, hfd1, le_refl _⟩, hsf]
    simp only [Option.some_bind]
    rw [if_neg (by
      intro x
      rcases x with x | x
      · omega
      · exact x trivial)]
    simp only [le_refl, if_true]
  refine ⟨hA, ?_⟩
  intro B hy hB ha hf
  have hSB : S = B.length := by
    have := hy.1
    rw [hst] at this
    exact Option.some.inj this
  subst hSB
  rw [hA]
  unfold io_stream_copy
  have hfe : o_stream_fill_iovec { s with stream_errno := 0, no_sendfile := true } = [] :=
    fill_iovec_empty _ he
  simp only [hfe]
  have hss := size_sub_le B.length ins.v_offset hv hB
  obtain ⟨w', e1, e2⟩ := io_stream_copy_loop_all B hB fuel (B.length - ins.v_offset)
    { s with stream_errno := 0, no_sendfile := true } ins
    (w.record (.sendfile s.fd ins.fd (ins.abs_start_offset + ins.v_offset)
      (MAX_SSIZE_T (size_sub B.length ins.v_offset))) (-1) EINVAL) hy
    (accepts_writes_record ha _ _ _) (by omega) hf
  have htot : iov_total [] = 0 := rfl
  rw [hss] at e1 e2
  rw [htot, hss, e1]
  simp only [Option.map_some', Bool.false_eq_true, if_false]
  refine ⟨{ s with stream_errno := 0, no_sendfile := true,
                   offset := s.offset + (B.length - ins.v_offset) }, w', ?_, hcl, rfl, rfl,
    rfl, ?_⟩
  · rw [hss]
  · rw [e2, World.sent_record]
    simp [Event.sent]

/-- Witness for `sendfile_fallback`: the source "0123456789" sent to a socket
whose kernel answers `sendfile` with `EINVAL` and takes every write: 10 is
returned, `no_sendfile` is set and the peer has received the ten bytes. -/
theorem sendfile_fallback_witness :
    yields digits_input [48, 49, 50, 51, 52, 53, 54, 55, 56, 57] ∧
      accepts_writes no_sendfile_kernel 5 ∧
      ∃ s' i' w', _send_istream (socket_stream 5 1024) digits_input 16 no_sendfile_kernel =
          some (10, s', i', w') ∧
        s'.closed = false ∧ s'.no_sendfile = true ∧ s'.stream_errno = 0 ∧
        w'.sent 5 = [48, 49, 50, 51, 52, 53, 54, 55, 56, 57] := by
  have hy : yields digits_input [48, 49, 50, 51, 52, 53, 54, 55, 56, 57] := by
    refine ⟨rfl, fun log v t => ⟨10, ?_, fun _ => by decide⟩⟩
    show List.drop v _ = List.take 10 (List.drop v _)
    rw [List.take_of_length_le]
    rw [List.length_drop]
    simp
  have ha : accepts_writes no_sendfile_kernel 5 := fun log data => ⟨data.length, rfl, le_refl _⟩
  obtain ⟨s', w', e1, e2, e3, e4, -, e6⟩ :=
    (sendfile_fallback (socket_stream 5 1024) digits_input 16 no_sendfile_kernel 10 rfl rfl
      (by decide) (by decide) (by decide) rfl (by decide) (by decide) rfl).2
      [48, 49, 50, 51, 52, 53, 54, 55, 56, 57] hy (by decide) ha (by decide)
  exact ⟨hy, ha, s', _, w', e1, e2, e3, e4, e6⟩

theorem overwrite_eq_memcpy (content : List Byte) (pos : Nat) (data : List Byte) :
    overwrite content pos data = memcpy content pos data data.length := by
  simp [overwrite, memcpy]

theorem overwrite_length (content : List Byte) (pos : Nat) (data : List Byte)
    (h : pos + data.length ≤ content.length) :
    (overwrite content pos data).length = content.length := by
  rw [overwrite_eq_memcpy]
  exact memcpy_length content data pos data.length h (le_refl _)

theorem overwrite_getElem? (content : List Byte) (pos : Nat) (data : List Byte) (i : Nat)
    (h : pos ≤ content.length) :
    (overwrite content pos data)[i]? =
      if i < pos then content[i]? else if i < pos + data.length then data[i - pos]?
      else content[i]? := by
  rw [overwrite_eq_memcpy]
  exact memcpy_getElem? content data pos data.length i h (le_refl _)

theorem file_at_record (init : List Byte) (fd : Int) (w : World) (c : Syscall) (ret : Int)
    (errno : Nat) :
    file_at init fd (w.record c ret errno).log =
      file_step fd (file_at init fd w.log) ⟨c, ret, errno⟩ := by
  simp only [file_at, World.record, List.foldl_append, List.foldl_cons, List.foldl_nil]

/-- The inner loop of the backward copy, for a source that reads the content
`F` of the file: it ends with the bytes of `F` between the `in_offset` it settles
on and `in_limit`, having moved `in_offset` forward only while a read came up
short, and never up to `in_limit` when it started below it. -/
theorem copy_backwards_read_spec (F : List Byte) (abs p : Nat) (w : World)
    (av : List Event → Nat → Nat → List Byte)
    (hr : ∀ v t, ∃ n, av w.log v t = (F.drop (abs + v)).take n ∧ 0 < n)
    (hF : abs + p ≤ F.length) :
    ∀ (fuel io out b : Nat) (fs : file_ostream) (ins : istream),
      ins.avail = av → ins.abs_start_offset = abs → io ≤ p → p - io < fuel → p - io ≤ b →
      b ≤ fs.buffer_size → fs.buffer.length = fs.buffer_size → b < 2 ^ 64 →
      out + (p - io) < 2 ^ 64 →
      ∃ (io1 : Nat) (buf : List Byte),
        copy_backwards_read p w fuel io out b fs ins =
          some (io1, out + (io1 - io), b - (io1 - io), (F.drop (abs + io1)).take (p - io1),
            { fs with buffer := buf }, { ins with v_offset := io1 }) ∧
        io ≤ io1 ∧ io1 ≤ p ∧ (io < p → io1 < p) ∧ p - io1 ≤ b - (io1 - io) ∧
        buf.length = fs.buffer.length := by
  intro fuel
  induction fuel with
  | zero => intro io out b fs ins _ _ _ h; omega
  | succ k ih =>
    intro io out b fs ins hav habs hio hfuel hb hbs hlen hb64 hout
    subst hav habs
    obtain ⟨n, hn, hpos⟩ := hr io (size_sub (p - io) 1)
    have hdl : (ins.avail w.log io (size_sub (p - io) 1)).length =
        min n (F.length - (ins.abs_start_offset + io)) := by
      rw [hn, List.length_take, List.length_drop]
    unfold copy_backwards_read
    rw [if_neg (not_not.mpr hio)]
    simp only [i_stream_seek, i_stream_read_data]
    by_cases hge : (ins.avail w.log io (size_sub (p - io) 1)).length ≥ p - io
    · rw [if_pos hge]
      have hchunk : (ins.avail w.log io (size_sub (p - io) 1)).take (p - io) =
          (F.drop (ins.abs_start_offset + io)).take (p - io) := by
        rw [hn, List.take_take, Nat.min_eq_left (by omega)]
      have hcl : ((F.drop (ins.abs_start_offset + io)).take (p - io)).length = p - io := by
        rw [List.length_take, List.length_drop]; omega
      rw [hchunk]
      by_cases hm : ins.mmaped = true
      · rw [if_pos hm, if_neg (by rw [hcl]; omega)]
        refine ⟨io, memcpy fs.buffer 0 ((F.drop (ins.abs_start_offset + io)).take (p - io))
          ((F.drop (ins.abs_start_offset + io)).take (p - io)).length, ?_, le_refl _, hio,
          fun x => x, ?_, ?_⟩
        · have ht : (memcpy fs.buffer 0 ((F.drop (ins.abs_start_offset + io)).take (p - io))
              ((F.drop (ins.abs_start_offset + io)).take (p - io)).length).take
                ((F.drop (ins.abs_start_offset + io)).take (p - io)).length =
              (F.drop (ins.abs_start_offset + io)).take (p - io) := by
            simp [memcpy]
          simp only [ht, Nat.sub_self, Nat.add_zero, Nat.sub_zero]
        · omega
        · exact memcpy_length _ _ _ _ (by rw [hcl]; omega) (le_refl _)
      · rw [if_neg hm]
        refine ⟨io, fs.buffer, ?_, le_refl _, hio, fun x => x, by omega, rfl⟩
        simp only [Nat.sub_self, Nat.add_zero, Nat.sub_zero]
    · rw [if_neg hge]
      have hlt : (ins.avail w.log io (size_sub (p - io) 1)).length < p - io := by omega
      have hdn : (ins.avail w.log io (size_sub (p - io) 1)).length = n := by omega
      generalize (ins.avail w.log io (size_sub (p - io) 1)).length = m at hlt hdn ⊢
      subst hdn
      have e1 : (out + (p - io - m)) % 2 ^ 64 = out + (p - io - m) :=
        Nat.mod_eq_of_lt (by omega)
      have e2 : size_sub b (p - io - m) = b - (p - io - m) := size_sub_le _ _ (by omega) hb64
      rw [e1, e2]
      obtain ⟨io1, buf, q, a1, a2, a3, a4, a5⟩ :=
        ih (io + (p - io - m)) (out + (p - io - m)) (b - (p - io - m)) fs
          { ins with v_offset := io } rfl rfl (by omega) (by omega) (by omega) (by omega) hlen
          (by omega) (by omega)
      refine ⟨io1, buf, ?_, by omega, a2, fun _ => a3 (by omega), by omega, a5⟩
      rw [q]
      have x1 : out + (p - io - m) + (io1 - (io + (p - io - m))) = out + (io1 - io) := by omega
      have x2 : b - (p - io - m) - (io1 - (io + (p - io - m))) = b - (io1 - io) := by omega
      rw [x1, x2]

/-- A seek on an open stream with nothing buffered, when `lseek` reaches the
position asked for: one `lseek`, the offset is set, `stream_errno` cleared. -/
theorem o_stream_seek_file (s : file_ostream) (offset : Nat) (w : World)
    (he : IS_STREAM_EMPTY s) (hcl : s.closed = false) (hoff : offset ≤ OFF_T_MAX)
    (hk : w.kernel w.log (.lseek s.fd offset) = .ok offset) :
    o_stream_seek s offset w =
      some (1, { s with stream_errno := 0, offset := offset },
        w.record (.lseek s.fd offset) offset 0) := by
  unfold o_stream_seek _seek
  rw [if_neg (by simp [hcl]), if_neg (by omega), buffer_flush_empty s w he]
  have h0 : ¬ (offset : Int) < 0 := by omega
  simp only [Option.map_some', lseek, hk, h0, if_false]
  rw [if_neg (by omega), if_neg (not_not.mpr rfl)]

theorem write_full_ok (w : World) (fd : Int) (data : List Byte) (n : Nat)
    (hk : w.kernel w.log (.write_full fd data) = .ok n) :
    write_full w fd data = (0, 0, w.record (.write_full fd data) 0 0) := by
  simp only [write_full, hk]

/-- The file after a successful `lseek` to `o` followed by a successful
`write_full` of `data`. -/
theorem file_at_seek_write (init : List Byte) (fd : Int) (w : World) (o : Nat)
    (data : List Byte) :
    file_at init fd ((w.record (.lseek fd o) (o : Int) 0).record (.write_full fd data) 0 0).log =
      (overwrite (file_at init fd w.log).1 o data, o + data.length) := by
  have h0 : ¬ (o : Int) < 0 := by omega
  rw [file_at_record, file_at_record]
  simp [file_step, h0]

theorem file_kernel_record (w : World) (fd : Int) (c : Syscall) (ret : Int) (errno : Nat)
    (h : file_kernel w fd) : file_kernel (w.record c ret errno) fd := h

/-- The outer loop of the backward copy on a file whose source reads the file
itself: started with `in_offset = in_limit = p` and the output position
`d + (p - start)`, it ends without error, and the file then holds at `[d, d + (p - start))`
the bytes it held at the source positions before, and elsewhere what it held. -/
theorem copy_backwards_loop_spec (init : List Byte) (start abs d : Nat) (fd : Int)
    (av : List Event → Nat → Nat → List Byte)
    (hr : ∀ (log : List Event) (v t : Nat), ∃ n,
      av log v t = ((file_at init fd log).1.drop (abs + v)).take n ∧ 0 < n)
    (hd : abs + start < d) :
    ∀ (fuel p b : Nat) (fs : file_ostream) (ins : istream) (w : World),
      ins.avail = av → ins.abs_start_offset = abs → fs.fd = fd → fs.closed = false →
      IS_STREAM_EMPTY fs → fs.buffer.length = fs.buffer_size → file_kernel w fd →
      start ≤ p → p - start < fuel → 0 < b → b ≤ fs.buffer_size → b < 2 ^ 64 →
      d + (p - start) ≤ OFF_T_MAX → d + (p - start) ≤ (file_at init fd w.log).1.length →
      ∃ (fs1 : file_ostream) (ins1 : istream) (w1 : World),
        copy_backwards_loop start fuel p p (d + (p - start)) b fs ins w =
          some (false, fs1, ins1, w1) ∧
        (file_at init fd w1.log).1.length = (file_at init fd w.log).1.length ∧
        ∀ i, (file_at init fd w1.log).1[i]? =
          if d ≤ i ∧ i < d + (p - start) then (file_at init fd w.log).1[abs + start + (i - d)]?
          else (file_at init fd w.log).1[i]? := by
  intro fuel
  induction fuel with
  | zero => intro p b fs ins w _ _ _ _ _ _ _ _ h; omega
  | succ k ih =>
    intro p b fs ins w hav habs hfd hcl he hlen hk hsp hfuel hb0 hbs hb64 hoff hF
    subst hfd
    unfold copy_backwards_loop
    by_cases hp : p > start
    · rw [if_pos hp]
      simp only
      generalize hrs : (if p - start ≤ b then p - start else b) = rs
      have hrs1 : 1 ≤ rs ∧ rs ≤ p - start ∧ rs ≤ b := by
        rw [← hrs]; split_ifs <;> omega
      have e0 : size_sub (d + (p - start)) rs = d + (p - start) - rs :=
        size_sub_le _ _ (by omega) (by unfold OFF_T_MAX at hoff; omega)
      rw [e0]
      obtain ⟨io1, buf, q, a1, a2, a3, a4, a5⟩ :=
        copy_backwards_read_spec (file_at init fs.fd w.log).1 abs p w av (hr w.log) (by omega)
          (p + 1) (p - rs) (d + (p - start) - rs) b fs ins hav habs (by omega) (by omega)
          (by omega) hbs hlen hb64 (by unfold OFF_T_MAX at hoff; omega)
      have a3 := a3 (by omega)
      rw [q]
      simp only [Option.some_bind]
      have hcl1 : (((file_at init fs.fd w.log).1.drop (abs + io1)).take (p - io1)).length =
          p - io1 := by
        rw [List.length_take, List.length_drop]; omega
      have x1 : p - (p - io1) = io1 := by omega
      have x2 : d + (p - start) - rs + (io1 - (p - rs)) = d + (io1 - start) := by omega
      rw [hcl1, x1, x2]
      have hs := o_stream_seek_file { fs with buffer := buf } (d + (io1 - start)) w he hcl
        (by omega) (hk.1 _ _)
      rw [hs]
      simp only [Option.some_bind]
      rw [if_neg (by omega)]
      obtain ⟨n, hn⟩ := hk.2 (w.record (.lseek fs.fd (d + (io1 - start))) (d + (io1 - start) : Nat) 0).log
        (((file_at init fs.fd w.log).1.drop (abs + io1)).take (p - io1))
      rw [write_full_ok _ fs.fd _ n hn]
      simp only
      rw [if_neg (by omega)]
      have hw := file_at_seek_write init fs.fd w (d + (io1 - start))
        (((file_at init fs.fd w.log).1.drop (abs + io1)).take (p - io1))
      obtain ⟨fs1, ins1, w1, q1, l1, g1⟩ :=
        ih io1 (b - (io1 - (p - rs)))
          { fs with buffer := buf, stream_errno := 0, offset := d + (io1 - start) }
          { ins with v_offset := io1 }
          ((w.record (.lseek fs.fd (d + (io1 - start))) (d + (io1 - start) : Nat) 0).record
            (.write_full fs.fd (((file_at init fs.fd w.log).1.drop (abs + io1)).take (p - io1))) 0 0)
          hav habs rfl hcl he (a5.trans hlen) hk (by omega) (by omega) (by omega) (by simp only; omega)
          (by omega) (by omega)
          (by rw [hw]; simp only; rw [overwrite_length _ _ _ (by rw [hcl1]; omega)]; omega)
      refine ⟨fs1, ins1, w1, q1, ?_, ?_⟩
      · rw [l1, hw]
        exact overwrite_length _ _ _ (by rw [hcl1]; omega)
      · intro i
        rw [g1 i, hw]
        simp only
        have hch : ∀ j, (((file_at init fs.fd w.log).1.drop (abs + io1)).take (p - io1))[j]? =
            if j < p - io1 then (file_at init fs.fd w.log).1[abs + io1 + j]? else none := by
          intro j
          rw [List.getElem?_take, List.getElem?_drop]
        by_cases c1 : d ≤ i ∧ i < d + (io1 - start)
        · rw [if_pos c1, if_pos ⟨c1.1, by omega⟩, overwrite_getElem? _ _ _ _ (by omega),
            if_pos (by omega)]
        · rw [if_neg c1, overwrite_getElem? _ _ _ _ (by omega)]
          by_cases c2 : i < d + (io1 - start)
          · rw [if_pos c2, if_neg (by omega)]
          · rw [if_neg c2, hcl1]
            by_cases c3 : i < d + (io1 - start) + (p - io1)
            · rw [if_pos c3, if_pos ⟨by omega, by omega⟩, hch, if_pos (by omega)]
              congr 1
              omega
            · rw [if_neg c3, if_neg (by omega)]
    · rw [if_neg hp]
      refine ⟨fs, ins, w, rfl, rfl, fun i => ?_⟩
      rw [if_neg (by omega)]

/-- A copy within one descriptor whose output offset lies beyond the source
position is served by the backward copy. -/
theorem send_istream_backwards_eq (s : file_ostream) (ins : istream) (fuel : Nat) (w : World)
    (S : Nat) (hst : ins.st_size = some S) (hfd : ins.fd = s.fd) (hS : S ≠ UOFF_T_MAX)
    (hv : ins.v_offset ≤ S) (hd : ins.abs_start_offset + ins.v_offset < s.offset) :
    _send_istream s ins fuel w =
      io_stream_copy_backwards { s with stream_errno := 0 } ins S fuel w := by
  unfold _send_istream
  simp only [i_stream_stat, hst, i_stream_get_fd, hfd, hv, not_true_eq_false, if_false,
    ne_eq, hS]
  rw [if_neg (by omega), if_neg (by omega)]
  simp only [show ¬ ((1 : Int) ≤ 0) by omega, and_false, if_false]

/-- The buffer size the backward copy settles on is positive, and the stream it
goes on with is still empty, open, on the same descriptor, with its memory of
the size it records. -/
theorem copy_backwards_sized (s : file_ostream) (n : Nat) (hring : ring_ok s)
    (he : IS_STREAM_EMPTY s) (hblk : 0 < s.optimal_block_size) (hmax : 0 < s.max_buffer_size)
    (hbs : s.buffer_size < 2 ^ 64) (hmb : s.max_buffer_size < 2 ^ 64) :
    ∃ (fs : file_ostream) (b : Nat),
      (if n = 0 ∨ n > s.buffer_size then
        ((if s.optimal_block_size > s.buffer_size then
            o_stream_grow_buffer s (s.optimal_block_size - s.buffer_size)
          else s),
         (if s.optimal_block_size > s.buffer_size then
            o_stream_grow_buffer s (s.optimal_block_size - s.buffer_size)
          else s).buffer_size)
      else (s, n)) = (fs, b) ∧
      fs.fd = s.fd ∧ fs.closed = s.closed ∧ IS_STREAM_EMPTY fs ∧
      fs.buffer.length = fs.buffer_size ∧ 0 < b ∧ b ≤ fs.buffer_size ∧ b < 2 ^ 64 := by
  by_cases hn : n = 0 ∨ n > s.buffer_size
  · rw [if_pos hn]
    by_cases ho : s.optimal_block_size > s.buffer_size
    · rw [if_pos ho]
      have hf : full_ok s := fun a => by rw [he.2] at a; cases a
      obtain ⟨r1, -, -, r4, r5⟩ :=
        o_stream_grow_buffer_spec s (s.optimal_block_size - s.buffer_size) hring hf
      have hq := o_stream_grow_buffer_quiet s (s.optimal_block_size - s.buffer_size)
      have hge := grow_size_ge s (s.optimal_block_size - s.buffer_size)
      have hle := grow_size_le s (s.optimal_block_size - s.buffer_size)
      refine ⟨_, _, rfl, ?_, ?_, ?_, r1.1, ?_, le_refl _, ?_⟩
      · rw [r4]
      · rw [r4]
      · rw [o_stream_grow_buffer_eq]
        split_ifs
        · exact he
        · have hr : (regrow s.buffer s.buffer_size s.head s.tail s.full
              (grow_size s (s.optimal_block_size - s.buffer_size))).2 = s.head := by
            unfold regrow
            simp only
            rw [if_neg (fun x => x.2 he)]
          exact ⟨hr.trans he.1, rfl⟩
      · rw [r5]; omega
      · rw [r5]; omega
    · rw [if_neg ho]
      exact ⟨s, s.buffer_size, rfl, rfl, rfl, he, hring.1, by omega, le_refl _, hbs⟩
  · rw [if_neg hn]
    exact ⟨s, n, rfl, rfl, rfl, he, hring.1, by omega, by omega, by omega⟩

/-- The backward copy on a file whose source reads the file itself returns the
length `S - v` of the source range and moves the bytes of the range to the output
offset, leaving the bytes below it alone. -/
theorem io_stream_copy_backwards_spec (s : file_ostream) (ins : istream) (S fuel : Nat)
    (w : World) (init : List Byte) (hring : ring_ok s) (he : IS_STREAM_EMPTY s)
    (hcl : s.closed = false) (hfd : ins.fd = s.fd) (hv : ins.v_offset ≤ S)
    (hS1 : S < 2 ^ 64) (hd : ins.abs_start_offset + ins.v_offset < s.offset)
    (hlen : s.offset + (S - ins.v_offset) ≤ (file_at init s.fd w.log).1.length)
    (hoff : s.offset + (S - ins.v_offset) ≤ OFF_T_MAX)
    (hblk : 0 < s.optimal_block_size) (hmax : 0 < s.max_buffer_size)
    (hbs : s.buffer_size < 2 ^ 64) (hmb : s.max_buffer_size < 2 ^ 64)
    (hk : file_kernel w s.fd) (hr : reads_file ins init) (hfuel : S - ins.v_offset < fuel) :
    ∃ (s1 : file_ostream) (ins1 : istream) (w1 : World),
      io_stream_copy_backwards s ins S fuel w =
        some (((S - ins.v_offset : Nat) : Int), s1, ins1, w1) ∧
      (file_at init s.fd w1.log).1.length = (file_at init s.fd w.log).1.length ∧
      (∀ i, i < s.offset →
        (file_at init s.fd w1.log).1[i]? = (file_at init s.fd w.log).1[i]?) ∧
      ∀ j, j < S - ins.v_offset →
        (file_at init s.fd w1.log).1[s.offset + j]? =
          (file_at init s.fd w.log).1[ins.abs_start_offset + ins.v_offset + j]? := by
  unfold io_stream_copy_backwards
  rw [if_neg (not_not.mpr he)]
  simp only
  obtain ⟨fs, b, hsz, f1, f2, f3, f4, f5, f6, f7⟩ :=
    copy_backwards_sized s ins.buffer_size hring he hblk hmax hbs hmb
  rw [hsz]
  simp only
  have e1 : size_sub S ins.v_offset = S - ins.v_offset := size_sub_le _ _ hv hS1
  have e2 : (s.offset + (S - ins.v_offset)) % 2 ^ 64 = s.offset + (S - ins.v_offset) :=
    Nat.mod_eq_of_lt (by unfold OFF_T_MAX at hoff; omega)
  rw [e1, e2]
  have hr1 : ∀ (log : List Event) (v t : Nat), ∃ n,
      ins.avail log v t =
        ((file_at init s.fd log).1.drop (ins.abs_start_offset + v)).take n ∧ 0 < n := by
    intro log v t
    have := hr log v t
    rw [hfd] at this
    exact this
  obtain ⟨fs1, ins1, w1, q, l1, g1⟩ :=
    copy_backwards_loop_spec init ins.v_offset ins.abs_start_offset s.offset s.fd ins.avail hr1 hd
      fuel S b fs ins w rfl rfl f1 (f2.trans hcl) f3 f4 hk hv hfuel f5 f6 f7 hoff hlen
  rw [q]
  refine ⟨fs1, ins1, w1, ?_, l1, ?_, ?_⟩
  · simp only [Option.map_some', Bool.false_eq_true, if_false]
  · intro i hi
    rw [g1 i, if_neg (by omega)]
  · intro j hj
    rw [g1 (s.offset + j), if_pos ⟨by omega, by omega⟩]
    congr 1
    omega

/-- C18: an open stream with a well-formed, empty ring writes to the file on its
descriptor at offset `d`; the source is on the same descriptor, reads that file,
reports the size `S` and stands at virtual offset `v`, so it covers the
`L = S - v` file bytes from `src = abs_start_offset + v` on; `src < d` (backward
overlap); the file holds at least `d + L` bytes and `d + L` is an `off_t`; `lseek`
reaches the position asked for and `write_full` succeeds; the block size and the
buffer maximum are positive `size_t` values.  Then, whatever sizes the reads of
the source come in, `_send_istream` returns `L` (given more than `L` rounds), the
file keeps its length, every byte below `d` is unchanged, and byte `d + j` is
what byte `src + j` was before the call, for every `j < L`. -/
theorem backward_copy_moves_bytes (s : file_ostream) (ins : istream) (S fuel : Nat) (w : World)
    (init : List Byte) (hring : ring_ok s) (he : IS_STREAM_EMPTY s) (hcl : s.closed = false)
    (hfd : ins.fd = s.fd) (hst : ins.st_size = some S) (hv : ins.v_offset ≤ S)
    (hS : S < UOFF_T_MAX) (hd : ins.abs_start_offset + ins.v_offset < s.offset)
    (hlen : s.offset + (S - ins.v_offset) ≤ (file_at init s.fd w.log).1.length)
    (hoff : s.offset + (S - ins.v_offset) ≤ OFF_T_MAX)
    (hblk : 0 < s.optimal_block_size) (hmax : 0 < s.max_buffer_size)
    (hbs : s.buffer_size < 2 ^ 64) (hmb : s.max_buffer_size < 2 ^ 64)
    (hk : file_kernel w s.fd) (hr : reads_file ins init) (hfuel : S - ins.v_offset < fuel) :
    ∃ (s1 : file_ostream) (ins1 : istream) (w1 : World),
      _send_istream s ins fuel w = some (((S - ins.v_offset : Nat) : Int), s1, ins1, w1) ∧
      (file_at init s.fd w1.log).1.length = (file_at init s.fd w.log).1.length ∧
      (∀ i, i < s.offset →
        (file_at init s.fd w1.log).1[i]? = (file_at init s.fd w.log).1[i]?) ∧
      ∀ j, j < S - ins.v_offset →
        (file_at init s.fd w1.log).1[s.offset + j]? =
          (file_at init s.fd w.log).1[ins.abs_start_offset + ins.v_offset + j]? := by
  have hS1 : S < 2 ^ 64 := by unfold UOFF_T_MAX at hS; omega
  rw [send_istream_backwards_eq s ins fuel w S hst hfd (by omega) hv hd]
  exact io_stream_copy_backwards_spec { s with stream_errno := 0 } ins S fuel w init hring he hcl
    hfd hv hS1 hd hlen hoff hblk hmax hbs hmb hk hr hfuel

/-- Witness for `backward_copy_moves_bytes`: the file holds `ABCDEFGH`, the
source covers its first six bytes, the output stands at offset 2 and its buffer
grows to four bytes only, so the copy takes two chunks. -/
theorem backward_copy_moves_bytes_witness :
    ∃ (s1 : file_ostream) (ins1 : istream) (w1 : World),
      _send_istream small_overlap_stream alphabet_input 8 file_world = some (6, s1, ins1, w1) ∧
      (file_at alphabet 7 w1.log).1.length = 8 ∧
      (∀ i, i < 2 → (file_at alphabet 7 w1.log).1[i]? = alphabet[i]?) ∧
      ∀ j, j < 6 → (file_at alphabet 7 w1.log).1[2 + j]? = alphabet[0 + 0 + j]? :=
  backward_copy_moves_bytes small_overlap_stream alphabet_input 6 8 file_world alphabet
    (by decide) (by decide) rfl rfl rfl (by decide) (by decide) (by decide) (by decide)
    (by decide) (by decide) (by decide) (by decide) (by decide)
    ⟨fun _ _ => rfl, fun _ _ => ⟨0, rfl⟩⟩ (fun _ _ t => ⟨t + 1, rfl, Nat.succ_pos t⟩)
    (by decide)

/-- The scenario of the specification, evaluated: the file `ABCDEFGH` copied from
offset 0 to offset 2, six bytes, becomes `ABABCDEF`, in two chunks (`CDEF` to
offset 4, then `AB` to offset 2). -/
theorem backward_copy_alphabet :
    (_send_istream small_overlap_stream alphabet_input 8 file_world).map
        (fun r => (r.1, (file_at alphabet 7 r.2.2.2.log).1,
          r.2.2.2.log.map (fun ev => ev.call))) =
      some (6, [65, 66, 65, 66, 67, 68, 69, 70],
        [.lseek 7 4, .write_full 7 [67, 68, 69, 70], .lseek 7 2, .write_full 7 [65, 66]]) := by
  rfl

set_option maxRecDepth 100000

/-- C21: evaluation of `o_stream_writev` for a vector of seventeen one-byte
entries with `IOV_MAX = 16`.  The kernel takes the first `writev` (sixteen
entries) in full; when it answers the second one with `EAGAIN`, or takes zero
bytes of it, `o_stream_writev` returns 0 although the kernel has accepted sixteen
bytes; when it fails the second one with `EPIPE`, the sixteen accepted bytes are
not reported either. -/
theorem writev_forgets_earlier_chunks :
    ∃ w1 w2 s3 w3,
      o_stream_writev (socket_stream 5 1024) long_vector (scripted [.ok 16, .error EAGAIN]) =
        (0, socket_stream 5 1024, w1) ∧
      w1.sent 5 = [1, 2, 3, 4, 5, 6, 7, 8, 9, 10, 11, 12, 13, 14, 15, 16] ∧
      o_stream_writev (socket_stream 5 1024) long_vector (scripted [.ok 16, .ok 0]) =
        (0, socket_stream 5 1024, w2) ∧
      w2.sent 5 = [1, 2, 3, 4, 5, 6, 7, 8, 9, 10, 11, 12, 13, 14, 15, 16] ∧
      o_stream_writev (socket_stream 5 1024) long_vector (scripted [.ok 16, .error EPIPE]) =
        (-1, s3, w3) ∧
      w3.sent 5 = [1, 2, 3, 4, 5, 6, 7, 8, 9, 10, 11, 12, 13, 14, 15, 16] ∧
      long_vector.length = 17 ∧ (scripted [.ok 16, .error EAGAIN]).IOV_MAX = 16 :=
  ⟨_, _, _, _, rfl, rfl, rfl, rfl, rfl, rfl, rfl, rfl⟩

/-- C27: evaluation on a fresh socket stream whose maximum is set to 0 before the
first byte is buffered.  One byte is sent while the kernel answers `EAGAIN`:
`_sendv` returns 0 and leaves `full` set on a ring with `buffer_size = 0`.  When
the maximum is then raised to 1024 and one more byte is sent, `_sendv` accepts it
(returns 1), but the growth step has moved `head` to the new `buffer_size`, and
the accepted byte is not among the bytes a flush would write. -/
theorem full_without_buffer :
    ∃ s1 w1 s2 w2,
      _sendv (_set_max_buffer_size (socket_stream 5 1024) 0) [[1]]
        (scripted [.error EAGAIN, .ok 0]) = some (0, s1, w1) ∧
      s1.full = true ∧ s1.buffer_size = 0 ∧
      _sendv (_set_max_buffer_size s1 1024) [[2]] w1 = some (1, s2, w2) ∧
      s2.head = 1 ∧ s2.buffer_size = 1 ∧ s2.buffer = [2] ∧ ring_data s2 = [] ∧
      w2.sent 5 = [] :=
  ⟨_, _, _, _, rfl, rfl, rfl, rfl, rfl, rfl, rfl, rfl, rfl⟩

/-- C30: evaluation on a regular file open on descriptor 7 at offset 2, with a
buffer maximum of four bytes: the
stream is corked and two bytes are sent, which are buffered (the ring is
well-formed: `head = 0`, `tail = 2` in a buffer of 4 bytes; the stream is open,
its offset is 4).  Sending from an input stream on the same
descriptor at absolute position 0 is a backward overlap, and `_send_istream`
fails the assertion `IS_STREAM_EMPTY` of `io_stream_copy_backwards`, whatever the
number of rounds allowed. -/
theorem backward_copy_asserts_on_buffered :
    ∃ s1 w1 s2 w2,
      _cork small_overlap_stream true (scripted []) = some (s1, w1) ∧
      _sendv s1 [[120, 121]] w1 = some (2, s2, w2) ∧
      ring_data s2 = [120, 121] ∧
      (s2.head = 0 ∧ s2.tail = 2 ∧ s2.full = false ∧ s2.buffer_size = 4 ∧
        s2.buffer.length = 4) ∧
      s2.closed = false ∧ s2.corked = true ∧
      s2.file = true ∧ overlap_input.fd = s2.fd ∧ code_delta s2 overlap_input = 4 ∧
      ∀ fuel, _send_istream s2 overlap_input fuel w2 = none :=
  ⟨_, _, _, _, rfl, rfl, rfl, ⟨rfl, rfl, rfl, rfl, rfl⟩, rfl, rfl, rfl, rfl, rfl, fun _ => rfl⟩

/-- C24, counterexample: appending zero bytes to a fresh stream, whose buffer has
not been allocated yet (`buffer_size = 0`).  `o_stream_add` returns 0 and changes
nothing: no unused space remains (there is none at all), yet `full` is clear. -/
theorem add_nothing_to_unallocated :
    o_stream_add (socket_stream 5 1024) [] = (0, socket_stream 5 1024) ∧
      ring_ok (socket_stream 5 1024) ∧
      (socket_stream 5 1024).buffer_size ≤ (socket_stream 5 1024).max_buffer_size ∧
      get_unused_space (o_stream_add (socket_stream 5 1024) []).2 = 0 ∧
      (o_stream_add (socket_stream 5 1024) []).2.full = false :=
  ⟨rfl, by decide, by decide, rfl, rfl⟩

/-- C28, counterexample: three bytes are sent on a fresh socket stream with
`max_buffer_size = 1024` while the kernel answers `EAGAIN`; the buffer grows to
three bytes.  `set_max_buffer_size(2)` then leaves `buffer_size = 3` above the
maximum 2. -/
theorem lowered_maximum_below_buffer :
    ∃ s1 w1,
      _sendv (socket_stream 5 1024) [[1, 2, 3]] (scripted [.error EAGAIN]) = some (3, s1, w1) ∧
      s1.buffer_size = 3 ∧ s1.buffer_size ≤ s1.max_buffer_size ∧
      (_set_max_buffer_size s1 2).buffer_size = 3 ∧
      (_set_max_buffer_size s1 2).max_buffer_size = 2 ∧
      ¬ (_set_max_buffer_size s1 2).buffer_size ≤ (_set_max_buffer_size s1 2).max_buffer_size :=
  ⟨_, _, rfl, rfl, by decide, rfl, rfl, by decide⟩

theorem getElem?_eq_some_getD (buf : List Byte) (k : Nat) (hk : k < buf.length) :
    buf[k]? = some (buf.getD k 0) := by
  rw [List.getD_eq_getElem?_getD, List.getElem?_eq_getElem hk]
  rfl

theorem range_map_getElem? (n : Nat) (g : Nat → Byte) (i : Nat) :
    ((List.range n).map g)[i]? = if i < n then some (g i) else none := by
  by_cases h : i < n
  · rw [if_pos h, List.getElem?_map, List.getElem?_range h]
    rfl
  · rw [if_neg h]
    apply List.getElem?_eq_none
    rw [List.length_map, List.length_range]
    omega

theorem mod_wrap (a bs : Nat) (h1 : bs ≤ a) (h2 : a < bs + bs) : a % bs = a - bs := by
  rw [Nat.mod_eq_sub_mod h1]
  exact Nat.mod_eq_of_lt (by omega)

/-- On a well-formed ring, the bytes `o_stream_fill_iovec` describes are the
queue of the specification. -/
theorem ring_data_eq_spec_queue (s : file_ostream) (h : ring_ok s) :
    ring_data s = spec_queue s := by
  rw [ring_data_eq]
  obtain ⟨hl, hh, ht, hf, hz⟩ := h
  unfold spec_queue spec_used_size
  apply List.ext_getElem?
  intro i
  rw [range_map_getElem?]
  by_cases he : s.head = s.tail ∧ s.full = false
  · rw [ring_bytes_empty _ _ _ _ _ he.1 he.2, if_pos he.1, he.2]
    simp
  · by_cases hlt : s.head < s.tail
    · have hused : (if s.head = s.tail then (if s.full = true then s.buffer_size else 0)
          else if s.head < s.tail then s.tail - s.head
          else (s.buffer_size - s.head) + s.tail) = s.tail - s.head := by
        have a : s.head ≠ s.tail := by omega
        rw [if_neg a, if_pos hlt]
      rw [ring_bytes_contig _ _ _ _ _ hlt, slice_getElem?, hused]
      by_cases hi : i < s.tail - s.head
      · rw [if_pos hi, if_pos hi, Nat.mod_eq_of_lt (by omega)]
        exact getElem?_eq_some_getD _ _ (by omega)
      · rw [if_neg hi, if_neg hi]
    · have hfull : s.head = s.tail → s.full = true := by
        intro a
        cases hb : s.full
        · exact absurd ⟨a, hb⟩ he
        · rfl
      rw [ring_bytes_wrap _ _ _ _ _ (by omega) hfull]
      have hused : (if s.head = s.tail then (if s.full = true then s.buffer_size else 0)
          else if s.head < s.tail then s.tail - s.head
          else (s.buffer_size - s.head) + s.tail) = (s.buffer_size - s.head) + s.tail := by
        by_cases a : s.head = s.tail
        · rw [if_pos a, if_pos (hfull a)]
          omega
        · rw [if_neg a, if_neg hlt]
      rw [hused, List.getElem?_append, slice_length, slice_getElem?, slice_getElem?]
      have hmin : min (s.buffer_size - s.head) (s.buffer.length - s.head) =
          s.buffer_size - s.head := by omega
      rw [hmin]
      by_cases h1 : i < s.buffer_size - s.head
      · rw [if_pos h1, if_pos h1, if_pos (by omega), Nat.mod_eq_of_lt (by omega)]
        exact getElem?_eq_some_getD _ _ (by omega)
      · rw [if_neg h1]
        by_cases h2 : i - (s.buffer_size - s.head) < s.tail
        · rw [if_pos h2, if_pos (by omega), mod_wrap _ _ (by omega) (by omega), Nat.zero_add]
          have e : s.head + i - s.buffer_size = i - (s.buffer_size - s.head) := by omega
          rw [e]
          exact getElem?_eq_some_getD _ _ (by omega)
        · rw [if_neg h2, if_neg (by omega)]

theorem spec_used_size_eq (s : file_ostream) (h : ring_ok s) :
    spec_used_size s = (ring_data s).length := by
  rw [ring_data_eq_spec_queue s h]
  unfold spec_queue
  rw [List.length_map, List.length_range]

/-- C23: on every well-formed ring, `o_stream_fill_iovec` yields no entry exactly
when the ring is empty (`head == tail && !full`); its entries, concatenated in
order, are the queue read from `head` to `tail`; their lengths sum to
`buffer_size - get_unused_space`, which is `_get_used_size` and the used size of
the specification; there are at most two entries, and there are two exactly when
the used region wraps (`tail < head`, or `head == tail` with `full`) and `tail`
is not 0. -/
theorem fill_iovec_describes_ring (s : file_ostream) (h : ring_ok s) :
    ((o_stream_fill_iovec s).length = 0 ↔ IS_STREAM_EMPTY s) ∧
    (o_stream_fill_iovec s).flatten = spec_queue s ∧
    iov_total (o_stream_fill_iovec s) = s.buffer_size - get_unused_space s ∧
    iov_total (o_stream_fill_iovec s) = _get_used_size s ∧
    iov_total (o_stream_fill_iovec s) = spec_used_size s ∧
    (o_stream_fill_iovec s).length ≤ 2 ∧
    ((o_stream_fill_iovec s).length = 2 ↔
      (s.tail < s.head ∨ (s.head = s.tail ∧ s.full = true)) ∧ s.tail ≠ 0) := by
  have htot : iov_total (o_stream_fill_iovec s) = s.buffer_size - get_unused_space s := by
    rw [fill_iovec_total, ring_data_length s h]
  refine ⟨?_, ring_data_eq_spec_queue s h, htot, htot, ?_, fill_iovec_length_le s, ?_⟩
  · have := fill_iovec_length_pos s
    constructor
    · intro a
      by_contra hne
      have := this.mpr hne
      omega
    · intro a
      by_contra hne
      exact (this.mp (by omega)) a
  · rw [fill_iovec_total, spec_used_size_eq s h]
  · obtain ⟨-, -, -, hf, -⟩ := h
    unfold o_stream_fill_iovec IS_STREAM_EMPTY
    by_cases a : s.head = s.tail ∧ s.full = false
    · rw [if_pos a]
      constructor
      · intro x; cases x
      · rintro ⟨x | x, -⟩
        · omega
        · rw [a.2] at x; cases x.2
    · rw [if_neg a]
      by_cases b : s.head < s.tail
      · rw [if_pos b]
        constructor
        · intro x; cases x
        · rintro ⟨x | x, -⟩ <;> omega
      · rw [if_neg b]
        have hw : s.tail < s.head ∨ (s.head = s.tail ∧ s.full = true) := by
          by_cases e : s.head = s.tail
          · right
            refine ⟨e, ?_⟩
            cases hb : s.full
            · exact absurd ⟨e, hb⟩ a
            · rfl
          · left; omega
        by_cases c : s.tail = 0
        · rw [if_pos c]
          constructor
          · intro x; cases x
          · rintro ⟨-, x⟩; exact absurd c x
        · rw [if_neg c]
          exact ⟨fun _ => ⟨hw, c⟩, fun _ => rfl⟩

/-- Witness for `fill_iovec_describes_ring`: three bytes wrapped around the end
of a ring of eight (`head = 6`, `tail = 1`) give two entries, `[1, 2]` and `[3]`. -/
theorem fill_iovec_describes_ring_witness :
    ring_ok wrapped_stream ∧ o_stream_fill_iovec wrapped_stream = [[1, 2], [3]] ∧
      (o_stream_fill_iovec wrapped_stream).flatten = spec_queue wrapped_stream ∧
      iov_total (o_stream_fill_iovec wrapped_stream) = _get_used_size wrapped_stream :=
  ⟨by decide, rfl, (fill_iovec_describes_ring wrapped_stream (by decide)).2.1,
    (fill_iovec_describes_ring wrapped_stream (by decide)).2.2.2.1⟩

/-- C22: on every well-formed ring holding `u` bytes and for every `n ≤ u`,
`update_buffer(n)` returns and leaves the queue without its first `n` bytes, so
`u - n` bytes in the same order; `buffer_size` is unchanged; `head` and `tail`
are below `buffer_size` (both 0 when `buffer_size` is 0); `full` is clear when
`n > 0`; and when no byte is left, `head = tail = 0`. -/
theorem update_buffer_advances (s : file_ostream) (n : Nat) (h : ring_ok s)
    (hn : n ≤ spec_used_size s) :
    ∃ s', update_buffer s n = some s' ∧
      spec_queue s' = (spec_queue s).drop n ∧
      spec_used_size s' = spec_used_size s - n ∧
      s'.buffer_size = s.buffer_size ∧
      (0 < s.buffer_size → s'.head < s'.buffer_size ∧ s'.tail < s'.buffer_size) ∧
      (s.buffer_size = 0 → s'.head = 0 ∧ s'.tail = 0) ∧
      (0 < n → s'.full = false) ∧
      (spec_used_size s' = 0 → s'.head = 0 ∧ s'.tail = 0) := by
  rw [spec_used_size_eq s h] at hn
  obtain ⟨s', e1, e2, e3, -, -, e6, e7⟩ := update_buffer_spec s n h hn
  refine ⟨s', e1, ?_, ?_, e6, ?_, ?_, e7, ?_⟩
  · rw [← ring_data_eq_spec_queue s' e2, ← ring_data_eq_spec_queue s h]
    exact e3
  · rw [spec_used_size_eq s' e2, spec_used_size_eq s h, e3, List.length_drop]
  · obtain ⟨-, hh, ht, -, -⟩ := e2
    intro a
    omega
  · obtain ⟨-, hh, ht, -, -⟩ := e2
    intro a
    omega
  · obtain ⟨-, hh, ht, hf, hz⟩ := e2
    unfold spec_used_size
    intro a
    by_cases b : s'.head = s'.tail
    · rw [if_pos b] at a
      cases hb : s'.full
      · have := hz b hb
        omega
      · rw [hb] at a
        simp only [if_true] at a
        omega
    · rw [if_neg b] at a
      split_ifs at a <;> omega

/-- Witness for `update_buffer_advances`: two of the three bytes of the wrapped
ring are consumed; the byte `3` is left. -/
theorem update_buffer_advances_witness :
    ring_ok wrapped_stream ∧ spec_queue wrapped_stream = [1, 2, 3] ∧
      ∃ s', update_buffer wrapped_stream 2 = some s' ∧
        spec_queue s' = (spec_queue wrapped_stream).drop 2 :=
  ⟨by decide, by decide,
    Exists.imp (fun _ hs => ⟨hs.1, hs.2.1⟩)
      (update_buffer_advances wrapped_stream 2 (by decide) (by decide))⟩

/-- C25: on every well-formed stream (a well-formed ring in which `full` implies
a buffer of positive size; empty, contiguous, wrapped or full) and for every
requested increase, `o_stream_grow_buffer` leaves the queue read from `head` to
`tail` and its length unchanged, never shrinks `buffer_size`, and whenever it
enlarges the buffer the result is not full and `head` and `tail` are below the
new `buffer_size`; the result is well-formed again. -/
theorem grow_keeps_queue (s : file_ostream) (bytes : Nat) (h : well_formed s) :
    spec_queue (o_stream_grow_buffer s bytes) = spec_queue s ∧
    spec_used_size (o_stream_grow_buffer s bytes) = spec_used_size s ∧
    s.buffer_size ≤ (o_stream_grow_buffer s bytes).buffer_size ∧
    (s.buffer_size < (o_stream_grow_buffer s bytes).buffer_size →
      (o_stream_grow_buffer s bytes).full = false ∧
      (o_stream_grow_buffer s bytes).head < (o_stream_grow_buffer s bytes).buffer_size ∧
      (o_stream_grow_buffer s bytes).tail < (o_stream_grow_buffer s bytes).buffer_size) ∧
    well_formed (o_stream_grow_buffer s bytes) := by
  obtain ⟨r1, -, r3, -, r5⟩ := o_stream_grow_buffer_spec s bytes h.1 (well_formed_full_ok h)
  have hfull : s.buffer_size < (o_stream_grow_buffer s bytes).buffer_size →
      (o_stream_grow_buffer s bytes).full = false := by
    rw [o_stream_grow_buffer_eq]
    split_ifs
    · intro a; omega
    · intro _; rfl
  refine ⟨?_, ?_, by omega, ?_, r1, ?_⟩
  · rw [← ring_data_eq_spec_queue _ r1, ← ring_data_eq_spec_queue s h.1]
    exact r3
  · rw [spec_used_size_eq _ r1, spec_used_size_eq s h.1, r3]
  · intro a
    obtain ⟨-, hh, ht, -, -⟩ := r1
    exact ⟨hfull a, by omega, by omega⟩
  · intro a
    by_cases b : s.buffer_size < (o_stream_grow_buffer s bytes).buffer_size
    · omega
    · have e : (o_stream_grow_buffer s bytes) = s := by
        rw [o_stream_grow_buffer_eq]
        rw [o_stream_grow_buffer_eq] at b
        split_ifs with c
        · rfl
        · rw [if_neg c] at b
          simp only at b
          omega
      rw [e] at a ⊢
      exact h.2 a

/-- Witness for `grow_keeps_queue`: the wrapped ring of eight bytes grows to
sixteen; the trailing segment moves to the end of the new buffer (`head = 14`)
and the queue is still `[1, 2, 3]`. -/
theorem grow_keeps_queue_witness :
    well_formed wrapped_stream ∧
      (o_stream_grow_buffer wrapped_stream 8).buffer_size = 16 ∧
      (o_stream_grow_buffer wrapped_stream 8).head = 14 ∧
      spec_queue wrapped_stream = [1, 2, 3] ∧
      spec_queue (o_stream_grow_buffer wrapped_stream 8) = spec_queue wrapped_stream :=
  ⟨by decide, rfl, rfl, by decide, (grow_keeps_queue wrapped_stream 8 (by decide)).1⟩

/-- Once all the data is copied or the ring is full, further rounds of the copy
loop do nothing. -/
theorem o_stream_add_copy_stop (data : List Byte) (k : Nat) (s : file_ostream) (sent : Nat)
    (h : ¬ (sent < data.length ∧ s.full = false)) :
    o_stream_add_copy data k s sent = (s, sent) := by
  cases k with
  | zero => rfl
  | succ n => rw [o_stream_add_copy_succ, if_neg h]

theorem o_stream_add_copy_add (data : List Byte) :
    ∀ (a b : Nat) (s : file_ostream) (sent : Nat),
      o_stream_add_copy data (a + b) s sent =
        o_stream_add_copy data b (o_stream_add_copy data a s sent).1
          (o_stream_add_copy data a s sent).2 := by
  intro a
  induction a with
  | zero =>
    intro b s sent
    rw [Nat.zero_add]
    rfl
  | succ n ih =>
    intro b s sent
    have e : n + 1 + b = (n + b) + 1 := by omega
    rw [e, o_stream_add_copy_succ, o_stream_add_copy_succ data n]
    by_cases hc : sent < data.length ∧ s.full = false
    · rw [if_pos hc, if_pos hc]
      exact ih _ _ _
    · rw [if_neg hc, if_neg hc]
      exact (o_stream_add_copy_stop data b s sent hc).symm

/-- With `full` clear, a well-formed ring with a buffer has unused space. -/
theorem unused_pos_of_not_full (s : file_ostream) (h : ring_ok s) (hb : 0 < s.buffer_size)
    (hf : s.full = false) : 0 < get_unused_space s := by
  obtain ⟨-, hh, ht, -, -⟩ := h
  unfold get_unused_space
  rw [hf]
  split_ifs <;> first | omega | contradiction

/-- With `full` set, a well-formed ring has no unused space. -/
theorem unused_zero_of_full (s : file_ostream) (h : ring_ok s) (hf : s.full = true) :
    get_unused_space s = 0 := by
  obtain ⟨-, -, -, hft, -⟩ := h
  have := hft hf
  unfold get_unused_space
  rw [hf]
  split_ifs <;> first | rfl | omega | contradiction

/-- After the two rounds of the copy loop on a well-formed ring, all the data is
copied or the ring is full. -/
theorem add_copy_saturates (data : List Byte) (s : file_ostream) (h : ring_ok s) :
    ¬ ((o_stream_add_copy data 2 s 0).2 < data.length ∧
      (o_stream_add_copy data 2 s 0).1.full = false) := by
  rintro ⟨x1, x2⟩
  by_cases hbs : 0 < s.buffer_size
  · obtain ⟨s2, sent, e2, c1, c2, c3, -, c5, -⟩ := o_stream_add_copy_spec data s h
    rw [e2] at x1 x2
    simp only at x1 x2
    have hu := unused_pos_of_not_full s2 c1 (by omega) x2
    have hl2 := ring_data_length s2 c1
    have hl := ring_data_length s h
    have hle := get_unused_space_le s h
    have hlen : (ring_data s2).length = (ring_data s).length + sent := by
      rw [c2, List.length_append, List.length_take]
      omega
    omega
  · obtain ⟨-, hh, ht, -, -⟩ := h
    have h0 : s.buffer_size = 0 := by omega
    rw [o_stream_add_copy_succ] at x1 x2
    by_cases hc : 0 < data.length ∧ s.full = false
    · rw [if_pos hc] at x1 x2
      obtain ⟨a1, a2, a3, a4, a5⟩ := put_facts s.buffer s.buffer_size s.head s.tail data 0
      generalize put s.buffer s.buffer_size s.head s.tail data 0 = p at x1 x2 a1 a2 a3 a4 a5
      obtain ⟨buf1, t1, f1, c1⟩ := p
      simp only at x1 x2 a1 a2 a3 a4 a5
      have hc0 : c1 = 0 := by
        split_ifs at a2 <;> omega
      have ht1 : t1 = 0 := by
        rw [a4, hc0]
        split_ifs <;> omega
      have hf1 : f1 = true := a5.mpr (by omega)
      rw [o_stream_add_copy_succ, if_neg (by rw [hf1]; simp)] at x2
      simp only at x2
      rw [hf1] at x2
      cases x2
    · rw [if_neg hc] at x1 x2
      exact hc ⟨x1, x2⟩

/-- C24, amended: on every well-formed stream with `buffer_size ≤ max_buffer_size`
and for every `data` of length `n`, `o_stream_add` returns
`a = min n (unused space after the growth step)`, which is
`min n (max_buffer_size - used)`; the queue afterwards is the old queue followed
by the first `a` bytes of `data`, so the used size grows by `a`; two rounds of
the copy loop are all it needs (more rounds would copy nothing more); and when
the buffer has a non-zero size afterwards, `full` is set exactly when no unused
space remains.  The ring is well-formed again and `buffer_size` is still within
the maximum. -/
theorem add_appends (s : file_ostream) (data : List Byte) (h : well_formed s)
    (hb : s.buffer_size ≤ s.max_buffer_size) :
    ∃ (a : Nat) (s' : file_ostream), o_stream_add s data = (a, s') ∧
      a = min data.length
        (get_unused_space
          (if get_unused_space s < data.length then
            o_stream_grow_buffer s (data.length - get_unused_space s)
          else s)) ∧
      a = min data.length (s.max_buffer_size - spec_used_size s) ∧
      spec_queue s' = spec_queue s ++ data.take a ∧
      spec_used_size s' = spec_used_size s + a ∧
      (∀ k, 2 ≤ k →
        o_stream_add_copy data k
          (if get_unused_space s < data.length then
            o_stream_grow_buffer s (data.length - get_unused_space s)
          else s) 0 =
        o_stream_add_copy data 2
          (if get_unused_space s < data.length then
            o_stream_grow_buffer s (data.length - get_unused_space s)
          else s) 0) ∧
      (0 < s'.buffer_size → (s'.full = true ↔ get_unused_space s' = 0)) ∧
      ring_ok s' ∧ s'.buffer_size ≤ s'.max_buffer_size := by
  obtain ⟨sent, s', e, r1, -, r3, r4, r5, -, -, r8, -, -⟩ :=
    o_stream_add_spec s data h.1 (well_formed_full_ok h)
  obtain ⟨r8a, r8b⟩ := r8 hb
  obtain ⟨g, eg, g1, -⟩ := add_grow_spec s data.length h.1 (well_formed_full_ok h)
  obtain ⟨s2, sent2, e2, -, -, c3, -⟩ := o_stream_add_copy_spec data g g1
  have hsat := add_copy_saturates data g g1
  have hfst : (o_stream_add s data).1 = (o_stream_add_copy data 2
      (if get_unused_space s < data.length then
        o_stream_grow_buffer s (data.length - get_unused_space s)
      else s) 0).2 := rfl
  rw [eg] at hfst ⊢
  rw [e, e2] at hfst
  simp only at hfst
  have hmax : s'.max_buffer_size = s.max_buffer_size := data_frame_max_buffer_size r5
  have hlen : (ring_data s').length = (ring_data s).length + sent := by
    rw [r3, List.length_append, List.length_take]
    omega
  refine ⟨sent, s', e, ?_, ?_, ?_, ?_, ?_, ?_, r1, by omega⟩
  · rw [hfst]; exact c3
  · rw [spec_used_size_eq s h.1]; exact r8b
  · rw [← ring_data_eq_spec_queue s' r1, ← ring_data_eq_spec_queue s h.1]
    exact r3
  · rw [spec_used_size_eq s' r1, spec_used_size_eq s h.1]
    exact hlen
  · intro k hk
    obtain ⟨j, rfl⟩ : ∃ j, k = 2 + j := ⟨k - 2, by omega⟩
    rw [o_stream_add_copy_add data 2 j g 0]
    exact o_stream_add_copy_stop data j _ _ hsat
  · intro hpos
    constructor
    · exact unused_zero_of_full s' r1
    · intro hu
      cases hfl : s'.full
      · have := unused_pos_of_not_full s' r1 hpos hfl
        omega
      · rfl

theorem preserves_refl (s : file_ostream) : preserves s s :=
  ⟨rfl, fun a => a, fun a b => ⟨a, b⟩⟩

theorem preserves_trans {a b c : file_ostream} (h1 : preserves a b) (h2 : preserves b c) :
    preserves a c :=
  ⟨h2.1.trans h1.1, fun x => h2.2.1 (h1.2.1 x),
    fun x y => h2.2.2 (h1.2.2 x y).1 (h1.2.2 x y).2⟩

/-- A step that leaves the ring and the maximum alone. -/
theorem preserves_of_ring_eq {s s' : file_ostream}
    (h : s'.buffer = s.buffer ∧ s'.buffer_size = s.buffer_size ∧ s'.head = s.head ∧
      s'.tail = s.tail ∧ s'.full = s.full ∧ s'.max_buffer_size = s.max_buffer_size) :
    preserves s s' := by
  obtain ⟨a, b, c, d, e, f⟩ := h
  refine ⟨f, ?_, ?_⟩
  · rw [b, f]; exact fun x => x
  · unfold ring_ok full_ok
    rw [a, b, c, d, e, f]
    exact fun x y => ⟨x, y⟩

theorem stream_closed_preserves (s : file_ostream) (w : World) :
    preserves s (stream_closed s w).1 := by
  unfold stream_closed
  simp only
  split_ifs <;> exact preserves_of_ring_eq ⟨rfl, rfl, rfl, rfl, rfl, rfl⟩

theorem o_stream_writev_preserves (s : file_ostream) (iov : List const_iovec) (w : World) :
    preserves s (o_stream_writev s iov w).2.1 := by
  unfold o_stream_writev
  simp only
  split_ifs
  · exact preserves_refl s
  · have q : preserves s { s with stream_errno := (o_stream_writev_ret s.fd iov w).1.2 } :=
      preserves_of_ring_eq ⟨rfl, rfl, rfl, rfl, rfl, rfl⟩
    exact preserves_trans q (stream_closed_preserves _ _)
  · exact preserves_refl s

/-- When `update_buffer` gets past its assertions on a non-empty well-formed
ring, the count was within the used size. -/
theorem update_buffer_some_le (s s' : file_ostream) (n : Nat) (h : ring_ok s)
    (hne : ¬ IS_STREAM_EMPTY s) (hu : update_buffer s n = some s') :
    n ≤ (ring_data s).length := by
  rw [ring_data_eq, ring_bytes_length _ _ _ _ _ h]
  obtain ⟨hl, hh, ht, hf, hz⟩ := h
  unfold IS_STREAM_EMPTY at hne
  unfold update_buffer IS_STREAM_EMPTY at hu
  by_cases h0 : n = 0
  · omega
  · rw [if_neg (by rintro (a | a); exact hne a; exact h0 a)] at hu
    simp only at hu
    by_cases hlt : s.head < s.tail
    · rw [if_pos hlt] at hu
      have hne2 : s.head ≠ s.tail := by omega
      rw [if_neg hne2, if_pos hlt]
      by_cases a : n ≤ s.tail - s.head
      · exact a
      · rw [if_neg a] at hu
        cases hu
    · rw [if_neg hlt] at hu
      have hfull : s.head = s.tail → s.full = true := by
        intro a
        cases hb : s.full
        · exact absurd ⟨a, hb⟩ hne
        · rfl
      have hlen : (if s.head = s.tail then (if s.full = true then s.buffer_size else 0)
          else if s.head < s.tail then s.tail - s.head
          else s.buffer_size - s.head + s.tail) = s.buffer_size - s.head + s.tail := by
        by_cases a : s.head = s.tail
        · rw [if_pos a, if_pos (hfull a)]; omega
        · rw [if_neg a, if_neg hlt]
      rw [hlen]
      by_cases a : n > s.buffer_size - s.head
      · rw [if_pos a] at hu
        by_cases b : n - (s.buffer_size - s.head) ≤ s.tail
        · omega
        · rw [if_neg b] at hu
          cases hu
      · omega

theorem update_buffer_preserves (s s' : file_ostream) (n : Nat)
    (h : update_buffer s n = some s') : preserves s s' := by
  have hfr := update_buffer_frame s s' n h
  have hmax : s'.max_buffer_size = s.max_buffer_size :=
    data_frame_max_buffer_size (ring_frame_to_data hfr)
  have hbs : s'.buffer_size = s.buffer_size := by
    have h2 := h
    rw [update_buffer_eq] at h2
    cases ha : advance s.buffer_size s.head s.tail s.full n with
    | none => rw [ha] at h2; cases h2
    | some r =>
      rw [ha] at h2
      simp only [Option.map_some', Option.some.injEq] at h2
      rw [← h2]
  refine ⟨hmax, fun x => by omega, ?_⟩
  intro hr hf
  by_cases hc : IS_STREAM_EMPTY s ∨ n = 0
  · unfold update_buffer at h
    rw [if_pos hc] at h
    cases h
    exact ⟨hr, hf⟩
  · have hne : ¬ IS_STREAM_EMPTY s := fun a => hc (Or.inl a)
    have hn0 : 0 < n := by
      by_contra a
      exact hc (Or.inr (by omega))
    obtain ⟨s2, e1, e2, -, -, -, -, e7⟩ :=
      update_buffer_spec s n hr (update_buffer_some_le s s' n hr hne h)
    rw [h] at e1
    cases e1
    refine ⟨e2, ?_⟩
    intro a
    rw [e7 hn0] at a
    cases a

theorem buffer_flush_preserves (s : file_ostream) (w : World)
    (x : Int × file_ostream × World) (h : buffer_flush s w = some x) :
    preserves s x.2.1 := by
  unfold buffer_flush at h
  simp only at h
  split_ifs at h with h1 h2 h3
  · cases h
    exact o_stream_writev_preserves s _ w
  · cases hu : update_buffer (o_stream_writev s (o_stream_fill_iovec s) w).2.1
        (o_stream_writev s (o_stream_fill_iovec s) w).1.toNat with
    | none => rw [hu] at h; cases h
    | some u =>
      rw [hu] at h
      simp only [Option.map_some', Option.some.injEq] at h
      rw [← h]
      exact preserves_trans (o_stream_writev_preserves s _ w)
        (update_buffer_preserves _ _ _ hu)
  · cases h; exact preserves_refl s
  · cases h; exact preserves_refl s

theorem o_stream_add_copy_sizes (data : List Byte) :
    ∀ (n : Nat) (s : file_ostream) (sent : Nat),
      (o_stream_add_copy data n s sent).1.buffer_size = s.buffer_size := by
  intro n
  induction n with
  | zero => intro s sent; rfl
  | succ k ih =>
    intro s sent
    rw [o_stream_add_copy_succ]
    split_ifs
    · rw [ih]
    · rfl

theorem o_stream_grow_buffer_preserves (s : file_ostream) (bytes : Nat) :
    preserves s (o_stream_grow_buffer s bytes) := by
  have hmax : (o_stream_grow_buffer s bytes).max_buffer_size = s.max_buffer_size :=
    data_frame_max_buffer_size (ring_frame_to_data (o_stream_grow_buffer_frame s bytes))
  refine ⟨hmax, ?_, ?_⟩
  · intro a
    rw [hmax, o_stream_grow_buffer_eq]
    have := grow_size_le s bytes
    split_ifs
    · exact a
    · exact this
  · intro hr hf
    obtain ⟨r1, r2, -⟩ := o_stream_grow_buffer_spec s bytes hr hf
    exact ⟨r1, r2⟩

theorem o_stream_add_preserves (s : file_ostream) (data : List Byte) :
    preserves s (o_stream_add s data).2 := by
  have hmax : (o_stream_add s data).2.max_buffer_size = s.max_buffer_size :=
    data_frame_max_buffer_size (o_stream_add_frame s data)
  refine ⟨hmax, ?_, ?_⟩
  · intro a
    have hbs : (o_stream_add s data).2.buffer_size =
        (if get_unused_space s < data.length then
          o_stream_grow_buffer s (data.length - get_unused_space s) else s).buffer_size := by
      unfold o_stream_add
      simp only
      split_ifs <;> exact o_stream_add_copy_sizes data 2 _ 0
    rw [hbs, hmax]
    split_ifs
    · have q := (o_stream_grow_buffer_preserves s (data.length - get_unused_space s)).2.1 a
      rw [(o_stream_grow_buffer_preserves s (data.length - get_unused_space s)).1] at q
      exact q
    · exact a
  · intro hr hf
    obtain ⟨sent, s', e, r1, r2, -⟩ := o_stream_add_spec s data hr hf
    rw [e]
    exact ⟨r1, r2⟩

theorem sendv_buffer_preserves (iov : List const_iovec) :
    ∀ (s : file_ostream) (ret : Int), preserves s (sendv_buffer iov s ret).2 := by
  induction iov with
  | nil => intro s ret; exact preserves_refl s
  | cons e iov ih =>
    intro s ret
    simp only [sendv_buffer]
    have hf := o_stream_add_preserves s e
    split_ifs
    · exact hf
    · exact preserves_trans hf (ih _ _)

theorem preserves_offset (s : file_ostream) (n : Nat) :
    preserves s { s with offset := n } :=
  preserves_of_ring_eq ⟨rfl, rfl, rfl, rfl, rfl, rfl⟩

theorem preserves_stream_errno (s : file_ostream) (n : Nat) :
    preserves s { s with stream_errno := n } :=
  preserves_of_ring_eq ⟨rfl, rfl, rfl, rfl, rfl, rfl⟩

theorem sendv_send_preserves (s : file_ostream) (iov : List const_iovec) (w : World) :
    preserves s (sendv_send s iov w).2.1 := by
  unfold sendv_send
  simp only
  split_ifs with h1 h2
  · exact o_stream_writev_preserves s iov w
  · have hw := o_stream_writev_preserves s iov w
    split
    · exact preserves_trans hw (preserves_offset _ _)
    · rename_i size e rest hsk
      have hf := o_stream_add_preserves (o_stream_writev s iov w).2.1 (List.drop size e)
      split_ifs
      · exact preserves_trans hw (preserves_trans hf (preserves_offset _ _))
      · have g1 := sendv_buffer_preserves rest
          (o_stream_add (o_stream_writev s iov w).2.1 (List.drop size e)).2
          ((o_stream_writev s iov w).1 +
            ((o_stream_add (o_stream_writev s iov w).2.1 (List.drop size e)).1 : Int))
        exact preserves_trans hw
          (preserves_trans hf (preserves_trans g1 (preserves_offset _ _)))
  · exact preserves_trans (sendv_buffer_preserves iov s 0) (preserves_offset _ _)

theorem sendv_preserves (s : file_ostream) (iov : List const_iovec) (w : World)
    (x : Int × file_ostream × World) (h : _sendv s iov w = some x) :
    preserves s x.2.1 := by
  have q0 : preserves s { s with stream_errno := 0 } := preserves_stream_errno s 0
  unfold _sendv at h
  simp only at h
  split_ifs at h
  · unfold _flush at h
    cases hfl : buffer_flush { s with stream_errno := 0 } w with
    | none => rw [hfl] at h; cases h
    | some f =>
      have hq := preserves_trans q0 (buffer_flush_preserves _ w f hfl)
      rw [hfl] at h
      simp only [Option.map_some', Option.some.injEq] at h
      split_ifs at h
      · rw [← h]; exact hq
      · rw [← h]; exact preserves_trans hq (sendv_send_preserves _ _ _)
  · simp only [Option.some.injEq] at h
    rw [← h]
    exact preserves_trans q0 (sendv_send_preserves { s with stream_errno := 0 } iov w)

theorem cork_preserves (s : file_ostream) (set : Bool) (w : World)
    (x : file_ostream × World) (h : _cork s set w = some x) : preserves s x.1 := by
  unfold _cork at h
  by_cases hcnd : s.corked ≠ set ∧ s.closed = false
  · rw [if_pos hcnd] at h
    cases set with
    | true =>
      simp only [Bool.true_eq_false, if_false, true_and] at h
      split_ifs at h <;> simp only [Option.map_some', Option.some.injEq] at h <;>
        (try split_ifs at h) <;>
        (rw [← h]; exact preserves_of_ring_eq ⟨rfl, rfl, rfl, rfl, rfl, rfl⟩)
    | false =>
      simp only [Bool.false_eq_true, false_and, if_false, if_true] at h
      cases hfl : buffer_flush s w with
      | none => rw [hfl] at h; cases h
      | some f =>
        have hq := buffer_flush_preserves s w f hfl
        rw [hfl] at h
        simp only [Option.map_some', Option.some.injEq] at h
        split_ifs at h <;>
          (rw [← h]
           exact preserves_trans hq (preserves_of_ring_eq ⟨rfl, rfl, rfl, rfl, rfl, rfl⟩))
  · rw [if_neg hcnd] at h
    cases h; exact preserves_refl s

theorem flush_pending_preserves (s : file_ostream) (set : Bool) :
    preserves s (_flush_pending s set) := by
  unfold _flush_pending
  simp only
  split_ifs <;> exact preserves_of_ring_eq ⟨rfl, rfl, rfl, rfl, rfl, rfl⟩

theorem seek_preserves (s : file_ostream) (offset : Nat) (w : World)
    (x : Int × file_ostream × World) (h : _seek s offset w = some x) :
    preserves s x.2.1 := by
  unfold _seek at h
  split_ifs at h with h1
  · cases h; exact preserves_stream_errno s _
  · cases hfl : buffer_flush s w with
    | none => rw [hfl] at h; cases h
    | some f =>
      have hq := buffer_flush_preserves s w f hfl
      rw [hfl] at h
      simp only [Option.map_some', Option.some.injEq] at h
      split_ifs at h <;>
        (rw [← h]
         exact preserves_trans hq (preserves_of_ring_eq ⟨rfl, rfl, rfl, rfl, rfl, rfl⟩))

theorem o_stream_seek_preserves (s : file_ostream) (offset : Nat) (w : World)
    (x : Int × file_ostream × World) (h : o_stream_seek s offset w = some x) :
    preserves s x.2.1 := by
  unfold o_stream_seek at h
  split_ifs at h
  · cases h; exact preserves_refl s
  · exact seek_preserves s offset w x h

theorem send_io_preserves (callback : Option stream_flush_callback_t) (s : file_ostream)
    (w : World) (x : file_ostream × World)
    (hcb : ∀ cb, callback = some cb →
      ∀ t v y, cb t v = some y → preserves t y.2.1)
    (h : stream_send_io callback s w = some x) : preserves s x.1 := by
  have key : ∀ (called : Option (Int × file_ostream × World)),
      (∀ y, called = some y → preserves s y.2.1) →
      (called.map fun r =>
        if (if r.1 = 0 then { r.2.1 with flush_pending := true } else r.2.1).flush_pending = false ∧
            IS_STREAM_EMPTY (if r.1 = 0 then { r.2.1 with flush_pending := true } else r.2.1) then
          ({ (if r.1 = 0 then { r.2.1 with flush_pending := true } else r.2.1) with io := false },
            r.2.2)
        else
          ({ (if r.1 = 0 then { r.2.1 with flush_pending := true } else r.2.1) with io := true },
            r.2.2)) = some x → preserves s x.1 := by
    intro called hc h
    cases called with
    | none => cases h
    | some y =>
      have hy := hc y rfl
      simp only [Option.map_some', Option.some.injEq] at h
      split_ifs at h <;>
        (rw [← h]
         exact preserves_trans hy (preserves_of_ring_eq ⟨rfl, rfl, rfl, rfl, rfl, rfl⟩))
  have q0 : preserves s { s with flush_pending := false } :=
    preserves_of_ring_eq ⟨rfl, rfl, rfl, rfl, rfl, rfl⟩
  cases callback with
  | none =>
    refine key _ ?_ h
    intro y hy
    exact preserves_trans q0 (buffer_flush_preserves { s with flush_pending := false } w y hy)
  | some cb =>
    refine key _ ?_ h
    intro y hy
    exact preserves_trans q0 (hcb cb rfl { s with flush_pending := false } w y hy)

theorem io_stream_sendfile_loop_preserves (in_fd : Int) (in_size abs : Nat) :
    ∀ (fuel v : Nat) (s : file_ostream) (w : World)
      (x : Int × Nat × file_ostream × World),
      io_stream_sendfile_loop in_fd in_size abs fuel v s w = some x → preserves s x.2.2.1 := by
  intro fuel
  induction fuel with
  | zero => intro v s w x h; cases h
  | succ n ih =>
    intro v s w x h
    unfold io_stream_sendfile_loop at h
    simp only at h
    split_ifs at h with h1 h2 h3 h4
    · cases h; exact preserves_refl s
    · cases h; exact stream_closed_preserves { s with stream_errno := _ } _
    · cases h; exact preserves_refl s
    · exact preserves_trans (preserves_offset s _) (ih _ _ _ _ h)
    · cases h; exact preserves_refl s

theorem io_stream_sendfile_preserves (s : file_ostream) (ins : istream) (in_fd : Int)
    (in_size fuel : Nat) (w : World) (x : Int × file_ostream × istream × World)
    (h : io_stream_sendfile s ins in_fd in_size fuel w = some x) : preserves s x.2.1 := by
  unfold io_stream_sendfile at h
  cases hfl : buffer_flush s w with
  | none => rw [hfl] at h; cases h
  | some f =>
    obtain ⟨rf, sf, wf⟩ := f
    have hq0 := buffer_flush_preserves s w _ hfl
    have hq : preserves s sf := hq0
    rw [hfl] at h
    simp only [Option.some_bind] at h
    split_ifs at h
    · cases h; exact hq
    · cases hl : io_stream_sendfile_loop in_fd in_size ins.abs_start_offset fuel
          ins.v_offset sf wf with
      | none => rw [hl] at h; cases h
      | some y =>
        rw [hl] at h
        simp only [Option.map_some', Option.some.injEq] at h
        rw [← h]
        exact preserves_trans hq (io_stream_sendfile_loop_preserves _ _ _ _ _ _ _ _ hl)

theorem io_stream_copy_loop_preserves :
    ∀ (fuel in_size : Nat) (iov : List const_iovec) (skip : Nat) (s : file_ostream)
      (ins : istream) (w : World) (x : Bool × file_ostream × istream × World),
      io_stream_copy_loop fuel in_size iov skip s ins w = some x → preserves s x.2.1 := by
  intro fuel
  induction fuel with
  | zero => intro in_size iov skip s ins w x h; cases h
  | succ n ih =>
    intro in_size iov skip s ins w x h
    unfold io_stream_copy_loop at h
    simp only at h
    split_ifs at h with h1 h2 h3 h4 h5
    · cases h; exact preserves_refl s
    · cases h; exact o_stream_writev_preserves s _ w
    · -- part of the buffer has been written
      cases hu : update_buffer (o_stream_writev s (iov ++
          [i_stream_read_data ins w (size_sub (min s.optimal_block_size in_size) 1)]) w).2.1
          (o_stream_writev s (iov ++
          [i_stream_read_data ins w (size_sub (min s.optimal_block_size in_size) 1)]) w).1.toNat with
      | none => rw [hu] at h; cases h
      | some u =>
        rw [hu] at h
        have hq := preserves_trans (o_stream_writev_preserves s _ w) (update_buffer_preserves _ _ _ hu)
        simp only [Option.map_some', Option.some_bind] at h
        split_ifs at h
        · cases h; exact preserves_trans hq (preserves_offset u _)
        · exact preserves_trans hq (preserves_trans (preserves_offset u _) (ih _ _ _ _ _ _ _ h))
    · cases hu : update_buffer (o_stream_writev s (iov ++
          [i_stream_read_data ins w (size_sub (min s.optimal_block_size in_size) 1)]) w).2.1
          skip with
      | none => rw [hu] at h; cases h
      | some u =>
        rw [hu] at h
        have hq := preserves_trans (o_stream_writev_preserves s _ w) (update_buffer_preserves _ _ _ hu)
        simp only [Option.map_some', Option.some_bind] at h
        split_ifs at h
        · cases h; exact preserves_trans hq (preserves_offset u _)
        · exact preserves_trans hq (preserves_trans (preserves_offset u _) (ih _ _ _ _ _ _ _ h))
    · have hq := o_stream_writev_preserves s (iov ++
          [i_stream_read_data ins w (size_sub (min s.optimal_block_size in_size) 1)]) w
      simp only [Option.some_bind] at h
      split_ifs at h
      · cases h; exact preserves_trans hq (preserves_offset _ _)
      · exact preserves_trans hq (preserves_trans (preserves_offset _ _) (ih _ _ _ _ _ _ _ h))
    · cases h; exact preserves_refl s

theorem io_stream_copy_preserves (s : file_ostream) (ins : istream) (in_size fuel : Nat)
    (w : World) (x : Int × file_ostream × istream × World)
    (h : io_stream_copy s ins in_size fuel w = some x) : preserves s x.2.1 := by
  unfold io_stream_copy at h
  simp only at h
  cases hl : io_stream_copy_loop fuel (size_sub in_size ins.v_offset) (o_stream_fill_iovec s)
      (iov_total (o_stream_fill_iovec s)) s ins w with
  | none => rw [hl] at h; cases h
  | some y =>
    rw [hl] at h
    simp only [Option.map_some', Option.some.injEq] at h
    rw [← h]
    exact io_stream_copy_loop_preserves _ _ _ _ _ _ _ _ hl

theorem copy_backwards_read_preserves (in_limit : Nat) (w : World) :
    ∀ (fuel in_offset out_offset buffer_size : Nat) (s : file_ostream) (ins : istream)
      (x : Nat × Nat × Nat × List Byte × file_ostream × istream),
      copy_backwards_read in_limit w fuel in_offset out_offset buffer_size s ins = some x →
        preserves s x.2.2.2.2.1 := by
  intro fuel
  induction fuel with
  | zero => intro a b c s ins x h; cases h
  | succ n ih =>
    intro a b c s ins x h
    unfold copy_backwards_read at h
    simp only at h
    split_ifs at h with h1 h2 h3 h4
    · cases h
      refine ⟨rfl, fun x => x, fun hr hf => ⟨?_, hf⟩⟩
      obtain ⟨hl, r⟩ := hr
      refine ⟨?_, r⟩
      have e := memcpy_length s.buffer
        (List.take (in_limit - a) (i_stream_read_data (i_stream_seek ins a) w
          (size_sub (in_limit - a) 1))) 0
        (List.take (in_limit - a) (i_stream_read_data (i_stream_seek ins a) w
          (size_sub (in_limit - a) 1))).length (by omega) (le_refl _)
      exact e.trans hl
    · cases h; exact preserves_refl s
    · exact ih _ _ _ _ _ _ h

theorem copy_backwards_loop_preserves (start : Nat) :
    ∀ (fuel in_offset in_limit out_offset buffer_size : Nat) (s : file_ostream)
      (ins : istream) (w : World) (x : Bool × file_ostream × istream × World),
      copy_backwards_loop start fuel in_offset in_limit out_offset buffer_size s ins w =
        some x → preserves s x.2.1 := by
  intro fuel
  induction fuel with
  | zero => intro a b c d s ins w x h; cases h
  | succ n ih =>
    intro a b c d s ins w x h
    unfold copy_backwards_loop at h
    by_cases h1 : a > start
    · rw [if_pos h1] at h
      simp only at h
      generalize hrd : copy_backwards_read b w (b + 1) _ _ d s ins = rd at h
      cases rd with
      | none => simp at h
      | some k =>
        have hq1 := copy_backwards_read_preserves _ _ _ _ _ _ _ _ _ hrd
        simp only [Option.some_bind] at h
        generalize hsk : o_stream_seek k.2.2.2.2.1 k.2.1 w = sk at h
        cases sk with
        | none => simp at h
        | some sr =>
          have hq2 := o_stream_seek_preserves _ _ _ _ hsk
          simp only [Option.some_bind] at h
          split_ifs at h
          · cases h; exact preserves_trans hq1 hq2
          · cases h; exact preserves_trans hq1 (preserves_trans hq2 (preserves_stream_errno _ _))
          · exact preserves_trans hq1 (preserves_trans hq2 (ih _ _ _ _ _ _ _ _ h))
    · rw [if_neg h1] at h
      cases h; exact preserves_refl s

theorem io_stream_copy_backwards_preserves (s : file_ostream) (ins : istream)
    (in_size fuel : Nat) (w : World) (x : Int × file_ostream × istream × World)
    (h : io_stream_copy_backwards s ins in_size fuel w = some x) : preserves s x.2.1 := by
  unfold io_stream_copy_backwards at h
  by_cases h1 : IS_STREAM_EMPTY s
  · rw [if_neg (not_not.mpr h1)] at h
    simp only at h
    generalize hsz : (if ins.buffer_size = 0 ∨ ins.buffer_size > s.buffer_size then
        ((if s.optimal_block_size > s.buffer_size then
            o_stream_grow_buffer s (s.optimal_block_size - s.buffer_size)
          else s),
          (if s.optimal_block_size > s.buffer_size then
            o_stream_grow_buffer s (s.optimal_block_size - s.buffer_size)
          else s).buffer_size)
      else (s, ins.buffer_size)) = sized at h
    have hs : preserves s sized.1 := by
      rw [← hsz]
      split_ifs
      · exact o_stream_grow_buffer_preserves _ _
      · exact preserves_refl s
      · exact preserves_refl s
    generalize hl : copy_backwards_loop ins.v_offset fuel in_size in_size _ sized.2 sized.1
      ins w = l at h
    cases l with
    | none => simp at h
    | some y =>
      have hq := copy_backwards_loop_preserves _ _ _ _ _ _ _ _ _ _ hl
      simp only [Option.map_some', Option.some.injEq] at h
      rw [← h]
      exact preserves_trans hs hq
  · rw [if_pos h1] at h
    cases h

/-- Sending from an input stream keeps the ring well-formed and within the
maximum. -/
theorem send_istream_preserves (s : file_ostream) (ins : istream) (fuel : Nat) (w : World)
    (x : Int × file_ostream × istream × World)
    (h : _send_istream s ins fuel w = some x) : preserves s x.2.1 := by
  unfold _send_istream at h
  cases hst : i_stream_stat ins with
  | none =>
    rw [hst] at h
    simp only [Option.some.injEq] at h
    rw [← h]
    exact preserves_stream_errno s _
  | some in_size =>
    rw [hst] at h
    simp only at h
    by_cases hv : ins.v_offset ≤ in_size
    · rw [if_neg (not_not.mpr hv)] at h
      have q0 : preserves s { s with stream_errno := 0 } := preserves_stream_errno s 0
      have q1 : ∀ (t : file_ostream),
          preserves t { t with stream_errno := 0, no_sendfile := true } :=
        fun _ => preserves_of_ring_eq ⟨rfl, rfl, rfl, rfl, rfl, rfl⟩
      generalize hov : (if i_stream_get_fd ins ≠ s.fd then (Except.ok 0 : Except (Int × file_ostream) Int)
        else if in_size = UOFF_T_MAX then
          Except.error (-1, { s with stream_errno := EINVAL })
        else if (s.offset : Int) - ((ins.abs_start_offset + ins.v_offset : Nat) : Int) = 0 then
          Except.error (((in_size - ins.v_offset : Nat) : Int), { s with stream_errno := 0 })
        else Except.ok (if (s.offset : Int) -
          ((ins.abs_start_offset + ins.v_offset : Nat) : Int) < 0 then -1 else 1)) = ov at h
      cases ov with
      | error e =>
        simp only [Option.some.injEq] at h
        rw [← h]
        split_ifs at hov
        · cases hov; exact preserves_stream_errno s _
        · cases hov; exact q0
      | ok overlapping =>
        simp only at h
        by_cases hsf : s.no_sendfile = false ∧ i_stream_get_fd ins ≠ -1 ∧ overlapping ≤ 0
        · rw [if_pos hsf] at h
          generalize hr : io_stream_sendfile { s with stream_errno := 0 } ins
            (i_stream_get_fd ins) in_size fuel w = sf at h
          cases sf with
          | none => simp at h
          | some r =>
            have hq := io_stream_sendfile_preserves _ _ _ _ _ _ _ hr
            simp only [Option.some_bind] at h
            split_ifs at h
            · cases h; exact preserves_trans q0 hq
            · exact preserves_trans q0 (preserves_trans hq (preserves_trans (q1 _)
                (io_stream_copy_preserves _ _ _ _ _ _ h)))
            · exact preserves_trans q0 (preserves_trans hq (preserves_trans (q1 _)
                (io_stream_copy_backwards_preserves _ _ _ _ _ _ h)))
        · rw [if_neg hsf] at h
          split_ifs at h
          · exact preserves_trans q0 (io_stream_copy_preserves _ _ _ _ _ _ h)
          · exact preserves_trans q0 (io_stream_copy_backwards_preserves _ _ _ _ _ _ h)
    · rw [if_pos hv] at h
      cases h

/-- Every public operation and every dispatch keeps the ring well-formed and
`buffer_size` within the maximum, provided the flush callback does (when one is
installed). -/
theorem apply_preserves (op : PublicOp) (s : file_ostream) (w : World)
    (x : file_ostream × World)
    (hcb : ∀ cb, op = .dispatch (some cb) → ∀ t v y, cb t v = some y → preserves t y.2.1)
    (h : op.apply s w = some x) : preserves s x.1 := by
  cases op with
  | sendv iov =>
    simp only [PublicOp.apply] at h
    cases hx : _sendv s iov w with
    | none => rw [hx] at h; cases h
    | some y =>
      rw [hx] at h
      simp only [Option.map_some', Option.some.injEq] at h
      rw [← h]
      exact sendv_preserves s iov w y hx
  | flush =>
    simp only [PublicOp.apply] at h
    cases hx : _flush s w with
    | none => rw [hx] at h; cases h
    | some y =>
      rw [hx] at h
      simp only [Option.map_some', Option.some.injEq] at h
      rw [← h]
      exact buffer_flush_preserves s w y hx
  | cork set =>
    simp only [PublicOp.apply] at h
    exact cork_preserves s set w x h
  | flush_pending set =>
    simp only [PublicOp.apply, Option.some.injEq] at h
    rw [← h]
    exact flush_pending_preserves s set
  | seek offset =>
    simp only [PublicOp.apply] at h
    cases hx : _seek s offset w with
    | none => rw [hx] at h; cases h
    | some y =>
      rw [hx] at h
      simp only [Option.map_some', Option.some.injEq] at h
      rw [← h]
      exact seek_preserves s offset w y hx
  | send_istream ins fuel =>
    simp only [PublicOp.apply] at h
    cases hx : _send_istream s ins fuel w with
    | none => rw [hx] at h; cases h
    | some y =>
      rw [hx] at h
      simp only [Option.map_some', Option.some.injEq] at h
      rw [← h]
      exact send_istream_preserves s ins fuel w y hx
  | dispatch callback =>
    simp only [PublicOp.apply] at h
    refine send_io_preserves callback s w x ?_ h
    intro cb hc
    exact hcb cb (by rw [hc])

theorem run_ops_preserves (ops : List PublicOp) :
    ∀ (s : file_ostream) (w : World) (x : file_ostream × World),
      (∀ cb, PublicOp.dispatch (some cb) ∈ ops →
        ∀ t v y, cb t v = some y → preserves t y.2.1) →
      run_ops ops s w = some x → preserves s x.1 := by
  induction ops with
  | nil =>
    intro s w x _ h
    simp only [run_ops, Option.some.injEq] at h
    rw [← h]
    exact preserves_refl s
  | cons op ops ih =>
    intro s w x hcb h
    simp only [run_ops] at h
    cases hx : op.apply s w with
    | none => rw [hx] at h; cases h
    | some y =>
      rw [hx] at h
      simp only [Option.some_bind] at h
      have h1 := apply_preserves op s w y
        (fun cb hc => hcb cb (by rw [hc]; exact List.mem_cons_self _ _)) hx
      have h2 := ih y.1 y.2 x (fun cb hc => hcb cb (List.mem_cons_of_mem _ hc)) h
      exact preserves_trans h1 h2

/-- The stream `o_stream_create_file` returns has no buffer yet: `head = tail = 0`,
`buffer_size = 0`, `full` clear. -/
theorem create_file_ring (fd : Int) (pool : pool_t) (max_buffer_size : Nat)
    (autoclose_fd : Bool) (lseek_ret : Int) (fstat_ret : Option stat) (getsockname_ret : Int) :
    ring_ok (o_stream_create_file fd pool max_buffer_size autoclose_fd lseek_ret fstat_ret
        getsockname_ret) ∧
    full_ok (o_stream_create_file fd pool max_buffer_size autoclose_fd lseek_ret fstat_ret
        getsockname_ret) ∧
    (o_stream_create_file fd pool max_buffer_size autoclose_fd lseek_ret fstat_ret
        getsockname_ret).buffer_size = 0 := by
  unfold o_stream_create_file ring_ok full_ok ring_inv
  cases fstat_ret with
  | none => simp only; split_ifs <;> simp
  | some st => simp only; split_ifs <;> simp

/-- On a well-formed ring every operation whose code is all in `ostream-file.c`
returns. -/
theorem core_apply_returns (op : PublicOp) (s : file_ostream) (w : World)
    (hc : op.is_core = true) (h : ring_ok s) : ∃ x, op.apply s w = some x := by
  cases op with
  | sendv iov =>
    simp only [PublicOp.apply, _sendv, _flush]
    split_ifs
    · obtain ⟨y, e⟩ := buffer_flush_total { s with stream_errno := 0 } w h
      rw [e]
      exact ⟨_, rfl⟩
    · exact ⟨_, rfl⟩
  | flush =>
    obtain ⟨y, e⟩ := buffer_flush_total s w h
    simp only [PublicOp.apply, _flush, e]
    exact ⟨_, rfl⟩
  | cork set =>
    simp only [PublicOp.apply, _cork]
    obtain ⟨y, e⟩ := buffer_flush_total s w h
    rw [e]
    split_ifs <;> exact ⟨_, rfl⟩
  | flush_pending set => exact ⟨_, rfl⟩
  | seek offset =>
    simp only [PublicOp.apply, _seek]
    obtain ⟨y, e⟩ := buffer_flush_total s w h
    rw [e]
    split_ifs <;> exact ⟨_, rfl⟩
  | send_istream ins fuel => cases hc
  | dispatch callback =>
    cases callback with
    | some cb => cases hc
    | none =>
      simp only [PublicOp.apply, stream_send_io, _flush]
      obtain ⟨y, e⟩ := buffer_flush_total { s with flush_pending := false } w h
      rw [e]
      exact ⟨_, rfl⟩

set_option maxRecDepth 100000

theorem run_ops_core_returns (ops : List PublicOp) :
    ∀ (s : file_ostream) (w : World), ring_ok s → full_ok s →
      (∀ op, op ∈ ops → op.is_core = true) → ∃ x, run_ops ops s w = some x := by
  induction ops with
  | nil => intro s w _ _ _; exact ⟨_, rfl⟩
  | cons op ops ih =>
    intro s w hr hf hc
    have hcore := hc op (List.mem_cons_self _ _)
    obtain ⟨y, e⟩ := core_apply_returns op s w hcore hr
    have hp := apply_preserves op s w y
      (fun cb hcb => by rw [hcb] at hcore; cases hcore) e
    obtain ⟨hr1, hf1⟩ := hp.2.2 hr hf
    obtain ⟨x, ex⟩ := ih y.1 y.2 hr1 hf1 (fun o ho => hc o (List.mem_cons_of_mem _ ho))
    refine ⟨x, ?_⟩
    simp only [run_ops, e, Option.some_bind]
    exact ex

/-- C26: start from the stream `o_stream_create_file` returns (any descriptor,
pool, maximum and answers of `lseek`, `fstat` and `getsockname`) and run any
sequence of `sendv`, `flush`, `cork`/`uncork`, `set_flush_pending`, `seek`,
sends from an input stream and write-readiness dispatches, with any kernel
behaviour; a flush callback, when one is installed, is taken to keep the ring
well-formed itself.  After every operation that returns, `head < buffer_size`
and `tail < buffer_size`, or `head = tail = 0` with `buffer_size = 0`.  Sequences
without an input stream and without a user callback always return. -/
theorem ring_bounds_kept :
    (∀ (ops : List PublicOp) (fd : Int) (pool : pool_t) (max_buffer_size : Nat)
        (autoclose_fd : Bool) (lseek_ret : Int) (fstat_ret : Option stat)
        (getsockname_ret : Int) (w : World) (x : file_ostream × World),
      (∀ cb, PublicOp.dispatch (some cb) ∈ ops →
        ∀ t v y, cb t v = some y → preserves t y.2.1) →
      run_ops ops (o_stream_create_file fd pool max_buffer_size autoclose_fd lseek_ret
        fstat_ret getsockname_ret) w = some x →
      (x.1.head < x.1.buffer_size ∧ x.1.tail < x.1.buffer_size) ∨
        (x.1.buffer_size = 0 ∧ x.1.head = 0 ∧ x.1.tail = 0)) ∧
    (∀ (ops : List PublicOp) (fd : Int) (pool : pool_t) (max_buffer_size : Nat)
        (autoclose_fd : Bool) (lseek_ret : Int) (fstat_ret : Option stat)
        (getsockname_ret : Int) (w : World),
      (∀ op, op ∈ ops → op.is_core = true) →
      ∃ x, run_ops ops (o_stream_create_file fd pool max_buffer_size autoclose_fd lseek_ret
        fstat_ret getsockname_ret) w = some x) := by
  constructor
  · intro ops fd pool mx ac lr fr gr w x hcb h
    obtain ⟨c1, c2, -⟩ := create_file_ring fd pool mx ac lr fr gr
    have hp := run_ops_preserves ops _ w x hcb h
    obtain ⟨⟨-, hh, ht, -, -⟩, -⟩ := hp.2.2 c1 c2
    omega
  · intro ops fd pool mx ac lr fr gr w hc
    obtain ⟨c1, c2, -⟩ := create_file_ring fd pool mx ac lr fr gr
    exact run_ops_core_returns ops _ w c1 c2 hc

/-- Witness for `ring_bounds_kept`: on a fresh socket stream three bytes are
buffered on `EAGAIN`, a flush gets two of them out, three more bytes are sent
while the kernel answers `EAGAIN` again; the buffer grows to four bytes and is
full, wrapped around its end (`head = tail = 3`). -/
theorem ring_bounds_kept_witness :
    (run_ops [.sendv [[1, 2, 3]], .flush, .sendv [[4, 5, 6]]]
        (o_stream_create_file 5 exact_pool 5 true (-1) none 0)
        (scripted [.error EAGAIN, .ok 2, .error EAGAIN])).map
      (fun x => (x.1.buffer_size, x.1.head, x.1.tail, x.1.full, ring_data x.1)) =
        some (4, 3, 3, true, [3, 4, 5, 6]) ∧
    ∃ x,
      run_ops [.sendv [[1, 2, 3]], .flush, .sendv [[4, 5, 6]]]
        (o_stream_create_file 5 exact_pool 5 true (-1) none 0)
        (scripted [.error EAGAIN, .ok 2, .error EAGAIN]) = some x ∧
      ((x.1.head < x.1.buffer_size ∧ x.1.tail < x.1.buffer_size) ∨
        (x.1.buffer_size = 0 ∧ x.1.head = 0 ∧ x.1.tail = 0)) :=
  ⟨rfl,
    Exists.imp
      (fun x h =>
        ⟨h, ring_bounds_kept.1 [.sendv [[1, 2, 3]], .flush, .sendv [[4, 5, 6]]] 5 exact_pool 5
          true (-1) none 0 (scripted [.error EAGAIN, .ok 2, .error EAGAIN]) x
          (fun _ hc => by simp at hc) h⟩)
      (ring_bounds_kept.2 [.sendv [[1, 2, 3]], .flush, .sendv [[4, 5, 6]]] 5 exact_pool 5
        true (-1) none 0 (scripted [.error EAGAIN, .ok 2, .error EAGAIN])
        (fun op hop => by
          simp only [List.mem_cons, List.mem_singleton, List.not_mem_nil, or_false] at hop
          rcases hop with a | a | a <;> (rw [a]; rfl)))⟩

/-- C28, amended: every public operation other than `set_max_buffer_size`
(`sendv`, `flush`, `cork`, `seek`, `set_flush_pending`, sending from an input
stream) and every dispatch (whose flush callback, if any, does the same) leaves
`max_buffer_size` as it was and keeps `buffer_size ≤ max_buffer_size` when that
held before; growth never takes the buffer beyond the larger of its current
size and the maximum; and `set_max_buffer_size(m)` leaves
`buffer_size ≤ max_buffer_size` exactly when `m` is not below the current
`buffer_size`. -/
theorem buffer_within_maximum :
    (∀ (op : PublicOp) (s : file_ostream) (w : World) (s' : file_ostream) (w' : World),
      (∀ cb, op = .dispatch (some cb) → ∀ t v y, cb t v = some y → preserves t y.2.1) →
      s.buffer_size ≤ s.max_buffer_size → op.apply s w = some (s', w') →
      s'.buffer_size ≤ s'.max_buffer_size ∧ s'.max_buffer_size = s.max_buffer_size) ∧
    (∀ (s : file_ostream) (bytes : Nat),
      (o_stream_grow_buffer s bytes).buffer_size ≤ max s.buffer_size s.max_buffer_size ∧
      s.buffer_size ≤ (o_stream_grow_buffer s bytes).buffer_size) ∧
    (∀ (s : file_ostream) (m : Nat),
      (_set_max_buffer_size s m).buffer_size ≤ (_set_max_buffer_size s m).max_buffer_size ↔
        s.buffer_size ≤ m) := by
  refine ⟨?_, ?_, ?_⟩
  · intro op s w s' w' hcb hb h
    have hp := apply_preserves op s w (s', w') hcb h
    exact ⟨hp.2.1 hb, hp.1⟩
  · intro s bytes
    rw [o_stream_grow_buffer_eq]
    have := grow_size_le s bytes
    split_ifs
    · exact ⟨by omega, le_refl _⟩
    · simp only
      omega
  · intro s m
    exact Iff.rfl

/-- Witness for `add_appends`: three bytes appended to the ring whose free space
wraps take two copies (`[5, 6]` to offsets 6 and 7, `[7]` to offset 0). -/
theorem add_appends_witness :
    well_formed middle_stream ∧
      (o_stream_add middle_stream [5, 6, 7]).1 = 3 ∧
      (o_stream_add middle_stream [5, 6, 7]).2.buffer = [7, 0, 1, 2, 3, 4, 5, 6] ∧
      (o_stream_add_copy [5, 6, 7] 1 middle_stream 0).2 = 2 ∧
      spec_queue middle_stream = [1, 2, 3, 4] ∧
      ∃ (a : Nat) (s' : file_ostream), o_stream_add middle_stream [5, 6, 7] = (a, s') ∧
        spec_queue s' = spec_queue middle_stream ++ [5, 6, 7].take a :=
  ⟨by decide, rfl, rfl, rfl, by decide,
    Exists.imp (fun _ => Exists.imp (fun _ hs => ⟨hs.1, hs.2.2.2.1⟩))
      (add_appends middle_stream [5, 6, 7] (by decide) (by decide))⟩

theorem stream_closed_sent (s : file_ostream) (w : World) (fd : Int) :
    (stream_closed s w).2.sent fd = w.sent fd := by
  unfold stream_closed
  simp only
  split_ifs
  · simp only [close, World.transfer]
    rw [World.sent_record]
    simp [Event.sent]
  · rfl

theorem stream_closed_ring_data (s : file_ostream) (w : World) :
    ring_data (stream_closed s w).1 = ring_data s ∧ (stream_closed s w).1.offset = s.offset ∧
      (stream_closed s w).1.closed = true := by
  unfold stream_closed
  simp only
  split_ifs <;> exact ⟨rfl, rfl, trivial⟩

/-- One scatter write of the entries `iov` followed by `data`, at most three
entries in all: either it fails, the stream is closed and nothing was taken, or
it returns the number `a` of bytes the kernel took, a prefix of the bytes
offered, and leaves the stream alone. -/
theorem writev_step (s : file_ostream) (iov : List const_iovec) (data : List Byte)
    (w : World) (hlen : iov.length ≤ 2) :
    ((o_stream_writev s (iov ++ [data]) w).1 < 0 ∧
        (o_stream_writev s (iov ++ [data]) w).2.1.closed = true ∧
        ring_data (o_stream_writev s (iov ++ [data]) w).2.1 = ring_data s ∧
        (o_stream_writev s (iov ++ [data]) w).2.1.offset = s.offset ∧
        (o_stream_writev s (iov ++ [data]) w).2.2.sent s.fd = w.sent s.fd) ∨
      ∃ a : Nat, (o_stream_writev s (iov ++ [data]) w).1 = (a : Int) ∧
        a ≤ iov_total iov + data.length ∧
        (o_stream_writev s (iov ++ [data]) w).2.1 = s ∧
        (o_stream_writev s (iov ++ [data]) w).2.2.sent s.fd =
          w.sent s.fd ++ (iov.flatten ++ data).take a := by
  have hmax := w.IOV_MAX_ge
  have hfl : (iov ++ [data]).flatten = iov.flatten ++ data := by simp
  have htot : iov_total (iov ++ [data]) = iov_total iov + data.length := by
    rw [← iov_total_flatten, hfl, List.length_append, iov_total_flatten]
  rw [o_stream_writev_short s (iov ++ [data]) w (by
    rw [List.length_append, List.length_singleton]; omega)]
  cases hk : w.kernel w.log (write_call s.fd (iov ++ [data])) with
  | ok n =>
    right
    refine ⟨min n (iov_total (iov ++ [data])), rfl, by rw [htot]; exact Nat.min_le_right _ _,
      rfl, ?_⟩
    simp only
    rw [World.sent_record_write, hfl]
  | error e =>
    by_cases he : e = EAGAIN ∨ e = EINTR
    · right
      simp only [he, if_true]
      refine ⟨0, rfl, Nat.zero_le _, trivial, ?_⟩
      rw [World.sent_record_neg, List.take_zero, List.append_nil]
    · left
      simp only [he, if_false]
      obtain ⟨c1, c2, c3⟩ := stream_closed_ring_data { s with stream_errno := e }
        (w.record (write_call s.fd (iov ++ [data])) (-1) e)
      refine ⟨by omega, c3, c1, c2, ?_⟩
      rw [stream_closed_sent, World.sent_record_neg]

theorem take_prefix_take (D : List Byte) (m x : Nat) (hx : x ≤ (D.take m).length) :
    (D.take m).take x = D.take x := by
  rw [List.take_take]
  rw [List.length_take] at hx
  congr 1
  omega

theorem take_append_drop_take (B : List Byte) (v d e : Nat) :
    (B.drop v).take d ++ (B.drop (v + d)).take e = (B.drop v).take (d + e) := by
  rw [List.take_add, List.drop_drop]

/-- The copy loop of `io_stream_copy` for a source that serves `B`, whatever the
kernel does: the entries `iov` it starts with (the buffered bytes, when
`skip > 0`) go first; `k` of their bytes are taken from the ring, the source
advances by exactly the number of its own bytes the kernel took, and `offset`
grows by the same number. -/
theorem io_stream_copy_loop_accounts (B : List Byte) (hB : B.length < 2 ^ 64) :
    ∀ (fuel rem : Nat) (iov : List const_iovec) (skip : Nat) (s : file_ostream)
      (ins : istream) (w : World),
      yields ins B → ins.v_offset + rem = B.length → rem < fuel →
      iov.length ≤ 2 → skip = iov_total iov →
      (0 < skip → ring_ok s ∧ iov.flatten = ring_data s) →
      ∃ (bad : Bool) (s' : file_ostream) (ins' : istream) (w' : World) (k : Nat),
        io_stream_copy_loop fuel rem iov skip s ins w = some (bad, s', ins', w') ∧
        ins.v_offset ≤ ins'.v_offset ∧ ins'.v_offset ≤ B.length ∧
        s'.offset = s.offset + (ins'.v_offset - ins.v_offset) ∧
        k ≤ skip ∧ ring_data s' = (ring_data s).drop k ∧
        w'.sent s.fd = w.sent s.fd ++ iov.flatten.take k ++
          (B.drop ins.v_offset).take (ins'.v_offset - ins.v_offset) ∧
        (0 < ins'.v_offset - ins.v_offset → k = skip) ∧
        (bad = true → s'.closed = true) := by
  intro fuel
  induction fuel with
  | zero => intro rem iov skip s ins w _ _ h; omega
  | succ n ih =>
    intro rem iov skip s ins w hy hrem hfuel hlen hskip hring
    unfold io_stream_copy_loop
    by_cases hpos : rem > 0
    · rw [if_pos hpos]
      obtain ⟨m, hm1, hm2⟩ := hy.2 w.log ins.v_offset
        (size_sub (min s.optimal_block_size rem) 1)
      have hm3 := hm2 (by omega)
      simp only
      generalize hd : i_stream_read_data ins w (size_sub (min s.optimal_block_size rem) 1) =
        data
      have hdata : data = (B.drop ins.v_offset).take m := by
        rw [← hd]; exact hm1
      have hdl : data.length = min m rem := by
        rw [hdata, List.length_take, List.length_drop]
        omega
      have hne : ¬ data.length = 0 := by omega
      rw [if_neg hne]
      have hsub : size_sub rem data.length = rem - data.length :=
        size_sub_le rem data.length (by omega) (by omega)
      rw [hsub]
      have hpt : ∀ x, x ≤ data.length → data.take x = (B.drop ins.v_offset).take x := by
        intro x hx
        rw [hdata]
        rw [hdata] at hx
        exact take_prefix_take _ _ _ hx
      have hflt : iov.flatten.length = skip := by rw [iov_total_flatten, hskip]
      rcases writev_step s iov data w hlen with ⟨f1, f2, f3, f4, f5⟩ | ⟨a, g1, g2, g3, g4⟩
      · rw [if_pos f1]
        refine ⟨true, _, ins, _, 0, rfl, le_refl _, by omega, ?_, Nat.zero_le _, ?_, ?_, ?_,
          fun _ => f2⟩
        · rw [f4]; omega
        · rw [f3, List.drop_zero]
        · rw [f5, Nat.sub_self, List.take_zero, List.take_zero, List.append_nil,
            List.append_nil]
        · intro x; omega
      · generalize o_stream_writev s (iov ++ [data]) w = R at g1 g3 g4 ⊢
        obtain ⟨r1, r2, r3⟩ := R
        simp only at g1 g3 g4 ⊢
        subst g1
        rw [g3]
        clear g3
        rw [if_neg (by omega)]
        simp only [Int.toNat_ofNat]
        have fin : ∀ (s1 : file_ostream) (k0 c1 skip1 : Nat),
            s1.offset = s.offset → s1.fd = s.fd → ring_data s1 = (ring_data s).drop k0 →
            k0 ≤ skip → c1 ≤ data.length → (c1 = data.length → skip1 = 0) →
            (0 < c1 → k0 = skip) →
            r3.sent s.fd = w.sent s.fd ++ iov.flatten.take k0 ++
              (B.drop ins.v_offset).take c1 →
            ∃ (bad : Bool) (s' : file_ostream) (ins' : istream) (w' : World) (k : Nat),
              (if c1 ≠ data.length then
                some (false, { s1 with offset := s1.offset + c1 }, i_stream_skip ins c1, r3)
              else if skip1 ≠ 0 then none
              else io_stream_copy_loop n (rem - data.length) [] 0
                { s1 with offset := s1.offset + c1 } (i_stream_skip ins c1) r3) =
                some (bad, s', ins', w') ∧
              ins.v_offset ≤ ins'.v_offset ∧ ins'.v_offset ≤ B.length ∧
              s'.offset = s.offset + (ins'.v_offset - ins.v_offset) ∧
              k ≤ skip ∧ ring_data s' = (ring_data s).drop k ∧
              w'.sent s.fd = w.sent s.fd ++ iov.flatten.take k ++
                (B.drop ins.v_offset).take (ins'.v_offset - ins.v_offset) ∧
              (0 < ins'.v_offset - ins.v_offset → k = skip) ∧
              (bad = true → s'.closed = true) := by
          intro s1 k0 c1 skip1 p1 p2 p3 p4 p5 p6 p7 p8
          by_cases hc : c1 ≠ data.length
          · rw [if_pos hc]
            have hv : (i_stream_skip ins c1).v_offset = ins.v_offset + c1 := rfl
            have hv2 : ins.v_offset + c1 - ins.v_offset = c1 := by omega
            refine ⟨false, _, _, _, k0, rfl, by rw [hv]; omega, by rw [hv]; omega, ?_, p4,
              p3, ?_, ?_, fun x => by cases x⟩
            · rw [hv, hv2]
              show s1.offset + c1 = _
              rw [p1]
            · rw [hv, hv2]; exact p8
            · rw [hv, hv2]; exact p7
          · have hc1 : c1 = data.length := not_not.mp hc
            rw [if_neg hc, if_neg (not_not.mpr (p6 hc1))]
            obtain ⟨bad, s', ins', w', k2, e, q1, q2, q3, q4, q5, q6, -, q8⟩ :=
              ih (rem - data.length) [] 0 { s1 with offset := s1.offset + c1 }
                (i_stream_skip ins c1) r3 hy
                (by show ins.v_offset + c1 + (rem - data.length) = B.length; omega)
                (by omega) (by simp) rfl (fun x => by omega)
            have hv : (i_stream_skip ins c1).v_offset = ins.v_offset + c1 := rfl
            rw [hv] at q1 q3 q6
            have hk2 : k2 = 0 := by omega
            subst hk2
            refine ⟨bad, s', ins', w', k0, e, by omega, q2, ?_, p4, ?_, ?_, ?_, q8⟩
            · rw [q3]
              show s1.offset + c1 + _ = _
              rw [p1]; omega
            · rw [q5, List.drop_zero]
              exact p3
            · have q6' : w'.sent s.fd = r3.sent s.fd ++
                  (B.drop (ins.v_offset + c1)).take (ins'.v_offset - (ins.v_offset + c1)) := by
                have := q6
                rw [show ({ s1 with offset := s1.offset + c1 } : file_ostream).fd = s.fd from p2,
                  List.flatten_nil, List.take_nil, List.append_nil] at this
                exact this
              rw [q6', p8, List.append_assoc, List.append_assoc,
                take_append_drop_take B ins.v_offset c1 _, ← List.append_assoc]
              congr 2
              omega
            · intro _
              exact p7 (by omega)
        by_cases hs : skip > 0
        · rw [if_pos hs]
          obtain ⟨hr, hfl⟩ := hring hs
          by_cases ha : a < skip
          · rw [if_pos ha]
            obtain ⟨s1, e1, -, e3, e4, -⟩ := update_buffer_spec s a hr (by rw [← hfl]; omega)
            rw [e1]
            simp only [Option.map_some', Option.some_bind]
            refine fin s1 a 0 (skip - a) (data_frame_offset (ring_frame_to_data e4))
              (data_frame_fd (ring_frame_to_data e4)) e3 (by omega) (Nat.zero_le _)
              (fun x => by omega) (fun x => by omega) ?_
            rw [g4, List.take_zero, List.append_nil, List.take_append_of_le_length (by omega)]
          · rw [if_neg ha]
            obtain ⟨s1, e1, -, e3, e4, -⟩ := update_buffer_spec s skip hr (by rw [← hfl]; omega)
            rw [e1]
            simp only [Option.map_some', Option.some_bind]
            refine fin s1 skip (a - skip) 0 (data_frame_offset (ring_frame_to_data e4))
              (data_frame_fd (ring_frame_to_data e4)) e3 (le_refl _) (by omega)
              (fun _ => rfl) (fun _ => rfl) ?_
            have t1 : iov.flatten.take a = iov.flatten := List.take_of_length_le (by omega)
            have t2 : iov.flatten.take skip = iov.flatten := List.take_of_length_le (by omega)
            rw [g4, List.take_append_eq_append_take, hflt, t1, t2, hpt (a - skip) (by omega),
              List.append_assoc]
        · rw [if_neg hs]
          simp only [Option.some_bind]
          have hs0 : skip = 0 := by omega
          refine fin s 0 a skip rfl rfl (List.drop_zero _).symm (Nat.zero_le _) (by omega)
            (fun _ => hs0) (fun _ => hs0.symm) ?_
          have hnil : iov.flatten = [] := List.eq_nil_of_length_eq_zero (by omega)
          rw [g4, hnil, List.nil_append, List.take_nil, List.append_nil, hpt a (by omega)]
    · rw [if_neg hpos]
      refine ⟨false, s, ins, w, 0, rfl, le_refl _, by omega, by omega, Nat.zero_le _, ?_, ?_,
        ?_, fun x => by cases x⟩
      · rw [List.drop_zero]
      · rw [Nat.sub_self, List.take_zero, List.take_zero, List.append_nil, List.append_nil]
      · intro x; omega

set_option maxRecDepth 100000

/-- C29: `io_stream_copy` on a stream with a well-formed ring holding the
buffered bytes `Q`, for a source that serves the bytes `B` and stands at virtual
offset `v`, whatever the kernel does, returns (given more than `|B| - v` rounds).
With `c` the advance of the source's virtual offset: the kernel has received, in
this order, the first `k` buffered bytes and then the first `c` source bytes from
`v` on, with `c > 0` only when `k = |Q|` (no source byte before the last buffered
byte); the ring holds `Q` without its first `k` bytes (so of the bytes a write
took, the buffered ones pending come off the ring and only the excess counts as
source bytes); the stream's `offset` has grown by `c`; and the value returned is
`c`, unless a write failed, in which case it is -1 and the stream is closed. -/
theorem copy_accounts_source_bytes (s : file_ostream) (ins : istream) (fuel : Nat) (w : World)
    (B : List Byte) (hB : B.length < 2 ^ 64) (hr : ring_ok s) (hy : yields ins B)
    (hv : ins.v_offset ≤ B.length) (hfuel : B.length - ins.v_offset < fuel) :
    ∃ (r : Int) (s' : file_ostream) (ins' : istream) (w' : World) (k : Nat),
      io_stream_copy s ins B.length fuel w = some (r, s', ins', w') ∧
      ins.v_offset ≤ ins'.v_offset ∧ ins'.v_offset ≤ B.length ∧
      (r = ((ins'.v_offset - ins.v_offset : Nat) : Int) ∨ (r = -1 ∧ s'.closed = true)) ∧
      s'.offset = s.offset + (ins'.v_offset - ins.v_offset) ∧
      k ≤ (ring_data s).length ∧ ring_data s' = (ring_data s).drop k ∧
      w'.sent s.fd = w.sent s.fd ++ (ring_data s).take k ++
        (B.drop ins.v_offset).take (ins'.v_offset - ins.v_offset) ∧
      (0 < ins'.v_offset - ins.v_offset → k = (ring_data s).length) := by
  have hsub : size_sub B.length ins.v_offset = B.length - ins.v_offset :=
    size_sub_le _ _ hv hB
  obtain ⟨bad, s', ins', w', k, e, q1, q2, q3, q4, q5, q6, q7, q8⟩ :=
    io_stream_copy_loop_accounts B hB fuel (B.length - ins.v_offset) (o_stream_fill_iovec s)
      (iov_total (o_stream_fill_iovec s)) s ins w hy (by omega) hfuel (fill_iovec_length_le s)
      rfl (fun _ => ⟨hr, rfl⟩)
  rw [fill_iovec_total] at q4 q7
  unfold io_stream_copy
  simp only
  rw [hsub, e]
  simp only [Option.map_some']
  refine ⟨_, s', ins', w', k, rfl, q1, q2, ?_, q3, q4, q5, q6, q7⟩
  cases bad with
  | true =>
    right
    exact ⟨rfl, q8 rfl⟩
  | false =>
    left
    simp only [Bool.false_eq_true, if_false]
    rw [size_sub_le _ _ q1 (by omega)]

/-- Witness for `copy_accounts_source_bytes`: the ring holds `[1, 2, 3]`, the
source serves `0123456789`, and the kernel takes five bytes of the one write:
the three buffered bytes and the source bytes `0` and `1`.  The call returns 2,
the ring is empty, `offset` and the source's virtual offset have advanced by 2. -/
theorem copy_accounts_source_bytes_witness :
    (io_stream_copy wrapped_stream digits_input digits.length 16 (scripted [.ok 5])).map
        (fun x => (x.1, x.2.1.offset, ring_data x.2.1, x.2.2.1.v_offset, x.2.2.2.sent 5)) =
      some (2, 2, [], 2, [1, 2, 3, 48, 49]) ∧
    ∃ (r : Int) (s' : file_ostream) (ins' : istream) (w' : World) (k : Nat),
      io_stream_copy wrapped_stream digits_input digits.length 16 (scripted [.ok 5]) =
        some (r, s', ins', w') ∧
      digits_input.v_offset ≤ ins'.v_offset ∧ ins'.v_offset ≤ digits.length ∧
      (r = ((ins'.v_offset - digits_input.v_offset : Nat) : Int) ∨
        (r = -1 ∧ s'.closed = true)) ∧
      s'.offset = wrapped_stream.offset + (ins'.v_offset - digits_input.v_offset) ∧
      k ≤ (ring_data wrapped_stream).length ∧
      ring_data s' = (ring_data wrapped_stream).drop k ∧
      w'.sent wrapped_stream.fd = (scripted [.ok 5]).sent wrapped_stream.fd ++
        (ring_data wrapped_stream).take k ++
        (digits.drop digits_input.v_offset).take (ins'.v_offset - digits_input.v_offset) ∧
      (0 < ins'.v_offset - digits_input.v_offset → k = (ring_data wrapped_stream).length) :=
  ⟨rfl,
    copy_accounts_source_bytes wrapped_stream digits_input 16 (scripted [.ok 5]) digits
      (by decide) (by decide)
      ⟨rfl, fun _ v _ => ⟨10, by
        show List.drop v digits = List.take 10 (List.drop v digits)
        rw [List.take_of_length_le]
        rw [List.length_drop]
        simp [digits], fun _ => by decide⟩⟩
      (by decide) (by decide)⟩

end OStream
